import Mathlib

/-!
TCP output engine (`src/core/lwip/tcp_out.c`).

A shallow embedding of the transmit path of the lwIP-derived TCP stack:
`tcp_write`, `tcp_enqueue_flags`, `tcp_send_fin`, `tcp_output` and the
segment transforms they call.

Conventions of the embedding.
* Machine integers are natural numbers; every C operation that can wrap is
  written with an explicit reduction (`u32`, `u16`, `u8`, `sub32`, ...).
* A singly linked queue of segments is a `List tcp_seg`; the `next` pointer
  of a segment is its position in the list.  A buffer chain is a
  `List pbuf` (`NULL` is `[]`).
* Pointers that alias queue elements (`last_unsent`, `last_unacked`) are
  `Option Nat`: the address (`tcp_seg.id`) of the record pointed to.
* The injected hooks (segment allocator, buffer allocator, IP output,
  `preadv`) are scripted by the `World`: each call consumes the next
  scripted answer, and IP-output calls are logged.
-/

namespace TcpOut

/-! ## Machine arithmetic -/

/-- Reduction to an unsigned 32-bit value. -/
def u32 (x : Nat) : Nat := x % 4294967296

/-- Reduction to an unsigned 16-bit value. -/
def u16 (x : Nat) : Nat := x % 65536

/-- Reduction to an unsigned 8-bit value. -/
def u8 (x : Nat) : Nat := x % 256

/-- Unsigned 32-bit subtraction `a - b` (wraps around). -/
def sub32 (a b : Nat) : Nat := (a % 4294967296 + (4294967296 - b % 4294967296)) % 4294967296

/-- Unsigned 16-bit subtraction `a - b` (wraps around). -/
def sub16 (a b : Nat) : Nat := (a % 65536 + (65536 - b % 65536)) % 65536

/-- Unsigned 32-bit addition. -/
def add32 (a b : Nat) : Nat := (a + b) % 4294967296

/-- The macro `TCP_SEQ_LT(a,b)`: `(s32_t)(a - b) < 0`. -/
def TCP_SEQ_LT (a b : Nat) : Bool := decide (2147483648 ≤ sub32 a b)

/-- The macro `TCP_SEQ_LEQ(a,b)`: `(s32_t)(a - b) <= 0`. -/
def TCP_SEQ_LEQ (a b : Nat) : Bool := decide (sub32 a b = 0 ∨ 2147483648 ≤ sub32 a b)

/-- The macro `TCP_SEQ_GEQ(a,b)`: `(s32_t)(a - b) >= 0`. -/
def TCP_SEQ_GEQ (a b : Nat) : Bool := decide (sub32 a b < 2147483648)

/-- Test `(x & m) != 0`. -/
def has (x m : Nat) : Bool := decide (x &&& m ≠ 0)

/-- The C expression `x & ~m` on a 16-bit word. -/
def clr16 (x m : Nat) : Nat := x &&& (65535 ^^^ m)

/-- The C expression `x & ~m` on an 8-bit word. -/
def clr8 (x m : Nat) : Nat := x &&& (255 ^^^ m)

/-! ## Constants of `tcp.h` and of the TCP header -/

def TF_ACK_DELAY : Nat := 0x0001
def TF_ACK_NOW : Nat := 0x0002
def TF_INFR : Nat := 0x0004
def TF_TIMESTAMP : Nat := 0x0008
def TF_RXCLOSED : Nat := 0x0010
def TF_FIN : Nat := 0x0020
def TF_NODELAY : Nat := 0x0040
def TF_NAGLEMEMERR : Nat := 0x0080
def TF_WND_SCALE : Nat := 0x0100

def TCP_SNDQUEUELEN_OVERFLOW : Nat := 0xffffff - 3

def TCP_WRITE_FLAG_COPY : Nat := 0x01
def TCP_WRITE_FLAG_MORE : Nat := 0x02
def TCP_WRITE_REXMIT : Nat := 0x08
def TCP_WRITE_DUMMY : Nat := 0x10
def TCP_WRITE_TSO : Nat := 0x20
def TCP_WRITE_FILE : Nat := 0x40
def TCP_WRITE_ZEROCOPY : Nat := 0x80

/-- Modelled from the spec: the header `tcp_impl.h` is not part of the
sources; the segment-option flag values are those of the specification
(section 6, "Segment-option flags"). -/
def TF_SEG_OPTS_MSS : Nat := 0x01
def TF_SEG_OPTS_WNDSCALE : Nat := 0x02
def TF_SEG_OPTS_TS : Nat := 0x04
def TF_SEG_OPTS_DUMMY_MSG : Nat := 0x08
def TF_SEG_OPTS_TSO : Nat := 0x10
def TF_SEG_OPTS_ZEROCOPY : Nat := 0x20
def TF_SEG_OPTS_NOMERGE : Nat := 0x40

/-- TCP header flag bits (RFC 793). -/
def TCP_FIN : Nat := 0x01
def TCP_SYN : Nat := 0x02
def TCP_RST : Nat := 0x04
def TCP_PSH : Nat := 0x08
def TCP_ACK : Nat := 0x10
def TCP_URG : Nat := 0x20

/-- Length of a TCP header without options. -/
def TCP_HLEN : Nat := 20

/-- Length of the timestamp option with its two NOP pads. -/
def LWIP_TCP_OPT_LEN_TS : Nat := 12

/-- Default maximum segment size (RFC 879). -/
def LWIP_TCP_MSS : Nat := 536

/-- Modelled from the spec: the macro `LWIP_TCP_OPT_LENGTH` of `tcp_impl.h`
is not part of the sources.  Option encoding of section 6: MSS takes 4
bytes, window scale 3 bytes after one NOP, timestamps 10 bytes after two
NOPs. -/
def LWIP_TCP_OPT_LENGTH (flags : Nat) : Nat :=
  (if has flags TF_SEG_OPTS_MSS then 4 else 0) +
  (if has flags TF_SEG_OPTS_WNDSCALE then 1 + 3 else 0) +
  (if has flags TF_SEG_OPTS_TS then 12 else 0)

/-- The macro `LWIP_MEM_ALIGN_SIZE` of `tcp.h`, for an alignment `a`
(a power of two): `(size + a - 1) & ~(a - 1)` on 32 bits. -/
def LWIP_MEM_ALIGN_SIZE (a size : Nat) : Nat :=
  u32 (size + a - 1) &&& (4294967295 ^^^ (a - 1))

/-! ## Data model -/

inductive tcp_state where
  | CLOSED | LISTEN | SYN_SENT | SYN_RCVD | ESTABLISHED | FIN_WAIT_1
  | FIN_WAIT_2 | CLOSE_WAIT | CLOSING | LAST_ACK | TIME_WAIT
  deriving DecidableEq, Repr

inductive err_t where
  | ERR_OK | ERR_MEM | ERR_BUF | ERR_RTE | ERR_WOULDBLOCK | ERR_CONN | ERR_ARG | ERR_IF
  deriving DecidableEq, Repr

inductive pbuf_type where
  | PBUF_RAM | PBUF_ZEROCOPY | PBUF_STACK
  deriving DecidableEq, Repr

/-- One buffer of a chain.  The `next` pointer is the position in the
`List pbuf` that holds the chain; `payload` is the address of the first
byte in use. -/
structure pbuf where
  payload : Int
  len : Nat
  tot_len : Nat
  type : pbuf_type
  ref : Nat
  deriving DecidableEq, Repr

/-- The fields of the TCP header that the output engine reads or writes.
`hdrlen` is the header length in 32-bit words and `flags` the flag byte
(both live in `_hdrlen_rsvd_flags`). -/
structure tcp_hdr where
  src : Nat
  dest : Nat
  seqno : Nat
  ackno : Nat
  hdrlen : Nat
  flags : Nat
  wnd : Nat
  chksum : Nat
  urgp : Nat
  deriving DecidableEq, Repr

/-- An outgoing segment.  `id` is the address of the record, `tcphdr` the
pointer to its TCP header (`none` for `NULL`) and `hdr` the header stored
there. -/
structure tcp_seg where
  id : Nat
  p : List pbuf
  seqno : Nat
  len : Nat
  flags : Nat
  tcphdr : Option Int
  hdr : tcp_hdr
  deriving DecidableEq, Repr

/-- The TSO description of the PCB. -/
structure tso_desc where
  max_buf_sz : Nat
  max_payload_sz : Nat
  max_header_sz : Nat
  max_send_sge : Nat
  deriving DecidableEq, Repr

/-- The protocol control block: the fields of `struct tcp_pcb` that the
output engine reads or writes.  `unsent` and `unacked` are the two queues;
`last_unsent` and `last_unacked` hold the address of a segment record. -/
structure tcp_pcb where
  private_state : tcp_state
  is_last_seg_dropped : Bool
  local_port : Nat
  remote_port : Nat
  rcv_ann_wnd : Nat
  flags : Nat
  rcv_nxt : Nat
  rcv_ann_right_edge : Nat
  rtime : Int
  mss : Nat
  advtsd_mss : Nat
  rttest : Nat
  rtseq : Nat
  ticks_since_data_sent : Int
  nrtx : Nat
  lastack : Nat
  cwnd : Nat
  ssthresh : Nat
  snd_nxt : Nat
  snd_wnd : Nat
  snd_wnd_max : Nat
  snd_lbb : Nat
  snd_buf : Nat
  max_snd_buff : Nat
  snd_sml_snt : Nat
  snd_sml_add : Nat
  snd_queuelen : Nat
  unsent_oversize : Nat
  tcp_oversize_val : Nat
  max_unsent_len : Nat
  unsent : List tcp_seg
  last_unsent : Option Nat
  unacked : List tcp_seg
  last_unacked : Option Nat
  seg_alloc : Option tcp_seg
  pbuf_alloc : Option pbuf
  enable_ts_opt : Bool
  ts_lastacksent : Nat
  ts_recent : Nat
  snd_scale : Nat
  rcv_scale : Nat
  is_in_input : Bool
  tso : tso_desc
  max_send_sge : Nat
  deriving DecidableEq, Repr

/-- One call of the IP output hook `pcb->ip_output(p, seg, pcb, flags)`:
the buffer chain handed over, the TCP header it starts with, the segment
(`none` for `NULL`), the flags word, and the connection as the hook sees it
at that moment. -/
structure HookCall where
  p : List pbuf
  hdr : tcp_hdr
  seg : Option tcp_seg
  flags : Nat
  pcb : tcp_pcb
  deriving DecidableEq, Repr

/-- The injected hooks.  Every call of a hook consumes the head of its
script: `seg_allocs` answers `external_tcp_seg_alloc` with the address of a
record or `none` for `NULL`; `pbuf_allocs` answers
`external_tcp_tx_pbuf_alloc` with the payload address of a buffer or `none`;
`ip_results` answers `ip_output`; `preadv_results` answers `preadv`.  An
exhausted allocator script answers `NULL`, an exhausted `ip_output` script
answers `ERR_OK`, an exhausted `preadv` script answers `-1`.  `calls` is the
log of IP-output calls, oldest first. -/
structure World where
  seg_allocs : List (Option Nat)
  pbuf_allocs : List (Option Int)
  ip_results : List err_t
  preadv_results : List Int
  calls : List HookCall
  deriving DecidableEq, Repr

/-- Process-wide settings that `tcp_out.c` reads from globals or from
`opt.h`: `enable_push_flag`, `enable_wnd_scale`, `lwip_zc_tx_size`,
`MEM_ALIGNMENT` and the clock `tcp_ticks`. -/
structure Config where
  enable_push_flag : Bool
  enable_wnd_scale : Bool
  lwip_zc_tx_size : Nat
  mem_alignment : Nat
  tcp_ticks : Nat
  deriving DecidableEq, Repr

/-- The macro `TCPH_FLAGS`. -/
def TCPH_FLAGS (h : tcp_hdr) : Nat := h.flags

/-- The macro `TCPH_SET_FLAG`: or the given bits into the header flags. -/
def TCPH_SET_FLAG (h : tcp_hdr) (f : Nat) : tcp_hdr := { h with flags := h.flags ||| f }

/-- The macro `TCPH_UNSET_FLAG`: clear the given bits of the header flags. -/
def TCPH_UNSET_FLAG (h : tcp_hdr) (f : Nat) : tcp_hdr := { h with flags := clr8 h.flags f }

/-- The macro `LWIP_TCP_HDRLEN`: header length in bytes. -/
def LWIP_TCP_HDRLEN (h : tcp_hdr) : Nat := 4 * h.hdrlen

/-- The macro `TCP_TCPLEN`: payload length plus one for SYN or FIN. -/
def TCP_TCPLEN (seg : tcp_seg) : Nat :=
  u32 (seg.len + (if has (TCPH_FLAGS seg.hdr) (TCP_FIN ||| TCP_SYN) then 1 else 0))

/-- The macro `LWIP_IS_DUMMY_SEGMENT`. -/
def LWIP_IS_DUMMY_SEGMENT (seg : tcp_seg) : Bool := has seg.flags TF_SEG_OPTS_DUMMY_MSG

/-- The macro `tcp_tso(pcb)`: the TSO payload cap, non-zero when TSO is on. -/
def tcp_tso (pcb : tcp_pcb) : Nat := pcb.tso.max_payload_sz

/-- The macro `get_tcp_state`. -/
def get_tcp_state (pcb : tcp_pcb) : tcp_state := pcb.private_state

/-- Number of buffers of a chain (`pbuf_clen`). -/
def pbuf_clen (p : List pbuf) : Nat := p.length

/-- The field `p->tot_len` of the head of a chain (0 for `NULL`). -/
def chain_tot_len (p : List pbuf) : Nat :=
  match p with
  | [] => 0
  | b :: _ => b.tot_len

/-- Concatenate two chains (`pbuf_cat(h, t)`): every buffer of `h` gets
`t->tot_len` added to its `tot_len`, and the last one is linked to `t`. -/
def pbuf_cat (h t : List pbuf) : List pbuf :=
  h.map (fun b => { b with tot_len := u32 (b.tot_len + chain_tot_len t) }) ++ t

/-- Modelled from the spec: `pbuf_header` (`pbuf.c`) is not part of the
sources.  Growing the header room of the head buffer by `inc` bytes moves
`payload` back and adds `inc` to `len` and `tot_len`; this is possible for a
`RAM` buffer only (the other types own no header room), and `none` stands for
the non-zero error return. -/
def pbuf_header (p : List pbuf) (inc : Nat) : Option (List pbuf) :=
  match p with
  | [] => some []
  | b :: rest =>
    if b.type = pbuf_type.PBUF_RAM then
      some ({ b with payload := b.payload - inc, len := u32 (b.len + inc),
                     tot_len := u32 (b.tot_len + inc) } :: rest)
    else none

/-- Modelled from the spec: `tcp_tx_pbuf_alloc` (`tcp.c`) is not part of the
sources.  It hands out the buffer prefetched in `pcb->pbuf_alloc` when there
is one of the requested type (section 5, "Shared resources"), and asks the
injected hook `tx_pbuf_alloc` otherwise; the buffer returned is unchained,
holds one reference and has `len = tot_len = length`. -/
def tcp_tx_pbuf_alloc (pcb : tcp_pcb) (w : World) (length : Nat) (type : pbuf_type) :
    Option pbuf × tcp_pcb × World :=
  match pcb.pbuf_alloc with
  | some b =>
    if b.type = type then
      (some { b with len := u32 length, tot_len := u32 length }, { pcb with pbuf_alloc := none }, w)
    else
      match w.pbuf_allocs with
      | [] => (none, pcb, w)
      | none :: rest => (none, pcb, { w with pbuf_allocs := rest })
      | some a :: rest =>
        (some { payload := a, len := u32 length, tot_len := u32 length, type := type, ref := 1 },
          pcb, { w with pbuf_allocs := rest })
  | none =>
    match w.pbuf_allocs with
    | [] => (none, pcb, w)
    | none :: rest => (none, pcb, { w with pbuf_allocs := rest })
    | some a :: rest =>
      (some { payload := a, len := u32 length, tot_len := u32 length, type := type, ref := 1 },
        pcb, { w with pbuf_allocs := rest })

/-- A segment record as the allocator returns it, before any field is set. -/
def blank_seg (addr : Nat) : tcp_seg :=
  { id := addr, p := [], seqno := 0, len := 0, flags := 0, tcphdr := none,
    hdr := { src := 0, dest := 0, seqno := 0, ackno := 0, hdrlen := 0, flags := 0, wnd := 0,
             chksum := 0, urgp := 0 } }

/-- Address of the header scratch area `&seg->l2_l3_tcphdr_zc[15]` of a
record (60 bytes into the array, which is taken to start the record). -/
def zc_tcphdr (addr : Nat) : Int := (addr : Int) + 60

/-- The record that `tcp_create_segment` works on: the prefetched
`pcb->seg_alloc` when there is one, a fresh record from
`external_tcp_seg_alloc` otherwise (`none` when that hook returns `NULL`). -/
def take_seg (pcb : tcp_pcb) (w : World) : Option tcp_seg × tcp_pcb × World :=
  match pcb.seg_alloc with
  | some s => (some s, { pcb with seg_alloc := none }, w)
  | none =>
    match w.seg_allocs with
    | [] => (none, pcb, w)
    | none :: rest => (none, pcb, { w with seg_allocs := rest })
    | some a :: rest => (some (blank_seg a), pcb, { w with seg_allocs := rest })

/-- Fill the TCP header of a new segment (label `set_tcphdr`). -/
def set_tcphdr (pcb : tcp_pcb) (seg : tcp_seg) (flags seqno optlen : Nat) : tcp_seg :=
  { seg with hdr := { seg.hdr with src := pcb.local_port, dest := pcb.remote_port,
                                   seqno := seqno, hdrlen := 5 + optlen / 4,
                                   flags := flags, urgp := 0 } }

/-- Create a segment with a prefilled header around the chain `p`
(`tcp_create_segment`).  With `p = NULL` only the record is fetched. -/
def tcp_create_segment (pcb : tcp_pcb) (w : World) (p : List pbuf) (flags seqno optflags : Nat) :
    Option tcp_seg × tcp_pcb × World :=
  let optlen := u8 (LWIP_TCP_OPT_LENGTH optflags)
  match take_seg pcb w with
  | (none, pcb1, w1) => (none, pcb1, w1)
  | (some seg0, pcb1, w1) =>
    if p = [] then
      (some { seg0 with p := [] }, pcb1, w1)
    else
      let seg1 := { seg0 with flags := optflags, p := p,
                              len := sub32 (chain_tot_len p) optlen, seqno := seqno }
      if has seg1.flags TF_SEG_OPTS_ZEROCOPY then
        let seg2 := { seg1 with tcphdr := some (zc_tcphdr seg1.id), len := chain_tot_len p }
        (some (set_tcphdr pcb1 seg2 flags seqno optlen), pcb1, w1)
      else
        match pbuf_header p TCP_HLEN with
        | none => (none, pcb1, w1)
        | some p1 =>
          let seg2 := { seg1 with p := p1, tcphdr := p1.head?.map (fun b => b.payload) }
          (some (set_tcphdr pcb1 seg2 flags seqno optlen), pcb1, w1)

/-- Allocate a buffer of `length` bytes, perhaps with spare room at the end
(`tcp_pbuf_prealloc`).  The result is the buffer trimmed to `length` and the
number of spare tail bytes (the value stored through `oversize`). -/
def tcp_pbuf_prealloc (cfg : Config) (pcb : tcp_pcb) (w : World) (length max_length : Nat)
    (type : pbuf_type) (tcp_write_flag_more : Nat) (first_seg : Bool) :
    Option (pbuf × Nat) × tcp_pcb × World :=
  let length := u16 length
  let max_length := u16 max_length
  let alloc :=
    if length < max_length then
      if tcp_write_flag_more ≠ 0 ∨
          (¬ has pcb.flags TF_NODELAY ∧ (¬ first_seg ∨ pcb.unsent ≠ [] ∨ pcb.unacked ≠ [])) then
        u16 (min max_length (LWIP_MEM_ALIGN_SIZE cfg.mem_alignment (length + pcb.tcp_oversize_val)))
      else length
    else length
  match tcp_tx_pbuf_alloc pcb w alloc type with
  | (none, pcb1, w1) => (none, pcb1, w1)
  | (some b, pcb1, w1) =>
    (some ({ b with len := length, tot_len := length }, u16 (sub32 b.len length)), pcb1, w1)

/-- Check whether `tcp_write` may proceed (`tcp_write_checks`): state, then
`len == 0`, then `snd_buf`, then the queue length. -/
def tcp_write_checks (pcb : tcp_pcb) (len : Nat) : err_t × tcp_pcb :=
  if get_tcp_state pcb ≠ tcp_state.ESTABLISHED ∧ get_tcp_state pcb ≠ tcp_state.CLOSE_WAIT ∧
      get_tcp_state pcb ≠ tcp_state.SYN_SENT ∧ get_tcp_state pcb ≠ tcp_state.SYN_RCVD then
    (err_t.ERR_CONN, pcb)
  else if len = 0 then
    (err_t.ERR_OK, pcb)
  else if len > pcb.snd_buf then
    (err_t.ERR_MEM, { pcb with flags := pcb.flags ||| TF_NAGLEMEMERR })
  else if pcb.snd_queuelen ≥ pcb.max_unsent_len ∨ pcb.snd_queuelen > TCP_SNDQUEUELEN_OVERFLOW then
    (err_t.ERR_MEM, { pcb with flags := pcb.flags ||| TF_NAGLEMEMERR })
  else
    (err_t.ERR_OK, pcb)

/-- Segment size goal (`tcp_xmit_size_goal`); the running value `size` is a
16-bit variable. -/
def tcp_xmit_size_goal (pcb : tcp_pcb) (use_max : Bool) : Nat :=
  let size := pcb.mss
  let size := if has pcb.flags TF_TIMESTAMP then u16 (max size (LWIP_TCP_OPT_LEN_TS + 1)) else size
  let size :=
    if use_max ∧ tcp_tso pcb ≠ 0 ∧ pcb.tso.max_buf_sz ≠ 0 then u16 (max size pcb.tso.max_buf_sz)
    else size
  u16 (min size (pcb.snd_wnd_max / 2))

/-- Conversion of a 32-bit word to `int` (the cast `(int)x`). -/
def s32 (x : Nat) : Int :=
  if x % 4294967296 < 2147483648 then (x % 4294967296 : Nat) else ((x % 4294967296 : Nat) : Int) - 4294967296

/-- The last element of a queue, found by walking `next` pointers. -/
def queue_tail (q : List tcp_seg) : Option tcp_seg := q.getLast?

/-- The test `!ptr || ptr->next` for a cached tail pointer of the queue `q`:
true unless the pointer is the address of the last element of `q`. -/
def stale_tail (q : List tcp_seg) (ptr : Option Nat) : Bool :=
  match ptr with
  | none => true
  | some a => decide ((queue_tail q).map (fun s => s.id) ≠ some a)

/-- Replace the last element of a queue. -/
def set_tail (q : List tcp_seg) (s : tcp_seg) : List tcp_seg := q.dropLast ++ [s]

/-- The values that stay fixed while `tcp_write` builds new segments. -/
structure write_ctx where
  cfg : Config
  arg : Int
  len : Nat
  optflags : Nat
  optlen : Nat
  mss_local_minus_opts : Nat
  type : pbuf_type
  is_zerocopy : Bool
  is_file : Bool
  deriving DecidableEq, Repr

/-- The local variables of `tcp_write` that change while new segments are
built, with the PCB and the hooks. -/
structure write_state where
  pos : Nat
  queuelen : Nat
  oversize : Nat
  queue : List tcp_seg
  piov_cur_index : Nat
  piov_cur_len : Nat
  pcb : tcp_pcb
  w : World
  deriving DecidableEq, Repr

/-- The size `seglen` of the segment that a pass of phase 3 cuts:
`left > max_len ? max_len : left` with `left = len - pos` and
`max_len = mss_local_minus_opts`, stored in 16 bits. -/
def write_seglen (c : write_ctx) (s : write_state) : Nat :=
  u16 (if sub32 c.len s.pos > c.mss_local_minus_opts then c.mss_local_minus_opts
       else sub32 c.len s.pos)

/-- The bound `max_len` passed to the allocator in phase 3: `seglen` for
zero-copy, `mss_local_minus_opts` otherwise. -/
def write_max_len (c : write_ctx) (s : write_state) : Nat :=
  if c.is_zerocopy then write_seglen c s else c.mss_local_minus_opts

/-- The buffer of a new segment once its data is in place: a zero-copy
buffer points at the caller's bytes, the others keep their payload address
(their bytes are copied or read in). -/
def write_payload (c : write_ctx) (s : write_state) (b : pbuf) : pbuf :=
  if c.is_zerocopy then { b with payload := c.arg + s.pos } else b

/-- The file branch of a pass of phase 3: the buffer is added to the
vector `piov`, and the vector is read with one `preadv` when the data ends,
when it holds 512 entries or when it holds 64 KiB.  The result is `false`
for a short read, then `piov_cur_index`, `piov_cur_len` and the hooks. -/
def write_file_read (c : write_ctx) (s : write_state) (w1 : World) : Bool × Nat × Nat × World :=
  if c.is_file ∧ ¬ c.is_zerocopy then
    let idx := s.piov_cur_index + 1
    let cur := s.piov_cur_len + write_seglen c s
    if sub32 c.len s.pos ≤ write_seglen c s ∨ idx ≥ 512 ∨ cur ≥ 65536 then
      if (w1.preadv_results.head?).getD (-1) ≠ (cur : Int) then
        (false, idx, cur, { w1 with preadv_results := w1.preadv_results.tail })
      else (true, 0, 0, { w1 with preadv_results := w1.preadv_results.tail })
    else (true, idx, cur, w1)
  else (true, s.piov_cur_index, s.piov_cur_len, w1)

/-- One pass of the loop `while (pos < len)` of phase 3 of `tcp_write`.
The result is `Sum.inl (ok, s)` when the loop is left (`ok` is `false` on
`goto memerr`, `true` when `pos < len` no longer holds) and `Sum.inr s` when
a segment has been added to the local `queue` and the loop goes on. -/
def write_pass (c : write_ctx) (s : write_state) : (Bool × write_state) ⊕ write_state :=
  if s.pos < c.len then
    match tcp_pbuf_prealloc c.cfg s.pcb s.w (write_seglen c s + c.optlen) (write_max_len c s) c.type
        TCP_WRITE_FLAG_MORE (decide (s.queue = [])) with
    | (none, pcb1, w1) => Sum.inl (false, { s with pcb := pcb1, w := w1 })
    | (some (b, oversize1), pcb1, w1) =>
      match write_file_read c s w1 with
      | (false, idx, cur, w2) =>
        Sum.inl (false, { s with oversize := oversize1, piov_cur_index := idx, piov_cur_len := cur,
                                 pcb := pcb1, w := w2 })
      | (true, idx, cur, w2) =>
        if u32 (s.queuelen + pbuf_clen [write_payload c s b]) > pcb1.max_unsent_len ∨
            u32 (s.queuelen + pbuf_clen [write_payload c s b]) > TCP_SNDQUEUELEN_OVERFLOW then
          Sum.inl (false, { s with oversize := oversize1,
                                   queuelen := u32 (s.queuelen + pbuf_clen [write_payload c s b]),
                                   piov_cur_index := idx, piov_cur_len := cur, pcb := pcb1, w := w2 })
        else
          match tcp_create_segment pcb1 w2 [write_payload c s b] 0 (add32 pcb1.snd_lbb s.pos)
              c.optflags with
          | (none, pcb2, w3) =>
            Sum.inl (false, { s with oversize := oversize1,
                                     queuelen := u32 (s.queuelen + pbuf_clen [write_payload c s b]),
                                     piov_cur_index := idx, piov_cur_len := cur, pcb := pcb2, w := w3 })
          | (some seg, pcb2, w3) =>
            Sum.inr { pos := u32 (s.pos + write_seglen c s),
                      queuelen := u32 (s.queuelen + pbuf_clen [write_payload c s b]),
                      oversize := oversize1, queue := s.queue ++ [seg], piov_cur_index := idx,
                      piov_cur_len := cur, pcb := pcb2, w := w3 }
  else Sum.inl (true, s)

/-- Termination of phase 3: a pass that goes on has raised the local queue
length by one, and that length is at most `TCP_SNDQUEUELEN_OVERFLOW`. -/
theorem write_pass_queuelen (c : write_ctx) (s s1 : write_state) (h : write_pass c s = Sum.inr s1) :
    s1.queuelen = u32 (s.queuelen + 1) ∧ s1.queuelen ≤ TCP_SNDQUEUELEN_OVERFLOW := by
  unfold write_pass at h
  split at h
  · split at h
    · cases h
    · split at h
      · cases h
      · split at h
        · cases h
        · rename_i hq
          split at h
          · cases h
          · cases h
            refine ⟨rfl, ?_⟩
            simp only [pbuf_clen, List.length_singleton, not_or, not_lt, gt_iff_lt] at hq ⊢
            omega
  · cases h

/-- Phase 3 of `tcp_write`: the loop `while (pos < len)` that creates new
segments in the local `queue`.  The boolean is `false` when the loop leaves
through `goto memerr`. -/
def tcp_write_segments (c : write_ctx) (s : write_state) : Bool × write_state :=
  match h : write_pass c s with
  | Sum.inl r => r
  | Sum.inr s1 => tcp_write_segments c s1
termination_by
  TCP_SNDQUEUELEN_OVERFLOW + 2 - (if s.queuelen ≤ TCP_SNDQUEUELEN_OVERFLOW then s.queuelen + 1 else 0)
decreasing_by
  have hq := write_pass_queuelen c s s1 h
  simp only [u32, TCP_SNDQUEUELEN_OVERFLOW] at hq ⊢
  split <;> split <;> omega

/-- The loop of phase 3 run for at most `n` passes; `none` when they do not
suffice.  It computes `tcp_write_segments` (see
`tcp_write_segments_eq_fuel`) and serves to evaluate it. -/
def tcp_write_segments_fuel : Nat → write_ctx → write_state → Option (Bool × write_state)
  | 0, _, _ => none
  | n + 1, c, s =>
    match write_pass c s with
    | Sum.inl r => some r
    | Sum.inr s1 => tcp_write_segments_fuel n c s1

/-- Commit of phase 1: add `n` to `tot_len` of every buffer of the chain and
to `len` of the last one. -/
def oversize_bump (p : List pbuf) (n : Nat) : List pbuf :=
  match p with
  | [] => []
  | [b] => [{ b with tot_len := u32 (b.tot_len + n), len := u32 (b.len + n) }]
  | b :: c :: rest => { b with tot_len := u32 (b.tot_len + n) } :: oversize_bump (c :: rest) n

/-- The first statements of `tcp_write`: the Minshall bookkeeping
`snd_sml_add`, done before any check. -/
def write_sml_add (pcb : tcp_pcb) (len apiflags : Nat) : tcp_pcb :=
  let byte_queued := sub32 pcb.snd_nxt pcb.lastack
  if len < pcb.mss ∧ ¬ has apiflags TCP_WRITE_DUMMY then
    { pcb with snd_sml_add := add32 ((pcb.unacked.head?.map (fun s => s.len)).getD 0) byte_queued }
  else pcb

/-- The local variables of `tcp_write` after phases 1 and 2. -/
structure tail_state where
  pos : Nat
  queuelen : Nat
  oversize : Nat
  oversize_used : Nat
  concat_p : Option pbuf
  pcb : tcp_pcb
  w : World
  deriving DecidableEq, Repr

/-- The test `!pcb->last_unsent->p || pcb->last_unsent->p->type == type` of
`tcp_write`. -/
def tail_same_type (last : tcp_seg) (type : pbuf_type) : Bool :=
  last.p = [] ∨ last.p.head?.map (fun b => b.type) = some type

/-- The PCB once `tcp_write` has found the tail `last` of `unsent`:
`last_unsent` is set to it when the cached pointer is stale, and
`unsent_oversize` is reset when the tail holds buffers of another type. -/
def tail_fix (pcb : tcp_pcb) (last : tcp_seg) (type : pbuf_type) : tcp_pcb :=
  let pcb1 := if stale_tail pcb.unsent pcb.last_unsent then { pcb with last_unsent := some last.id }
              else pcb
  if tail_same_type last type then pcb1 else { pcb1 with unsent_oversize := 0 }

/-- The usable space at the end of the last unsent segment, a 16-bit
value: `mss_local - (last_unsent->len + unsent_optlen)`, or 0 when the tail
holds buffers of another type. -/
def tail_space (mss_local : Nat) (last : tcp_seg) (type : pbuf_type) : Nat :=
  if tail_same_type last type then
    u16 (sub32 mss_local (add32 last.len (u16 (LWIP_TCP_OPT_LENGTH last.flags))))
  else 0

/-- Whether phase 1 applies: the tail has spare room and the write is
neither a file write nor zero-copy. -/
def tail_fills (pcb1 : tcp_pcb) (apiflags : Nat) : Bool :=
  pcb1.unsent_oversize > 0 ∧ ¬ has apiflags (TCP_WRITE_FILE ||| TCP_WRITE_ZEROCOPY)

/-- Phase 1 of `tcp_write`: the number of bytes `oversize_used` that go
into the spare room of the tail. -/
def tail_oversize_used (pcb1 : tcp_pcb) (len apiflags : Nat) : Nat :=
  if tail_fills pcb1 apiflags then
    u16 (if pcb1.unsent_oversize < len then pcb1.unsent_oversize else len)
  else 0

/-- Phase 1 of `tcp_write`: the local `oversize` once the spare room has
been used. -/
def tail_oversize (pcb1 : tcp_pcb) (len apiflags : Nat) : Nat :=
  if tail_fills pcb1 apiflags then
    sub16 pcb1.unsent_oversize (tail_oversize_used pcb1 len apiflags)
  else 0

/-- Phase 1 of `tcp_write`: the local `space` once the spare room has been
used. -/
def tail_space_left (pcb1 : tcp_pcb) (len apiflags space : Nat) : Nat :=
  if tail_fills pcb1 apiflags then sub16 space (tail_oversize_used pcb1 len apiflags) else space

/-- Phase 2 of `tcp_write`: the size `seglen` of the buffer chained to the
tail, `space < len - pos ? space : len - pos` in 16 bits, where `pos` is
`oversize_used` and `space` what phase 1 left. -/
def tail_seglen (pcb1 : tcp_pcb) (len apiflags space : Nat) : Nat :=
  u16 (if tail_space_left pcb1 len apiflags space < sub32 len (tail_oversize_used pcb1 len apiflags)
       then tail_space_left pcb1 len apiflags space
       else sub32 len (tail_oversize_used pcb1 len apiflags))

/-- Phases 1 and 2 of `tcp_write`: find the tail of `unsent`, plan the copy
into its spare room (`oversize_used`) and allocate the buffer `concat_p`
to be chained to it.  The boolean is `false` on `goto memerr`. -/
def tcp_write_tail (cfg : Config) (pcb : tcp_pcb) (w : World) (arg : Int) (len apiflags : Nat)
    (mss_local : Nat) (type : pbuf_type) : Bool × tail_state :=
  match queue_tail pcb.unsent with
  | none =>
    (true, { pos := 0, queuelen := pcb.snd_queuelen, oversize := 0, oversize_used := 0,
             concat_p := none, pcb := { pcb with last_unsent := none }, w := w })
  | some last =>
    if ¬ has apiflags (TCP_WRITE_FILE ||| TCP_WRITE_ZEROCOPY) ∧
        tail_oversize_used (tail_fix pcb last type) len apiflags < len ∧
        tail_space_left (tail_fix pcb last type) len apiflags (tail_space mss_local last type) > 0 ∧
        last.len > 0 ∧ (pbuf_clen last.p : Int) < s32 pcb.tso.max_send_sge then
      match tcp_pbuf_prealloc cfg (tail_fix pcb last type) w
          (tail_seglen (tail_fix pcb last type) len apiflags (tail_space mss_local last type))
          (tail_space_left (tail_fix pcb last type) len apiflags (tail_space mss_local last type))
          type TCP_WRITE_FLAG_MORE true with
      | (none, pcb1, w1) =>
        (false, { pos := tail_oversize_used (tail_fix pcb last type) len apiflags,
                  queuelen := pcb.snd_queuelen,
                  oversize := tail_oversize (tail_fix pcb last type) len apiflags,
                  oversize_used := tail_oversize_used (tail_fix pcb last type) len apiflags,
                  concat_p := none, pcb := pcb1, w := w1 })
      | (some (b, oversize1), pcb1, w1) =>
        (true, { pos := u32 (tail_oversize_used (tail_fix pcb last type) len apiflags +
                     tail_seglen (tail_fix pcb last type) len apiflags
                       (tail_space mss_local last type)),
                 queuelen := u32 (pcb.snd_queuelen + pbuf_clen [b]),
                 oversize := oversize1,
                 oversize_used := tail_oversize_used (tail_fix pcb last type) len apiflags,
                 concat_p := some (if has apiflags TCP_WRITE_ZEROCOPY then
                     { b with payload :=
                         arg + tail_oversize_used (tail_fix pcb last type) len apiflags }
                   else b),
                 pcb := pcb1, w := w1 })
    else
      (true, { pos := tail_oversize_used (tail_fix pcb last type) len apiflags,
               queuelen := pcb.snd_queuelen,
               oversize := tail_oversize (tail_fix pcb last type) len apiflags,
               oversize_used := tail_oversize_used (tail_fix pcb last type) len apiflags,
               concat_p := none, pcb := tail_fix pcb last type, w := w })

/-- The tail segment after the commit of phases 1 and 2: the spare room
used is added to its chain and length, then `concat_p` is chained to it. -/
def commit_tail (last : tcp_seg) (oversize_used : Nat) (concat_p : Option pbuf) : tcp_seg :=
  let last1 := if oversize_used > 0 then
      { last with p := oversize_bump last.p oversize_used, len := add32 last.len oversize_used }
    else last
  match concat_p with
  | none => last1
  | some b => { last1 with p := pbuf_cat last1.p [b], len := add32 last1.len b.tot_len }

/-- Set `TCP_PSH` on the last segment of a queue when the push policy is on
and that segment has a header. -/
def push_last (cfg : Config) (q : List tcp_seg) : List tcp_seg :=
  match queue_tail q with
  | none => q
  | some seg =>
    if cfg.enable_push_flag ∧ seg.tcphdr ≠ none then
      set_tail q { seg with hdr := TCPH_SET_FLAG seg.hdr TCP_PSH }
    else q

/-- The commit of `tcp_write` once all three phases have succeeded. -/
def tcp_write_commit (cfg : Config) (t : tail_state) (s : write_state) (len : Nat) : tcp_pcb :=
  let pcb := s.pcb
  let unsent1 :=
    match queue_tail pcb.unsent with
    | none => s.queue
    | some last => set_tail pcb.unsent (commit_tail last t.oversize_used t.concat_p) ++ s.queue
  let seg_id :=
    match queue_tail s.queue with
    | some seg => some seg.id
    | none => pcb.last_unsent
  { pcb with unsent_oversize := s.oversize,
             unsent := push_last cfg unsent1,
             last_unsent := seg_id,
             snd_lbb := add32 pcb.snd_lbb len,
             snd_buf := sub32 pcb.snd_buf len,
             snd_queuelen := s.queuelen }

/-- The part of `tcp_write` before the loop of phase 3: the Minshall
bookkeeping, the argument and pre-condition checks, the per-call constants
and phases 1 and 2.  The result is `Sum.inl` with the value returned when
the call ends here, `Sum.inr` with the constants and the local variables
when phase 3 is entered. -/
def tcp_write_begin (cfg : Config) (pcb : tcp_pcb) (w : World) (arg : Int) (len apiflags : Nat) :
    (err_t × tcp_pcb × World) ⊕ (write_ctx × tail_state) :=
  let is_zerocopy : Bool := has apiflags TCP_WRITE_ZEROCOPY
  let is_file : Bool := has apiflags TCP_WRITE_FILE ∧ ¬ has apiflags TCP_WRITE_ZEROCOPY
  let type := if has apiflags TCP_WRITE_ZEROCOPY then pbuf_type.PBUF_ZEROCOPY else pbuf_type.PBUF_RAM
  let pcb0 := write_sml_add pcb len apiflags
  if arg = 0 then Sum.inl (err_t.ERR_ARG, pcb0, w)
  else
    match tcp_write_checks pcb0 len with
    | (err, pcb1) =>
      if err ≠ err_t.ERR_OK then Sum.inl (err, pcb1, w)
      else
        let mss_local := if is_zerocopy then u16 cfg.lwip_zc_tx_size else tcp_xmit_size_goal pcb1 true
        let optflags :=
          (if has apiflags TCP_WRITE_DUMMY then TF_SEG_OPTS_DUMMY_MSG else 0) |||
          (if has apiflags TCP_WRITE_ZEROCOPY then TF_SEG_OPTS_ZEROCOPY else 0) |||
          (if has pcb1.flags TF_TIMESTAMP then TF_SEG_OPTS_TS else 0)
        let optlen := u8 (LWIP_TCP_OPT_LENGTH optflags)
        let mss_local_minus_opts := sub16 mss_local optlen
        let optlen := if is_zerocopy then 0 else optlen
        match tcp_write_tail cfg pcb1 w arg len apiflags mss_local type with
        | (false, t) =>
          Sum.inl (err_t.ERR_MEM, { t.pcb with flags := t.pcb.flags ||| TF_NAGLEMEMERR }, t.w)
        | (true, t) =>
          Sum.inr ({ cfg := cfg, arg := arg, len := len, optflags := optflags, optlen := optlen,
                     mss_local_minus_opts := mss_local_minus_opts, type := type,
                     is_zerocopy := is_zerocopy, is_file := is_file }, t)

/-- The local variables at the start of phase 3. -/
def write_init (t : tail_state) : write_state :=
  { pos := t.pos, queuelen := t.queuelen, oversize := t.oversize, queue := [],
    piov_cur_index := 0, piov_cur_len := 0, pcb := t.pcb, w := t.w }

/-- The part of `tcp_write` after the loop of phase 3: the commit when the
loop succeeded, the label `memerr` otherwise. -/
def tcp_write_end (cfg : Config) (t : tail_state) (len : Nat) (r : Bool × write_state) :
    err_t × tcp_pcb × World :=
  match r with
  | (false, s) => (err_t.ERR_MEM, { s.pcb with flags := s.pcb.flags ||| TF_NAGLEMEMERR }, s.w)
  | (true, s) => (err_t.ERR_OK, tcp_write_commit cfg t s len, s.w)

/-- Enqueue `len` bytes at address `arg` for sending (`tcp_write`). -/
def tcp_write (cfg : Config) (pcb : tcp_pcb) (w : World) (arg : Int) (len apiflags : Nat) :
    err_t × tcp_pcb × World :=
  match tcp_write_begin cfg pcb w arg len apiflags with
  | Sum.inl r => r
  | Sum.inr (c, t) => tcp_write_end cfg t len (tcp_write_segments c (write_init t))

/-- The function `tcp_write` with the loop of phase 3 run for at most `n`
passes; `none` when they do not suffice.  It computes `tcp_write` (see
`tcp_write_eq_fuel`) and serves to evaluate it. -/
def tcp_write_fuel (n : Nat) (cfg : Config) (pcb : tcp_pcb) (w : World) (arg : Int)
    (len apiflags : Nat) : Option (err_t × tcp_pcb × World) :=
  match tcp_write_begin cfg pcb w arg len apiflags with
  | Sum.inl r => some r
  | Sum.inr (c, t) => (tcp_write_segments_fuel n c (write_init t)).map (tcp_write_end cfg t len)

/-- The option flags that `tcp_enqueue_flags` gives to its segment: a `SYN`
carries the MSS option, the window-scale option when scaling is on (in
`SYN_RCVD` only if the peer offered it) and the timestamp option when the
connecting side enables it; a connection with timestamps always carries the
timestamp option. -/
def enqueue_optflags (cfg : Config) (pcb : tcp_pcb) (flags : Nat) : Nat :=
  let optflags :=
    if has flags TCP_SYN then
      let o := TF_SEG_OPTS_MSS
      let o := if cfg.enable_wnd_scale ∧
          (get_tcp_state pcb ≠ tcp_state.SYN_RCVD ∨ has pcb.flags TF_WND_SCALE) then
        o ||| TF_SEG_OPTS_WNDSCALE else o
      if pcb.enable_ts_opt ∧ ¬ has flags TCP_ACK then o ||| TF_SEG_OPTS_TS else o
    else 0
  if has pcb.flags TF_TIMESTAMP then optflags ||| TF_SEG_OPTS_TS else optflags

/-- The PCB after `tcp_enqueue_flags` has appended the segment `seg`:
`last_unsent` and `unsent_oversize` are set, `snd_lbb` is bumped for `SYN`
or `FIN`, `TF_FIN` is set for `FIN`, and the buffers of `seg` are counted. -/
def enqueue_commit (pcb2 : tcp_pcb) (seg : tcp_seg) (flags : Nat) : tcp_pcb :=
  let pcb3 := { pcb2 with unsent := pcb2.unsent ++ [seg], last_unsent := some seg.id,
                          unsent_oversize := 0 }
  let pcb4 := if has flags TCP_SYN ∨ has flags TCP_FIN then
    { pcb3 with snd_lbb := add32 pcb3.snd_lbb 1 } else pcb3
  let pcb5 := if has flags TCP_FIN then { pcb4 with flags := pcb4.flags ||| TF_FIN } else pcb4
  { pcb5 with snd_queuelen := u32 (pcb5.snd_queuelen + pbuf_clen seg.p) }

/-- Enqueue a header-only segment carrying `SYN` or `FIN`
(`tcp_enqueue_flags`). -/
def tcp_enqueue_flags (cfg : Config) (pcb : tcp_pcb) (w : World) (flags : Nat) :
    err_t × tcp_pcb × World :=
  if (pcb.snd_queuelen ≥ pcb.max_unsent_len ∨ pcb.snd_queuelen > TCP_SNDQUEUELEN_OVERFLOW) ∧
      ¬ has flags TCP_FIN then
    (err_t.ERR_MEM, { pcb with flags := pcb.flags ||| TF_NAGLEMEMERR }, w)
  else
    match tcp_tx_pbuf_alloc pcb w (u8 (LWIP_TCP_OPT_LENGTH (enqueue_optflags cfg pcb flags)))
        pbuf_type.PBUF_RAM with
    | (none, pcb1, w1) =>
      (err_t.ERR_MEM, { pcb1 with flags := pcb1.flags ||| TF_NAGLEMEMERR }, w1)
    | (some b, pcb1, w1) =>
      match tcp_create_segment pcb1 w1 [b] flags pcb1.snd_lbb (enqueue_optflags cfg pcb flags) with
      | (none, pcb2, w2) =>
        (err_t.ERR_MEM, { pcb2 with flags := pcb2.flags ||| TF_NAGLEMEMERR }, w2)
      | (some seg, pcb2, w2) => (err_t.ERR_OK, enqueue_commit pcb2 seg flags, w2)

/-- Send a `FIN`: merge it onto the last unsent segment when that segment
carries no `SYN`, `FIN` or `RST`, enqueue a new segment otherwise
(`tcp_send_fin`). -/
def tcp_send_fin (cfg : Config) (pcb : tcp_pcb) (w : World) : err_t × tcp_pcb × World :=
  match queue_tail pcb.unsent with
  | some last_unsent =>
    if ¬ has (TCPH_FLAGS last_unsent.hdr) (TCP_SYN ||| TCP_FIN ||| TCP_RST) then
      (err_t.ERR_OK,
        { pcb with unsent := set_tail pcb.unsent
                     { last_unsent with hdr := TCPH_SET_FLAG last_unsent.hdr TCP_FIN },
                   flags := pcb.flags ||| TF_FIN }, w)
    else tcp_enqueue_flags cfg pcb w TCP_FIN
  | none => tcp_enqueue_flags cfg pcb w TCP_FIN

/-- The macro `TCPWND_MIN16(RCV_WND_SCALE(pcb, wnd))`. -/
def scaled_wnd16 (pcb : tcp_pcb) (wnd : Nat) : Nat := u16 (min (wnd >>> pcb.rcv_scale) 0xFFFF)

/-- Allocate a header-only buffer and fill its TCP header
(`tcp_output_alloc_header`); `seqno` is the sequence number to send. -/
def tcp_output_alloc_header (pcb : tcp_pcb) (w : World) (optlen datalen seqno : Nat) :
    Option (List pbuf × tcp_hdr) × tcp_pcb × World :=
  match tcp_tx_pbuf_alloc pcb w (optlen + datalen) pbuf_type.PBUF_RAM with
  | (none, pcb1, w1) => (none, pcb1, w1)
  | (some b, pcb1, w1) =>
    let p := (pbuf_header [b] TCP_HLEN).getD [b]
    let hdr : tcp_hdr :=
      { src := pcb1.local_port, dest := pcb1.remote_port, seqno := seqno, ackno := pcb1.rcv_nxt,
        hdrlen := 5 + optlen / 4, flags := TCP_ACK, wnd := scaled_wnd16 pcb1 pcb1.rcv_ann_wnd,
        chksum := 0, urgp := 0 }
    (some (p, hdr),
      { pcb1 with rcv_ann_right_edge := add32 pcb1.rcv_nxt pcb1.rcv_ann_wnd }, w1)

/-- One call of the hook `pcb->ip_output`: log it and consume the next
scripted answer. -/
def ip_output (pcb : tcp_pcb) (w : World) (p : List pbuf) (hdr : tcp_hdr) (seg : Option tcp_seg)
    (flags : Nat) : err_t × World :=
  (w.ip_results.head?.getD err_t.ERR_OK,
    { w with ip_results := w.ip_results.tail,
             calls := w.calls ++ [{ p := p, hdr := hdr, seg := seg, flags := flags, pcb := pcb }] })

/-- Send an ACK without data (`tcp_send_empty_ack`). -/
def tcp_send_empty_ack (pcb : tcp_pcb) (w : World) : err_t × tcp_pcb × World :=
  let optlen := if has pcb.flags TF_TIMESTAMP then u8 (LWIP_TCP_OPT_LENGTH TF_SEG_OPTS_TS) else 0
  match tcp_output_alloc_header pcb w optlen 0 pcb.snd_nxt with
  | (none, pcb1, w1) => (err_t.ERR_BUF, pcb1, w1)
  | (some (p, hdr), pcb1, w1) =>
    let pcb2 := { pcb1 with flags := clr16 pcb1.flags (TF_ACK_DELAY ||| TF_ACK_NOW),
                            ts_lastacksent := pcb1.rcv_nxt }
    (err_t.ERR_OK, pcb2, (ip_output pcb2 w1 p hdr none 0).2)

/-- Move the `FIN`/`RST` bits given by `flags` from the header of `src` to
the header of `dst` (`tcp_seg_move_flags`); nothing moves when both are the
same record or `src` carries none of the bits. -/
def tcp_seg_move_flags (src dst : tcp_seg) (flags : Nat) : tcp_seg × tcp_seg :=
  let from_flags := TCPH_FLAGS src.hdr &&& flags
  if src.id ≠ dst.id ∧ from_flags ≠ 0 then
    ({ src with hdr := TCPH_UNSET_FLAG src.hdr flags },
     { dst with hdr := TCPH_SET_FLAG dst.hdr from_flags })
  else (src, dst)

/-- The test `(TCPH_FLAGS(seg->tcphdr) & ~(TCP_ACK | TCP_PSH)) != 0`. -/
def other_than_ack_psh (seg : tcp_seg) : Bool :=
  decide (clr8 (TCPH_FLAGS seg.hdr) (TCP_ACK ||| TCP_PSH) ≠ 0)

/-- The chain of a segment that is being joined to its predecessor: the
payload of its first buffer is moved past the TCP header (not for
zero-copy) and `len`/`tot_len` of that buffer are reduced to the payload. -/
def strip_header (cur : tcp_seg) : List pbuf :=
  match cur.p with
  | [] => []
  | b :: rest =>
    { b with payload := if has cur.flags TF_SEG_OPTS_ZEROCOPY then b.payload
                        else cur.tcphdr.getD 0 + LWIP_TCP_HDRLEN cur.hdr,
             len := sub32 cur.len (sub32 b.tot_len b.len),
             tot_len := cur.len } :: rest

/-- The iterations of the joining loop of `tcp_tso_segment` that follow the
first one: `cur` is the successor of `seg`, and it is consumed when it has a
successor of its own, the same option flags, no header flag besides
`ACK`/`PSH`, and the joined size fits `max_payload_sz` and `max_send_sge`. -/
def tso_join (pcb : tcp_pcb) (flags max_payload_sz : Nat) (tot_len : Nat) (tot_p : Int)
    (seg : tcp_seg) : List tcp_seg → tcp_seg × List tcp_seg
  | cur :: nxt :: rest =>
    if cur.flags = flags ∧ ¬ other_than_ack_psh cur then
      let tot_len1 := add32 tot_len cur.len
      if tot_len1 > max_payload_sz then (seg, cur :: nxt :: rest)
      else
        let tot_p1 := tot_p + pbuf_clen cur.p
        if tot_p1 > s32 pcb.max_send_sge then (seg, cur :: nxt :: rest)
        else if (seg.flags &&& TF_SEG_OPTS_ZEROCOPY) ≠ (cur.flags &&& TF_SEG_OPTS_ZEROCOPY) then
          (seg, cur :: nxt :: rest)
        else
          tso_join pcb flags max_payload_sz tot_len1 tot_p1
            { seg with len := add32 seg.len cur.len, p := pbuf_cat seg.p (strip_header cur) }
            (nxt :: rest)
    else (seg, cur :: nxt :: rest)
  | rest => (seg, rest)

/-- The label `err` of `tcp_tso_segment`: a segment longer than the MSS is
marked as a TSO segment.  The sum `seg->len + LWIP_TCP_OPT_LENGTH(seg->flags)`
has a `u32_t` operand and is taken in 32 bits. -/
def mark_tso (pcb : tcp_pcb) (seg : tcp_seg) : tcp_seg :=
  if u32 (seg.len + LWIP_TCP_OPT_LENGTH seg.flags) > pcb.mss then
    { seg with flags := seg.flags ||| TF_SEG_OPTS_TSO }
  else seg

/-- Join the segments that follow `seg` in its queue into `seg`
(`tcp_tso_segment`); `rest` is the queue after `seg`.  The result is the
segment and what is left of the queue after it. -/
def tcp_tso_segment (pcb : tcp_pcb) (seg : tcp_seg) (rest : List tcp_seg) (wnd : Nat) :
    tcp_seg × List tcp_seg :=
  let max_payload_sz := min pcb.tso.max_payload_sz (sub32 wnd (sub32 seg.seqno pcb.lastack))
  if TCP_SEQ_LT seg.seqno pcb.snd_nxt ∨
      has seg.flags (TF_SEG_OPTS_TSO ||| TF_SEG_OPTS_DUMMY_MSG ||| TF_SEG_OPTS_NOMERGE) ∨
      other_than_ack_psh seg then
    (mark_tso pcb seg, rest)
  else if rest = [] then (mark_tso pcb seg, rest)
  else
    let tot_len := add32 0 seg.len
    if tot_len > max_payload_sz then (mark_tso pcb seg, rest)
    else
      let tot_p : Int := pbuf_clen seg.p
      if tot_p > s32 pcb.max_send_sge then (mark_tso pcb seg, rest)
      else
        match tso_join pcb seg.flags max_payload_sz tot_len tot_p seg rest with
        | (seg1, rest1) => (mark_tso pcb seg1, rest1)

/-- The option flags, option length and header length that the split
functions use for the pieces of `seg`: `(optflags, optlen, tcp_hlen_delta)`. -/
def split_opts (pcb : tcp_pcb) (seg : tcp_seg) : Nat × Nat × Nat :=
  let optflags := if has pcb.flags TF_TIMESTAMP then TF_SEG_OPTS_TS else 0
  let optlen := u8 (LWIP_TCP_OPT_LENGTH optflags)
  if has seg.flags TF_SEG_OPTS_ZEROCOPY then (optflags ||| TF_SEG_OPTS_ZEROCOPY, 0, 0)
  else (optflags, optlen, TCP_HLEN)

/-- Termination of the splitting loops: the chain of a segment made by
`tcp_create_segment` has as many buffers as the chain it was given. -/
theorem tcp_create_segment_clen (pcb : tcp_pcb) (w : World) (p : List pbuf) (flags seqno optflags : Nat)
    (seg : tcp_seg) (pcb1 : tcp_pcb) (w1 : World) (hne : p ≠ [])
    (h : tcp_create_segment pcb w p flags seqno optflags = (some seg, pcb1, w1)) :
    seg.p.length = p.length := by
  unfold tcp_create_segment at h
  cases hts : take_seg pcb w with
  | mk o rest =>
    cases o with
    | none => simp [hts] at h
    | some s0 =>
      cases p with
      | nil => exact absurd rfl hne
      | cons b r =>
        simp only [hts] at h
        by_cases hz : has optflags TF_SEG_OPTS_ZEROCOPY = true
        · simp [hz, set_tcphdr] at h
          rw [← h.1]
        · by_cases ht : b.type = pbuf_type.PBUF_RAM
          · simp [hz, ht, pbuf_header, set_tcphdr] at h
            rw [← h.1]
            simp
          · simp [hz, ht, pbuf_header] at h

/-- Termination of the splitting loops: moving header flags does not touch
the chain of the destination. -/
theorem tcp_seg_move_flags_snd_p (a b : tcp_seg) (f : Nat) :
    (tcp_seg_move_flags a b f).2.p = b.p := by
  unfold tcp_seg_move_flags
  dsimp only
  split <;> rfl

/-- The loop of `tcp_split_rexmit`: while the chain of `cur_seg` has a
second buffer, that buffer and what follows it become a new segment placed
right after `cur_seg`.  The result is `cur_seg` and the list of the segments
created after it, in queue order. -/
def split_rexmit_loop (pcb : tcp_pcb) (w : World) (optflags optlen hlen : Nat) (cur_seg : tcp_seg) :
    tcp_seg × List tcp_seg × tcp_pcb × World :=
  match hp : cur_seg.p with
  | b :: cur_p :: r =>
    let cur_p1 := { cur_p with len := u32 (cur_p.len + optlen), tot_len := u32 (cur_p.tot_len + optlen),
                               payload := cur_p.payload - optlen }
    let seqno := sub32 (sub32 (add32 cur_seg.seqno b.len) hlen) optlen
    match hc : tcp_create_segment pcb w (cur_p1 :: r) 0 seqno optflags with
    | (none, pcb1, w1) => (cur_seg, [], pcb1, w1)
    | (some new_seg, pcb1, w1) =>
      let new_seg1 := { new_seg with flags := cur_seg.flags }
      let cur_seg1 := { cur_seg with len := sub32 (sub32 b.len hlen) optlen,
                                     p := [{ b with tot_len := b.len }] }
      let pcb2 := if pcb1.last_unsent = some cur_seg.id then
          { pcb1 with last_unsent := some new_seg.id, unsent_oversize := 0 }
        else pcb1
      match split_rexmit_loop pcb2 w1 optflags optlen hlen
          (tcp_seg_move_flags cur_seg1 new_seg1 (TCP_FIN ||| TCP_RST)).2 with
      | (new_seg2, segs, pcb3, w2) =>
        ((tcp_seg_move_flags cur_seg1 new_seg1 (TCP_FIN ||| TCP_RST)).1, new_seg2 :: segs, pcb3, w2)
  | _ => (cur_seg, [], pcb, w)
termination_by cur_seg.p.length
decreasing_by
  rw [tcp_seg_move_flags_snd_p, hp]
  have hl := tcp_create_segment_clen _ _ _ _ _ _ _ _ _ (by simp) hc
  simp only [List.length_cons] at hl ⊢
  omega

/-- Split a multi-buffer segment that is retransmitted into one segment per
buffer (`tcp_split_rexmit`).  The result is `seg` and the list of the new
segments that follow it. -/
def tcp_split_rexmit (pcb : tcp_pcb) (w : World) (seg : tcp_seg) :
    tcp_seg × List tcp_seg × tcp_pcb × World :=
  match split_opts pcb seg with
  | (optflags, optlen, hlen) =>
    split_rexmit_loop pcb w optflags optlen hlen
      { seg with flags := seg.flags ||| TF_SEG_OPTS_NOMERGE }

/-- The chain walk of the second branch of `tcp_split_segment`: starting
with the head buffer as `pnewtail` and its successor as `pnewhead`, buffers
are kept on the left while the bytes counted stay within `lentosend`.  The
result is the left chain, the right chain and `headchainlen`; `none` stands
for the two `return` statements inside the walk. -/
def chain_walk (hopt lentosend : Nat) (headchainlen : Nat) (left : List pbuf) (pnewtail : pbuf) :
    List pbuf → Option (List pbuf × List pbuf × Nat)
  | [] => none
  | pnewhead :: r =>
    if sub32 (add32 headchainlen pnewhead.len) hopt ≤ lentosend then
      if pnewtail.ref > 1 then none
      else chain_walk hopt lentosend (add32 headchainlen pnewhead.len) (left ++ [pnewtail]) pnewhead r
    else some (left ++ [pnewtail], pnewhead :: r, headchainlen)

/-- The loop `while (ptmp)` of `tcp_split_segment` that rewrites `tot_len`
along the left chain. -/
def retotal (headchainlen : Nat) : List pbuf → List pbuf
  | [] => []
  | b :: r => { b with tot_len := headchainlen } :: retotal (sub32 headchainlen b.len) r

/-- Split `seg` so that its first part fits the window `wnd`
(`tcp_split_segment`).  The result is `seg` and the list of the segments
created after it (one when the split is done, none otherwise). -/
def tcp_split_segment (cfg : Config) (pcb : tcp_pcb) (w : World) (seg : tcp_seg) (wnd : Nat) :
    tcp_seg × List tcp_seg × tcp_pcb × World :=
  match seg.p with
  | [] => (seg, [], pcb, w)
  | head :: chain =>
    if sub32 seg.seqno pcb.lastack ≥ wnd ∨ head.ref > 1 then (seg, [], pcb, w)
    else
      let is_zerocopy : Bool := has seg.flags TF_SEG_OPTS_ZEROCOPY
      let lentosend := sub32 wnd (sub32 seg.seqno pcb.lastack)
      let mss_local := tcp_xmit_size_goal pcb false
      match split_opts pcb seg with
      | (optflags, optlen, hlen) =>
        let type := if is_zerocopy then pbuf_type.PBUF_ZEROCOPY else pbuf_type.PBUF_RAM
        if head.len > add32 (hlen + optlen) lentosend then
          let lentoqueue := sub32 (sub32 head.len (hlen + optlen)) lentosend
          let max_length := if is_zerocopy then u16 (lentoqueue + optlen) else mss_local
          match tcp_pbuf_prealloc cfg pcb w (lentoqueue + optlen) max_length type 0 false with
          | (none, pcb1, w1) => (seg, [], pcb1, w1)
          | (some (b, oversize), pcb1, w1) =>
            let b1 := { b with payload := if is_zerocopy then head.payload + lentosend else b.payload,
                               tot_len := sub32 (sub32 head.tot_len lentosend) hlen }
            match tcp_create_segment pcb1 w1 (b1 :: chain) 0 (add32 seg.seqno lentosend) optflags with
            | (none, pcb2, w2) => (seg, [], pcb2, w2)
            | (some newseg, pcb2, w2) =>
              let head1 := { head with len := sub32 head.len lentoqueue,
                                       tot_len := sub32 head.len lentoqueue }
              let newseg1 := { newseg with flags := seg.flags }
              let seg1 := { seg with p := [head1], len := sub32 head1.len (hlen + optlen) }
              let newseg2 := if cfg.enable_push_flag then
                  { newseg1 with hdr := TCPH_SET_FLAG newseg1.hdr TCP_PSH } else newseg1
              let pcb3 := { pcb2 with snd_queuelen := u32 (pcb2.snd_queuelen + 1) }
              let pcb4 := if pcb3.last_unsent = some seg.id then
                  { pcb3 with last_unsent := some newseg.id, unsent_oversize := oversize }
                else pcb3
              ((tcp_seg_move_flags seg1 newseg2 (TCP_FIN ||| TCP_RST)).1,
                [(tcp_seg_move_flags seg1 newseg2 (TCP_FIN ||| TCP_RST)).2], pcb4, w2)
        else if chain ≠ [] then
          match chain_walk (hlen + optlen) lentosend head.len [] head chain with
          | none => (seg, [], pcb, w)
          | some (left, right, headchainlen) =>
            match tcp_create_segment pcb w right 0
                (sub32 (add32 seg.seqno headchainlen) (hlen + optlen)) optflags with
            | (none, pcb1, w1) => (seg, [], pcb1, w1)
            | (some newseg, pcb1, w1) =>
              let newseg1 := { newseg with flags := seg.flags }
              let seg1 := { seg with len := sub32 headchainlen (hlen + optlen),
                                     p := retotal headchainlen left }
              let pcb2 := if pcb1.last_unsent = some seg.id then
                  { pcb1 with last_unsent := some newseg.id, unsent_oversize := 0 }
                else pcb1
              ((tcp_seg_move_flags seg1 newseg1 (TCP_FIN ||| TCP_RST)).1,
                [(tcp_seg_move_flags seg1 newseg1 (TCP_FIN ||| TCP_RST)).2], pcb2, w1)
        else (seg, [], pcb, w)

/-- The header that `tcp_output_segment` completes: acknowledgement number
and advertised window are filled in, the checksum is left to the hook. -/
def output_segment_hdr (seg : tcp_seg) (pcb : tcp_pcb) : tcp_hdr :=
  let wnd := if has seg.flags TF_SEG_OPTS_WNDSCALE then u16 (min pcb.rcv_ann_wnd 0xFFFF)
             else scaled_wnd16 pcb pcb.rcv_ann_wnd
  { seg.hdr with ackno := pcb.rcv_nxt, wnd := wnd, chksum := 0 }

/-- The PCB fields that `tcp_output_segment` updates before the hook is
called; nothing is updated for a dummy segment. -/
def output_segment_pcb (cfg : Config) (seg : tcp_seg) (pcb : tcp_pcb) : tcp_pcb :=
  if LWIP_IS_DUMMY_SEGMENT seg then pcb else
    { pcb with rcv_ann_right_edge := add32 pcb.rcv_nxt pcb.rcv_ann_wnd,
               ts_lastacksent := pcb.rcv_nxt,
               rtime := if pcb.rtime = -1 then 0 else pcb.rtime,
               ticks_since_data_sent :=
                 if pcb.ticks_since_data_sent = -1 then 0 else pcb.ticks_since_data_sent,
               rttest := if pcb.rttest = 0 then cfg.tcp_ticks else pcb.rttest,
               rtseq := if pcb.rttest = 0 then seg.seqno else pcb.rtseq }

/-- The flags that `tcp_output_segment` passes to the hook. -/
def output_segment_flags (seg : tcp_seg) (pcb1 : tcp_pcb) : Nat :=
  (seg.flags &&& TF_SEG_OPTS_DUMMY_MSG) ||| (seg.flags &&& TF_SEG_OPTS_TSO) |||
  (if TCP_SEQ_LT seg.seqno pcb1.snd_nxt then TCP_WRITE_REXMIT else 0) |||
  (seg.flags &&& TF_SEG_OPTS_ZEROCOPY)

/-- The chain that `tcp_output_segment` hands over for a segment that is not
zero-copy: the first buffer starts at the TCP header. -/
def output_segment_chain (seg : tcp_seg) : List pbuf :=
  match seg.p with
  | [] => []
  | b :: r =>
    let len := ((seg.tcphdr.getD 0 - b.payload) % 65536).toNat
    { b with len := sub32 b.len len, tot_len := sub32 b.tot_len len,
             payload := seg.tcphdr.getD 0 } :: r

/-- Finish the header of `seg` and hand it to the IP output hook
(`tcp_output_segment`).  The segment returned is `seg` as the hook got it. -/
def tcp_output_segment (cfg : Config) (seg : tcp_seg) (pcb : tcp_pcb) (w : World) :
    err_t × tcp_seg × tcp_pcb × World :=
  let hdr := output_segment_hdr seg pcb
  let pcb1 := output_segment_pcb cfg seg pcb
  let flags := output_segment_flags seg pcb1
  if has seg.flags TF_SEG_OPTS_ZEROCOPY then
    let seg1 := { seg with hdr := hdr }
    let zc_pbuf : pbuf := { payload := seg.tcphdr.getD 0, len := LWIP_TCP_HDRLEN hdr,
                            tot_len := LWIP_TCP_HDRLEN hdr, type := pbuf_type.PBUF_STACK, ref := 0 }
    ((ip_output pcb1 w (zc_pbuf :: seg.p) hdr (some seg1) flags).1, seg1, pcb1,
      (ip_output pcb1 w (zc_pbuf :: seg.p) hdr (some seg1) flags).2)
  else
    let seg1 := { seg with hdr := hdr, p := output_segment_chain seg }
    ((ip_output pcb1 w (output_segment_chain seg) hdr (some seg1) flags).1, seg1, pcb1,
      (ip_output pcb1 w (output_segment_chain seg) hdr (some seg1) flags).2)

/-- Modelled from the spec: the macro `tcp_do_output_nagle` of `tcp_impl.h`
is not part of the sources.  Nagle lets a segment go (value 1) when nothing
is unacknowledged, when `NODELAY` or fast recovery is on, or when the head
of `unsent` is not the last segment or is at least one MSS long
(section 4.3 step 5: "small segment, not last"). -/
def tcp_do_output_nagle (pcb : tcp_pcb) : Nat :=
  let big_or_not_last : Bool :=
    match pcb.unsent with
    | [] => false
    | seg :: rest => decide (rest ≠ [] ∨ seg.len ≥ pcb.mss)
  if pcb.unacked = [] ∨ has pcb.flags (TF_NODELAY ||| TF_INFR) ∨ big_or_not_last then 1 else 0

/-- The segment a queue pointer designates: the element of `q` with that
address.  A pointer that designates no element of `q` has no defined value
in C; it is read as the last element. -/
def deref (q : List tcp_seg) (ptr : Option Nat) : Option tcp_seg :=
  match ptr.bind (fun a => q.find? (fun s => s.id = a)) with
  | some s => some s
  | none => queue_tail q

/-- The assignment `useg->next = seg` for the element `useg` of `q` with
address `a`: what followed `useg` is cut off. -/
def link_after : List tcp_seg → Nat → tcp_seg → List tcp_seg
  | [], _, seg => [seg]
  | x :: r, a, seg => if x.id = a ∨ r = [] then [x, seg] else x :: link_after r a seg

/-- Insert `seg` before the first element whose `seqno` is not before its
own (the walk `while (*cur_seg && TCP_SEQ_LT((*cur_seg)->seqno, seg->seqno))`). -/
def insert_sorted (seg : tcp_seg) : List tcp_seg → List tcp_seg
  | [] => [seg]
  | x :: r => if TCP_SEQ_LT x.seqno seg.seqno then x :: insert_sorted seg r else seg :: x :: r

/-- The statement `if (TCP_SEQ_LT(seg->seqno, pcb->snd_nxt) && seg->p &&
seg->p->len != seg->p->tot_len) tcp_split_rexmit(pcb, seg)` of the loop of
`tcp_output`: the head segment and the segments created after it. -/
def prepare_rexmit (pcb : tcp_pcb) (w : World) (seg1 : tcp_seg) :
    tcp_seg × List tcp_seg × tcp_pcb × World :=
  let multi : Bool :=
    match seg1.p with
    | [] => false
    | b :: _ => decide (b.len ≠ b.tot_len)
  if TCP_SEQ_LT seg1.seqno pcb.snd_nxt ∧ multi then tcp_split_rexmit pcb w seg1
  else (seg1, [], pcb, w)

/-- The statement "split the segment in case of a small window" of the loop
of `tcp_output`: the head segment and the segments created after it. -/
def prepare_window (cfg : Config) (wnd : Nat) (pcb2 : tcp_pcb) (w2 : World) (seg2 : tcp_seg) :
    tcp_seg × List tcp_seg × tcp_pcb × World :=
  if pcb2.unacked = [] ∧ wnd ≠ 0 ∧ sub32 (add32 seg2.len seg2.seqno) pcb2.lastack > wnd then
    tcp_split_segment cfg pcb2 w2 seg2 wnd
  else (seg2, [], pcb2, w2)

/-- The first part of one pass of the loop of `tcp_output`, up to the window
test: clear the TSO mark of the head segment, split it when it is a
retransmitted multi-buffer segment, and split it when nothing is
unacknowledged and it overruns the window.  The result is the head segment
and the queue after it, which the PCB returned also holds in `unsent`. -/
def output_prepare (cfg : Config) (wnd : Nat) (pcb : tcp_pcb) (w : World) (seg0 : tcp_seg)
    (rest0 : List tcp_seg) : tcp_seg × List tcp_seg × tcp_pcb × World :=
  let r1 := prepare_rexmit pcb w { seg0 with flags := clr8 seg0.flags TF_SEG_OPTS_TSO }
  let rest2 := r1.2.1 ++ rest0
  let r2 := prepare_window cfg wnd r1.2.2.1 r1.2.2.2 r1.1
  (r2.1, r2.2.1 ++ rest2, { r2.2.2.1 with unsent := r2.1 :: (r2.2.1 ++ rest2) }, r2.2.2.2)

/-- Put a segment that has been sent on the unacknowledged list: at the
tail normally, at its sorted place when its `seqno` is before that of
`last_unacked`. -/
def enqueue_unacked (pcb : tcp_pcb) (seg : tcp_seg) : tcp_pcb :=
  if pcb.unacked = [] then
    { pcb with unacked := [seg], last_unacked := some seg.id }
  else
    match deref pcb.unacked pcb.last_unacked with
    | none => { pcb with unacked := [seg], last_unacked := some seg.id }
    | some useg =>
      if TCP_SEQ_LT seg.seqno useg.seqno then
        { pcb with unacked := insert_sorted seg pcb.unacked }
      else
        { pcb with unacked := link_after pcb.unacked useg.id seg, last_unacked := some seg.id }

/-- The condition under which Nagle holds a segment back in `tcp_output`:
`tcp_do_output_nagle(pcb) == 0`, not a dummy segment, and neither
`TF_NAGLEMEMERR` nor `TF_FIN` set. -/
def nagle_holds (pcb : tcp_pcb) (seg : tcp_seg) : Bool :=
  decide (tcp_do_output_nagle pcb = 0 ∧ ¬ LWIP_IS_DUMMY_SEGMENT seg ∧
    ¬ has pcb.flags (TF_NAGLEMEMERR ||| TF_FIN))

/-- The Minshall bookkeeping of `tcp_output`: when Nagle applies and the
segment with its successor is small, `snd_sml_snt` takes `snd_sml_add`. -/
def minshall_mark (pcb : tcp_pcb) (seg : tcp_seg) (rest : List tcp_seg) : tcp_pcb :=
  if nagle_holds pcb seg ∧
      u32 ((rest.head?.map (fun s => s.len)).getD 0 + seg.len) ≤ pcb.snd_sml_add then
    { pcb with snd_sml_snt := pcb.snd_sml_add }
  else pcb

/-- The statement `if (tcp_tso(pcb)) tcp_tso_segment(pcb, seg, wnd)`. -/
def tso_joined (pcb1 : tcp_pcb) (seg : tcp_seg) (rest : List tcp_seg) (wnd : Nat) :
    tcp_seg × List tcp_seg :=
  if tcp_tso pcb1 ≠ 0 then tcp_tso_segment pcb1 seg rest wnd else (seg, rest)

/-- The empty ACK that `tcp_output` sends ahead of a dummy segment when an
ACK is due. -/
def dummy_ack (pcb2 : tcp_pcb) (w : World) (seg1 : tcp_seg) : tcp_pcb × World :=
  if LWIP_IS_DUMMY_SEGMENT seg1 ∧ has pcb2.flags (TF_ACK_DELAY ||| TF_ACK_NOW) then
    ((tcp_send_empty_ack pcb2 w).2.1, (tcp_send_empty_ack pcb2 w).2.2)
  else (pcb2, w)

/-- The statements of one pass of `tcp_output` between the Nagle test and
the call of `tcp_output_segment`: the Minshall bookkeeping, the TSO join,
the empty ACK sent ahead of a dummy segment, and the `ACK` flag.  The result
is the segment to send and the queue after it. -/
def send_ready (wnd : Nat) (pcb : tcp_pcb) (w : World) (seg : tcp_seg) (rest : List tcp_seg) :
    tcp_seg × List tcp_seg × tcp_pcb × World :=
  let pcb1 := minshall_mark pcb seg rest
  let seg1 := (tso_joined pcb1 seg rest wnd).1
  let rest1 := (tso_joined pcb1 seg rest wnd).2
  let acked := dummy_ack { pcb1 with unsent := seg1 :: rest1 } w seg1
  if get_tcp_state acked.1 ≠ tcp_state.SYN_SENT then
    ({ seg1 with hdr := TCPH_SET_FLAG seg1.hdr TCP_ACK }, rest1,
      { acked.1 with flags := clr16 acked.1.flags (TF_ACK_DELAY ||| TF_ACK_NOW),
                     unsent := { seg1 with hdr := TCPH_SET_FLAG seg1.hdr TCP_ACK } :: rest1 },
      acked.2)
  else (seg1, rest1, acked.1, acked.2)

/-- The statements of one pass of `tcp_output` after `tcp_output_segment`
has returned `rc` for the segment `seg3`: the move of the segment to the
unacknowledged list.  The boolean is `false` when the loop is left through
`break`. -/
def send_done (rc : err_t) (seg3 : tcp_seg) (pcb5 : tcp_pcb) (w4 : World) (rest1 : List tcp_seg) :
    Bool × err_t × tcp_pcb × World :=
  if rc ≠ err_t.ERR_OK ∧ pcb5.unacked ≠ [] then
    (false, rc, { pcb5 with unsent := seg3 :: rest1 }, w4)
  else
    let pcb6 := if rc = err_t.ERR_WOULDBLOCK then { pcb5 with is_last_seg_dropped := true }
                else pcb5
    let pcb7 := { pcb6 with unsent := rest1 }
    let snd_nxt := add32 seg3.seqno (TCP_TCPLEN seg3)
    let pcb8 := if TCP_SEQ_LT pcb7.snd_nxt snd_nxt ∧ ¬ LWIP_IS_DUMMY_SEGMENT seg3 then
        { pcb7 with snd_nxt := snd_nxt } else pcb7
    if TCP_TCPLEN seg3 > 0 then
      if LWIP_IS_DUMMY_SEGMENT seg3 then
        (true, rc, { pcb8 with snd_lbb := sub32 pcb8.snd_lbb seg3.len,
                               snd_buf := add32 pcb8.snd_buf seg3.len,
                               snd_queuelen := sub32 pcb8.snd_queuelen (pbuf_clen seg3.p) }, w4)
      else (true, rc, enqueue_unacked pcb8 seg3, w4)
    else (true, rc, pcb8, w4)

/-- The second part of one pass of the loop of `tcp_output`, after the
window test has let the head segment `seg` through: Nagle and Minshall, TSO
join, emission, and the move to the unacknowledged list.  The boolean is
`false` when the loop is left through `break`. -/
def output_send (cfg : Config) (wnd : Nat) (pcb : tcp_pcb) (w : World) (seg : tcp_seg)
    (rest : List tcp_seg) : Bool × err_t × tcp_pcb × World :=
  if nagle_holds pcb seg ∧ pcb.snd_sml_snt > (pcb.unacked.head?.map (fun s => s.len)).getD 0 then
    (false, err_t.ERR_OK, pcb, w)
  else
    match send_ready wnd pcb w seg rest with
    | (seg2, rest1, pcb4, w3) =>
      match tcp_output_segment cfg seg2 pcb4 w3 with
      | (rc, seg3, pcb5, w4) => send_done rc seg3 pcb5 w4 rest1

/-- The window test of `tcp_output`: `seg->seqno - pcb->lastack + seg->len <= wnd`
in 32-bit arithmetic. -/
def fits_window (pcb : tcp_pcb) (seg : tcp_seg) (wnd : Nat) : Bool :=
  decide (add32 (sub32 seg.seqno pcb.lastack) seg.len ≤ wnd)

/-- One pass of the loop `while (seg && rc == ERR_OK)` of `tcp_output` for
the head segment `seg0` of `unsent`.  The boolean is `false` when the loop
is left through `break`. -/
def output_pass (cfg : Config) (wnd : Nat) (pcb : tcp_pcb) (w : World) (seg0 : tcp_seg)
    (rest0 : List tcp_seg) : Bool × err_t × tcp_pcb × World :=
  match output_prepare cfg wnd pcb w seg0 rest0 with
  | (seg, rest, pcb1, w1) =>
    if fits_window pcb1 seg wnd then output_send cfg wnd pcb1 w1 seg rest
    else (false, err_t.ERR_OK, pcb1, w1)

/-- The loop of `tcp_output`, run for at most `fuel` passes; `none` when the
passes allowed do not suffice. -/
def tcp_output_loop (cfg : Config) (wnd : Nat) : Nat → err_t → tcp_pcb → World →
    Option (err_t × tcp_pcb × World)
  | 0, _, _, _ => none
  | fuel + 1, rc, pcb, w =>
    if rc ≠ err_t.ERR_OK then some (rc, pcb, w)
    else
      match pcb.unsent with
      | [] => some (rc, pcb, w)
      | seg0 :: rest0 =>
        match output_pass cfg wnd pcb w seg0 rest0 with
        | (false, rc1, pcb1, w1) => some (rc1, pcb1, w1)
        | (true, rc1, pcb1, w1) => tcp_output_loop cfg wnd fuel rc1 pcb1 w1

/-- The statement `if (!pcb->seg_alloc) pcb->seg_alloc = tcp_create_segment(pcb,
NULL, 0, 0, 0)` at the end of `tcp_output`. -/
def prefetch_seg (pcb2 : tcp_pcb) (w : World) : tcp_pcb × World :=
  if pcb2.seg_alloc = none then
    ({ (tcp_create_segment pcb2 w [] 0 0 0).2.1 with
        seg_alloc := (tcp_create_segment pcb2 w [] 0 0 0).1 },
      (tcp_create_segment pcb2 w [] 0 0 0).2.2)
  else (pcb2, w)

/-- The statement `if (!pcb->pbuf_alloc) pcb->pbuf_alloc = tcp_tx_pbuf_alloc(pcb,
0, PBUF_RAM, NULL, NULL)` at the end of `tcp_output`. -/
def prefetch_pbuf (pcb3 : tcp_pcb) (w : World) : tcp_pcb × World :=
  if pcb3.pbuf_alloc = none then
    ({ (tcp_tx_pbuf_alloc pcb3 w 0 pbuf_type.PBUF_RAM).2.1 with
        pbuf_alloc := (tcp_tx_pbuf_alloc pcb3 w 0 pbuf_type.PBUF_RAM).1 },
      (tcp_tx_pbuf_alloc pcb3 w 0 pbuf_type.PBUF_RAM).2.2)
  else (pcb3, w)

/-- The statements of `tcp_output` after its loop: reset the tail pointer of
an empty `unsent`, clear `TF_NAGLEMEMERR`, prefetch a segment record and a
buffer, and map `ERR_WOULDBLOCK` to `ERR_OK`. -/
def output_finish (rc : err_t) (pcb : tcp_pcb) (w : World) : err_t × tcp_pcb × World :=
  let pcb1 := if pcb.unsent = [] then { pcb with last_unsent := none, unsent_oversize := 0 } else pcb
  let pcb2 := { pcb1 with flags := clr16 pcb1.flags TF_NAGLEMEMERR }
  let r1 := prefetch_seg pcb2 w
  let r2 := prefetch_pbuf r1.1 r1.2
  (if rc = err_t.ERR_WOULDBLOCK then err_t.ERR_OK else rc, r2.1, r2.2)

/-- The statements of `tcp_output` before its loop: a single unacknowledged
segment that the hook dropped last time is put back in front of `unsent`. -/
def output_requeue (pcb : tcp_pcb) : tcp_pcb :=
  match pcb.unacked with
  | [u] =>
    if pcb.is_last_seg_dropped then
      { pcb with is_last_seg_dropped := false, unsent := u :: pcb.unsent, unacked := [],
                 last_unacked := none }
    else pcb
  | _ => pcb

/-- Find out what can be sent and send it (`tcp_output`), with at most
`fuel` passes of the loop; `none` when they do not suffice. -/
def tcp_output (cfg : Config) (fuel : Nat) (pcb : tcp_pcb) (w : World) :
    Option (err_t × tcp_pcb × World) :=
  if pcb.is_in_input then some (err_t.ERR_OK, pcb, w)
  else
    let wnd := min pcb.snd_wnd pcb.cwnd
    let pcb1 := output_requeue pcb
    let blocked : Bool :=
      match pcb1.unsent with
      | [] => true
      | seg :: _ => decide (add32 (sub32 seg.seqno pcb1.lastack) seg.len > wnd)
    if has pcb1.flags TF_ACK_NOW ∧ blocked then some (tcp_send_empty_ack pcb1 w)
    else
      match tcp_output_loop cfg wnd fuel err_t.ERR_OK pcb1 w with
      | none => none
      | some (rc, pcb2, w2) => some (output_finish rc pcb2 w2)

/-- Requeue the first unacknowledged segment for retransmission
(`tcp_rexmit`): it is taken off `unacked` and put at its sorted place in
`unsent`; when it lands at the end, `last_unsent` designates it. -/
def tcp_rexmit (pcb : tcp_pcb) : tcp_pcb :=
  match pcb.unacked with
  | [] => pcb
  | seg :: rest =>
    let at_end : Bool := pcb.unsent.all (fun c => TCP_SEQ_LT c.seqno seg.seqno)
    let pcb1 := { pcb with unacked := rest, unsent := insert_sorted seg pcb.unsent }
    let pcb2 := if at_end then { pcb1 with last_unsent := some seg.id, unsent_oversize := 0 }
                else pcb1
    { pcb2 with nrtx := u8 (pcb2.nrtx + 1), rttest := 0 }

/-- Fast retransmit after three duplicate ACKs (`tcp_rexmit_fast`), with the
built-in congestion reaction (the branch without `TCP_CC_ALGO_MOD`). -/
def tcp_rexmit_fast (pcb : tcp_pcb) : tcp_pcb :=
  if pcb.unacked ≠ [] ∧ ¬ has pcb.flags TF_INFR then
    let pcb1 := tcp_rexmit pcb
    let half := if pcb1.cwnd > pcb1.snd_wnd then pcb1.snd_wnd / 2 else pcb1.cwnd / 2
    let ssthresh := if half < u32 (2 * pcb1.mss) then u32 (2 * pcb1.mss) else half
    { pcb1 with ssthresh := ssthresh, cwnd := u32 (ssthresh + 3 * pcb1.mss),
                flags := pcb1.flags ||| TF_INFR }
  else pcb

/-- The statements of `tcp_rexmit_rto` before its call of `tcp_output`, for a
non-empty `unacked`: the unacknowledged segments are put in front of
`unsent`, `last_unsent` is set to the last of them when `unsent` was empty,
`unacked` is emptied, `nrtx` is incremented and `rttest` cleared.  The
statement under `TCP_OVERSIZE_DBGCHECK` is not compiled. -/
def rto_requeue (pcb : tcp_pcb) : tcp_pcb :=
  let pcb1 := if pcb.unsent = [] then
      { pcb with last_unsent := pcb.unacked.getLast?.map (fun s => s.id) }
    else pcb
  { pcb1 with unsent := pcb.unacked ++ pcb.unsent, unacked := [],
              nrtx := u8 (pcb1.nrtx + 1), rttest := 0 }

/-- Requeue all unacknowledged segments for retransmission and send
(`tcp_rexmit_rto`), with at most `fuel` passes of the loop of `tcp_output`;
`none` when they do not suffice.  The result of `tcp_output` is dropped. -/
def tcp_rexmit_rto (cfg : Config) (fuel : Nat) (pcb : tcp_pcb) (w : World) :
    Option (tcp_pcb × World) :=
  if pcb.unacked = [] then some (pcb, w)
  else (tcp_output cfg fuel (rto_requeue pcb) w).map (fun r => (r.2.1, r.2.2))

/-- A signed 32-bit result brought back into range: sums and differences
of `s32_t` values are taken in two's complement on 32 bits. -/
def wrap_s32 (x : Int) : Int := s32 (x % 4294967296).toNat

/-- The timestamp overhead `tot_opts_hdrs_len` that `tcp_is_wnd_available`
adds for `data_len` bytes: `12 * (1 + (data_len - 1) / mss_local)`, computed
in `u32` (the operand `data_len` is a `u32_t`) and stored in an `s32_t`; the
divisor is `min(mss, snd_wnd_max / 2)` in 16 bits, replaced by `mss` (or by
`LWIP_TCP_MSS` when `mss` is 0) when it is 0. -/
def wnd_opts_hdrs_len (pcb : tcp_pcb) (data_len : Nat) : Int :=
  if has pcb.flags TF_TIMESTAMP then
    let mss := if pcb.mss ≠ 0 then pcb.mss else LWIP_TCP_MSS
    let mss_local := u16 (min pcb.mss (pcb.snd_wnd_max / 2))
    let mss_local := if mss_local ≠ 0 then mss_local else mss
    s32 (u32 (LWIP_TCP_OPT_LENGTH TF_SEG_OPTS_TS * u32 (1 + sub32 data_len 1 / mss_local)))
  else 0

/-- The span `last->seqno - first->seqno + last->len` of a queue whose tail
pointer is `ptr`, as `tcp_is_wnd_available` computes it in `u32` and stores
it in an `s32_t`; 0 for an empty queue. -/
def wnd_queue_len (q : List tcp_seg) (ptr : Option Nat) : Int :=
  match q with
  | [] => 0
  | first :: _ =>
    match deref q ptr with
    | some last => s32 (add32 (sub32 last.seqno first.seqno) last.len)
    | none => 0

/-- Check whether `data_len` more bytes fit the window
(`tcp_is_wnd_available`): 1 when they do, 0 otherwise. -/
def tcp_is_wnd_available (pcb : tcp_pcb) (data_len : Nat) : Nat :=
  let wnd : Int := s32 (min pcb.snd_wnd pcb.cwnd)
  let tot_opts_hdrs_len := wnd_opts_hdrs_len pcb data_len
  let tot_unacked_len := wnd_queue_len pcb.unacked pcb.last_unacked
  let tot_unsent_len := wnd_queue_len pcb.unsent pcb.last_unsent
  if wrap_s32 (wnd - tot_unacked_len) ≥
      wrap_s32 (tot_unsent_len + wrap_s32 (tot_opts_hdrs_len + s32 data_len)) then 1 else 0

/-! ## Example connections -/

/-- An established connection with empty queues: MSS 1000, a send buffer of
100000 bytes, windows of 5000 bytes, Nagle off, no timestamps, no TSO. -/
def pcb_idle : tcp_pcb :=
  { private_state := tcp_state.ESTABLISHED, is_last_seg_dropped := false,
    local_port := 1024, remote_port := 80, rcv_ann_wnd := 65535, flags := TF_NODELAY,
    rcv_nxt := 7000, rcv_ann_right_edge := 72535, rtime := -1, mss := 1000, advtsd_mss := 1000,
    rttest := 0, rtseq := 0, ticks_since_data_sent := -1, nrtx := 0, lastack := 5000,
    cwnd := 5000, ssthresh := 65535, snd_nxt := 5000, snd_wnd := 5000, snd_wnd_max := 65535,
    snd_lbb := 5000, snd_buf := 100000, max_snd_buff := 100000, snd_sml_snt := 0,
    snd_sml_add := 0, snd_queuelen := 0, unsent_oversize := 0, tcp_oversize_val := 1000,
    max_unsent_len := 1600, unsent := [], last_unsent := none, unacked := [],
    last_unacked := none, seg_alloc := none, pbuf_alloc := none, enable_ts_opt := false,
    ts_lastacksent := 0, ts_recent := 0, snd_scale := 0, rcv_scale := 0, is_in_input := false,
    tso := { max_buf_sz := 0, max_payload_sz := 0, max_header_sz := 0, max_send_sge := 8 },
    max_send_sge := 8 }

/-- Hooks that never fail: ten segment records at addresses 100, 200, ...
and ten buffers at addresses 10000, 20000, ... -/
def world_ok : World :=
  { seg_allocs := (List.range 10).map (fun i => some (100 * (i + 1))),
    pbuf_allocs := (List.range 10).map (fun i => some (10000 * ((i : Int) + 1))),
    ip_results := [], preadv_results := [], calls := [] }

/-- Hooks whose allocators are exhausted. -/
def world_empty : World :=
  { seg_allocs := [], pbuf_allocs := [], ip_results := [], preadv_results := [], calls := [] }

/-- Settings with the push policy on and 4-byte alignment. -/
def cfg_push : Config :=
  { enable_push_flag := true, enable_wnd_scale := false, lwip_zc_tx_size := 65535,
    mem_alignment := 4, tcp_ticks := 1 }

/-- The states in which `tcp_write` accepts data. -/
def writable (pcb : tcp_pcb) : Prop :=
  get_tcp_state pcb = tcp_state.ESTABLISHED ∨ get_tcp_state pcb = tcp_state.CLOSE_WAIT ∨
  get_tcp_state pcb = tcp_state.SYN_SENT ∨ get_tcp_state pcb = tcp_state.SYN_RCVD

/-! ## Bit-set lemmas -/

theorem land_lor_self (a m : Nat) : (a ||| m) &&& m = m := by
  apply Nat.eq_of_testBit_eq
  intro i
  simp only [Nat.testBit_and, Nat.testBit_or]
  cases a.testBit i <;> cases m.testBit i <;> rfl

theorem has_lor_self (a m : Nat) (hm : m ≠ 0) : has (a ||| m) m = true := by
  simp [has, land_lor_self, hm]


/-! ## The pre-conditions of `tcp_write` -/

theorem write_sml_add_state (pcb : tcp_pcb) (len apiflags : Nat) :
    (write_sml_add pcb len apiflags).private_state = pcb.private_state ∧
    (write_sml_add pcb len apiflags).snd_buf = pcb.snd_buf ∧
    (write_sml_add pcb len apiflags).snd_queuelen = pcb.snd_queuelen ∧
    (write_sml_add pcb len apiflags).max_unsent_len = pcb.max_unsent_len ∧
    (write_sml_add pcb len apiflags).flags = pcb.flags := by
  unfold write_sml_add
  dsimp only
  split <;> simp

/-- The result of `tcp_write` when the checks reject the call is the result
of the checks. -/
theorem tcp_write_of_checks_fail (cfg : Config) (pcb : tcp_pcb) (w : World) (arg : Int)
    (len apiflags : Nat) (harg : arg ≠ 0)
    (h : (tcp_write_checks (write_sml_add pcb len apiflags) len).1 ≠ err_t.ERR_OK) :
    tcp_write cfg pcb w arg len apiflags =
      ((tcp_write_checks (write_sml_add pcb len apiflags) len).1,
       (tcp_write_checks (write_sml_add pcb len apiflags) len).2, w) := by
  unfold tcp_write tcp_write_begin
  simp only [harg, if_false]
  simp [h]

/-- When the checks pass, `tcp_write` returns `ERR_OK` or `ERR_MEM`. -/
theorem tcp_write_of_checks_ok (cfg : Config) (pcb : tcp_pcb) (w : World) (arg : Int)
    (len apiflags : Nat) (harg : arg ≠ 0)
    (h : (tcp_write_checks (write_sml_add pcb len apiflags) len).1 = err_t.ERR_OK) :
    (tcp_write cfg pcb w arg len apiflags).1 = err_t.ERR_OK ∨
    (tcp_write cfg pcb w arg len apiflags).1 = err_t.ERR_MEM := by
  unfold tcp_write
  cases hb : tcp_write_begin cfg pcb w arg len apiflags with
  | inl r =>
    unfold tcp_write_begin at hb
    simp only [harg, if_false, h, ne_eq, not_true_eq_false] at hb
    split at hb
    · cases hb
      right; rfl
    · cases hb
  | inr ct =>
    obtain ⟨c, t⟩ := ct
    dsimp only
    unfold tcp_write_end
    split
    · right; rfl
    · left; rfl

/-- Claim C1: for a non-null data pointer `tcp_write` decides its
pre-conditions in this order.  It returns `ERR_CONN` exactly when the state
is none of `ESTABLISHED`, `CLOSE_WAIT`, `SYN_SENT`, `SYN_RCVD`; otherwise a
`len` of 0 passes the checks; otherwise `len > snd_buf` gives `ERR_MEM` with
`TF_NAGLEMEMERR` set; otherwise a queue length at or above `max_unsent_len`
or above the overflow mark gives `ERR_MEM` with `TF_NAGLEMEMERR` set;
otherwise the checks pass. -/
theorem tcp_write_precondition_order (cfg : Config) (pcb : tcp_pcb) (w : World) (arg : Int)
    (len apiflags : Nat) (harg : arg ≠ 0) :
    ((tcp_write cfg pcb w arg len apiflags).1 = err_t.ERR_CONN ↔ ¬ writable pcb) ∧
    (writable pcb → len = 0 →
      tcp_write_checks (write_sml_add pcb len apiflags) len =
        (err_t.ERR_OK, write_sml_add pcb len apiflags)) ∧
    (writable pcb → len ≠ 0 → len > pcb.snd_buf →
      (tcp_write cfg pcb w arg len apiflags).1 = err_t.ERR_MEM ∧
      has (tcp_write cfg pcb w arg len apiflags).2.1.flags TF_NAGLEMEMERR = true) ∧
    (writable pcb → len ≠ 0 → len ≤ pcb.snd_buf →
      (pcb.snd_queuelen ≥ pcb.max_unsent_len ∨ pcb.snd_queuelen > 0xFFFFFF - 3) →
      (tcp_write cfg pcb w arg len apiflags).1 = err_t.ERR_MEM ∧
      has (tcp_write cfg pcb w arg len apiflags).2.1.flags TF_NAGLEMEMERR = true) ∧
    (writable pcb → len ≠ 0 → len ≤ pcb.snd_buf →
      ¬ (pcb.snd_queuelen ≥ pcb.max_unsent_len ∨ pcb.snd_queuelen > 0xFFFFFF - 3) →
      tcp_write_checks (write_sml_add pcb len apiflags) len =
        (err_t.ERR_OK, write_sml_add pcb len apiflags)) := by
  obtain ⟨hst, hbuf, hq, hmax, hfl⟩ := write_sml_add_state pcb len apiflags
  have hw : writable pcb ↔
      ¬ (get_tcp_state (write_sml_add pcb len apiflags) ≠ tcp_state.ESTABLISHED ∧
         get_tcp_state (write_sml_add pcb len apiflags) ≠ tcp_state.CLOSE_WAIT ∧
         get_tcp_state (write_sml_add pcb len apiflags) ≠ tcp_state.SYN_SENT ∧
         get_tcp_state (write_sml_add pcb len apiflags) ≠ tcp_state.SYN_RCVD) := by
    unfold writable get_tcp_state
    rw [hst]
    tauto
  refine ⟨?_, ?_, ?_, ?_, ?_⟩
  · constructor
    · intro h hwr
      have hc : (tcp_write_checks (write_sml_add pcb len apiflags) len).1 ≠ err_t.ERR_CONN := by
        unfold tcp_write_checks
        rw [if_neg (hw.mp hwr)]
        split
        · simp
        · split
          · simp
          · split <;> simp
      by_cases hok : (tcp_write_checks (write_sml_add pcb len apiflags) len).1 = err_t.ERR_OK
      · rcases tcp_write_of_checks_ok cfg pcb w arg len apiflags harg hok with h1 | h1 <;>
          rw [h1] at h <;> cases h
      · rw [tcp_write_of_checks_fail cfg pcb w arg len apiflags harg hok] at h
        exact hc h
    · intro hnw
      have hc : tcp_write_checks (write_sml_add pcb len apiflags) len =
          (err_t.ERR_CONN, write_sml_add pcb len apiflags) := by
        unfold tcp_write_checks
        rw [if_pos (by_contra (fun hh => hnw (hw.mpr hh)))]
      rw [tcp_write_of_checks_fail cfg pcb w arg len apiflags harg (by rw [hc]; simp), hc]
  · intro hwr h0
    unfold tcp_write_checks
    rw [if_neg (hw.mp hwr), if_pos h0]
  · intro hwr h0 hgt
    have hc : tcp_write_checks (write_sml_add pcb len apiflags) len =
        (err_t.ERR_MEM, { write_sml_add pcb len apiflags with
            flags := (write_sml_add pcb len apiflags).flags ||| TF_NAGLEMEMERR }) := by
      unfold tcp_write_checks
      rw [if_neg (hw.mp hwr), if_neg h0, if_pos (by rw [hbuf]; exact hgt)]
    rw [tcp_write_of_checks_fail cfg pcb w arg len apiflags harg (by rw [hc]; simp), hc]
    exact ⟨rfl, has_lor_self _ _ (by decide)⟩
  · intro hwr h0 hle hql
    have hc : tcp_write_checks (write_sml_add pcb len apiflags) len =
        (err_t.ERR_MEM, { write_sml_add pcb len apiflags with
            flags := (write_sml_add pcb len apiflags).flags ||| TF_NAGLEMEMERR }) := by
      unfold tcp_write_checks
      rw [if_neg (hw.mp hwr), if_neg h0, if_neg (by rw [hbuf]; omega),
        if_pos (by rw [hq, hmax]; exact hql)]
    rw [tcp_write_of_checks_fail cfg pcb w arg len apiflags harg (by rw [hc]; simp), hc]
    exact ⟨rfl, has_lor_self _ _ (by decide)⟩
  · intro hwr h0 hle hql
    unfold tcp_write_checks
    rw [if_neg (hw.mp hwr), if_neg h0, if_neg (by rw [hbuf]; omega),
      if_neg (by rw [hq, hmax]; exact hql)]

/-- Witness for C1: a write of 2500 bytes on the idle connection. -/
theorem tcp_write_precondition_order_witness :
    ((1 : Int) ≠ 0) ∧
    (((tcp_write cfg_push pcb_idle world_ok 1 2500 1).1 = err_t.ERR_CONN ↔ ¬ writable pcb_idle) ∧
    (writable pcb_idle → 2500 = 0 →
      tcp_write_checks (write_sml_add pcb_idle 2500 1) 2500 =
        (err_t.ERR_OK, write_sml_add pcb_idle 2500 1)) ∧
    (writable pcb_idle → 2500 ≠ 0 → 2500 > pcb_idle.snd_buf →
      (tcp_write cfg_push pcb_idle world_ok 1 2500 1).1 = err_t.ERR_MEM ∧
      has (tcp_write cfg_push pcb_idle world_ok 1 2500 1).2.1.flags TF_NAGLEMEMERR = true) ∧
    (writable pcb_idle → 2500 ≠ 0 → 2500 ≤ pcb_idle.snd_buf →
      (pcb_idle.snd_queuelen ≥ pcb_idle.max_unsent_len ∨ pcb_idle.snd_queuelen > 0xFFFFFF - 3) →
      (tcp_write cfg_push pcb_idle world_ok 1 2500 1).1 = err_t.ERR_MEM ∧
      has (tcp_write cfg_push pcb_idle world_ok 1 2500 1).2.1.flags TF_NAGLEMEMERR = true) ∧
    (writable pcb_idle → 2500 ≠ 0 → 2500 ≤ pcb_idle.snd_buf →
      ¬ (pcb_idle.snd_queuelen ≥ pcb_idle.max_unsent_len ∨
          pcb_idle.snd_queuelen > 0xFFFFFF - 3) →
      tcp_write_checks (write_sml_add pcb_idle 2500 1) 2500 =
        (err_t.ERR_OK, write_sml_add pcb_idle 2500 1))) :=
  ⟨by decide, tcp_write_precondition_order cfg_push pcb_idle world_ok 1 2500 1 (by decide)⟩

/-! ## Evaluation of `tcp_write` -/

/-- When `n` passes suffice, the bounded loop computes `tcp_write_segments`. -/
theorem tcp_write_segments_eq_fuel (n : Nat) (c : write_ctx) (s : write_state)
    (r : Bool × write_state) (h : tcp_write_segments_fuel n c s = some r) :
    tcp_write_segments c s = r := by
  induction n generalizing s with
  | zero => simp [tcp_write_segments_fuel] at h
  | succ n ih =>
    rw [tcp_write_segments]
    rw [tcp_write_segments_fuel] at h
    split
    · rename_i r1 heq
      rw [heq] at h
      simpa using h
    · rename_i s1 heq
      rw [heq] at h
      exact ih s1 h

/-- When `n` passes suffice, `tcp_write_fuel` computes `tcp_write`. -/
theorem tcp_write_eq_fuel (n : Nat) (cfg : Config) (pcb : tcp_pcb) (w : World) (arg : Int)
    (len apiflags : Nat) (r : err_t × tcp_pcb × World)
    (h : tcp_write_fuel n cfg pcb w arg len apiflags = some r) :
    tcp_write cfg pcb w arg len apiflags = r := by
  unfold tcp_write
  unfold tcp_write_fuel at h
  cases hb : tcp_write_begin cfg pcb w arg len apiflags with
  | inl r0 =>
    rw [hb] at h
    simpa using h
  | inr ct =>
    obtain ⟨c, t⟩ := ct
    rw [hb] at h
    dsimp only at h ⊢
    cases hl : tcp_write_segments_fuel n c (write_init t) with
    | none => rw [hl] at h; simp at h
    | some r1 =>
      rw [hl] at h
      rw [tcp_write_segments_eq_fuel n c _ r1 hl]
      simpa using h

/-- An observation `f` of the result of `tcp_write`, computed with the
bounded loop. -/
theorem tcp_write_observe {α : Type} (f : err_t × tcp_pcb × World → α) (n : Nat) (cfg : Config)
    (pcb : tcp_pcb) (w : World) (arg : Int) (len apiflags : Nat) (a : α)
    (h : (tcp_write_fuel n cfg pcb w arg len apiflags).map f = some a) :
    f (tcp_write cfg pcb w arg len apiflags) = a := by
  cases hf : tcp_write_fuel n cfg pcb w arg len apiflags with
  | none => rw [hf] at h; simp at h
  | some r =>
    rw [hf] at h
    rw [tcp_write_eq_fuel n cfg pcb w arg len apiflags r hf]
    simpa using h

/-- A connection with the timestamp option on whose peer never announced
more than 10 bytes of window. -/
def pcb_ts_tiny : tcp_pcb :=
  { pcb_idle with flags := TF_NODELAY ||| TF_TIMESTAMP, snd_wnd_max := 10 }

/-- Sum of the payload lengths of a queue. -/
def queue_bytes (q : List tcp_seg) : Nat := (q.map (fun s => s.len)).sum

/-- Claim C2, the code at the failing input.  With the timestamp option on
and `snd_wnd_max = 10` the size goal is 5, below the 12 option bytes, so the
16-bit `mss_local - optlen` wraps to 65529.  A write of 65529 bytes then
returns `ERR_OK` and advances `snd_lbb` by 65529 and lowers `snd_buf` by
65529, but queues a single segment whose `len` is `5 - 12` in 32 bits,
4294967289: the bytes queued on `unsent` do not grow by `len`. -/
theorem tcp_write_byte_count_wraps :
    (tcp_write cfg_push pcb_ts_tiny world_ok 1 65529 1).1 = err_t.ERR_OK ∧
    (tcp_write cfg_push pcb_ts_tiny world_ok 1 65529 1).2.1.snd_lbb = pcb_ts_tiny.snd_lbb + 65529 ∧
    (tcp_write cfg_push pcb_ts_tiny world_ok 1 65529 1).2.1.snd_buf + 65529 = pcb_ts_tiny.snd_buf ∧
    queue_bytes (tcp_write cfg_push pcb_ts_tiny world_ok 1 65529 1).2.1.unsent =
      queue_bytes pcb_ts_tiny.unsent + 4294967289 ∧
    queue_bytes (tcp_write cfg_push pcb_ts_tiny world_ok 1 65529 1).2.1.unsent ≠
      queue_bytes pcb_ts_tiny.unsent + 65529 := by
  have h := tcp_write_observe
    (fun r => (r.1, r.2.1.snd_lbb, r.2.1.snd_buf, queue_bytes r.2.1.unsent))
    3 cfg_push pcb_ts_tiny world_ok 1 65529 1 (err_t.ERR_OK, 70529, 34471, 4294967289) (by decide)
  simp only [Prod.mk.injEq] at h
  obtain ⟨h1, h2, h3, h4⟩ := h
  rw [h1, h2, h3, h4]
  decide

/-! ## Reasoning about the loop of phase 3 -/

/-- Loop rule for phase 3: a property kept by every pass that goes on, and
turned into `Q` by the pass that leaves the loop, gives `Q` for the result. -/
theorem tcp_write_segments_rule (c : write_ctx) (P : write_state → Prop)
    (Q : Bool × write_state → Prop)
    (hstep : ∀ s s1, P s → write_pass c s = Sum.inr s1 → P s1)
    (hstop : ∀ s r, P s → write_pass c s = Sum.inl r → Q r) :
    ∀ s, P s → Q (tcp_write_segments c s) := by
  intro s
  induction s using tcp_write_segments.induct c with
  | case1 s r h =>
    intro hp
    rw [tcp_write_segments]
    split
    · rename_i r1 heq
      exact hstop s r1 hp heq
    · rename_i s1 heq
      rw [h] at heq
      cases heq
  | case2 s s1 h ih =>
    intro hp
    rw [tcp_write_segments]
    split
    · rename_i r1 heq
      rw [h] at heq
      cases heq
    · rename_i s2 heq
      rw [h] at heq
      cases heq
      exact ih (hstep s s1 hp h)

/-! ## What the allocators leave alone -/

/-- The PCB without its two prefetch slots. -/
def frame_alloc (pcb : tcp_pcb) : tcp_pcb := { pcb with seg_alloc := none, pbuf_alloc := none }

theorem tcp_tx_pbuf_alloc_frame (pcb : tcp_pcb) (w : World) (n : Nat) (t : pbuf_type) :
    frame_alloc (tcp_tx_pbuf_alloc pcb w n t).2.1 = frame_alloc pcb := by
  unfold tcp_tx_pbuf_alloc
  repeat' split
  all_goals rfl

theorem tcp_tx_pbuf_alloc_some (pcb : tcp_pcb) (w : World) (n : Nat) (t : pbuf_type) (b : pbuf)
    (pcb1 : tcp_pcb) (w1 : World) (h : tcp_tx_pbuf_alloc pcb w n t = (some b, pcb1, w1)) :
    b.len = u32 n ∧ b.tot_len = u32 n ∧ b.type = t := by
  unfold tcp_tx_pbuf_alloc at h
  repeat' split at h
  all_goals
    simp only [Prod.mk.injEq, Option.some.injEq] at h
    try (obtain ⟨rfl, -, -⟩ := h)
  all_goals first
    | exact ⟨rfl, rfl, rfl⟩
    | exact ⟨rfl, rfl, by assumption⟩
    | (exact absurd h.1 (by simp))

theorem take_seg_frame (pcb : tcp_pcb) (w : World) :
    frame_alloc (take_seg pcb w).2.1 = frame_alloc pcb := by
  unfold take_seg
  repeat' split
  all_goals rfl

theorem tcp_create_segment_frame (pcb : tcp_pcb) (w : World) (p : List pbuf)
    (flags seqno optflags : Nat) :
    frame_alloc (tcp_create_segment pcb w p flags seqno optflags).2.1 = frame_alloc pcb := by
  have h := take_seg_frame pcb w
  unfold tcp_create_segment
  dsimp only
  repeat' split
  all_goals simp_all

theorem tcp_pbuf_prealloc_frame (cfg : Config) (pcb : tcp_pcb) (w : World) (length max_length : Nat)
    (t : pbuf_type) (more : Nat) (first_seg : Bool) :
    frame_alloc (tcp_pbuf_prealloc cfg pcb w length max_length t more first_seg).2.1 =
      frame_alloc pcb := by
  unfold tcp_pbuf_prealloc
  dsimp only
  split
  · rename_i heq
    exact (congrArg (fun r => frame_alloc r.2.1) heq).symm.trans (tcp_tx_pbuf_alloc_frame _ _ _ _)
  · rename_i heq
    exact (congrArg (fun r => frame_alloc r.2.1) heq).symm.trans (tcp_tx_pbuf_alloc_frame _ _ _ _)

/-- The PCB without the fields that a call of `tcp_write` may set before it
commits: the prefetch slots, `snd_sml_add`, `last_unsent` and
`unsent_oversize`. -/
def frame_write (pcb : tcp_pcb) : tcp_pcb :=
  { frame_alloc pcb with snd_sml_add := 0, last_unsent := none, unsent_oversize := 0 }

theorem frame_write_of_frame_alloc (a b : tcp_pcb) (h : frame_alloc a = frame_alloc b) :
    frame_write a = frame_write b := by
  have h1 := congrArg (fun p : tcp_pcb =>
    ({ p with snd_sml_add := 0, last_unsent := none, unsent_oversize := 0 } : tcp_pcb)) h
  exact h1

/-- What a successful `tcp_pbuf_prealloc` returns: a buffer trimmed to the
16-bit `length`. -/
theorem tcp_pbuf_prealloc_some (cfg : Config) (pcb : tcp_pcb) (w : World) (length max_length : Nat)
    (t : pbuf_type) (more : Nat) (first_seg : Bool) (b : pbuf) (ov : Nat) (pcb1 : tcp_pcb)
    (w1 : World)
    (h : tcp_pbuf_prealloc cfg pcb w length max_length t more first_seg = (some (b, ov), pcb1, w1)) :
    b.len = u16 length ∧ b.tot_len = u16 length ∧ b.type = t := by
  unfold tcp_pbuf_prealloc at h
  dsimp only at h
  split at h
  · simp at h
  · rename_i b0 pcb0 w0 heq
    have hb := tcp_tx_pbuf_alloc_some _ _ _ _ _ _ _ heq
    simp only [Prod.mk.injEq, Option.some.injEq] at h
    obtain ⟨⟨rfl, -⟩, -, -⟩ := h
    exact ⟨rfl, rfl, hb.2.2⟩

/-- What a successful `tcp_create_segment` returns for a chain of one `RAM`
or zero-copy buffer. -/
theorem tcp_create_segment_some (pcb : tcp_pcb) (w : World) (b : pbuf) (flags seqno optflags : Nat)
    (seg : tcp_seg) (pcb1 : tcp_pcb) (w1 : World)
    (h : tcp_create_segment pcb w [b] flags seqno optflags = (some seg, pcb1, w1)) :
    seg.seqno = seqno ∧ seg.flags = optflags ∧ seg.hdr.flags = flags ∧ seg.tcphdr ≠ none ∧
    seg.p.length = 1 ∧
    seg.len = (if has optflags TF_SEG_OPTS_ZEROCOPY then b.tot_len
               else sub32 b.tot_len (u8 (LWIP_TCP_OPT_LENGTH optflags))) := by
  unfold tcp_create_segment at h
  cases hts : take_seg pcb w with
  | mk o rest =>
    cases o with
    | none => simp [hts] at h
    | some s0 =>
      simp only [hts] at h
      by_cases hz : has optflags TF_SEG_OPTS_ZEROCOPY = true
      · simp [hz, set_tcphdr] at h
        obtain ⟨rfl, -⟩ := h
        simp [hz, chain_tot_len]
      · by_cases ht : b.type = pbuf_type.PBUF_RAM
        · simp [hz, ht, pbuf_header, set_tcphdr] at h
          obtain ⟨rfl, -⟩ := h
          simp [hz, chain_tot_len]
        · simp [hz, ht, pbuf_header] at h

/-- A pass of phase 3 that leaves the loop: only the prefetch slots of the
PCB may have changed, and the loop is left with success only when
`pos < len` fails, without any change. -/
theorem write_pass_inl (c : write_ctx) (s : write_state) (r : Bool × write_state)
    (h : write_pass c s = Sum.inl r) :
    frame_alloc r.2.pcb = frame_alloc s.pcb ∧ r.2.queue = s.queue ∧
    (r.1 = true → r.2 = s ∧ ¬ s.pos < c.len) := by
  unfold write_pass at h
  split at h
  · split at h
    · rename_i pcb1 w1 heq
      cases h
      have hf : frame_alloc pcb1 = frame_alloc s.pcb :=
        (congrArg (fun r => frame_alloc r.2.1) heq).symm.trans
          (tcp_pbuf_prealloc_frame _ _ _ _ _ _ _ _)
      exact ⟨hf, rfl, by simp⟩
    · rename_i b ov pcb1 w1 heq
      have hf : frame_alloc pcb1 = frame_alloc s.pcb :=
        (congrArg (fun r => frame_alloc r.2.1) heq).symm.trans
          (tcp_pbuf_prealloc_frame _ _ _ _ _ _ _ _)
      split at h
      · cases h
        exact ⟨hf, rfl, by simp⟩
      · split at h
        · cases h
          exact ⟨hf, rfl, by simp⟩
        · split at h
          · rename_i pcb2 w3 heq2
            cases h
            have hc : frame_alloc pcb2 = frame_alloc pcb1 :=
              (congrArg (fun r => frame_alloc r.2.1) heq2).symm.trans
                (tcp_create_segment_frame _ _ _ _ _ _)
            exact ⟨hc.trans hf, rfl, by simp⟩
          · cases h
  · rename_i hlt
    cases h
    exact ⟨rfl, rfl, fun _ => ⟨rfl, hlt⟩⟩

/-- A pass of phase 3 that goes on: one segment of `seglen` bytes at
`snd_lbb + pos` has been appended to the local queue. -/
theorem write_pass_inr (c : write_ctx) (s s1 : write_state) (h : write_pass c s = Sum.inr s1) :
    s.pos < c.len ∧ frame_alloc s1.pcb = frame_alloc s.pcb ∧
    s1.pos = u32 (s.pos + write_seglen c s) ∧ s1.queuelen = u32 (s.queuelen + 1) ∧
    ∃ seg, s1.queue = s.queue ++ [seg] ∧
      seg.seqno = add32 s.pcb.snd_lbb s.pos ∧ seg.flags = c.optflags ∧ seg.hdr.flags = 0 ∧
      seg.tcphdr ≠ none ∧ seg.p.length = 1 ∧
      seg.len = (if has c.optflags TF_SEG_OPTS_ZEROCOPY then u16 (write_seglen c s + c.optlen)
                 else sub32 (u16 (write_seglen c s + c.optlen))
                        (u8 (LWIP_TCP_OPT_LENGTH c.optflags))) := by
  unfold write_pass at h
  split at h
  · rename_i hlt
    split at h
    · cases h
    · rename_i b ov pcb1 w1 heq
      have hf : frame_alloc pcb1 = frame_alloc s.pcb :=
        (congrArg (fun r => frame_alloc r.2.1) heq).symm.trans
          (tcp_pbuf_prealloc_frame _ _ _ _ _ _ _ _)
      have hb := tcp_pbuf_prealloc_some _ _ _ _ _ _ _ _ _ _ _ _ heq
      split at h
      · cases h
      · split at h
        · cases h
        · split at h
          · cases h
          · rename_i seg pcb2 w3 heq2
            cases h
            have hc : frame_alloc pcb2 = frame_alloc pcb1 :=
              (congrArg (fun r => frame_alloc r.2.1) heq2).symm.trans
                (tcp_create_segment_frame _ _ _ _ _ _)
            have hs := tcp_create_segment_some _ _ _ _ _ _ _ _ _ heq2
            have hlbb : pcb1.snd_lbb = s.pcb.snd_lbb := by
              have h1 := congrArg tcp_pcb.snd_lbb hf
              exact h1
            have htot : (write_payload c s b).tot_len = u16 (write_seglen c s + c.optlen) := by
              unfold write_payload
              split
              · exact hb.2.1
              · exact hb.2.1
            refine ⟨hlt, hc.trans hf, rfl, rfl, seg, rfl, ?_, hs.2.1, hs.2.2.1, hs.2.2.2.1,
              hs.2.2.2.2.1, ?_⟩
            · rw [hs.1, hlbb]
            · rw [hs.2.2.2.2.2, htot]
  · cases h

/-! ## The shape of a call of `tcp_write` -/

/-- The option flags that `tcp_write` gives to the segments it creates. -/
def write_optflags (pcb : tcp_pcb) (apiflags : Nat) : Nat :=
  (if has apiflags TCP_WRITE_DUMMY then TF_SEG_OPTS_DUMMY_MSG else 0) |||
  (if has apiflags TCP_WRITE_ZEROCOPY then TF_SEG_OPTS_ZEROCOPY else 0) |||
  (if has pcb.flags TF_TIMESTAMP then TF_SEG_OPTS_TS else 0)

/-- The per-call `mss_local` of `tcp_write`. -/
def write_mss_local (cfg : Config) (pcb : tcp_pcb) (apiflags : Nat) : Nat :=
  if has apiflags TCP_WRITE_ZEROCOPY then u16 cfg.lwip_zc_tx_size else tcp_xmit_size_goal pcb true

theorem tcp_write_checks_ok (pcb : tcp_pcb) (len : Nat)
    (h : (tcp_write_checks pcb len).1 = err_t.ERR_OK) :
    tcp_write_checks pcb len = (err_t.ERR_OK, pcb) ∧ (len = 0 ∨ len ≤ pcb.snd_buf) := by
  unfold tcp_write_checks at h ⊢
  split
  · rw [if_pos ‹_›] at h; cases h
  · split
    · exact ⟨rfl, Or.inl ‹_›⟩
    · split
      · rw [if_neg ‹_›, if_neg ‹_›, if_pos ‹_›] at h; cases h
      · split
        · rw [if_neg ‹_›, if_neg ‹_›, if_neg ‹_›, if_pos ‹_›] at h; cases h
        · exact ⟨rfl, Or.inr (by omega)⟩

theorem tcp_write_checks_frame (pcb : tcp_pcb) (len : Nat) :
    (tcp_write_checks pcb len).2 = pcb ∨
    ((tcp_write_checks pcb len).1 = err_t.ERR_MEM ∧
     (tcp_write_checks pcb len).2 = { pcb with flags := pcb.flags ||| TF_NAGLEMEMERR }) := by
  unfold tcp_write_checks
  repeat' split
  all_goals first
    | exact Or.inl rfl
    | exact Or.inr ⟨rfl, rfl⟩

theorem write_sml_add_frame (pcb : tcp_pcb) (len apiflags : Nat) :
    { write_sml_add pcb len apiflags with snd_sml_add := pcb.snd_sml_add } = pcb := by
  unfold write_sml_add
  dsimp only
  split <;> rfl

/-- A call of `tcp_write` that enters phase 3: the argument is not null,
the checks have passed and phases 1 and 2 have succeeded. -/
theorem tcp_write_begin_inr (cfg : Config) (pcb : tcp_pcb) (w : World) (arg : Int)
    (len apiflags : Nat) (c : write_ctx) (t : tail_state)
    (h : tcp_write_begin cfg pcb w arg len apiflags = Sum.inr (c, t)) :
    arg ≠ 0 ∧ (len = 0 ∨ len ≤ pcb.snd_buf) ∧
    tcp_write_tail cfg (write_sml_add pcb len apiflags) w arg len apiflags
      (write_mss_local cfg pcb apiflags)
      (if has apiflags TCP_WRITE_ZEROCOPY then pbuf_type.PBUF_ZEROCOPY else pbuf_type.PBUF_RAM) =
      (true, t) ∧
    c.cfg = cfg ∧ c.arg = arg ∧ c.len = len ∧ c.optflags = write_optflags pcb apiflags ∧
    c.optlen = (if has apiflags TCP_WRITE_ZEROCOPY then 0
                else u8 (LWIP_TCP_OPT_LENGTH (write_optflags pcb apiflags))) ∧
    c.mss_local_minus_opts = sub16 (write_mss_local cfg pcb apiflags)
      (u8 (LWIP_TCP_OPT_LENGTH (write_optflags pcb apiflags))) ∧
    c.is_zerocopy = has apiflags TCP_WRITE_ZEROCOPY := by
  unfold tcp_write_begin at h
  dsimp only at h
  by_cases harg : arg = 0
  · rw [if_pos harg] at h; cases h
  · rw [if_neg harg] at h
    by_cases hc : (tcp_write_checks (write_sml_add pcb len apiflags) len).1 = err_t.ERR_OK
    · obtain ⟨hc1, hc2⟩ := tcp_write_checks_ok _ _ hc
      have hfl : (write_sml_add pcb len apiflags).flags = pcb.flags :=
        (write_sml_add_state pcb len apiflags).2.2.2.2
      have hbuf : (write_sml_add pcb len apiflags).snd_buf = pcb.snd_buf :=
        (write_sml_add_state pcb len apiflags).2.1
      have hmss : tcp_xmit_size_goal (write_sml_add pcb len apiflags) true =
          tcp_xmit_size_goal pcb true := by
        unfold write_sml_add tcp_xmit_size_goal tcp_tso
        dsimp only
        split <;> rfl
      rw [hc1] at h
      simp only [ne_eq, not_true_eq_false, if_false, hfl, hmss] at h
      split at h
      · cases h
      · rename_i t1 heq
        cases h
        rw [hbuf] at hc2
        refine ⟨harg, hc2, ?_, rfl, rfl, rfl, rfl, ?_, rfl, ?_⟩
        · unfold write_mss_local
          simpa using heq
        · simp [write_optflags]
        · simp
    · simp [hc] at h

/-- A successful call of `tcp_write` has gone through the three phases and
the commit. -/
theorem tcp_write_ok_shape (cfg : Config) (pcb : tcp_pcb) (w : World) (arg : Int)
    (len apiflags : Nat) (hok : (tcp_write cfg pcb w arg len apiflags).1 = err_t.ERR_OK) :
    ∃ c t s, tcp_write_begin cfg pcb w arg len apiflags = Sum.inr (c, t) ∧
      tcp_write_segments c (write_init t) = (true, s) ∧
      tcp_write cfg pcb w arg len apiflags = (err_t.ERR_OK, tcp_write_commit cfg t s len, s.w) := by
  unfold tcp_write at hok ⊢
  cases hb : tcp_write_begin cfg pcb w arg len apiflags with
  | inl r =>
    rw [hb] at hok
    dsimp only at hok
    unfold tcp_write_begin at hb
    dsimp only at hb
    split at hb
    · cases hb; cases hok
    · split at hb
      · rename_i hne
        cases hb
        exact absurd hok hne
      · split at hb
        · cases hb; cases hok
        · cases hb
  | inr ct =>
    obtain ⟨c, t⟩ := ct
    rw [hb] at hok
    dsimp only at hok ⊢
    cases hl : tcp_write_segments c (write_init t) with
    | mk ok s =>
      rw [hl] at hok
      cases ok with
      | false => simp [tcp_write_end] at hok
      | true => exact ⟨c, t, s, rfl, hl, rfl⟩

/-- Phases 1 and 2 on an empty `unsent` queue do nothing but reset
`last_unsent`. -/
theorem tcp_write_tail_empty (cfg : Config) (pcb : tcp_pcb) (w : World) (arg : Int)
    (len apiflags mss_local : Nat) (type : pbuf_type) (h : pcb.unsent = []) :
    tcp_write_tail cfg pcb w arg len apiflags mss_local type =
      (true, { pos := 0, queuelen := pcb.snd_queuelen, oversize := 0, oversize_used := 0,
               concat_p := none, pcb := { pcb with last_unsent := none }, w := w }) := by
  unfold tcp_write_tail
  simp [queue_tail, h]

/-! ## Phase 3 cuts the data into chunks -/

/-- The sequence number and length of a segment. -/
def seg_view (s : tcp_seg) : Nat × Nat := (s.seqno, s.len)

/-- The `k`-th chunk of a write of `len` bytes at `lbb` cut in pieces of
`chunk` bytes: its sequence number and its length. -/
def chunk_view (lbb len chunk k : Nat) : Nat × Nat :=
  (add32 lbb (k * chunk), min chunk (len - k * chunk))

/-- The invariant of phase 3 for a copying write whose `chunk` is positive. -/
def chunk_inv (c : write_ctx) (pcb0 : tcp_pcb) (chunk : Nat) (s : write_state) : Prop :=
  frame_alloc s.pcb = frame_alloc pcb0 ∧
  s.pos = min c.len (s.queue.length * chunk) ∧
  s.queue.map seg_view = (List.range s.queue.length).map (chunk_view pcb0.snd_lbb c.len chunk) ∧
  (∀ seg ∈ s.queue, seg.tcphdr ≠ none ∧ seg.hdr.flags = 0 ∧ seg.flags = c.optflags ∧
    seg.p.length = 1) ∧
  (s.queue.length = 0 ∨ (s.queue.length - 1) * chunk < c.len)

theorem chunk_inv_step (c : write_ctx) (pcb0 : tcp_pcb) (chunk : Nat)
    (hz : has c.optflags TF_SEG_OPTS_ZEROCOPY = false)
    (hoptlen : c.optlen = u8 (LWIP_TCP_OPT_LENGTH c.optflags))
    (hchunk : c.mss_local_minus_opts = chunk) (hfit : chunk + c.optlen < 65536)
    (hlen : c.len < 4294967296) (s s1 : write_state) (hinv : chunk_inv c pcb0 chunk s)
    (h : write_pass c s = Sum.inr s1) : chunk_inv c pcb0 chunk s1 := by
  obtain ⟨hfr, hpos, hmap, hall, hlast⟩ := hinv
  obtain ⟨hlt, hfr1, hpos1, -, seg, hq, hseq, hfl, hhf, hth, hpl, hsl⟩ := write_pass_inr c s s1 h
  have hlbb : s.pcb.snd_lbb = pcb0.snd_lbb := by
    have h1 := congrArg tcp_pcb.snd_lbb hfr
    exact h1
  have hM : s.pos = s.queue.length * chunk ∧ s.queue.length * chunk < c.len := by
    constructor <;> omega
  have hsub : sub32 c.len s.pos = c.len - s.pos := by
    unfold sub32; omega
  have hseglen : write_seglen c s = min chunk (c.len - s.pos) := by
    unfold write_seglen
    rw [hsub, hchunk]
    unfold u16
    split <;> omega
  have hseg_len : seg.len = min chunk (c.len - s.pos) := by
    rw [hsl, hz, hseglen, ← hoptlen]
    simp only [Bool.false_eq_true, if_false]
    unfold sub32 u16
    omega
  refine ⟨hfr1.trans hfr, ?_, ?_, ?_, ?_⟩
  · rw [hpos1, hseglen, hq, List.length_append, List.length_singleton, Nat.add_mul, one_mul]
    unfold u32
    omega
  · rw [hq, List.map_append, hmap, List.length_append, List.length_singleton, List.range_succ,
      List.map_append]
    congr 1
    simp only [List.map_cons, List.map_nil, seg_view, chunk_view]
    rw [hseq, hseg_len, hlbb, hM.1]
  · intro sg hsg
    rw [hq] at hsg
    rcases List.mem_append.mp hsg with h1 | h1
    · exact hall sg h1
    · simp only [List.mem_singleton] at h1
      subst h1
      exact ⟨hth, hhf, hfl, hpl⟩
  · right
    rw [hq, List.length_append, List.length_singleton]
    simp only [Nat.add_sub_cancel]
    exact hM.2

/-- The result of phase 3 for a copying write whose `chunk` is positive:
exactly `ceil(len / chunk)` segments, the `k`-th at `snd_lbb + k * chunk`
with `min chunk (len - k * chunk)` bytes. -/
theorem tcp_write_segments_chunks (c : write_ctx) (chunk : Nat)
    (hz : has c.optflags TF_SEG_OPTS_ZEROCOPY = false)
    (hoptlen : c.optlen = u8 (LWIP_TCP_OPT_LENGTH c.optflags))
    (hchunk : c.mss_local_minus_opts = chunk) (hpos : 0 < chunk)
    (hfit : chunk + c.optlen < 65536) (hlen0 : 0 < c.len) (hlen : c.len < 4294967296)
    (s0 s : write_state) (h0 : s0.pos = 0) (hq0 : s0.queue = [])
    (hrun : tcp_write_segments c s0 = (true, s)) :
    frame_alloc s.pcb = frame_alloc s0.pcb ∧
    s.queue.length = (c.len + chunk - 1) / chunk ∧
    s.queue.map seg_view =
      (List.range ((c.len + chunk - 1) / chunk)).map (chunk_view s0.pcb.snd_lbb c.len chunk) ∧
    (∀ seg ∈ s.queue, seg.tcphdr ≠ none ∧ seg.hdr.flags = 0 ∧ seg.flags = c.optflags ∧
      seg.p.length = 1) := by
  have hrule := tcp_write_segments_rule c (chunk_inv c s0.pcb chunk)
    (fun r => r.1 = true → chunk_inv c s0.pcb chunk r.2 ∧ ¬ r.2.pos < c.len)
    (fun s s1 hi hp => chunk_inv_step c s0.pcb chunk hz hoptlen hchunk hfit hlen s s1 hi hp)
    (fun s r hi hp ht => by
      obtain ⟨-, -, h3⟩ := write_pass_inl c s r hp
      obtain ⟨h4, h5⟩ := h3 ht
      rw [h4]
      exact ⟨hi, h5⟩)
    s0 (by
      refine ⟨rfl, ?_, ?_, ?_, ?_⟩
      · rw [h0, hq0]; simp
      · rw [hq0]; simp
      · rw [hq0]; simp
      · rw [hq0]; simp)
  rw [hrun] at hrule
  have hrule1 : chunk_inv c s0.pcb chunk s ∧ ¬ s.pos < c.len := hrule rfl
  obtain ⟨⟨hfr, hp, hmap, hall, hlast⟩, hnlt⟩ := hrule1
  have hdiv : (c.len + chunk - 1) / chunk = s.queue.length := by
    apply Nat.div_eq_of_lt_le
    · rcases hlast with h1 | h1
      · rw [h1] at hp; simp at hp; omega
      · have hm : 1 ≤ s.queue.length := by
          by_contra hc
          have : s.queue.length = 0 := by omega
          rw [this] at hp; simp at hp; omega
        have : s.queue.length * chunk = (s.queue.length - 1) * chunk + chunk := by
          rw [Nat.sub_mul, one_mul]
          have := Nat.le_mul_of_pos_left chunk hm
          omega
        omega
    · rw [Nat.succ_mul]
      omega
  rw [hdiv]
  exact ⟨hfr, rfl, hmap, hall⟩

theorem tcp_xmit_size_goal_lt (pcb : tcp_pcb) (use_max : Bool) :
    tcp_xmit_size_goal pcb use_max < 65536 := by
  unfold tcp_xmit_size_goal u16
  dsimp only
  omega

theorem set_tail_map_view (q : List tcp_seg) (l s : tcp_seg) (hl : q.getLast? = some l)
    (hv : seg_view s = seg_view l) : (set_tail q s).map seg_view = q.map seg_view := by
  have hq : q.dropLast ++ [l] = q := List.dropLast_append_getLast? l (by simp [hl])
  unfold set_tail
  conv_rhs => rw [← hq]
  simp [hv]

theorem set_tail_getLast (q : List tcp_seg) (s : tcp_seg) : (set_tail q s).getLast? = some s := by
  unfold set_tail
  simp

theorem push_last_map_view (cfg : Config) (q : List tcp_seg) :
    (push_last cfg q).map seg_view = q.map seg_view := by
  unfold push_last queue_tail
  split
  · rfl
  · rename_i seg heq
    split
    · exact set_tail_map_view q seg _ heq rfl
    · rfl

theorem push_last_getLast (cfg : Config) (q : List tcp_seg) (l : tcp_seg)
    (hl : q.getLast? = some l) :
    ∃ l1, (push_last cfg q).getLast? = some l1 ∧ l1.id = l.id ∧
      (cfg.enable_push_flag = true → l.tcphdr ≠ none → has l1.hdr.flags TCP_PSH = true) := by
  unfold push_last queue_tail
  rw [hl]
  dsimp only
  split
  · rename_i hc
    refine ⟨_, set_tail_getLast _ _, rfl, fun _ _ => ?_⟩
    exact has_lor_self _ _ (by decide)
  · rename_i hc
    refine ⟨l, hl, rfl, fun h1 h2 => ?_⟩
    exact absurd ⟨h1, h2⟩ hc

/-- Claim C3: a successful copying `tcp_write` of `len > 0` bytes on a PCB
whose `unsent` queue is empty, with `chunk = mss_local - optlen > 0`, puts
exactly `ceil(len / chunk)` segments on `unsent`; the `k`-th one starts at
`snd_lbb + k * chunk` (mod 2^32) and holds `chunk` bytes, except the last,
which holds `len - (n - 1) * chunk`; each segment ends where its successor
starts; `last_unsent` is the last new segment, and that segment carries
`TCP_PSH` when the push policy is on. -/
theorem tcp_write_segmentation (cfg : Config) (pcb : tcp_pcb) (w : World) (arg : Int)
    (len apiflags : Nat)
    (hok : (tcp_write cfg pcb w arg len apiflags).1 = err_t.ERR_OK)
    (hcopy : has apiflags TCP_WRITE_ZEROCOPY = false)
    (hempty : pcb.unsent = [])
    (hlen0 : 0 < len) (hlen : len < 4294967296)
    (hchunk : u8 (LWIP_TCP_OPT_LENGTH (write_optflags pcb apiflags)) < tcp_xmit_size_goal pcb true) :
    (tcp_write cfg pcb w arg len apiflags).2.1.unsent.length =
      (len + (tcp_xmit_size_goal pcb true - u8 (LWIP_TCP_OPT_LENGTH (write_optflags pcb apiflags)))
        - 1) /
      (tcp_xmit_size_goal pcb true - u8 (LWIP_TCP_OPT_LENGTH (write_optflags pcb apiflags))) ∧
    (tcp_write cfg pcb w arg len apiflags).2.1.unsent.map seg_view =
      (List.range ((len +
          (tcp_xmit_size_goal pcb true - u8 (LWIP_TCP_OPT_LENGTH (write_optflags pcb apiflags)))
          - 1) /
        (tcp_xmit_size_goal pcb true - u8 (LWIP_TCP_OPT_LENGTH (write_optflags pcb apiflags))))).map
        (fun k =>
          ((pcb.snd_lbb + k * (tcp_xmit_size_goal pcb true -
              u8 (LWIP_TCP_OPT_LENGTH (write_optflags pcb apiflags)))) % 4294967296,
           if k + 1 < (len + (tcp_xmit_size_goal pcb true -
                u8 (LWIP_TCP_OPT_LENGTH (write_optflags pcb apiflags))) - 1) /
              (tcp_xmit_size_goal pcb true - u8 (LWIP_TCP_OPT_LENGTH (write_optflags pcb apiflags)))
           then tcp_xmit_size_goal pcb true - u8 (LWIP_TCP_OPT_LENGTH (write_optflags pcb apiflags))
           else len - ((len + (tcp_xmit_size_goal pcb true -
                u8 (LWIP_TCP_OPT_LENGTH (write_optflags pcb apiflags))) - 1) /
              (tcp_xmit_size_goal pcb true -
                u8 (LWIP_TCP_OPT_LENGTH (write_optflags pcb apiflags))) - 1) *
              (tcp_xmit_size_goal pcb true -
                u8 (LWIP_TCP_OPT_LENGTH (write_optflags pcb apiflags))))) ∧
    (∀ k a b, (tcp_write cfg pcb w arg len apiflags).2.1.unsent[k]? = some a →
      (tcp_write cfg pcb w arg len apiflags).2.1.unsent[k + 1]? = some b →
      (a.seqno + a.len) % 4294967296 = b.seqno) ∧
    (∃ last, (tcp_write cfg pcb w arg len apiflags).2.1.unsent.getLast? = some last ∧
      (tcp_write cfg pcb w arg len apiflags).2.1.last_unsent = some last.id ∧
      (cfg.enable_push_flag = true → has last.hdr.flags TCP_PSH = true)) := by
  obtain ⟨c, t, s, hb, hl, hres⟩ := tcp_write_ok_shape cfg pcb w arg len apiflags hok
  obtain ⟨-, -, htail, -, -, hclen, hcopt, hcoptlen, hcmss, -⟩ :=
    tcp_write_begin_inr cfg pcb w arg len apiflags c t hb
  have hfr0 : (write_sml_add pcb len apiflags).unsent = pcb.unsent := by
    have h1 := congrArg tcp_pcb.unsent (write_sml_add_frame pcb len apiflags)
    exact h1
  have hlbb0 : (write_sml_add pcb len apiflags).snd_lbb = pcb.snd_lbb := by
    have h1 := congrArg tcp_pcb.snd_lbb (write_sml_add_frame pcb len apiflags)
    exact h1
  rw [tcp_write_tail_empty _ _ _ _ _ _ _ _ (hfr0.trans hempty)] at htail
  simp only [Prod.mk.injEq, true_and] at htail
  generalize hchunkdef :
    tcp_xmit_size_goal pcb true - u8 (LWIP_TCP_OPT_LENGTH (write_optflags pcb apiflags)) = chunk
    at *
  have hmsslt := tcp_xmit_size_goal_lt pcb true
  have hzc : has c.optflags TF_SEG_OPTS_ZEROCOPY = false := by
    rw [hcopt]
    unfold write_optflags
    rw [hcopy]
    simp only [Bool.false_eq_true, if_false]
    unfold has
    split <;> split <;> decide
  have hoptlen : c.optlen = u8 (LWIP_TCP_OPT_LENGTH c.optflags) := by
    rw [hcoptlen, hcopt, hcopy]
    simp
  have hcm : c.mss_local_minus_opts = chunk := by
    rw [hcmss]
    unfold write_mss_local
    rw [hcopy]
    simp only [Bool.false_eq_true, if_false]
    unfold sub16
    omega
  have hfit : chunk + c.optlen < 65536 := by
    rw [hoptlen, hcopt]
    omega
  have hinit_pos : (write_init t).pos = 0 := by rw [← htail]; rfl
  have hinit_q : (write_init t).queue = [] := rfl
  obtain ⟨hfr, hn, hmap, hall⟩ := tcp_write_segments_chunks c chunk hzc hoptlen hcm (by omega) hfit
    (by rw [hclen]; exact hlen0) (by rw [hclen]; exact hlen) (write_init t) s hinit_pos hinit_q hl
  rw [hclen] at hn hmap
  have hs_unsent : s.pcb.unsent = [] := by
    have h1 := congrArg tcp_pcb.unsent hfr
    have h2 : (write_init t).pcb.unsent = [] := by rw [← htail]; exact hfr0.trans hempty
    exact h1.trans h2
  have hs_lbb : (write_init t).pcb.snd_lbb = pcb.snd_lbb := by rw [← htail]; exact hlbb0
  rw [hs_lbb] at hmap
  have hunsent : (tcp_write cfg pcb w arg len apiflags).2.1.unsent = push_last cfg s.queue := by
    rw [hres]
    simp [tcp_write_commit, queue_tail, hs_unsent]
  have hne : s.queue ≠ [] := by
    intro hq
    rw [hq] at hn
    simp only [List.length_nil] at hn
    have := (Nat.div_eq_zero_iff (by omega : 0 < chunk)).mp hn.symm
    omega
  obtain ⟨last, hlast⟩ : ∃ last, s.queue.getLast? = some last := by
    cases hq : s.queue.getLast? with
    | none => exact absurd (List.getLast?_eq_none_iff.mp hq) hne
    | some l => exact ⟨l, rfl⟩
  have hviews : (push_last cfg s.queue).map seg_view =
      (List.range ((len + chunk - 1) / chunk)).map (fun k =>
        ((pcb.snd_lbb + k * chunk) % 4294967296,
         if k + 1 < (len + chunk - 1) / chunk then chunk
         else len - ((len + chunk - 1) / chunk - 1) * chunk)) := by
    rw [push_last_map_view, hmap]
    apply List.map_congr_left
    intro k hk
    rw [List.mem_range] at hk
    simp only [chunk_view, add32, Prod.mk.injEq, true_and]
    have hnle : (len + chunk - 1) / chunk * chunk ≤ len + chunk - 1 := Nat.div_mul_le_self _ _
    have hnlt : len + chunk - 1 < ((len + chunk - 1) / chunk + 1) * chunk := by
      have h1 := Nat.lt_mul_div_succ (len + chunk - 1) (by omega : 0 < chunk)
      rw [Nat.mul_comm] at h1
      exact h1
    split
    · rename_i hk1
      have : (k + 1) * chunk ≤ ((len + chunk - 1) / chunk - 1) * chunk :=
        Nat.mul_le_mul_right _ (by omega)
      rw [Nat.sub_mul, Nat.add_mul, one_mul] at this
      rw [Nat.add_mul, one_mul] at hnlt
      omega
    · rename_i hk1
      have hk2 : k = (len + chunk - 1) / chunk - 1 := by omega
      rw [← hk2]
      have hk3 : (len + chunk - 1) / chunk = k + 1 := by omega
      rw [hk3] at hnlt hnle
      simp only [Nat.add_mul, one_mul] at hnlt hnle
      omega
  refine ⟨?_, ?_, ?_, ?_⟩
  · rw [hunsent]
    have := congrArg List.length (push_last_map_view cfg s.queue)
    simp only [List.length_map] at this
    rw [this, hn]
  · rw [hunsent]
    exact hviews
  · intro k a b ha hb1
    rw [hunsent] at ha hb1
    have hva := congrArg (fun l : List (Nat × Nat) => l[k]?) hviews
    have hvb := congrArg (fun l : List (Nat × Nat) => l[k + 1]?) hviews
    simp only [List.getElem?_map, ha, hb1, Option.map_some'] at hva hvb
    have hkn : k + 1 < (len + chunk - 1) / chunk := by
      by_contra hc
      rw [List.getElem?_eq_none (by simp; omega)] at hvb
      simp at hvb
    rw [List.getElem?_range (by omega)] at hva
    rw [List.getElem?_range hkn] at hvb
    simp only [Option.map_some', Option.some.injEq, seg_view, Prod.mk.injEq, if_pos hkn] at hva hvb
    rw [hva.1, hva.2, hvb.1, Nat.add_mul, one_mul]
    omega
  · obtain ⟨l1, hl1, hid, hpsh⟩ := push_last_getLast cfg s.queue last hlast
    refine ⟨l1, by rw [hunsent]; exact hl1, ?_, fun hp => ?_⟩
    · rw [hres]
      simp only [tcp_write_commit, queue_tail, hlast, hid]
    · exact hpsh hp (hall last (List.mem_of_getLast?_eq_some hlast)).1

/-- Witness for C3: on the idle connection (MSS 1000, `snd_lbb = 5000`) a
write of 2500 bytes succeeds and queues segments of 1000, 1000 and 500 bytes
at 5000, 6000 and 7000; the third is `last_unsent` and carries `TCP_PSH`. -/
theorem tcp_write_segmentation_witness :
    (tcp_write cfg_push pcb_idle world_ok 1 2500 1).1 = err_t.ERR_OK ∧
    has 1 TCP_WRITE_ZEROCOPY = false ∧ pcb_idle.unsent = [] ∧ 0 < 2500 ∧
    u8 (LWIP_TCP_OPT_LENGTH (write_optflags pcb_idle 1)) < tcp_xmit_size_goal pcb_idle true ∧
    (tcp_write cfg_push pcb_idle world_ok 1 2500 1).2.1.unsent.length = 3 ∧
    (tcp_write cfg_push pcb_idle world_ok 1 2500 1).2.1.unsent.map seg_view =
      [(5000, 1000), (6000, 1000), (7000, 500)] ∧
    (∃ last, (tcp_write cfg_push pcb_idle world_ok 1 2500 1).2.1.unsent.getLast? = some last ∧
      (tcp_write cfg_push pcb_idle world_ok 1 2500 1).2.1.last_unsent = some last.id ∧
      (cfg_push.enable_push_flag = true → has last.hdr.flags TCP_PSH = true)) := by
  have hok : (tcp_write cfg_push pcb_idle world_ok 1 2500 1).1 = err_t.ERR_OK :=
    tcp_write_observe (fun r => r.1) 4 cfg_push pcb_idle world_ok 1 2500 1 err_t.ERR_OK (by decide)
  have h := tcp_write_segmentation cfg_push pcb_idle world_ok 1 2500 1 hok (by decide) rfl
    (by decide) (by decide) (by decide)
  refine ⟨hok, by decide, rfl, by decide, by decide, ?_, ?_, h.2.2.2⟩
  · rw [h.1]; decide
  · rw [h.2.1]; decide


/-! ## A failing `tcp_write` commits nothing -/

theorem tail_fix_frame (pcb : tcp_pcb) (last : tcp_seg) (type : pbuf_type) :
    frame_write (tail_fix pcb last type) = frame_write pcb := by
  unfold tail_fix
  dsimp only
  split <;> split <;> rfl

theorem tcp_write_tail_frame (cfg : Config) (pcb : tcp_pcb) (w : World) (arg : Int)
    (len apiflags mss_local : Nat) (type : pbuf_type) :
    frame_write (tcp_write_tail cfg pcb w arg len apiflags mss_local type).2.pcb =
      frame_write pcb := by
  unfold tcp_write_tail
  split
  · rfl
  · rename_i last hq
    split
    · split
      · rename_i pcb1 w1 heq
        have hf : frame_alloc pcb1 = frame_alloc (tail_fix pcb last type) :=
          (congrArg (fun r => frame_alloc r.2.1) heq).symm.trans
            (tcp_pbuf_prealloc_frame _ _ _ _ _ _ _ _)
        exact (frame_write_of_frame_alloc _ _ hf).trans (tail_fix_frame pcb last type)
      · rename_i b ov pcb1 w1 heq
        have hf : frame_alloc pcb1 = frame_alloc (tail_fix pcb last type) :=
          (congrArg (fun r => frame_alloc r.2.1) heq).symm.trans
            (tcp_pbuf_prealloc_frame _ _ _ _ _ _ _ _)
        exact (frame_write_of_frame_alloc _ _ hf).trans (tail_fix_frame pcb last type)
    · exact tail_fix_frame pcb last type

theorem tcp_write_segments_frame (c : write_ctx) (s : write_state) :
    frame_alloc (tcp_write_segments c s).2.pcb = frame_alloc s.pcb ∧
    ((tcp_write_segments c s).1 = false → (tcp_write_segments c s).2.pcb.unsent = s.pcb.unsent) :=
  tcp_write_segments_rule c (fun s1 => frame_alloc s1.pcb = frame_alloc s.pcb)
    (fun r => frame_alloc r.2.pcb = frame_alloc s.pcb ∧ (r.1 = false → r.2.pcb.unsent = s.pcb.unsent))
    (fun s1 s2 hi hp => (write_pass_inr c s1 s2 hp).2.1.trans hi)
    (fun s1 r hi hp => by
      have h1 := (write_pass_inl c s1 r hp).1.trans hi
      refine ⟨h1, fun _ => ?_⟩
      have h2 := congrArg tcp_pcb.unsent h1
      exact h2)
    s rfl

theorem tcp_write_checks_mem (pcb : tcp_pcb) (len : Nat) :
    ((tcp_write_checks pcb len).1 = err_t.ERR_MEM →
      (tcp_write_checks pcb len).2 = { pcb with flags := pcb.flags ||| TF_NAGLEMEMERR }) ∧
    ((tcp_write_checks pcb len).1 ≠ err_t.ERR_MEM → (tcp_write_checks pcb len).2 = pcb) := by
  unfold tcp_write_checks
  split
  · exact ⟨fun h => (by cases h), fun _ => rfl⟩
  · split
    · exact ⟨fun h => (by cases h), fun _ => rfl⟩
    · split
      · exact ⟨fun _ => rfl, fun h => absurd rfl h⟩
      · split
        · exact ⟨fun _ => rfl, fun h => absurd rfl h⟩
        · exact ⟨fun h => (by cases h), fun _ => rfl⟩

/-- Setting `TF_NAGLEMEMERR`. -/
def set_naglememerr (pcb : tcp_pcb) : tcp_pcb := { pcb with flags := pcb.flags ||| TF_NAGLEMEMERR }

theorem frame_write_set_naglememerr (a b : tcp_pcb) (h : frame_write a = frame_write b) :
    frame_write (set_naglememerr a) = frame_write (set_naglememerr b) := by
  have h1 := congrArg set_naglememerr h
  exact h1

theorem write_sml_add_frame_write (pcb : tcp_pcb) (len apiflags : Nat) :
    frame_write (write_sml_add pcb len apiflags) = frame_write pcb := by
  unfold write_sml_add
  dsimp only
  split <;> rfl

/-- A call of `tcp_write` that returns `ERR_MEM` leaves the PCB as it was,
except that `TF_NAGLEMEMERR` is set and except for the fields blanked by
`frame_write`. -/
theorem tcp_write_memerr_frame (cfg : Config) (pcb : tcp_pcb) (w : World) (arg : Int)
    (len apiflags : Nat) (hmem : (tcp_write cfg pcb w arg len apiflags).1 = err_t.ERR_MEM) :
    frame_write (tcp_write cfg pcb w arg len apiflags).2.1 = frame_write (set_naglememerr pcb) := by
  unfold tcp_write at hmem ⊢
  cases hb : tcp_write_begin cfg pcb w arg len apiflags with
  | inl r =>
    rw [hb] at hmem
    dsimp only at hmem ⊢
    unfold tcp_write_begin at hb
    dsimp only at hb
    split at hb
    · cases hb; cases hmem
    · split at hb
      · cases hb
        dsimp only at hmem ⊢
        rw [(tcp_write_checks_mem _ _).1 hmem]
        exact frame_write_set_naglememerr _ _ (write_sml_add_frame_write pcb len apiflags)
      · rename_i hne
        have hck : (tcp_write_checks (write_sml_add pcb len apiflags) len).2 =
            write_sml_add pcb len apiflags :=
          (tcp_write_checks_mem _ _).2 (by
            intro hc
            apply hne
            rw [hc]
            simp)
        split at hb
        · rename_i t heq
          cases hb
          have ht : frame_write t.pcb =
              frame_write (tcp_write_checks (write_sml_add pcb len apiflags) len).2 :=
            (congrArg (fun r => frame_write r.2.pcb) heq).symm.trans
              (tcp_write_tail_frame _ _ _ _ _ _ _ _)
          rw [hck] at ht
          exact frame_write_set_naglememerr _ _
            (ht.trans (write_sml_add_frame_write pcb len apiflags))
        · cases hb
  | inr ct =>
    obtain ⟨c, t⟩ := ct
    rw [hb] at hmem
    dsimp only at hmem ⊢
    obtain ⟨-, -, htail, -⟩ := tcp_write_begin_inr cfg pcb w arg len apiflags c t hb
    have ht := tcp_write_tail_frame cfg (write_sml_add pcb len apiflags) w arg len apiflags
      (write_mss_local cfg pcb apiflags)
      (if has apiflags TCP_WRITE_ZEROCOPY then pbuf_type.PBUF_ZEROCOPY else pbuf_type.PBUF_RAM)
    rw [htail] at ht
    have hl := (tcp_write_segments_frame c (write_init t)).1
    cases hr : tcp_write_segments c (write_init t) with
    | mk ok s =>
      rw [hr] at hmem hl
      cases ok with
      | true => simp [tcp_write_end] at hmem
      | false =>
        simp only [tcp_write_end]
        exact frame_write_set_naglememerr _ _
          ((frame_write_of_frame_alloc _ _ hl).trans
            (ht.trans (write_sml_add_frame_write pcb len apiflags)))

/-- Claim C4: a call of `tcp_write` that returns `ERR_MEM`, whatever made it
fail, leaves the `unsent` and `unacked` queues (segments, sequence numbers,
lengths and buffer chains), `snd_lbb`, `snd_buf` and `snd_queuelen` as they
were before the call. -/
theorem tcp_write_memerr_keeps_queues (cfg : Config) (pcb : tcp_pcb) (w : World) (arg : Int)
    (len apiflags : Nat) (hmem : (tcp_write cfg pcb w arg len apiflags).1 = err_t.ERR_MEM) :
    (tcp_write cfg pcb w arg len apiflags).2.1.unsent = pcb.unsent ∧
    (tcp_write cfg pcb w arg len apiflags).2.1.unacked = pcb.unacked ∧
    (tcp_write cfg pcb w arg len apiflags).2.1.snd_lbb = pcb.snd_lbb ∧
    (tcp_write cfg pcb w arg len apiflags).2.1.snd_buf = pcb.snd_buf ∧
    (tcp_write cfg pcb w arg len apiflags).2.1.snd_queuelen = pcb.snd_queuelen := by
  have h := tcp_write_memerr_frame cfg pcb w arg len apiflags hmem
  have h1 := congrArg tcp_pcb.unsent h
  have h2 := congrArg tcp_pcb.unacked h
  have h3 := congrArg tcp_pcb.snd_lbb h
  have h4 := congrArg tcp_pcb.snd_buf h
  have h5 := congrArg tcp_pcb.snd_queuelen h
  exact ⟨h1, h2, h3, h4, h5⟩

/-- A connection with one segment of 100 bytes in flight and no send buffer
left. -/
def pcb_busy : tcp_pcb :=
  { pcb_idle with
    snd_buf := 0, snd_nxt := 5100, snd_lbb := 5100, snd_queuelen := 1,
    unacked := [{ id := 50, p := [{ payload := 4980, len := 120, tot_len := 120,
                                    type := pbuf_type.PBUF_RAM, ref := 1 }],
                  seqno := 5000, len := 100, flags := 0, tcphdr := some 4980,
                  hdr := { src := 1024, dest := 80, seqno := 5000, ackno := 7000, hdrlen := 5,
                           flags := TCP_ACK ||| TCP_PSH, wnd := 65535, chksum := 0, urgp := 0 } }],
    last_unacked := some 50 }

/-- Witness for C4: with exhausted allocators a write of 2500 bytes on the
idle connection returns `ERR_MEM`, and the queues and counters are kept. -/
theorem tcp_write_memerr_keeps_queues_witness :
    (tcp_write cfg_push pcb_idle world_empty 1 2500 1).1 = err_t.ERR_MEM ∧
    ((tcp_write cfg_push pcb_idle world_empty 1 2500 1).2.1.unsent = pcb_idle.unsent ∧
     (tcp_write cfg_push pcb_idle world_empty 1 2500 1).2.1.unacked = pcb_idle.unacked ∧
     (tcp_write cfg_push pcb_idle world_empty 1 2500 1).2.1.snd_lbb = pcb_idle.snd_lbb ∧
     (tcp_write cfg_push pcb_idle world_empty 1 2500 1).2.1.snd_buf = pcb_idle.snd_buf ∧
     (tcp_write cfg_push pcb_idle world_empty 1 2500 1).2.1.snd_queuelen =
       pcb_idle.snd_queuelen) :=
  ⟨tcp_write_observe (fun r => r.1) 4 cfg_push pcb_idle world_empty 1 2500 1 err_t.ERR_MEM
      (by decide),
   tcp_write_memerr_keeps_queues cfg_push pcb_idle world_empty 1 2500 1
    (tcp_write_observe (fun r => r.1) 4 cfg_push pcb_idle world_empty 1 2500 1 err_t.ERR_MEM
      (by decide))⟩

/-- Claim C5 fails as stated: a write of 10 bytes on a connection without
send buffer returns `ERR_MEM`, yet `flags` has gained `TF_NAGLEMEMERR` and
`snd_sml_add` has been recomputed; and `tcp_enqueue_flags` with exhausted
allocators returns `ERR_MEM` with `TF_NAGLEMEMERR` set.  The PCB is not equal
to its snapshot. -/
theorem memerr_changes_pcb :
    (tcp_write cfg_push pcb_busy world_ok 1 10 1).1 = err_t.ERR_MEM ∧
    (tcp_write cfg_push pcb_busy world_ok 1 10 1).2.1.flags ≠ pcb_busy.flags ∧
    (tcp_write cfg_push pcb_busy world_ok 1 10 1).2.1.snd_sml_add ≠ pcb_busy.snd_sml_add ∧
    (tcp_write cfg_push pcb_busy world_ok 1 10 1).2.1 ≠ pcb_busy ∧
    (tcp_enqueue_flags cfg_push pcb_idle world_empty TCP_FIN).1 = err_t.ERR_MEM ∧
    (tcp_enqueue_flags cfg_push pcb_idle world_empty TCP_FIN).2.1 ≠ pcb_idle := by
  have h := tcp_write_observe (fun r => (r.1, r.2.1.flags, r.2.1.snd_sml_add)) 4 cfg_push pcb_busy
    world_ok 1 10 1 (err_t.ERR_MEM, 192, 200) (by decide)
  simp only [Prod.mk.injEq] at h
  obtain ⟨h1, h2, h3⟩ := h
  refine ⟨h1, ?_, ?_, ?_, by decide, by decide⟩
  · rw [h2]; decide
  · rw [h3]; decide
  · intro hc
    rw [hc] at h2
    revert h2
    decide

theorem tcp_enqueue_flags_memerr_frame (cfg : Config) (pcb : tcp_pcb) (w : World) (flags : Nat)
    (hmem : (tcp_enqueue_flags cfg pcb w flags).1 = err_t.ERR_MEM) :
    frame_alloc (tcp_enqueue_flags cfg pcb w flags).2.1 = frame_alloc (set_naglememerr pcb) := by
  have hset : ∀ a b : tcp_pcb, frame_alloc a = frame_alloc b →
      frame_alloc (set_naglememerr a) = frame_alloc (set_naglememerr b) := by
    intro a b hab
    have h1 := congrArg set_naglememerr hab
    exact h1
  unfold tcp_enqueue_flags at hmem ⊢
  split
  · rfl
  · rename_i hq
    rw [if_neg hq] at hmem
    split
    · rename_i pcb1 w1 heq
      have hf : frame_alloc pcb1 = frame_alloc pcb :=
        (congrArg (fun r => frame_alloc r.2.1) heq).symm.trans (tcp_tx_pbuf_alloc_frame _ _ _ _)
      exact hset _ _ hf
    · rename_i b pcb1 w1 heq
      have hf : frame_alloc pcb1 = frame_alloc pcb :=
        (congrArg (fun r => frame_alloc r.2.1) heq).symm.trans (tcp_tx_pbuf_alloc_frame _ _ _ _)
      split
      · rename_i pcb2 w2 heq2
        have hc : frame_alloc pcb2 = frame_alloc pcb1 :=
          (congrArg (fun r => frame_alloc r.2.1) heq2).symm.trans
            (tcp_create_segment_frame _ _ _ _ _ _)
        exact hset _ _ (hc.trans hf)
      · rename_i seg pcb2 w2 heq2
        rw [heq] at hmem
        dsimp only at hmem
        rw [heq2] at hmem
        cases hmem

/-- Claim C5 as amended: when `tcp_write` or `tcp_enqueue_flags` returns
`ERR_MEM`, `flags` is its value before the call with `TF_NAGLEMEMERR` set,
and every other field of the PCB is equal to its value before the call,
leaving aside the prefetch slots `seg_alloc` and `pbuf_alloc` and, for
`tcp_write`, the fields `snd_sml_add`, `last_unsent` and `unsent_oversize`. -/
theorem memerr_keeps_pcb_but_naglememerr (cfg : Config) (pcb : tcp_pcb) (w : World) (arg : Int)
    (len apiflags flags : Nat) :
    ((tcp_write cfg pcb w arg len apiflags).1 = err_t.ERR_MEM →
      frame_write (tcp_write cfg pcb w arg len apiflags).2.1 =
        frame_write { pcb with flags := pcb.flags ||| TF_NAGLEMEMERR } ∧
      (tcp_write cfg pcb w arg len apiflags).2.1.flags = pcb.flags ||| TF_NAGLEMEMERR) ∧
    ((tcp_enqueue_flags cfg pcb w flags).1 = err_t.ERR_MEM →
      frame_alloc (tcp_enqueue_flags cfg pcb w flags).2.1 =
        frame_alloc { pcb with flags := pcb.flags ||| TF_NAGLEMEMERR } ∧
      (tcp_enqueue_flags cfg pcb w flags).2.1.flags = pcb.flags ||| TF_NAGLEMEMERR) := by
  constructor
  · intro h
    have h1 := tcp_write_memerr_frame cfg pcb w arg len apiflags h
    have h2 := congrArg tcp_pcb.flags h1
    exact ⟨h1, h2⟩
  · intro h
    have h1 := tcp_enqueue_flags_memerr_frame cfg pcb w flags h
    have h2 := congrArg tcp_pcb.flags h1
    exact ⟨h1, h2⟩

/-- Witness for the amended C5: both kinds of failing call occur. -/
theorem memerr_keeps_pcb_but_naglememerr_witness :
    (tcp_write cfg_push pcb_busy world_ok 1 10 1).1 = err_t.ERR_MEM ∧
    (tcp_enqueue_flags cfg_push pcb_idle world_empty TCP_FIN).1 = err_t.ERR_MEM ∧
    (tcp_write cfg_push pcb_busy world_ok 1 10 1).2.1.flags = pcb_busy.flags ||| TF_NAGLEMEMERR ∧
    (tcp_enqueue_flags cfg_push pcb_idle world_empty TCP_FIN).2.1.flags =
      pcb_idle.flags ||| TF_NAGLEMEMERR :=
  have h1 : (tcp_write cfg_push pcb_busy world_ok 1 10 1).1 = err_t.ERR_MEM :=
    tcp_write_observe (fun r => r.1) 4 cfg_push pcb_busy world_ok 1 10 1 err_t.ERR_MEM (by decide)
  have h2 : (tcp_enqueue_flags cfg_push pcb_idle world_empty TCP_FIN).1 = err_t.ERR_MEM := by decide
  ⟨h1, h2,
   ((memerr_keeps_pcb_but_naglememerr cfg_push pcb_busy world_ok 1 10 1 TCP_FIN).1 h1).2,
   ((memerr_keeps_pcb_but_naglememerr cfg_push pcb_idle world_empty 1 10 1 TCP_FIN).2 h2).2⟩


/-! ## Control segments: `tcp_enqueue_flags` and `tcp_send_fin` -/

/-- The option flags of `tcp_enqueue_flags` never hold the zero-copy bit. -/
theorem enqueue_optflags_not_zc (cfg : Config) (pcb : tcp_pcb) (flags : Nat) :
    has (enqueue_optflags cfg pcb flags) TF_SEG_OPTS_ZEROCOPY = false := by
  have key : ∀ o : Nat, o ≤ 7 → has o TF_SEG_OPTS_ZEROCOPY = false := by
    intro o ho
    interval_cases o <;> decide
  apply key
  unfold enqueue_optflags
  dsimp only
  repeat' split
  all_goals decide

/-- A successful `tcp_enqueue_flags`: the buffer and the segment record
were obtained, and the segment was committed. -/
theorem tcp_enqueue_flags_ok (cfg : Config) (pcb : tcp_pcb) (w : World) (flags : Nat)
    (hok : (tcp_enqueue_flags cfg pcb w flags).1 = err_t.ERR_OK) :
    ∃ seg pcb2 w2, tcp_enqueue_flags cfg pcb w flags = (err_t.ERR_OK, enqueue_commit pcb2 seg flags, w2) ∧
      frame_alloc pcb2 = frame_alloc pcb ∧
      seg.len = 0 ∧ seg.seqno = pcb.snd_lbb ∧ seg.hdr.flags = flags ∧ seg.p.length = 1 := by
  unfold tcp_enqueue_flags at hok ⊢
  split
  · rename_i hq
    rw [if_pos hq] at hok
    cases hok
  · rename_i hq
    rw [if_neg hq] at hok
    split
    · rename_i pcb1 w1 heq
      rw [heq] at hok
      cases hok
    · rename_i b pcb1 w1 heq
      rw [heq] at hok
      dsimp only at hok ⊢
      have hf : frame_alloc pcb1 = frame_alloc pcb :=
        (congrArg (fun r => frame_alloc r.2.1) heq).symm.trans (tcp_tx_pbuf_alloc_frame _ _ _ _)
      have hb := tcp_tx_pbuf_alloc_some _ _ _ _ _ _ _ heq
      split
      · rename_i pcb2 w2 heq2
        rw [heq2] at hok
        cases hok
      · rename_i seg pcb2 w2 heq2
        have hc : frame_alloc pcb2 = frame_alloc pcb1 :=
          (congrArg (fun r => frame_alloc r.2.1) heq2).symm.trans
            (tcp_create_segment_frame _ _ _ _ _ _)
        have hs := tcp_create_segment_some _ _ _ _ _ _ _ _ _ heq2
        have hlbb : pcb1.snd_lbb = pcb.snd_lbb := by
          have h1 := congrArg tcp_pcb.snd_lbb hf
          exact h1
        refine ⟨seg, pcb2, w2, rfl, hc.trans hf, ?_, ?_, hs.2.2.1, hs.2.2.2.2.1⟩
        · rw [hs.2.2.2.2.2, enqueue_optflags_not_zc, hb.2.1]
          simp only [Bool.false_eq_true, if_false]
          unfold sub32 u32 u8
          omega
        · rw [hs.1, hlbb]

theorem enqueue_commit_unsent (p : tcp_pcb) (s : tcp_seg) (f : Nat) :
    (enqueue_commit p s f).unsent = p.unsent ++ [s] := by
  unfold enqueue_commit
  dsimp only
  split_ifs <;> rfl

theorem enqueue_commit_snd_buf (p : tcp_pcb) (s : tcp_seg) (f : Nat) :
    (enqueue_commit p s f).snd_buf = p.snd_buf := by
  unfold enqueue_commit
  dsimp only
  split_ifs <;> rfl

theorem enqueue_commit_snd_queuelen (p : tcp_pcb) (s : tcp_seg) (f : Nat) :
    (enqueue_commit p s f).snd_queuelen = u32 (p.snd_queuelen + pbuf_clen s.p) := by
  unfold enqueue_commit
  dsimp only
  split_ifs <;> rfl

theorem enqueue_commit_last_unsent (p : tcp_pcb) (s : tcp_seg) (f : Nat) :
    (enqueue_commit p s f).last_unsent = some s.id := by
  unfold enqueue_commit
  dsimp only
  split_ifs <;> rfl

theorem enqueue_commit_unsent_oversize (p : tcp_pcb) (s : tcp_seg) (f : Nat) :
    (enqueue_commit p s f).unsent_oversize = 0 := by
  unfold enqueue_commit
  dsimp only
  split_ifs <;> rfl

theorem enqueue_commit_snd_lbb (p : tcp_pcb) (s : tcp_seg) (f : Nat)
    (h : has f TCP_SYN = true ∨ has f TCP_FIN = true) :
    (enqueue_commit p s f).snd_lbb = add32 p.snd_lbb 1 := by
  unfold enqueue_commit
  dsimp only
  rw [if_pos h]
  split_ifs <;> rfl

theorem enqueue_commit_flags_fin (p : tcp_pcb) (s : tcp_seg) (f : Nat)
    (h : has f TCP_FIN = true) :
    (enqueue_commit p s f).flags = p.flags ||| TF_FIN := by
  unfold enqueue_commit
  dsimp only
  rw [if_pos h]
  split_ifs <;> rfl

/-- Claim C6: a call of `tcp_enqueue_flags` with `SYN` or `FIN` that returns
`ERR_OK` appends exactly one segment at the tail of `unsent`, of length 0,
at the old `snd_lbb`, with the requested header flags; `snd_lbb` grows by 1
(mod 2^32), `snd_buf` is unchanged, `snd_queuelen` grows by the buffer count
of the new segment (mod 2^32), `last_unsent` is the new segment,
`unsent_oversize` is 0, and `TF_FIN` is set when `FIN` was requested. -/
theorem tcp_enqueue_flags_appends (cfg : Config) (pcb : tcp_pcb) (w : World) (flags : Nat)
    (hflags : has flags TCP_SYN = true ∨ has flags TCP_FIN = true)
    (hok : (tcp_enqueue_flags cfg pcb w flags).1 = err_t.ERR_OK) :
    ∃ seg, (tcp_enqueue_flags cfg pcb w flags).2.1.unsent = pcb.unsent ++ [seg] ∧
      seg.len = 0 ∧ seg.seqno = pcb.snd_lbb ∧ TCPH_FLAGS seg.hdr = flags ∧
      (tcp_enqueue_flags cfg pcb w flags).2.1.snd_lbb = (pcb.snd_lbb + 1) % 4294967296 ∧
      (tcp_enqueue_flags cfg pcb w flags).2.1.snd_buf = pcb.snd_buf ∧
      (tcp_enqueue_flags cfg pcb w flags).2.1.snd_queuelen =
        (pcb.snd_queuelen + pbuf_clen seg.p) % 4294967296 ∧
      (tcp_enqueue_flags cfg pcb w flags).2.1.last_unsent = some seg.id ∧
      (tcp_enqueue_flags cfg pcb w flags).2.1.unsent_oversize = 0 ∧
      (has flags TCP_FIN = true →
        has (tcp_enqueue_flags cfg pcb w flags).2.1.flags TF_FIN = true) := by
  obtain ⟨seg, pcb2, w2, hres, hfr, hlen, hseq, hhf, hp⟩ := tcp_enqueue_flags_ok cfg pcb w flags hok
  have hu : pcb2.unsent = pcb.unsent := by
    have h1 := congrArg tcp_pcb.unsent hfr
    exact h1
  have hl : pcb2.snd_lbb = pcb.snd_lbb := by
    have h1 := congrArg tcp_pcb.snd_lbb hfr
    exact h1
  have hb : pcb2.snd_buf = pcb.snd_buf := by
    have h1 := congrArg tcp_pcb.snd_buf hfr
    exact h1
  have hq : pcb2.snd_queuelen = pcb.snd_queuelen := by
    have h1 := congrArg tcp_pcb.snd_queuelen hfr
    exact h1
  have hsf : (has flags TCP_SYN = true ∨ has flags TCP_FIN = true) := hflags
  rw [hres]
  refine ⟨seg, ?_, hlen, hseq, hhf, ?_, ?_, ?_, ?_, ?_, ?_⟩
  · show (enqueue_commit pcb2 seg flags).unsent = _
    rw [enqueue_commit_unsent, hu]
  · show (enqueue_commit pcb2 seg flags).snd_lbb = _
    rw [enqueue_commit_snd_lbb _ _ _ hsf, hl]
    rfl
  · show (enqueue_commit pcb2 seg flags).snd_buf = _
    rw [enqueue_commit_snd_buf, hb]
  · show (enqueue_commit pcb2 seg flags).snd_queuelen = _
    rw [enqueue_commit_snd_queuelen, hq]
    rfl
  · exact enqueue_commit_last_unsent _ _ _
  · exact enqueue_commit_unsent_oversize _ _ _
  · intro hfin
    show has (enqueue_commit pcb2 seg flags).flags TF_FIN = true
    rw [enqueue_commit_flags_fin _ _ _ hfin]
    exact has_lor_self _ _ (by decide)

/-- Witness for C6: a `FIN` enqueued on the idle connection. -/
theorem tcp_enqueue_flags_appends_witness :
    (has TCP_FIN TCP_SYN = true ∨ has TCP_FIN TCP_FIN = true) ∧
    (tcp_enqueue_flags cfg_push pcb_idle world_ok TCP_FIN).1 = err_t.ERR_OK ∧
    ∃ seg, (tcp_enqueue_flags cfg_push pcb_idle world_ok TCP_FIN).2.1.unsent =
        pcb_idle.unsent ++ [seg] ∧
      seg.len = 0 ∧ seg.seqno = pcb_idle.snd_lbb ∧ TCPH_FLAGS seg.hdr = TCP_FIN ∧
      (tcp_enqueue_flags cfg_push pcb_idle world_ok TCP_FIN).2.1.snd_lbb =
        (pcb_idle.snd_lbb + 1) % 4294967296 ∧
      (tcp_enqueue_flags cfg_push pcb_idle world_ok TCP_FIN).2.1.snd_buf = pcb_idle.snd_buf ∧
      (tcp_enqueue_flags cfg_push pcb_idle world_ok TCP_FIN).2.1.snd_queuelen =
        (pcb_idle.snd_queuelen + pbuf_clen seg.p) % 4294967296 ∧
      (tcp_enqueue_flags cfg_push pcb_idle world_ok TCP_FIN).2.1.last_unsent = some seg.id ∧
      (tcp_enqueue_flags cfg_push pcb_idle world_ok TCP_FIN).2.1.unsent_oversize = 0 ∧
      (has TCP_FIN TCP_FIN = true →
        has (tcp_enqueue_flags cfg_push pcb_idle world_ok TCP_FIN).2.1.flags TF_FIN = true) :=
  ⟨by decide, by decide,
   tcp_enqueue_flags_appends cfg_push pcb_idle world_ok TCP_FIN (by decide) (by decide)⟩


/-- When `tcp_create_segment` fails on a single RAM buffer, the segment
allocator returned nothing. -/
theorem tcp_create_segment_none (pcb : tcp_pcb) (w : World) (b : pbuf) (flags seqno optflags : Nat)
    (hb : b.type = pbuf_type.PBUF_RAM)
    (h : (tcp_create_segment pcb w [b] flags seqno optflags).1 = none) :
    (take_seg pcb w).1 = none := by
  unfold tcp_create_segment at h
  cases hts : take_seg pcb w with
  | mk o rest =>
    cases o with
    | none => rfl
    | some seg0 =>
      rw [hts] at h
      dsimp only at h
      rw [if_neg (by simp)] at h
      split at h
      · cases h
      · simp only [pbuf_header, hb, if_true] at h
        cases h

/-- Claim C7: `tcp_enqueue_flags` never rejects a `FIN` because of the queue
length: with `FIN` in `flags` it returns `ERR_MEM` only when the buffer
allocation or the segment allocation returned nothing, whatever
`snd_queuelen` and `max_unsent_len` are; without `FIN`, when
`snd_queuelen >= max_unsent_len` or `snd_queuelen > 0xFFFFFF-3`, it returns
`ERR_MEM`, sets `TF_NAGLEMEMERR` and changes nothing else (the queues
included) and calls no allocator. -/
theorem tcp_enqueue_flags_queue_limit (cfg : Config) (pcb : tcp_pcb) (w : World) (flags : Nat) :
    (has flags TCP_FIN = true → (tcp_enqueue_flags cfg pcb w flags).1 = err_t.ERR_MEM →
      (tcp_tx_pbuf_alloc pcb w (u8 (LWIP_TCP_OPT_LENGTH (enqueue_optflags cfg pcb flags)))
          pbuf_type.PBUF_RAM).1 = none ∨
      (take_seg
        (tcp_tx_pbuf_alloc pcb w (u8 (LWIP_TCP_OPT_LENGTH (enqueue_optflags cfg pcb flags)))
          pbuf_type.PBUF_RAM).2.1
        (tcp_tx_pbuf_alloc pcb w (u8 (LWIP_TCP_OPT_LENGTH (enqueue_optflags cfg pcb flags)))
          pbuf_type.PBUF_RAM).2.2).1 = none) ∧
    (has flags TCP_FIN = false →
      (pcb.snd_queuelen ≥ pcb.max_unsent_len ∨ pcb.snd_queuelen > 0xFFFFFF - 3) →
      tcp_enqueue_flags cfg pcb w flags =
        (err_t.ERR_MEM, { pcb with flags := pcb.flags ||| TF_NAGLEMEMERR }, w)) := by
  constructor
  · intro hfin hmem
    unfold tcp_enqueue_flags at hmem
    rw [if_neg (by simp [hfin])] at hmem
    cases heq : tcp_tx_pbuf_alloc pcb w (u8 (LWIP_TCP_OPT_LENGTH (enqueue_optflags cfg pcb flags)))
        pbuf_type.PBUF_RAM with
    | mk o rest =>
      obtain ⟨pcb1, w1⟩ := rest
      cases o with
      | none => exact Or.inl rfl
      | some b =>
        right
        rw [heq] at hmem
        dsimp only at hmem ⊢
        have hb := tcp_tx_pbuf_alloc_some _ _ _ _ _ _ _ heq
        apply tcp_create_segment_none pcb1 w1 b flags pcb1.snd_lbb (enqueue_optflags cfg pcb flags) hb.2.2
        cases hcs : tcp_create_segment pcb1 w1 [b] flags pcb1.snd_lbb (enqueue_optflags cfg pcb flags) with
        | mk o2 rest2 =>
          obtain ⟨pcb2, w2⟩ := rest2
          cases o2 with
          | none => rfl
          | some seg =>
            rw [hcs] at hmem
            cases hmem
  · intro hfin hq
    unfold tcp_enqueue_flags
    rw [if_pos]
    refine ⟨?_, by simp [hfin]⟩
    simpa [TCP_SNDQUEUELEN_OVERFLOW] using hq

/-- A connection whose send queue holds as many buffers as it may. -/
def pcb_full : tcp_pcb := { pcb_idle with snd_queuelen := 1600 }

/-- Witness for C7: with no memory a `FIN` fails with `ERR_MEM` on a full
queue because the buffer allocation fails; a `SYN` is refused by the queue
length. -/
theorem tcp_enqueue_flags_queue_limit_witness :
    (has TCP_FIN TCP_FIN = true ∧
      (tcp_enqueue_flags cfg_push pcb_full world_empty TCP_FIN).1 = err_t.ERR_MEM ∧
      (tcp_tx_pbuf_alloc pcb_full world_empty
        (u8 (LWIP_TCP_OPT_LENGTH (enqueue_optflags cfg_push pcb_full TCP_FIN)))
          pbuf_type.PBUF_RAM).1 = none) ∧
    (has TCP_SYN TCP_FIN = false ∧
      (pcb_full.snd_queuelen ≥ pcb_full.max_unsent_len ∨ pcb_full.snd_queuelen > 0xFFFFFF - 3) ∧
      tcp_enqueue_flags cfg_push pcb_full world_ok TCP_SYN =
        (err_t.ERR_MEM, { pcb_full with flags := pcb_full.flags ||| TF_NAGLEMEMERR }, world_ok)) :=
  ⟨⟨by decide, by decide, by decide⟩,
   by decide, by decide,
   (tcp_enqueue_flags_queue_limit cfg_push pcb_full world_ok TCP_SYN).2 (by decide) (by decide)⟩


/-- What a close after a write shows: the result of the write and the
`snd_lbb` it leaves, then the result of `tcp_send_fin`, the `snd_lbb` it
leaves, whether `TF_FIN` is set, and for every unsent segment its sequence
number, its length and whether its header carries `FIN`. -/
structure close_view where
  write_err : err_t
  write_lbb : Nat
  fin_err : err_t
  fin_lbb : Nat
  tf_fin : Bool
  unsent : List (Nat × Nat × Bool)
  deriving DecidableEq, Repr

/-- Call `tcp_send_fin` on the connection a write has left. -/
def close_after_write (cfg : Config) (r : err_t × tcp_pcb × World) : close_view :=
  let s := tcp_send_fin cfg r.2.1 r.2.2
  { write_err := r.1, write_lbb := r.2.1.snd_lbb, fin_err := s.1, fin_lbb := s.2.1.snd_lbb,
    tf_fin := has s.2.1.flags TF_FIN,
    unsent := s.2.1.unsent.map (fun g => (g.seqno, g.len, has (TCPH_FLAGS g.hdr) TCP_FIN)) }

/-- Claim C8, at the input the claim names: an established connection with
`snd_lbb = 5000` writes 10 bytes (`snd_lbb` becomes 5010) and then calls
`tcp_send_fin`.  The call returns `ERR_OK`, sets `TF_FIN` and puts `FIN` on
the 10-byte segment at 5000, but `snd_lbb` is still 5010: the merge path
does not advance it, while `tcp_enqueue_flags` does for the `FIN` it
enqueues. -/
theorem tcp_send_fin_merge_keeps_snd_lbb :
    close_after_write cfg_push (tcp_write cfg_push pcb_idle world_ok 1 10 1) =
      { write_err := err_t.ERR_OK, write_lbb := 5010, fin_err := err_t.ERR_OK, fin_lbb := 5010,
        tf_fin := true, unsent := [(5000, 10, true)] } ∧
    (tcp_enqueue_flags cfg_push pcb_idle world_ok TCP_FIN).2.1.snd_lbb = pcb_idle.snd_lbb + 1 :=
  ⟨tcp_write_observe (close_after_write cfg_push) 4 cfg_push pcb_idle world_ok 1 10 1
    { write_err := err_t.ERR_OK, write_lbb := 5010, fin_err := err_t.ERR_OK, fin_lbb := 5010,
      tf_fin := true, unsent := [(5000, 10, true)] } (by decide), by decide⟩

/-- Claim C9: when `unsent` is not empty and the header of its last segment
carries none of `SYN`, `FIN`, `RST`, `tcp_send_fin` returns `ERR_OK`, sets
`TCP_FIN` on that header (the last segment is otherwise the same, and so are
all segments before it), sets `TF_FIN` in `pcb.flags`, and creates no
segment: the number of segments of `unsent`, the length and sequence number of
each, and `snd_queuelen` are unchanged, and no allocator is called (the
scripted hooks and the prefetch slots are untouched).  When `unsent` is empty
or its last segment carries one of `SYN`, `FIN`, `RST`, the result is that of
`tcp_enqueue_flags` with `TCP_FIN`. -/
theorem tcp_send_fin_paths (cfg : Config) (pcb : tcp_pcb) (w : World) :
    (∀ last, pcb.unsent.getLast? = some last →
      has (TCPH_FLAGS last.hdr) (TCP_SYN ||| TCP_FIN ||| TCP_RST) = false →
      (tcp_send_fin cfg pcb w).1 = err_t.ERR_OK ∧
      (tcp_send_fin cfg pcb w).2.1.unsent =
        pcb.unsent.dropLast ++ [{ last with hdr := TCPH_SET_FLAG last.hdr TCP_FIN }] ∧
      has (TCPH_FLAGS (TCPH_SET_FLAG last.hdr TCP_FIN)) TCP_FIN = true ∧
      has (tcp_send_fin cfg pcb w).2.1.flags TF_FIN = true ∧
      (tcp_send_fin cfg pcb w).2.1.unsent.length = pcb.unsent.length ∧
      (tcp_send_fin cfg pcb w).2.1.unsent.map seg_view = pcb.unsent.map seg_view ∧
      (tcp_send_fin cfg pcb w).2.1.snd_queuelen = pcb.snd_queuelen ∧
      (tcp_send_fin cfg pcb w).2.1.seg_alloc = pcb.seg_alloc ∧
      (tcp_send_fin cfg pcb w).2.1.pbuf_alloc = pcb.pbuf_alloc ∧
      (tcp_send_fin cfg pcb w).2.2 = w) ∧
    ((pcb.unsent = [] ∨ ∃ last, pcb.unsent.getLast? = some last ∧
        has (TCPH_FLAGS last.hdr) (TCP_SYN ||| TCP_FIN ||| TCP_RST) = true) →
      tcp_send_fin cfg pcb w = tcp_enqueue_flags cfg pcb w TCP_FIN) := by
  constructor
  · intro last hlast hflags
    have hres : tcp_send_fin cfg pcb w = (err_t.ERR_OK,
        { pcb with unsent := set_tail pcb.unsent
                     { last with hdr := TCPH_SET_FLAG last.hdr TCP_FIN },
                   flags := pcb.flags ||| TF_FIN }, w) := by
      unfold tcp_send_fin queue_tail
      rw [hlast]
      dsimp only
      rw [if_pos (by simp [hflags])]
    have hview := set_tail_map_view pcb.unsent last
      { last with hdr := TCPH_SET_FLAG last.hdr TCP_FIN } hlast rfl
    rw [hres]
    refine ⟨rfl, rfl, ?_, ?_, ?_, hview, rfl, rfl, rfl, rfl⟩
    · exact has_lor_self _ _ (by decide)
    · exact has_lor_self _ _ (by decide)
    · have h1 := congrArg List.length hview
      simpa using h1
  · intro h
    unfold tcp_send_fin queue_tail
    rcases h with h | ⟨last, hlast, hflags⟩
    · rw [h]
      rfl
    · rw [hlast]
      dsimp only
      rw [if_neg (by simp [hflags])]

/-- A 10-byte segment at 5000 with `PSH` in its header. -/
def seg_ten : tcp_seg :=
  { id := 100, p := [{ payload := 9980, len := 30, tot_len := 30,
                       type := pbuf_type.PBUF_RAM, ref := 1 }],
    seqno := 5000, len := 10, flags := 0, tcphdr := some 9980,
    hdr := { src := 1024, dest := 80, seqno := 5000, ackno := 0, hdrlen := 5,
             flags := TCP_PSH, wnd := 0, chksum := 0, urgp := 0 } }

/-- A connection with one 10-byte segment waiting in `unsent`. -/
def pcb_one_unsent : tcp_pcb :=
  { pcb_idle with
    snd_lbb := 5010, snd_buf := 99990, snd_queuelen := 1, last_unsent := some 100,
    unsent := [seg_ten] }

/-- Witness for C9: the 10-byte segment gets the `FIN`; on the idle
connection the fallback is taken. -/
theorem tcp_send_fin_paths_witness :
    (∃ last, pcb_one_unsent.unsent.getLast? = some last ∧
      has (TCPH_FLAGS last.hdr) (TCP_SYN ||| TCP_FIN ||| TCP_RST) = false ∧
      (tcp_send_fin cfg_push pcb_one_unsent world_ok).1 = err_t.ERR_OK ∧
      (tcp_send_fin cfg_push pcb_one_unsent world_ok).2.1.unsent.length = 1 ∧
      (tcp_send_fin cfg_push pcb_one_unsent world_ok).2.2 = world_ok) ∧
    pcb_idle.unsent = [] ∧
    tcp_send_fin cfg_push pcb_idle world_ok = tcp_enqueue_flags cfg_push pcb_idle world_ok TCP_FIN :=
  ⟨⟨seg_ten, by decide, by decide,
    ((tcp_send_fin_paths cfg_push pcb_one_unsent world_ok).1 seg_ten (by decide) (by decide)).1,
    ((tcp_send_fin_paths cfg_push pcb_one_unsent world_ok).1 seg_ten (by decide) (by decide)).2.2.2.2.1,
    ((tcp_send_fin_paths cfg_push pcb_one_unsent world_ok).1 seg_ten (by decide)
      (by decide)).2.2.2.2.2.2.2.2.2⟩,
   rfl, (tcp_send_fin_paths cfg_push pcb_idle world_ok).2 (Or.inl rfl)⟩


/-! ## The window bound of `tcp_output` -/

/-- The fields that the window test of `tcp_output` reads and that no pass
of its loop writes: `lastack`, `snd_wnd`, `cwnd` and the TSO description. -/
def send_key (pcb : tcp_pcb) : Nat × Nat × Nat × tso_desc :=
  (pcb.lastack, pcb.snd_wnd, pcb.cwnd, pcb.tso)

theorem send_key_of_frame_alloc (a b : tcp_pcb) (h : frame_alloc a = frame_alloc b) :
    send_key a = send_key b := by
  have h1 : send_key (frame_alloc a) = send_key (frame_alloc b) := congrArg send_key h
  exact h1

theorem take_seg_calls (pcb : tcp_pcb) (w : World) : (take_seg pcb w).2.2.calls = w.calls := by
  unfold take_seg
  repeat' split
  all_goals rfl

theorem tcp_tx_pbuf_alloc_calls (pcb : tcp_pcb) (w : World) (n : Nat) (t : pbuf_type) :
    (tcp_tx_pbuf_alloc pcb w n t).2.2.calls = w.calls := by
  unfold tcp_tx_pbuf_alloc
  repeat' split
  all_goals rfl

theorem tcp_create_segment_calls (pcb : tcp_pcb) (w : World) (p : List pbuf)
    (flags seqno optflags : Nat) :
    (tcp_create_segment pcb w p flags seqno optflags).2.2.calls = w.calls := by
  have h := take_seg_calls pcb w
  unfold tcp_create_segment
  dsimp only
  repeat' split
  all_goals simp_all

theorem tcp_pbuf_prealloc_calls (cfg : Config) (pcb : tcp_pcb) (w : World) (length max_length : Nat)
    (t : pbuf_type) (more : Nat) (first_seg : Bool) :
    (tcp_pbuf_prealloc cfg pcb w length max_length t more first_seg).2.2.calls = w.calls := by
  unfold tcp_pbuf_prealloc
  dsimp only
  split
  · rename_i pcb1 w1 heq
    exact (congrArg (fun r => r.2.2.calls) heq).symm.trans (tcp_tx_pbuf_alloc_calls _ _ _ _)
  · rename_i b pcb1 w1 heq
    exact (congrArg (fun r => r.2.2.calls) heq).symm.trans (tcp_tx_pbuf_alloc_calls _ _ _ _)

/-- A step that neither writes the fields of `send_key` nor calls the IP
output hook. -/
def quiet (pcb : tcp_pcb) (w : World) (pcb1 : tcp_pcb) (w1 : World) : Prop :=
  send_key pcb1 = send_key pcb ∧ w1.calls = w.calls

theorem quiet_refl (pcb : tcp_pcb) (w : World) : quiet pcb w pcb w := ⟨rfl, rfl⟩

theorem quiet_trans {pcb pcb1 pcb2 : tcp_pcb} {w w1 w2 : World} (h1 : quiet pcb w pcb1 w1)
    (h2 : quiet pcb1 w1 pcb2 w2) : quiet pcb w pcb2 w2 :=
  ⟨h2.1.trans h1.1, h2.2.trans h1.2⟩

theorem tcp_create_segment_quiet (pcb : tcp_pcb) (w : World) (p : List pbuf)
    (flags seqno optflags : Nat) :
    quiet pcb w (tcp_create_segment pcb w p flags seqno optflags).2.1
      (tcp_create_segment pcb w p flags seqno optflags).2.2 :=
  ⟨send_key_of_frame_alloc _ _ (tcp_create_segment_frame _ _ _ _ _ _),
   tcp_create_segment_calls _ _ _ _ _ _⟩

theorem tcp_pbuf_prealloc_quiet (cfg : Config) (pcb : tcp_pcb) (w : World) (length max_length : Nat)
    (t : pbuf_type) (more : Nat) (first_seg : Bool) :
    quiet pcb w (tcp_pbuf_prealloc cfg pcb w length max_length t more first_seg).2.1
      (tcp_pbuf_prealloc cfg pcb w length max_length t more first_seg).2.2 :=
  ⟨send_key_of_frame_alloc _ _ (tcp_pbuf_prealloc_frame _ _ _ _ _ _ _ _),
   tcp_pbuf_prealloc_calls _ _ _ _ _ _ _ _⟩

theorem split_rexmit_loop_quiet (optflags optlen hlen : Nat) :
    ∀ (n : Nat) (pcb : tcp_pcb) (w : World) (cur_seg : tcp_seg), cur_seg.p.length ≤ n →
      quiet pcb w (split_rexmit_loop pcb w optflags optlen hlen cur_seg).2.2.1
        (split_rexmit_loop pcb w optflags optlen hlen cur_seg).2.2.2 := by
  intro n
  induction n with
  | zero =>
    intro pcb w cur_seg hn
    rw [split_rexmit_loop]
    split
    · rename_i b cur_p r hp
      rw [hp] at hn
      simp at hn
    · exact quiet_refl _ _
  | succ n ih =>
    intro pcb w cur_seg hn
    rw [split_rexmit_loop]
    split
    · rename_i b cur_p r hp
      dsimp only
      split
      · rename_i pcb1 w1 hc
        have hq := tcp_create_segment_quiet pcb w
          ({ cur_p with len := u32 (cur_p.len + optlen), tot_len := u32 (cur_p.tot_len + optlen),
                        payload := cur_p.payload - optlen } :: r) 0
          (sub32 (sub32 (add32 cur_seg.seqno b.len) hlen) optlen) optflags
        rw [hc] at hq
        exact hq
      · rename_i new_seg pcb1 w1 hc
        have hq := tcp_create_segment_quiet pcb w
          ({ cur_p with len := u32 (cur_p.len + optlen), tot_len := u32 (cur_p.tot_len + optlen),
                        payload := cur_p.payload - optlen } :: r) 0
          (sub32 (sub32 (add32 cur_seg.seqno b.len) hlen) optlen) optflags
        rw [hc] at hq
        have hl := tcp_create_segment_clen _ _ _ _ _ _ _ _ _ (by simp) hc
        refine quiet_trans (quiet_trans hq (?_ : quiet pcb1 w1 _ w1)) (ih _ _ _ ?_)
        · split
          · exact ⟨rfl, rfl⟩
          · exact quiet_refl _ _
        · rw [tcp_seg_move_flags_snd_p]
          rw [hp] at hn
          simp only [List.length_cons] at hl hn ⊢
          omega
    · exact quiet_refl _ _

theorem quiet_of_prealloc {cfg : Config} {pcb pcb1 : tcp_pcb} {w w1 : World} {l m more : Nat}
    {t : pbuf_type} {f : Bool} {o : Option (pbuf × Nat)}
    (h : tcp_pbuf_prealloc cfg pcb w l m t more f = (o, pcb1, w1)) : quiet pcb w pcb1 w1 := by
  have hq := tcp_pbuf_prealloc_quiet cfg pcb w l m t more f
  rw [h] at hq
  exact hq

theorem quiet_of_create {pcb pcb1 : tcp_pcb} {w w1 : World} {p : List pbuf} {f s o : Nat}
    {x : Option tcp_seg}
    (h : tcp_create_segment pcb w p f s o = (x, pcb1, w1)) : quiet pcb w pcb1 w1 := by
  have hq := tcp_create_segment_quiet pcb w p f s o
  rw [h] at hq
  exact hq

theorem tcp_split_rexmit_quiet (pcb : tcp_pcb) (w : World) (seg : tcp_seg) :
    quiet pcb w (tcp_split_rexmit pcb w seg).2.2.1 (tcp_split_rexmit pcb w seg).2.2.2 := by
  unfold tcp_split_rexmit
  split
  exact split_rexmit_loop_quiet _ _ _ _ _ _ _ (le_refl _)

theorem tcp_split_segment_quiet (cfg : Config) (pcb : tcp_pcb) (w : World) (seg : tcp_seg)
    (wnd : Nat) :
    quiet pcb w (tcp_split_segment cfg pcb w seg wnd).2.2.1
      (tcp_split_segment cfg pcb w seg wnd).2.2.2 := by
  unfold tcp_split_segment
  split
  · exact quiet_refl _ _
  · split
    · exact quiet_refl _ _
    · dsimp only
      split
      · split
        · rename_i h1
          exact quiet_of_prealloc h1
        · rename_i h1
          split
          · rename_i h2
            exact quiet_trans (quiet_of_prealloc h1) (quiet_of_create h2)
          · rename_i h2
            refine quiet_trans (quiet_of_prealloc h1) (quiet_trans (quiet_of_create h2) ?_)
            dsimp only
            split
            · exact ⟨rfl, rfl⟩
            · exact ⟨rfl, rfl⟩
      · split
        · split
          · exact quiet_refl _ _
          · split
            · rename_i h2
              exact quiet_of_create h2
            · rename_i h2
              refine quiet_trans (quiet_of_create h2) ?_
              dsimp only
              split
              · exact ⟨rfl, rfl⟩
              · exact quiet_refl _ _
        · exact quiet_refl _ _

theorem prepare_rexmit_quiet (pcb : tcp_pcb) (w : World) (seg1 : tcp_seg) :
    quiet pcb w (prepare_rexmit pcb w seg1).2.2.1 (prepare_rexmit pcb w seg1).2.2.2 := by
  unfold prepare_rexmit
  dsimp only
  split
  · exact tcp_split_rexmit_quiet _ _ _
  · exact quiet_refl _ _

theorem prepare_window_quiet (cfg : Config) (wnd : Nat) (pcb : tcp_pcb) (w : World)
    (seg2 : tcp_seg) :
    quiet pcb w (prepare_window cfg wnd pcb w seg2).2.2.1
      (prepare_window cfg wnd pcb w seg2).2.2.2 := by
  unfold prepare_window
  split
  · exact tcp_split_segment_quiet _ _ _ _ _
  · exact quiet_refl _ _

theorem output_prepare_quiet (cfg : Config) (wnd : Nat) (pcb : tcp_pcb) (w : World) (seg0 : tcp_seg)
    (rest0 : List tcp_seg) :
    quiet pcb w (output_prepare cfg wnd pcb w seg0 rest0).2.2.1
      (output_prepare cfg wnd pcb w seg0 rest0).2.2.2 := by
  unfold output_prepare
  dsimp only
  exact quiet_trans (prepare_rexmit_quiet _ _ _)
    (quiet_trans (prepare_window_quiet _ _ _ _ _) ⟨rfl, rfl⟩)

theorem mark_tso_seqno_len (pcb : tcp_pcb) (seg : tcp_seg) :
    (mark_tso pcb seg).seqno = seg.seqno ∧ (mark_tso pcb seg).len = seg.len := by
  unfold mark_tso
  split <;> exact ⟨rfl, rfl⟩

/-- The joining loop keeps the sequence number of the segment, and the
length it leaves is either the one it found or within `max_payload_sz`. -/
theorem tso_join_len (pcb : tcp_pcb) (flags mp : Nat) :
    ∀ (l : List tcp_seg) (tot_len : Nat) (tot_p : Int) (seg : tcp_seg),
      u32 seg.len = tot_len → tot_len ≤ mp →
      (tso_join pcb flags mp tot_len tot_p seg l).1.seqno = seg.seqno ∧
      ((tso_join pcb flags mp tot_len tot_p seg l).1.len = seg.len ∨
        (tso_join pcb flags mp tot_len tot_p seg l).1.len ≤ mp) := by
  intro l
  induction l with
  | nil =>
    intro tot_len tot_p seg _ _
    unfold tso_join
    exact ⟨rfl, Or.inl rfl⟩
  | cons cur t ih =>
    cases t with
    | nil =>
      intro tot_len tot_p seg _ _
      unfold tso_join
      exact ⟨rfl, Or.inl rfl⟩
    | cons nxt r =>
      intro tot_len tot_p seg hlen hmp
      unfold tso_join
      dsimp only
      split
      · split
        · exact ⟨rfl, Or.inl rfl⟩
        · rename_i hfit
          split
          · exact ⟨rfl, Or.inl rfl⟩
          · split
            · exact ⟨rfl, Or.inl rfl⟩
            · have hnew : add32 seg.len cur.len = add32 tot_len cur.len := by
                rw [← hlen]
                unfold add32 u32
                omega
              have hstep := ih (add32 tot_len cur.len) (tot_p + pbuf_clen cur.p)
                { seg with len := add32 seg.len cur.len, p := pbuf_cat seg.p (strip_header cur) }
                (by
                  show u32 (add32 seg.len cur.len) = add32 tot_len cur.len
                  rw [hnew]
                  unfold add32 u32
                  omega)
                (by omega)
              refine ⟨hstep.1, Or.inr ?_⟩
              rcases hstep.2 with h | h
              · rw [h]
                show add32 seg.len cur.len ≤ mp
                rw [hnew]
                omega
              · exact h
      · exact ⟨rfl, Or.inl rfl⟩

/-- What `tcp_tso_segment` does to the head segment: the sequence number
stays, and the length either stays or, when segments were joined, both the
old and the new length are within
`min(tso.max_payload_sz, wnd - (seqno - lastack))`. -/
theorem tcp_tso_segment_len (pcb : tcp_pcb) (seg : tcp_seg) (rest : List tcp_seg) (wnd : Nat) :
    (tcp_tso_segment pcb seg rest wnd).1.seqno = seg.seqno ∧
    ((tcp_tso_segment pcb seg rest wnd).1.len = seg.len ∨
      (u32 seg.len ≤ min pcb.tso.max_payload_sz (sub32 wnd (sub32 seg.seqno pcb.lastack)) ∧
        (tcp_tso_segment pcb seg rest wnd).1.len ≤
          min pcb.tso.max_payload_sz (sub32 wnd (sub32 seg.seqno pcb.lastack)))) := by
  have hm := mark_tso_seqno_len pcb seg
  unfold tcp_tso_segment
  dsimp only
  split
  · exact ⟨hm.1, Or.inl hm.2⟩
  · split
    · exact ⟨hm.1, Or.inl hm.2⟩
    · split
      · exact ⟨hm.1, Or.inl hm.2⟩
      · rename_i hfit
        split
        · exact ⟨hm.1, Or.inl hm.2⟩
        · have h0 : u32 seg.len = add32 0 seg.len := by
            unfold add32 u32
            simp
          have hj := tso_join_len pcb seg.flags
            (min pcb.tso.max_payload_sz (sub32 wnd (sub32 seg.seqno pcb.lastack))) rest
            (add32 0 seg.len) (pbuf_clen seg.p) seg h0 (by omega)
          have hm1 := mark_tso_seqno_len pcb (tso_join pcb seg.flags
            (min pcb.tso.max_payload_sz (sub32 wnd (sub32 seg.seqno pcb.lastack)))
            (add32 0 seg.len) (pbuf_clen seg.p) seg rest).1
          refine ⟨hm1.1.trans hj.1, ?_⟩
          rcases hj.2 with h | h
          · exact Or.inl (hm1.2.trans h)
          · right
            refine ⟨by rw [h0]; omega, ?_⟩
            exact le_of_eq_of_le hm1.2 h

theorem tcp_output_alloc_header_quiet (pcb : tcp_pcb) (w : World) (optlen datalen seqno : Nat) :
    quiet pcb w (tcp_output_alloc_header pcb w optlen datalen seqno).2.1
      (tcp_output_alloc_header pcb w optlen datalen seqno).2.2 := by
  have hk := send_key_of_frame_alloc _ _
    (tcp_tx_pbuf_alloc_frame pcb w (optlen + datalen) pbuf_type.PBUF_RAM)
  have hc := tcp_tx_pbuf_alloc_calls pcb w (optlen + datalen) pbuf_type.PBUF_RAM
  unfold tcp_output_alloc_header
  split
  · rename_i pcb1 w1 heq
    rw [heq] at hk hc
    exact ⟨hk, hc⟩
  · rename_i b pcb1 w1 heq
    rw [heq] at hk hc
    exact ⟨hk, hc⟩

/-- The calls that `tcp_send_empty_ack` adds carry no segment. -/
theorem tcp_send_empty_ack_calls (pcb : tcp_pcb) (w : World) :
    send_key (tcp_send_empty_ack pcb w).2.1 = send_key pcb ∧
    ∀ c ∈ (tcp_send_empty_ack pcb w).2.2.calls, c ∈ w.calls ∨ c.seg = none := by
  unfold tcp_send_empty_ack
  dsimp only
  split
  · rename_i pcb1 w1 heq
    have hq := tcp_output_alloc_header_quiet pcb w
      (if has pcb.flags TF_TIMESTAMP = true then u8 (LWIP_TCP_OPT_LENGTH TF_SEG_OPTS_TS) else 0)
      0 pcb.snd_nxt
    rw [heq] at hq
    refine ⟨hq.1, fun c hc => Or.inl ?_⟩
    have h2 := hq.2
    dsimp only at h2 hc
    rw [← h2]
    exact hc
  · rename_i p hdr pcb1 w1 heq
    have hq := tcp_output_alloc_header_quiet pcb w
      (if has pcb.flags TF_TIMESTAMP = true then u8 (LWIP_TCP_OPT_LENGTH TF_SEG_OPTS_TS) else 0)
      0 pcb.snd_nxt
    rw [heq] at hq
    refine ⟨hq.1, fun c hc => ?_⟩
    have h2 := hq.2
    dsimp only [ip_output] at h2 hc
    rw [h2] at hc
    rcases List.mem_append.1 hc with h | h
    · exact Or.inl h
    · right
      rw [List.mem_singleton.1 h]

theorem output_segment_pcb_key (cfg : Config) (seg : tcp_seg) (pcb : tcp_pcb) :
    send_key (output_segment_pcb cfg seg pcb) = send_key pcb := by
  unfold output_segment_pcb
  split <;> rfl

/-- The one call that `tcp_output_segment` adds carries the segment it was
given, with its sequence number and length. -/
theorem tcp_output_segment_calls (cfg : Config) (seg : tcp_seg) (pcb : tcp_pcb) (w : World) :
    send_key (tcp_output_segment cfg seg pcb w).2.2.1 = send_key pcb ∧
    ∀ c ∈ (tcp_output_segment cfg seg pcb w).2.2.2.calls, c ∈ w.calls ∨
      (send_key c.pcb = send_key pcb ∧
        ∀ s, c.seg = some s → s.seqno = seg.seqno ∧ s.len = seg.len) := by
  have hk := output_segment_pcb_key cfg seg pcb
  unfold tcp_output_segment
  dsimp only [ip_output]
  split
  · refine ⟨hk, fun c hc => ?_⟩
    rcases List.mem_append.1 hc with h | h
    · exact Or.inl h
    · right
      rw [List.mem_singleton.1 h]
      refine ⟨hk, fun s hs => ?_⟩
      dsimp only at hs
      cases hs
      exact ⟨rfl, rfl⟩
  · refine ⟨hk, fun c hc => ?_⟩
    rcases List.mem_append.1 hc with h | h
    · exact Or.inl h
    · right
      rw [List.mem_singleton.1 h]
      refine ⟨hk, fun s hs => ?_⟩
      dsimp only at hs
      cases hs
      exact ⟨rfl, rfl⟩

theorem enqueue_unacked_key (pcb : tcp_pcb) (seg : tcp_seg) :
    send_key (enqueue_unacked pcb seg) = send_key pcb := by
  unfold enqueue_unacked
  repeat' split
  all_goals rfl

theorem send_done_quiet (rc : err_t) (seg3 : tcp_seg) (pcb5 : tcp_pcb) (w4 : World)
    (rest1 : List tcp_seg) :
    send_key (send_done rc seg3 pcb5 w4 rest1).2.2.1 = send_key pcb5 ∧
    (send_done rc seg3 pcb5 w4 rest1).2.2.2 = w4 := by
  unfold send_done
  dsimp only
  split
  · exact ⟨rfl, rfl⟩
  · split
    · split
      · refine ⟨?_, rfl⟩
        split <;> split <;> rfl
      · refine ⟨?_, rfl⟩
        refine (enqueue_unacked_key _ _).trans ?_
        split <;> split <;> rfl
    · refine ⟨?_, rfl⟩
      split <;> split <;> rfl

theorem minshall_mark_key (pcb : tcp_pcb) (seg : tcp_seg) (rest : List tcp_seg) :
    send_key (minshall_mark pcb seg rest) = send_key pcb := by
  unfold minshall_mark
  split <;> rfl

theorem tso_joined_len (pcb1 : tcp_pcb) (seg : tcp_seg) (rest : List tcp_seg) (wnd : Nat) :
    (tso_joined pcb1 seg rest wnd).1.seqno = seg.seqno ∧
    ((tso_joined pcb1 seg rest wnd).1.len = seg.len ∨
      (u32 seg.len ≤ min pcb1.tso.max_payload_sz (sub32 wnd (sub32 seg.seqno pcb1.lastack)) ∧
        (tso_joined pcb1 seg rest wnd).1.len ≤
          min pcb1.tso.max_payload_sz (sub32 wnd (sub32 seg.seqno pcb1.lastack)))) := by
  unfold tso_joined
  split
  · exact tcp_tso_segment_len pcb1 seg rest wnd
  · exact ⟨rfl, Or.inl rfl⟩

theorem dummy_ack_calls (pcb2 : tcp_pcb) (w : World) (seg1 : tcp_seg) :
    send_key (dummy_ack pcb2 w seg1).1 = send_key pcb2 ∧
    ∀ c ∈ (dummy_ack pcb2 w seg1).2.calls, c ∈ w.calls ∨ c.seg = none := by
  unfold dummy_ack
  split
  · exact tcp_send_empty_ack_calls pcb2 w
  · exact ⟨rfl, fun c hc => Or.inl hc⟩

/-- The segment that `send_ready` prepares: calls added so far carry no
segment, the sequence number is that of the head segment, and the length is
either that of the head segment or, after a join, within the TSO bound. -/
theorem send_ready_spec (wnd : Nat) (pcb : tcp_pcb) (w : World) (seg : tcp_seg)
    (rest : List tcp_seg) :
    send_key (send_ready wnd pcb w seg rest).2.2.1 = send_key pcb ∧
    (∀ c ∈ (send_ready wnd pcb w seg rest).2.2.2.calls, c ∈ w.calls ∨ c.seg = none) ∧
    (send_ready wnd pcb w seg rest).1.seqno = seg.seqno ∧
    ((send_ready wnd pcb w seg rest).1.len = seg.len ∨
      (u32 seg.len ≤ min pcb.tso.max_payload_sz (sub32 wnd (sub32 seg.seqno pcb.lastack)) ∧
        (send_ready wnd pcb w seg rest).1.len ≤
          min pcb.tso.max_payload_sz (sub32 wnd (sub32 seg.seqno pcb.lastack)))) := by
  have hk1 := minshall_mark_key pcb seg rest
  have hj := tso_joined_len (minshall_mark pcb seg rest) seg rest wnd
  have htso : (minshall_mark pcb seg rest).tso = pcb.tso := by
    have h := congrArg (fun k => k.2.2.2) hk1
    exact h
  have hack : (minshall_mark pcb seg rest).lastack = pcb.lastack := by
    have h := congrArg (fun k => k.1) hk1
    exact h
  rw [htso, hack] at hj
  have hd := dummy_ack_calls
    { minshall_mark pcb seg rest with
      unsent := (tso_joined (minshall_mark pcb seg rest) seg rest wnd).1 ::
        (tso_joined (minshall_mark pcb seg rest) seg rest wnd).2 } w
    (tso_joined (minshall_mark pcb seg rest) seg rest wnd).1
  have hk2 : send_key (dummy_ack
      { minshall_mark pcb seg rest with
        unsent := (tso_joined (minshall_mark pcb seg rest) seg rest wnd).1 ::
          (tso_joined (minshall_mark pcb seg rest) seg rest wnd).2 } w
      (tso_joined (minshall_mark pcb seg rest) seg rest wnd).1).1 = send_key pcb :=
    hd.1.trans hk1
  unfold send_ready
  dsimp only
  split
  · exact ⟨hk2, hd.2, hj.1, hj.2⟩
  · exact ⟨hk2, hd.2, hj.1, hj.2⟩

/-- What the loop of `tcp_output` guarantees for a call of the IP output
hook that carries a segment: the PCB handed over has the `lastack`, windows
and TSO description `k` of the start, and the segment passed the window test
with a length `len0` that it still has, unless the TSO join replaced it,
in which case both lengths are within
`min(tso.max_payload_sz, wnd - (seqno - lastack))`. -/
def window_ok (wnd : Nat) (k : Nat × Nat × Nat × tso_desc) (c : HookCall) : Prop :=
  ∀ s, c.seg = some s → send_key c.pcb = k ∧
    ∃ len0, add32 (sub32 s.seqno k.1) len0 ≤ wnd ∧
      (s.len = len0 ∨
        (u32 len0 ≤ min k.2.2.2.max_payload_sz (sub32 wnd (sub32 s.seqno k.1)) ∧
          s.len ≤ min k.2.2.2.max_payload_sz (sub32 wnd (sub32 s.seqno k.1))))

theorem window_ok_of_none (wnd : Nat) (k : Nat × Nat × Nat × tso_desc) (c : HookCall)
    (h : c.seg = none) : window_ok wnd k c := by
  intro s hs
  rw [h] at hs
  cases hs

theorem output_send_spec (cfg : Config) (wnd : Nat) (pcb : tcp_pcb) (w : World) (seg : tcp_seg)
    (rest : List tcp_seg) (hfit : fits_window pcb seg wnd = true) :
    send_key (output_send cfg wnd pcb w seg rest).2.2.1 = send_key pcb ∧
    ∀ c ∈ (output_send cfg wnd pcb w seg rest).2.2.2.calls,
      c ∈ w.calls ∨ window_ok wnd (send_key pcb) c := by
  have hfit1 : add32 (sub32 seg.seqno pcb.lastack) seg.len ≤ wnd := by
    unfold fits_window at hfit
    exact of_decide_eq_true hfit
  unfold output_send
  split
  · exact ⟨rfl, fun c hc => Or.inl hc⟩
  · have hr := send_ready_spec wnd pcb w seg rest
    split
    rename_i seg2 rest1 pcb4 w3 heq
    rw [heq] at hr
    dsimp only at hr ⊢
    have ho := tcp_output_segment_calls cfg seg2 pcb4 w3
    have hd := send_done_quiet (tcp_output_segment cfg seg2 pcb4 w3).1
      (tcp_output_segment cfg seg2 pcb4 w3).2.1 (tcp_output_segment cfg seg2 pcb4 w3).2.2.1
      (tcp_output_segment cfg seg2 pcb4 w3).2.2.2 rest1
    refine ⟨hd.1.trans (ho.1.trans hr.1), fun c hc => ?_⟩
    rw [hd.2] at hc
    rcases ho.2 c hc with h | h
    · rcases hr.2.1 c h with h1 | h1
      · exact Or.inl h1
      · exact Or.inr (window_ok_of_none _ _ _ h1)
    · right
      intro s hs
      obtain ⟨hseq, hlen⟩ := h.2 s hs
      refine ⟨h.1.trans hr.1, seg.len, ?_, ?_⟩
      · show add32 (sub32 s.seqno pcb.lastack) seg.len ≤ wnd
        rw [hseq, hr.2.2.1]
        exact hfit1
      · show s.len = seg.len ∨
          (u32 seg.len ≤ min pcb.tso.max_payload_sz (sub32 wnd (sub32 s.seqno pcb.lastack)) ∧
            s.len ≤ min pcb.tso.max_payload_sz (sub32 wnd (sub32 s.seqno pcb.lastack)))
        rw [hseq, hlen, hr.2.2.1]
        exact hr.2.2.2

theorem window_ok_congr (wnd : Nat) (k k1 : Nat × Nat × Nat × tso_desc) (c : HookCall)
    (hk : k1 = k) (h : window_ok wnd k1 c) : window_ok wnd k c := by
  rw [← hk]
  exact h

theorem output_pass_spec (cfg : Config) (wnd : Nat) (pcb : tcp_pcb) (w : World) (seg0 : tcp_seg)
    (rest0 : List tcp_seg) :
    send_key (output_pass cfg wnd pcb w seg0 rest0).2.2.1 = send_key pcb ∧
    ∀ c ∈ (output_pass cfg wnd pcb w seg0 rest0).2.2.2.calls,
      c ∈ w.calls ∨ window_ok wnd (send_key pcb) c := by
  have hq := output_prepare_quiet cfg wnd pcb w seg0 rest0
  unfold output_pass
  split
  rename_i seg rest pcb1 w1 heq
  rw [heq] at hq
  obtain ⟨hk, hc⟩ := hq
  dsimp only at hk hc ⊢
  split
  · rename_i hfit
    have hs := output_send_spec cfg wnd pcb1 w1 seg rest hfit
    refine ⟨hs.1.trans hk, fun c hmem => ?_⟩
    rcases hs.2 c hmem with h | h
    · rw [hc] at h
      exact Or.inl h
    · exact Or.inr (window_ok_congr _ _ _ _ hk h)
  · refine ⟨hk, fun c hmem => Or.inl ?_⟩
    rw [← hc]
    exact hmem

theorem tcp_output_loop_spec (cfg : Config) (wnd : Nat) :
    ∀ (fuel : Nat) (rc : err_t) (pcb : tcp_pcb) (w : World) (r : err_t × tcp_pcb × World),
      tcp_output_loop cfg wnd fuel rc pcb w = some r →
      send_key r.2.1 = send_key pcb ∧
      ∀ c ∈ r.2.2.calls, c ∈ w.calls ∨ window_ok wnd (send_key pcb) c := by
  intro fuel
  induction fuel with
  | zero =>
    intro rc pcb w r h
    simp [tcp_output_loop] at h
  | succ n ih =>
    intro rc pcb w r h
    unfold tcp_output_loop at h
    split at h
    · cases h
      exact ⟨rfl, fun c hc => Or.inl hc⟩
    · split at h
      · cases h
        exact ⟨rfl, fun c hc => Or.inl hc⟩
      · rename_i seg0 rest0 hu
        have hp := output_pass_spec cfg wnd pcb w seg0 rest0
        split at h
        · rename_i rc1 pcb1 w1 heq
          rw [heq] at hp
          cases h
          exact hp
        · rename_i rc1 pcb1 w1 heq
          rw [heq] at hp
          have hrec := ih rc1 pcb1 w1 r h
          refine ⟨hrec.1.trans hp.1, fun c hc => ?_⟩
          rcases hrec.2 c hc with h1 | h1
          · exact hp.2 c h1
          · exact Or.inr (window_ok_congr _ _ _ _ hp.1 h1)

theorem output_requeue_key (pcb : tcp_pcb) : send_key (output_requeue pcb) = send_key pcb := by
  unfold output_requeue
  repeat' split
  all_goals rfl

theorem prefetch_seg_calls (pcb : tcp_pcb) (w : World) : (prefetch_seg pcb w).2.calls = w.calls := by
  unfold prefetch_seg
  split
  · exact tcp_create_segment_calls _ _ _ _ _ _
  · rfl

theorem prefetch_pbuf_calls (pcb : tcp_pcb) (w : World) :
    (prefetch_pbuf pcb w).2.calls = w.calls := by
  unfold prefetch_pbuf
  split
  · exact tcp_tx_pbuf_alloc_calls _ _ _ _
  · rfl

theorem output_finish_calls (rc : err_t) (pcb : tcp_pcb) (w : World) :
    (output_finish rc pcb w).2.2.calls = w.calls := by
  unfold output_finish
  dsimp only
  exact (prefetch_pbuf_calls _ _).trans (prefetch_seg_calls _ _)

/-- Every call of the IP output hook that a run of `tcp_output` adds and
that carries a segment is `window_ok` for the window and the PCB of the
start. -/
theorem tcp_output_spec (cfg : Config) (fuel : Nat) (pcb : tcp_pcb) (w : World)
    (r : err_t × tcp_pcb × World) (h : tcp_output cfg fuel pcb w = some r) :
    ∀ c ∈ r.2.2.calls, c ∈ w.calls ∨ window_ok (min pcb.snd_wnd pcb.cwnd) (send_key pcb) c := by
  unfold tcp_output at h
  split at h
  · cases h
    exact fun c hc => Or.inl hc
  · dsimp only at h
    split at h
    · cases h
      intro c hc
      rcases (tcp_send_empty_ack_calls (output_requeue pcb) w).2 c hc with h1 | h1
      · exact Or.inl h1
      · exact Or.inr (window_ok_of_none _ _ _ h1)
    · split at h
      · cases h
      · rename_i rc pcb2 w2 heq
        cases h
        have hl := tcp_output_loop_spec cfg (min pcb.snd_wnd pcb.cwnd) fuel err_t.ERR_OK
          (output_requeue pcb) w (rc, pcb2, w2) heq
        intro c hc
        rw [output_finish_calls] at hc
        rcases hl.2 c hc with h1 | h1
        · exact Or.inl h1
        · exact Or.inr (window_ok_congr _ _ _ _ (output_requeue_key pcb) h1)

/-- The arithmetic of the window test: a segment at distance
`d = seqno - lastack` of at most 2^31 whose length is below 2^31 and which
passed the 32-bit test, possibly before a join bounded by a payload cap
below 2^31, ends within the window. -/
theorem window_arith (seqno lastack len len0 wnd cap : Nat)
    (hseq : TCP_SEQ_LEQ lastack seqno = true) (hlen : len < 2147483648)
    (hcap : cap < 2147483648)
    (hfit : add32 (sub32 seqno lastack) len0 ≤ wnd)
    (hjoin : len = len0 ∨ (u32 len0 ≤ min cap (sub32 wnd (sub32 seqno lastack)) ∧
      len ≤ min cap (sub32 wnd (sub32 seqno lastack)))) :
    sub32 seqno lastack + len ≤ wnd := by
  have hd : sub32 seqno lastack ≤ 2147483648 := by
    have h := of_decide_eq_true hseq
    unfold sub32 at h ⊢
    omega
  rcases hjoin with h | ⟨h1, h2⟩
  · rw [h]
    rw [h] at hlen
    unfold add32 at hfit
    omega
  · have h3 : u32 len0 < 2147483648 := lt_of_le_of_lt (le_trans h1 (min_le_left _ _)) hcap
    have h4 : sub32 seqno lastack + u32 len0 ≤ wnd := by
      unfold add32 at hfit
      unfold u32 at h3 ⊢
      omega
    have h5 : sub32 wnd (sub32 seqno lastack) ≤ wnd - sub32 seqno lastack := by
      generalize sub32 seqno lastack = d at h4 hd ⊢
      unfold sub32
      omega
    have h6 := le_trans h2 (min_le_right _ _)
    omega

/-- A data segment in one `RAM` buffer that starts with the 20-byte TCP
header: record address `a`, buffer address `b`, sequence number `seqno`,
`len` bytes of payload. -/
def data_seg (a : Nat) (b : Int) (seqno len : Nat) : tcp_seg :=
  { id := a, p := [{ payload := b, len := len + 20, tot_len := len + 20,
                     type := pbuf_type.PBUF_RAM, ref := 1 }],
    seqno := seqno, len := len, flags := 0, tcphdr := some b,
    hdr := { src := 1024, dest := 80, seqno := seqno, ackno := 0, hdrlen := 5,
             flags := 0, wnd := 0, chksum := 0, urgp := 0 } }

/-- A connection with TSO (payload cap 10000) and a window of 10000 bytes
that holds three unsent segments of 1000, 1000 and 500 bytes. -/
def pcb_three : tcp_pcb :=
  { pcb_idle with
    snd_wnd := 10000, cwnd := 10000, snd_lbb := 7500, snd_buf := 97500, snd_queuelen := 3,
    tso := { max_buf_sz := 65536, max_payload_sz := 10000, max_header_sz := 64, max_send_sge := 8 },
    unsent := [data_seg 100 10000 5000 1000, data_seg 200 20000 6000 1000,
               data_seg 300 30000 7000 500],
    last_unsent := some 300 }

/-- A connection whose window is closed and whose only unsent segment, one
byte past `lastack`, claims a length of 2^32 - 1. -/
def pcb_wrap : tcp_pcb :=
  { pcb_idle with
    snd_wnd := 0, snd_nxt := 5001, snd_lbb := 5000, snd_queuelen := 1,
    unsent := [data_seg 100 10000 5001 4294967295], last_unsent := some 100 }

/-- What a call of the IP output hook shows of the window bound: sequence
number and length of the segment, and `lastack` and the window of the PCB
handed over. -/
def call_view (c : HookCall) : Option (Nat × Nat) × Nat × Nat :=
  (c.seg.map (fun s => (s.seqno, s.len)), c.pcb.lastack, min c.pcb.snd_wnd c.pcb.cwnd)

/-- Claim C10 fails as stated: with a closed window (`snd_wnd = 0`) and
`lastack = 5000`, the unsent segment at 5001 with `len = 2^32 - 1` passes the
32-bit window test (`1 + (2^32 - 1)` wraps to 0) and is handed to the IP
output hook by `tcp_output`, although `lastack <= seqno` in sequence space,
`(seqno - lastack) + len = 2^32 > 0 = min(snd_wnd, cwnd)` and `len > 0`. -/
theorem tcp_output_window_wraps :
    (tcp_output cfg_push 5 pcb_wrap world_ok).map (fun r => r.2.2.calls.map call_view) =
      some [(some (5001, 4294967295), 5000, 0)] ∧
    TCP_SEQ_LEQ 5000 5001 = true ∧
    ¬ (sub32 5001 5000 + 4294967295 ≤ 0) ∧ 0 < 4294967295 := by
  decide

/-- Claim C10 as amended: every call of the IP output hook that a run of
`tcp_output` adds and that carries a segment `s` with `lastack <= s.seqno`
in sequence space and `s.len < 2^31`, on a PCB whose `tso.max_payload_sz` is
below 2^31, satisfies `(s.seqno - lastack) + s.len <= min(snd_wnd, cwnd)` for
the PCB handed to the hook, whose `lastack`, `snd_wnd` and `cwnd` are those at
the start of the run; this covers a segment enlarged by the TSO join and the
left half of a window split.  In particular such a segment has `len = 0` when
`min(snd_wnd, cwnd)` is 0. -/
theorem tcp_output_window_bound (cfg : Config) (fuel : Nat) (pcb : tcp_pcb) (w : World)
    (r : err_t × tcp_pcb × World) (hrun : tcp_output cfg fuel pcb w = some r)
    (c : HookCall) (hc : c ∈ r.2.2.calls) (hnew : c ∉ w.calls)
    (s : tcp_seg) (hs : c.seg = some s)
    (hseq : TCP_SEQ_LEQ c.pcb.lastack s.seqno = true) (hlen : s.len < 2147483648)
    (htso : c.pcb.tso.max_payload_sz < 2147483648) :
    sub32 s.seqno c.pcb.lastack + s.len ≤ min c.pcb.snd_wnd c.pcb.cwnd ∧
    (min c.pcb.snd_wnd c.pcb.cwnd = 0 → s.len = 0) ∧
    c.pcb.lastack = pcb.lastack ∧ c.pcb.snd_wnd = pcb.snd_wnd ∧ c.pcb.cwnd = pcb.cwnd := by
  rcases tcp_output_spec cfg fuel pcb w r hrun c hc with h | h
  · exact absurd h hnew
  · obtain ⟨hk, len0, hfit, hjoin⟩ := h s hs
    have h1 : c.pcb.lastack = pcb.lastack := congrArg (fun k => k.1) hk
    have h2 : c.pcb.snd_wnd = pcb.snd_wnd := congrArg (fun k => k.2.1) hk
    have h3 : c.pcb.cwnd = pcb.cwnd := congrArg (fun k => k.2.2.1) hk
    have h4 : c.pcb.tso = pcb.tso := congrArg (fun k => k.2.2.2) hk
    have hb : sub32 s.seqno c.pcb.lastack + s.len ≤ min c.pcb.snd_wnd c.pcb.cwnd := by
      rw [h1, h2, h3]
      rw [h1] at hseq
      rw [h4] at htso
      exact window_arith s.seqno pcb.lastack s.len len0 (min pcb.snd_wnd pcb.cwnd)
        pcb.tso.max_payload_sz hseq hlen htso hfit hjoin
    refine ⟨hb, fun h0 => ?_, h1, h2, h3⟩
    rw [h0] at hb
    omega

/-- The run of `tcp_output` on the connection with three unsent segments. -/
def run_three : err_t × tcp_pcb × World :=
  (tcp_output cfg_push 5 pcb_three world_ok).getD (err_t.ERR_OK, pcb_three, world_ok)

/-- The segment that the first call of the IP output hook of `run_three`
carried: the first two unsent segments joined by TSO. -/
def seg_joined : tcp_seg :=
  ((run_three.2.2.calls.head?).bind (fun c => c.seg)).getD (data_seg 0 0 0 0)

/-- The first call of the IP output hook of `run_three`. -/
def call_joined : HookCall :=
  (run_three.2.2.calls.head?).getD
    { p := [], hdr := seg_joined.hdr, seg := none, flags := 0, pcb := pcb_three }

/-- Witness for the amended C10: with a window of 10000 bytes the segments of
1000 and 1000 bytes at 5000 leave joined as one segment of 2000 bytes, within
the window. -/
theorem tcp_output_window_bound_witness :
    tcp_output cfg_push 5 pcb_three world_ok = some run_three ∧
    call_joined ∈ run_three.2.2.calls ∧ call_joined ∉ world_ok.calls ∧
    call_joined.seg = some seg_joined ∧ seg_view seg_joined = (5000, 2000) ∧
    TCP_SEQ_LEQ call_joined.pcb.lastack seg_joined.seqno = true ∧
    seg_joined.len < 2147483648 ∧ call_joined.pcb.tso.max_payload_sz < 2147483648 ∧
    sub32 seg_joined.seqno call_joined.pcb.lastack + seg_joined.len ≤
      min call_joined.pcb.snd_wnd call_joined.pcb.cwnd :=
  ⟨by decide, by decide, by decide, by decide, by decide, by decide, by decide, by decide,
   (tcp_output_window_bound cfg_push 5 pcb_three world_ok run_three (by decide) call_joined
      (by decide) (by decide) seg_joined (by decide) (by decide) (by decide) (by decide)).1⟩


/-! ## `tcp_output` called from the input path -/

/-- Claim C16: when `is_in_input` is set, `tcp_output` returns `ERR_OK` and
hands back the PCB and the hooks exactly as it found them: no call of the IP
output hook, no allocation, and every PCB field (queues, flags, `snd_nxt`,
`is_last_seg_dropped`, `seg_alloc`, `pbuf_alloc`) as before.  No pass of the
loop is needed for that. -/
theorem tcp_output_in_input (cfg : Config) (fuel : Nat) (pcb : tcp_pcb) (w : World)
    (hin : pcb.is_in_input = true) :
    tcp_output cfg fuel pcb w = some (err_t.ERR_OK, pcb, w) := by
  unfold tcp_output
  rw [if_pos hin]

/-- Witness for C16: the connection with three unsent segments, called from
the input path. -/
theorem tcp_output_in_input_witness :
    ({ pcb_three with is_in_input := true } : tcp_pcb).is_in_input = true ∧
    tcp_output cfg_push 0 { pcb_three with is_in_input := true } world_ok =
      some (err_t.ERR_OK, { pcb_three with is_in_input := true }, world_ok) :=
  ⟨rfl, tcp_output_in_input cfg_push 0 { pcb_three with is_in_input := true } world_ok rfl⟩

/-! ## Fast retransmit -/

theorem insert_sorted_length (seg : tcp_seg) (q : List tcp_seg) :
    (insert_sorted seg q).length = q.length + 1 := by
  induction q with
  | nil => rfl
  | cons x r ih =>
    unfold insert_sorted
    split
    · simp [ih]
    · simp

theorem insert_sorted_perm (seg : tcp_seg) (q : List tcp_seg) :
    (insert_sorted seg q).Perm (seg :: q) := by
  induction q with
  | nil => exact List.Perm.refl _
  | cons x r ih =>
    unfold insert_sorted
    split
    · exact (List.Perm.cons x ih).trans (List.Perm.swap seg x r)
    · exact List.Perm.refl _

/-- A call of `tcp_rexmit_fast` that does not trigger changes nothing. -/
theorem tcp_rexmit_fast_idle (pcb : tcp_pcb)
    (h : pcb.unacked = [] ∨ has pcb.flags TF_INFR = true) : tcp_rexmit_fast pcb = pcb := by
  unfold tcp_rexmit_fast
  rw [if_neg]
  rintro ⟨h1, h2⟩
  rcases h with h | h
  · exact h1 h
  · exact h2 h

/-- What `tcp_rexmit` does when `unacked` is not empty: the head of
`unacked` goes to its sorted place in `unsent`; windows, flags and MSS stay. -/
theorem tcp_rexmit_cons (pcb : tcp_pcb) (seg : tcp_seg) (rest : List tcp_seg)
    (h : pcb.unacked = seg :: rest) :
    (tcp_rexmit pcb).unacked = rest ∧ (tcp_rexmit pcb).unsent = insert_sorted seg pcb.unsent ∧
    (tcp_rexmit pcb).cwnd = pcb.cwnd ∧ (tcp_rexmit pcb).snd_wnd = pcb.snd_wnd ∧
    (tcp_rexmit pcb).mss = pcb.mss ∧ (tcp_rexmit pcb).flags = pcb.flags := by
  unfold tcp_rexmit
  rw [h]
  dsimp only
  split <;> exact ⟨rfl, rfl, rfl, rfl, rfl, rfl⟩

/-- Claim C20: when `unacked` is not empty and `TF_INFR` is clear,
`tcp_rexmit_fast` (built-in congestion reaction) sets
`ssthresh = max(2*mss, min(cwnd, snd_wnd) / 2)` with integer division and
`cwnd = ssthresh + 3*mss` (mod 2^32), sets `TF_INFR`, and moves exactly one
segment, the old head of `unacked`, to `unsent`; when `TF_INFR` is already set
or `unacked` is empty the PCB is unchanged, so a second call after a first
one changes nothing. -/
theorem tcp_rexmit_fast_effect (pcb : tcp_pcb) (hmss : pcb.mss < 65536) :
    (∀ seg rest, pcb.unacked = seg :: rest → has pcb.flags TF_INFR = false →
      (tcp_rexmit_fast pcb).ssthresh = max (2 * pcb.mss) (min pcb.cwnd pcb.snd_wnd / 2) ∧
      (tcp_rexmit_fast pcb).cwnd =
        (max (2 * pcb.mss) (min pcb.cwnd pcb.snd_wnd / 2) + 3 * pcb.mss) % 4294967296 ∧
      has (tcp_rexmit_fast pcb).flags TF_INFR = true ∧
      (tcp_rexmit_fast pcb).unacked = rest ∧
      (tcp_rexmit_fast pcb).unsent = insert_sorted seg pcb.unsent ∧
      (tcp_rexmit_fast pcb).unsent.length = pcb.unsent.length + 1 ∧
      (tcp_rexmit_fast pcb).unsent.Perm (seg :: pcb.unsent)) ∧
    ((pcb.unacked = [] ∨ has pcb.flags TF_INFR = true) → tcp_rexmit_fast pcb = pcb) ∧
    tcp_rexmit_fast (tcp_rexmit_fast pcb) = tcp_rexmit_fast pcb := by
  have hfire : ∀ seg rest, pcb.unacked = seg :: rest → has pcb.flags TF_INFR = false →
      tcp_rexmit_fast pcb =
        { tcp_rexmit pcb with
          ssthresh := max (2 * pcb.mss) (min pcb.cwnd pcb.snd_wnd / 2),
          cwnd := u32 (max (2 * pcb.mss) (min pcb.cwnd pcb.snd_wnd / 2) + 3 * pcb.mss),
          flags := pcb.flags ||| TF_INFR } := by
    intro seg rest hu hf
    obtain ⟨-, -, hc, hw, hm, hfl⟩ := tcp_rexmit_cons pcb seg rest hu
    unfold tcp_rexmit_fast
    rw [if_pos ⟨by rw [hu]; simp, by simp [hf]⟩]
    dsimp only
    rw [hc, hw, hm, hfl]
    have h2 : u32 (2 * pcb.mss) = 2 * pcb.mss := by
      unfold u32
      omega
    rw [h2]
    have hval : (if (if pcb.cwnd > pcb.snd_wnd then pcb.snd_wnd / 2 else pcb.cwnd / 2) < 2 * pcb.mss
          then 2 * pcb.mss
          else (if pcb.cwnd > pcb.snd_wnd then pcb.snd_wnd / 2 else pcb.cwnd / 2)) =
        max (2 * pcb.mss) (min pcb.cwnd pcb.snd_wnd / 2) := by
      have hmin : (if pcb.cwnd > pcb.snd_wnd then pcb.snd_wnd / 2 else pcb.cwnd / 2) =
          min pcb.cwnd pcb.snd_wnd / 2 := by
        split
        · rw [Nat.min_eq_right (by omega)]
        · rw [Nat.min_eq_left (by omega)]
      rw [hmin]
      split
      · rw [Nat.max_eq_left (by omega)]
      · rw [Nat.max_eq_right (by omega)]
    rw [hval]
  refine ⟨fun seg rest hu hf => ?_, tcp_rexmit_fast_idle pcb, ?_⟩
  · obtain ⟨h1, h2, -, -, -, -⟩ := tcp_rexmit_cons pcb seg rest hu
    rw [hfire seg rest hu hf]
    refine ⟨rfl, rfl, has_lor_self _ _ (by decide), h1, h2, ?_, ?_⟩
    · show (tcp_rexmit pcb).unsent.length = _
      rw [h2, insert_sorted_length]
    · show (tcp_rexmit pcb).unsent.Perm _
      rw [h2]
      exact insert_sorted_perm _ _
  · by_cases h : pcb.unacked = [] ∨ has pcb.flags TF_INFR = true
    · rw [tcp_rexmit_fast_idle pcb h]
      exact tcp_rexmit_fast_idle pcb h
    · have hu : pcb.unacked ≠ [] := fun h1 => h (Or.inl h1)
      have hf : has pcb.flags TF_INFR = false := by
        cases hx : has pcb.flags TF_INFR
        · rfl
        · exact absurd (Or.inr hx) h
      obtain ⟨seg, rest, hl⟩ := List.exists_cons_of_ne_nil hu
      apply tcp_rexmit_fast_idle
      right
      rw [hfire seg rest hl hf]
      exact has_lor_self _ _ (by decide)

/-- A connection with two segments in flight and one waiting. -/
def pcb_flight : tcp_pcb :=
  { pcb_idle with
    snd_nxt := 7000, snd_lbb := 7500, snd_buf := 97500, snd_queuelen := 3,
    cwnd := 6000, snd_wnd := 9000,
    unacked := [data_seg 100 10000 5000 1000, data_seg 200 20000 6000 1000],
    last_unacked := some 200,
    unsent := [data_seg 300 30000 7000 500], last_unsent := some 300 }

/-- Witness for C20: with `cwnd = 6000`, `snd_wnd = 9000` and `mss = 1000`
the call sets `ssthresh = 3000` and `cwnd = 6000` and moves the segment at
5000 in front of the one at 7000. -/
theorem tcp_rexmit_fast_effect_witness :
    pcb_flight.mss < 65536 ∧
    pcb_flight.unacked = [data_seg 100 10000 5000 1000, data_seg 200 20000 6000 1000] ∧
    has pcb_flight.flags TF_INFR = false ∧
    (tcp_rexmit_fast pcb_flight).ssthresh = 3000 ∧ (tcp_rexmit_fast pcb_flight).cwnd = 6000 ∧
    (tcp_rexmit_fast pcb_flight).unsent.map seg_view = [(5000, 1000), (7000, 500)] ∧
    (tcp_rexmit_fast pcb_flight).unacked = [data_seg 200 20000 6000 1000] :=
  ⟨by decide, rfl, by decide, by decide, by decide, by decide,
   ((tcp_rexmit_fast_effect pcb_flight (by decide)).1 _ _ rfl (by decide)).2.2.2.1⟩


/-! ## The stand-alone ACK of `tcp_output` -/

/-- The option length of an empty ACK: 12 bytes with the timestamp option. -/
def ack_optlen (pcb : tcp_pcb) : Nat :=
  if has pcb.flags TF_TIMESTAMP then u8 (LWIP_TCP_OPT_LENGTH TF_SEG_OPTS_TS) else 0

/-- The test of `tcp_output` that no data will be sent: `unsent` is empty or
its head overruns the window (`seg->seqno - pcb->lastack + seg->len > wnd`). -/
def nothing_fits (pcb1 : tcp_pcb) (wnd : Nat) : Prop :=
  pcb1.unsent = [] ∨
    ∃ seg rest, pcb1.unsent = seg :: rest ∧ add32 (sub32 seg.seqno pcb1.lastack) seg.len > wnd

theorem output_requeue_keeps (pcb : tcp_pcb) :
    (output_requeue pcb).flags = pcb.flags ∧ (output_requeue pcb).snd_nxt = pcb.snd_nxt ∧
    (output_requeue pcb).rcv_nxt = pcb.rcv_nxt ∧
    (output_requeue pcb).rcv_ann_wnd = pcb.rcv_ann_wnd ∧
    (output_requeue pcb).lastack = pcb.lastack := by
  unfold output_requeue
  repeat' split
  all_goals exact ⟨rfl, rfl, rfl, rfl, rfl⟩

/-- What `tcp_send_empty_ack` does when its buffer is allocated. -/
theorem tcp_send_empty_ack_some (pcb : tcp_pcb) (w : World) (b : pbuf) (pcb1 : tcp_pcb)
    (w1 : World)
    (h : tcp_tx_pbuf_alloc pcb w (ack_optlen pcb + 0) pbuf_type.PBUF_RAM = (some b, pcb1, w1)) :
    ∃ c, tcp_send_empty_ack pcb w =
        (err_t.ERR_OK,
          { pcb1 with rcv_ann_right_edge := add32 pcb1.rcv_nxt pcb1.rcv_ann_wnd,
                      flags := clr16 pcb1.flags (TF_ACK_DELAY ||| TF_ACK_NOW),
                      ts_lastacksent := pcb1.rcv_nxt },
          { w1 with ip_results := w1.ip_results.tail, calls := w1.calls ++ [c] }) ∧
      c.seg = none ∧ c.flags = 0 ∧ c.hdr.seqno = pcb.snd_nxt ∧ c.hdr.ackno = pcb1.rcv_nxt ∧
      c.hdr.flags = TCP_ACK ∧ c.p.length = 1 ∧
      chain_tot_len c.p = u32 (u32 (ack_optlen pcb + 0) + TCP_HLEN) := by
  have hb := tcp_tx_pbuf_alloc_some _ _ _ _ _ _ _ h
  unfold tcp_send_empty_ack tcp_output_alloc_header
  dsimp only
  unfold ack_optlen at h
  rw [h]
  dsimp only [ip_output]
  refine ⟨_, rfl, rfl, rfl, rfl, rfl, rfl, ?_, ?_⟩
  · simp [pbuf_header, hb.2.2]
  · simp [pbuf_header, hb.2.2, chain_tot_len, hb.2.1, ack_optlen]

/-- Claim C17: with `is_in_input` clear and `TF_ACK_NOW` set, when `unsent`
(after the dropped segment has been put back in front) is empty or its head
has `(seqno - lastack) + len > min(snd_wnd, cwnd)` in 32-bit arithmetic, and
the header buffer is allocated, `tcp_output` returns `ERR_OK` after exactly
one call of the IP output hook; the call carries no segment but one buffer
holding the TCP header and the options, with `seqno = snd_nxt`,
`ackno = rcv_nxt` and the flag `ACK` alone; `TF_ACK_DELAY` and `TF_ACK_NOW` are
cleared, `rcv_ann_right_edge = rcv_nxt + rcv_ann_wnd` (mod 2^32), and `unsent`
is left as it was.  No pass of the loop is needed for that. -/
theorem tcp_output_ack_now (cfg : Config) (fuel : Nat) (pcb : tcp_pcb) (w : World)
    (hin : pcb.is_in_input = false) (hack : has pcb.flags TF_ACK_NOW = true)
    (hfit : nothing_fits (output_requeue pcb) (min pcb.snd_wnd pcb.cwnd))
    (halloc : (tcp_tx_pbuf_alloc (output_requeue pcb) w (ack_optlen pcb + 0)
      pbuf_type.PBUF_RAM).1 ≠ none) :
    ∃ pcb2 w2 c, tcp_output cfg fuel pcb w = some (err_t.ERR_OK, pcb2, w2) ∧
      w2.calls = w.calls ++ [c] ∧ c.seg = none ∧ c.p.length = 1 ∧
      chain_tot_len c.p = u32 (u32 (ack_optlen pcb + 0) + TCP_HLEN) ∧
      c.hdr.seqno = pcb.snd_nxt ∧ c.hdr.ackno = pcb.rcv_nxt ∧ c.hdr.flags = TCP_ACK ∧
      pcb2.flags = clr16 pcb.flags (TF_ACK_DELAY ||| TF_ACK_NOW) ∧
      has pcb2.flags TF_ACK_DELAY = false ∧ has pcb2.flags TF_ACK_NOW = false ∧
      pcb2.rcv_ann_right_edge = add32 pcb.rcv_nxt pcb.rcv_ann_wnd ∧
      pcb2.unsent = (output_requeue pcb).unsent ∧ pcb2.unacked = (output_requeue pcb).unacked := by
  obtain ⟨hfl, hnxt, hrcv, hann, hla⟩ := output_requeue_keeps pcb
  have hopt : ack_optlen (output_requeue pcb) = ack_optlen pcb := by
    unfold ack_optlen
    rw [hfl]
  cases ha : tcp_tx_pbuf_alloc (output_requeue pcb) w (ack_optlen pcb + 0) pbuf_type.PBUF_RAM with
  | mk o rest =>
    obtain ⟨pcb1, w1⟩ := rest
    cases o with
    | none =>
      rw [ha] at halloc
      exact absurd rfl halloc
    | some b =>
      have hfr : frame_alloc pcb1 = frame_alloc (output_requeue pcb) :=
        (congrArg (fun r => frame_alloc r.2.1) ha).symm.trans (tcp_tx_pbuf_alloc_frame _ _ _ _)
      have hcalls : w1.calls = w.calls :=
        (congrArg (fun r => r.2.2.calls) ha).symm.trans (tcp_tx_pbuf_alloc_calls _ _ _ _)
      have ha1 := ha
      rw [← hopt] at ha1
      obtain ⟨c, hres, hs, -, hseq, hackno, hflags, hlen, htot⟩ :=
        tcp_send_empty_ack_some (output_requeue pcb) w b pcb1 w1 ha1
      have h1 : pcb1.flags = pcb.flags := by
        have h := congrArg tcp_pcb.flags hfr
        exact h.trans hfl
      have h2 : pcb1.rcv_nxt = pcb.rcv_nxt := by
        have h := congrArg tcp_pcb.rcv_nxt hfr
        exact h.trans hrcv
      have h3 : pcb1.rcv_ann_wnd = pcb.rcv_ann_wnd := by
        have h := congrArg tcp_pcb.rcv_ann_wnd hfr
        exact h.trans hann
      have h4 : pcb1.unsent = (output_requeue pcb).unsent := by
        have h := congrArg tcp_pcb.unsent hfr
        exact h
      have h5 : pcb1.unacked = (output_requeue pcb).unacked := by
        have h := congrArg tcp_pcb.unacked hfr
        exact h
      have hblocked : (match (output_requeue pcb).unsent with
          | [] => true
          | seg :: _ => decide (add32 (sub32 seg.seqno (output_requeue pcb).lastack) seg.len >
              min pcb.snd_wnd pcb.cwnd)) = true := by
        rcases hfit with h | ⟨seg, rest, h, hgt⟩
        · rw [h]
        · rw [h]
          exact decide_eq_true hgt
      refine ⟨{ pcb1 with rcv_ann_right_edge := add32 pcb1.rcv_nxt pcb1.rcv_ann_wnd,
                          flags := clr16 pcb1.flags (TF_ACK_DELAY ||| TF_ACK_NOW),
                          ts_lastacksent := pcb1.rcv_nxt },
        { w1 with ip_results := w1.ip_results.tail, calls := w1.calls ++ [c] }, c,
        ?_, ?_, hs, hlen, ?_, ?_, ?_, hflags, ?_, ?_, ?_, ?_, h4, h5⟩
      · unfold tcp_output
        rw [if_neg (by simp [hin])]
        dsimp only
        rw [if_pos ⟨by rw [hfl]; exact hack, hblocked⟩, hres]
      · show w1.calls ++ [c] = w.calls ++ [c]
        rw [hcalls]
      · rw [htot, hopt]
      · rw [hseq, hnxt]
      · rw [hackno, h2]
      · show clr16 pcb1.flags (TF_ACK_DELAY ||| TF_ACK_NOW) = _
        rw [h1]
      · show has (clr16 pcb1.flags (TF_ACK_DELAY ||| TF_ACK_NOW)) TF_ACK_DELAY = false
        unfold has clr16
        have : pcb1.flags &&& (65535 ^^^ (TF_ACK_DELAY ||| TF_ACK_NOW)) &&& TF_ACK_DELAY = 0 := by
          rw [Nat.land_assoc]
          have : (65535 ^^^ (TF_ACK_DELAY ||| TF_ACK_NOW)) &&& TF_ACK_DELAY = 0 := by decide
          rw [this]
          simp
        simp [this]
      · show has (clr16 pcb1.flags (TF_ACK_DELAY ||| TF_ACK_NOW)) TF_ACK_NOW = false
        unfold has clr16
        have : pcb1.flags &&& (65535 ^^^ (TF_ACK_DELAY ||| TF_ACK_NOW)) &&& TF_ACK_NOW = 0 := by
          rw [Nat.land_assoc]
          have : (65535 ^^^ (TF_ACK_DELAY ||| TF_ACK_NOW)) &&& TF_ACK_NOW = 0 := by decide
          rw [this]
          simp
        simp [this]
      · show add32 pcb1.rcv_nxt pcb1.rcv_ann_wnd = _
        rw [h2, h3]

/-- A connection with an ACK due and a closed window in front of its three
unsent segments. -/
def pcb_ack_due : tcp_pcb :=
  { pcb_three with flags := TF_NODELAY ||| TF_ACK_NOW ||| TF_ACK_DELAY, snd_wnd := 0 }

/-- Witness for C17: the window is closed, so only the ACK leaves. -/
theorem tcp_output_ack_now_witness :
    pcb_ack_due.is_in_input = false ∧ has pcb_ack_due.flags TF_ACK_NOW = true ∧
    nothing_fits (output_requeue pcb_ack_due) (min pcb_ack_due.snd_wnd pcb_ack_due.cwnd) ∧
    (tcp_tx_pbuf_alloc (output_requeue pcb_ack_due) world_ok (ack_optlen pcb_ack_due + 0)
      pbuf_type.PBUF_RAM).1 ≠ none ∧
    ∃ pcb2 w2 c, tcp_output cfg_push 0 pcb_ack_due world_ok = some (err_t.ERR_OK, pcb2, w2) ∧
      w2.calls = world_ok.calls ++ [c] ∧ c.seg = none ∧ c.p.length = 1 ∧
      chain_tot_len c.p = u32 (u32 (ack_optlen pcb_ack_due + 0) + TCP_HLEN) ∧
      c.hdr.seqno = pcb_ack_due.snd_nxt ∧ c.hdr.ackno = pcb_ack_due.rcv_nxt ∧
      c.hdr.flags = TCP_ACK ∧
      pcb2.flags = clr16 pcb_ack_due.flags (TF_ACK_DELAY ||| TF_ACK_NOW) ∧
      has pcb2.flags TF_ACK_DELAY = false ∧ has pcb2.flags TF_ACK_NOW = false ∧
      pcb2.rcv_ann_right_edge = add32 pcb_ack_due.rcv_nxt pcb_ack_due.rcv_ann_wnd ∧
      pcb2.unsent = (output_requeue pcb_ack_due).unsent ∧
      pcb2.unacked = (output_requeue pcb_ack_due).unacked :=
  ⟨rfl, by decide,
   Or.inr ⟨data_seg 100 10000 5000 1000, _, rfl, by decide⟩, by decide,
   tcp_output_ack_now cfg_push 0 pcb_ack_due world_ok rfl (by decide)
     (Or.inr ⟨data_seg 100 10000 5000 1000, _, rfl, by decide⟩) (by decide)⟩


/-! ## A write followed by `tcp_output` with TSO -/

/-- What a call of the IP output hook carried: sequence number and length
of the segment, the total length of the buffer chain, and whether the
segment-option bit `TSO` is set in the flags word. -/
def sent_view (c : HookCall) : Option (Nat × Nat) × Nat × Bool :=
  (c.seg.map seg_view, chain_tot_len c.p, has c.flags TF_SEG_OPTS_TSO)

/-- The calls of the IP output hook made by `tcp_output` on the connection
that a write has left; `none` when the write failed or the passes allowed
did not suffice. -/
def output_after_write (cfg : Config) (r : err_t × tcp_pcb × World) :
    Option (List (Option (Nat × Nat) × Nat × Bool)) :=
  if r.1 = err_t.ERR_OK then
    (tcp_output cfg 5 r.2.1 r.2.2).map (fun o => o.2.2.calls.map sent_view)
  else none

/-- An idle connection with `mss = 1000`, `snd_wnd = cwnd = 10000`, TSO with
`max_payload_sz = 10000`, and the TSO buffer size `max_buf_sz` given. -/
def pcb_tso (max_buf_sz : Nat) : tcp_pcb :=
  { pcb_idle with
    snd_wnd := 10000, cwnd := 10000,
    tso := { max_buf_sz := max_buf_sz, max_payload_sz := 10000, max_header_sz := 64,
             max_send_sge := 8 } }

/-- Claim C13 fails as stated: with `mss = 1000`, `tso.max_payload_sz = 10000`,
`snd_wnd = cwnd = 10000`, empty queues and no TSO buffer size
(`tso.max_buf_sz = 0`), a copying write of 1500 bytes queues segments of 1000
and 500 bytes; `tcp_tso_segment` never joins the last unsent segment, so
`tcp_output` calls the IP output hook twice, and neither call has the `TSO`
bit. -/
theorem tcp_output_last_segment_not_joined :
    output_after_write cfg_push (tcp_write cfg_push (pcb_tso 0) world_ok 1 1500 1) =
      some [(some (5000, 1000), 1020, false), (some (6000, 500), 520, false)] :=
  tcp_write_observe (output_after_write cfg_push) 4 cfg_push (pcb_tso 0) world_ok 1 1500 1
    (some [(some (5000, 1000), 1020, false), (some (6000, 500), 520, false)]) (by decide)

/-- Claim C13 as amended: with `mss = 1000`, `tso.max_payload_sz = 10000`,
`tso.max_buf_sz = 10000`, `snd_wnd = cwnd = 10000` and empty queues, a copying
write of 1500 bytes followed by `tcp_output` results in a single call of the
IP output hook; it carries one segment of 1500 payload bytes (1520 with the
TCP header) and has the `TSO` bit set in its flags word. -/
theorem tcp_output_single_tso_call :
    output_after_write cfg_push (tcp_write cfg_push (pcb_tso 10000) world_ok 1 1500 1) =
      some [(some (5000, 1500), 1520, true)] :=
  tcp_write_observe (output_after_write cfg_push) 4 cfg_push (pcb_tso 10000) world_ok 1 1500 1
    (some [(some (5000, 1500), 1520, true)]) (by decide)


/-! ## Splitting a segment at the window -/

/-- A connection with the timestamp option, no spare room in its buffers
(`tcp_oversize_val = 0`) and a send window of 300 bytes. -/
def pcb_ts_chain : tcp_pcb :=
  { pcb_idle with flags := TF_NODELAY ||| TF_TIMESTAMP, tcp_oversize_val := 0, snd_wnd := 300 }

/-- The segment that copying writes of 100 and of 400 bytes leave on
`pcb_ts_chain`: 500 bytes at 5000 in two buffers, the first of which starts
with the 20-byte header and the 12 option bytes. -/
def seg_chain : tcp_seg :=
  { id := 100,
    p := [{ payload := 9980, len := 132, tot_len := 532, type := pbuf_type.PBUF_RAM, ref := 1 },
          { payload := 20000, len := 400, tot_len := 400, type := pbuf_type.PBUF_RAM, ref := 1 }],
    seqno := 5000, len := 500, flags := TF_SEG_OPTS_TS, tcphdr := some 9980,
    hdr := { src := 1024, dest := 80, seqno := 5000, ackno := 0, hdrlen := 8, flags := TCP_PSH,
             wnd := 0, chksum := 0, urgp := 0 } }

/-- Sequence number and length of the left half and of the segments created
to its right by a split. -/
def split_view (r : tcp_seg × List tcp_seg × tcp_pcb × World) : (Nat × Nat) × List (Nat × Nat) :=
  (seg_view r.1, r.2.1.map seg_view)

/-- Claim C11, at a segment that two writes produce: on a connection with
the timestamp option, the 500-byte segment `seg_chain` (two buffers) is split
for a window of 300 bytes in the buffer-chain branch.  The left half keeps
`seqno = 5000` and gets 100 bytes, the right half starts at 5100 but gets
`len = 388`: `tcp_create_segment` takes the 12 option bytes off the length of
a buffer that holds payload only, so the halves add up to 488 bytes, not
500. -/
theorem tcp_split_segment_chain_drops_option_bytes :
    (tcp_write cfg_push (tcp_write cfg_push pcb_ts_chain world_ok 1 100 1).2.1
      (tcp_write cfg_push pcb_ts_chain world_ok 1 100 1).2.2 1 400 1).2.1.unsent = [seg_chain] ∧
    split_view (tcp_split_segment cfg_push pcb_ts_chain world_ok seg_chain 300) =
      ((5000, 100), [(5100, 388)]) ∧
    100 + 388 ≠ seg_chain.len := by
  have h1 := tcp_write_observe
    (fun r => (tcp_write_fuel 4 cfg_push r.2.1 r.2.2 1 400 1).map (fun r2 => r2.2.1.unsent))
    4 cfg_push pcb_ts_chain world_ok 1 100 1 (some [seg_chain]) (by decide)
  have h2 := tcp_write_observe (fun r2 => r2.2.1.unsent) 4 cfg_push
    (tcp_write cfg_push pcb_ts_chain world_ok 1 100 1).2.1
    (tcp_write cfg_push pcb_ts_chain world_ok 1 100 1).2.2 1 400 1 [seg_chain] h1
  exact ⟨h2, by decide, by decide⟩


/-! ## The TSO join conserves the queue -/

/-- The chain that joining the segments `cs` to a segment with chain `p`
leaves: the chain of each, stripped of its header, is concatenated in
turn. -/
def join_chain (p : List pbuf) (cs : List tcp_seg) : List pbuf :=
  cs.foldl (fun acc cur => pbuf_cat acc (strip_header cur)) p

theorem chain_tot_len_strip (cur : tcp_seg) (h : cur.p ≠ []) :
    chain_tot_len (strip_header cur) = cur.len := by
  unfold strip_header
  cases hp : cur.p with
  | nil => exact absurd hp h
  | cons b r => rfl

theorem strip_header_length (cur : tcp_seg) : (strip_header cur).length = cur.p.length := by
  unfold strip_header
  cases cur.p with
  | nil => rfl
  | cons b r => rfl

theorem chain_tot_len_cat (h t : List pbuf) (hne : h ≠ []) :
    chain_tot_len (pbuf_cat h t) = u32 (chain_tot_len h + chain_tot_len t) := by
  cases h with
  | nil => exact absurd rfl hne
  | cons b r => rfl

theorem pbuf_cat_ne_nil (h t : List pbuf) (hne : h ≠ []) : pbuf_cat h t ≠ [] := by
  cases h with
  | nil => exact absurd rfl hne
  | cons b r => simp [pbuf_cat]

theorem pbuf_cat_length (h t : List pbuf) : (pbuf_cat h t).length = h.length + t.length := by
  simp [pbuf_cat]

/-- The head `tot_len` of a joined chain: the payload of the joined segments
is added, in 32 bits. -/
theorem join_chain_tot_len (cs : List tcp_seg) :
    ∀ p : List pbuf, p ≠ [] → chain_tot_len p < 4294967296 → (∀ s ∈ cs, s.p ≠ []) →
      join_chain p cs ≠ [] ∧
      chain_tot_len (join_chain p cs) = (chain_tot_len p + queue_bytes cs) % 4294967296 ∧
      (join_chain p cs).length = p.length + ((cs.map (fun s => s.p.length)).sum) := by
  induction cs with
  | nil =>
    intro p hp ht _
    refine ⟨hp, ?_, ?_⟩
    · show chain_tot_len p = (chain_tot_len p + 0) % 4294967296
      omega
    · simp [join_chain]
  | cons cur r ih =>
    intro p hp ht hs
    have hcur : cur.p ≠ [] := hs cur (List.mem_cons_self _ _)
    have hstep := ih (pbuf_cat p (strip_header cur)) (pbuf_cat_ne_nil _ _ hp)
      (by rw [chain_tot_len_cat _ _ hp]; unfold u32; omega)
      (fun s hmem => hs s (List.mem_cons_of_mem _ hmem))
    refine ⟨hstep.1, ?_, ?_⟩
    · show chain_tot_len (join_chain (pbuf_cat p (strip_header cur)) r) = _
      rw [hstep.2.1, chain_tot_len_cat _ _ hp, chain_tot_len_strip _ hcur]
      unfold u32 queue_bytes
      simp only [List.map_cons, List.sum_cons]
      omega
    · show (join_chain (pbuf_cat p (strip_header cur)) r).length = _
      rw [hstep.2.2, pbuf_cat_length, strip_header_length]
      simp only [List.map_cons, List.sum_cons]
      omega

/-- The joining loop consumes a prefix of the queue: the segment keeps its
sequence number, its length grows by the bytes consumed (in 32 bits) and its
chain is the joined chain. -/
theorem tso_join_consumes (pcb : tcp_pcb) (flags mp : Nat) :
    ∀ (l : List tcp_seg) (tot_len : Nat) (tot_p : Int) (seg : tcp_seg),
      seg.len < 4294967296 →
      ∃ k, k ≤ l.length ∧
        (tso_join pcb flags mp tot_len tot_p seg l).2 = l.drop k ∧
        (tso_join pcb flags mp tot_len tot_p seg l).1.seqno = seg.seqno ∧
        (tso_join pcb flags mp tot_len tot_p seg l).1.len =
          (seg.len + queue_bytes (l.take k)) % 4294967296 ∧
        (tso_join pcb flags mp tot_len tot_p seg l).1.p = join_chain seg.p (l.take k) := by
  have stop : ∀ (l : List tcp_seg) (seg : tcp_seg), seg.len < 4294967296 →
      ∃ k, k ≤ l.length ∧ (seg, l).2 = l.drop k ∧ (seg, l).1.seqno = seg.seqno ∧
        (seg, l).1.len = (seg.len + queue_bytes (l.take k)) % 4294967296 ∧
        (seg, l).1.p = join_chain seg.p (l.take k) := by
    intro l seg hlen
    refine ⟨0, Nat.zero_le _, rfl, rfl, ?_, rfl⟩
    show seg.len = (seg.len + 0) % 4294967296
    omega
  intro l
  induction l with
  | nil =>
    intro tot_len tot_p seg hlen
    unfold tso_join
    exact stop [] seg hlen
  | cons cur t ih =>
    cases t with
    | nil =>
      intro tot_len tot_p seg hlen
      unfold tso_join
      exact stop [cur] seg hlen
    | cons nxt r =>
      intro tot_len tot_p seg hlen
      unfold tso_join
      dsimp only
      split
      · split
        · exact stop _ seg hlen
        · split
          · exact stop _ seg hlen
          · split
            · exact stop _ seg hlen
            · obtain ⟨k, hk, h1, h2, h3, h4⟩ := ih (add32 tot_len cur.len)
                (tot_p + pbuf_clen cur.p)
                { seg with len := add32 seg.len cur.len, p := pbuf_cat seg.p (strip_header cur) }
                (by show add32 seg.len cur.len < 4294967296; unfold add32; omega)
              refine ⟨k + 1, by simp only [List.length_cons] at hk ⊢; omega, h1, h2, ?_, h4⟩
              rw [h3]
              show (add32 seg.len cur.len + queue_bytes ((nxt :: r).take k)) % 4294967296 =
                (seg.len + queue_bytes (cur :: (nxt :: r).take k)) % 4294967296
              unfold add32 queue_bytes
              simp only [List.map_cons, List.sum_cons]
              omega
      · exact stop _ seg hlen

theorem mark_tso_p (pcb : tcp_pcb) (seg : tcp_seg) : (mark_tso pcb seg).p = seg.p := by
  unfold mark_tso
  split <;> rfl

theorem queue_bytes_take_drop (q : List tcp_seg) (k : Nat) :
    queue_bytes (q.take k) + queue_bytes (q.drop k) = queue_bytes q := by
  unfold queue_bytes
  rw [← List.sum_append, ← List.map_append, List.take_append_drop]

/-- In a contiguous queue the segment that follows a joined prefix starts
where the joined bytes end. -/
theorem contiguous_after_take :
    ∀ (k : Nat) (seg : tcp_seg) (rest : List tcp_seg),
      List.Chain' (fun a b : tcp_seg => add32 a.seqno a.len = b.seqno) (seg :: rest) →
      ∀ nxt, (rest.drop k).head? = some nxt →
        add32 seg.seqno (seg.len + queue_bytes (rest.take k)) = nxt.seqno := by
  intro k
  induction k with
  | zero =>
    intro seg rest hc nxt hn
    cases rest with
    | nil => simp at hn
    | cons c r =>
      simp only [List.drop_zero, List.head?_cons, Option.some.injEq] at hn
      rw [← hn]
      have h1 := (List.chain'_cons.1 hc).1
      simpa [queue_bytes] using h1
  | succ k ih =>
    intro seg rest hc nxt hn
    cases rest with
    | nil => simp at hn
    | cons c r =>
      have h1 := (List.chain'_cons.1 hc).1
      have h2 := ih c r (List.chain'_cons.1 hc).2 nxt (by simpa using hn)
      rw [← h2, ← h1]
      unfold add32 queue_bytes
      simp only [List.take_succ_cons, List.map_cons, List.sum_cons]
      omega

/-- Claim C12: `tcp_tso_segment` conserves the bytes of the queue.  For a
head segment `seg` followed by `rest` (every segment with a buffer chain,
`seg.len` and the `tot_len` of its chain 32-bit values), the call consumes a
prefix of `rest` of some length `k`: the sequence number of `seg` is
unchanged, its length is the sum of its old length and the lengths consumed,
its chain is the concatenation of the chains (the consumed ones stripped of
their headers) with `tot_len` grown by the consumed payload, and the sum of
the lengths over the queue is unchanged, all in 32-bit arithmetic and exactly
when the bytes of the queue stay below 2^32; in a contiguous queue
`seg.seqno + seg.len` is the sequence number of the new successor. -/
theorem tcp_tso_segment_conserves (pcb : tcp_pcb) (seg : tcp_seg) (rest : List tcp_seg) (wnd : Nat)
    (hlen : seg.len < 4294967296) (htot : chain_tot_len seg.p < 4294967296)
    (hp : ∀ s ∈ seg :: rest, s.p ≠ []) :
    ∃ k, k ≤ rest.length ∧
      (tcp_tso_segment pcb seg rest wnd).2 = rest.drop k ∧
      (tcp_tso_segment pcb seg rest wnd).1.seqno = seg.seqno ∧
      (tcp_tso_segment pcb seg rest wnd).1.len =
        (seg.len + queue_bytes (rest.take k)) % 4294967296 ∧
      queue_bytes ((tcp_tso_segment pcb seg rest wnd).1 :: (tcp_tso_segment pcb seg rest wnd).2) %
        4294967296 = queue_bytes (seg :: rest) % 4294967296 ∧
      (tcp_tso_segment pcb seg rest wnd).1.p = join_chain seg.p (rest.take k) ∧
      chain_tot_len (tcp_tso_segment pcb seg rest wnd).1.p =
        (chain_tot_len seg.p + queue_bytes (rest.take k)) % 4294967296 ∧
      (tcp_tso_segment pcb seg rest wnd).1.p.length =
        seg.p.length + (((rest.take k).map (fun s => s.p.length)).sum) ∧
      (queue_bytes (seg :: rest) < 4294967296 →
        (tcp_tso_segment pcb seg rest wnd).1.len = seg.len + queue_bytes (rest.take k) ∧
        queue_bytes ((tcp_tso_segment pcb seg rest wnd).1 :: (tcp_tso_segment pcb seg rest wnd).2) =
          queue_bytes (seg :: rest)) ∧
      (List.Chain' (fun a b : tcp_seg => add32 a.seqno a.len = b.seqno) (seg :: rest) →
        ∀ nxt, (tcp_tso_segment pcb seg rest wnd).2.head? = some nxt →
          add32 (tcp_tso_segment pcb seg rest wnd).1.seqno (tcp_tso_segment pcb seg rest wnd).1.len =
            nxt.seqno) := by
  have core : ∃ k, k ≤ rest.length ∧
      (tcp_tso_segment pcb seg rest wnd).2 = rest.drop k ∧
      (tcp_tso_segment pcb seg rest wnd).1.seqno = seg.seqno ∧
      (tcp_tso_segment pcb seg rest wnd).1.len =
        (seg.len + queue_bytes (rest.take k)) % 4294967296 ∧
      (tcp_tso_segment pcb seg rest wnd).1.p = join_chain seg.p (rest.take k) := by
    have hm := mark_tso_seqno_len pcb seg
    have hmp := mark_tso_p pcb seg
    have stop : ∃ k, k ≤ rest.length ∧ (mark_tso pcb seg, rest).2 = rest.drop k ∧
        (mark_tso pcb seg, rest).1.seqno = seg.seqno ∧
        (mark_tso pcb seg, rest).1.len = (seg.len + queue_bytes (rest.take k)) % 4294967296 ∧
        (mark_tso pcb seg, rest).1.p = join_chain seg.p (rest.take k) := by
      refine ⟨0, Nat.zero_le _, rfl, hm.1, ?_, hmp⟩
      show (mark_tso pcb seg).len = (seg.len + 0) % 4294967296
      rw [hm.2]
      omega
    unfold tcp_tso_segment
    dsimp only
    split
    · exact stop
    · split
      · exact stop
      · split
        · exact stop
        · split
          · exact stop
          · obtain ⟨k, hk, h1, h2, h3, h4⟩ := tso_join_consumes pcb seg.flags
              (min pcb.tso.max_payload_sz (sub32 wnd (sub32 seg.seqno pcb.lastack))) rest
              (add32 0 seg.len) (pbuf_clen seg.p) seg hlen
            have hm1 := mark_tso_seqno_len pcb (tso_join pcb seg.flags
              (min pcb.tso.max_payload_sz (sub32 wnd (sub32 seg.seqno pcb.lastack)))
              (add32 0 seg.len) (pbuf_clen seg.p) seg rest).1
            exact ⟨k, hk, h1, hm1.1.trans h2, hm1.2.trans h3, (mark_tso_p _ _).trans h4⟩
  obtain ⟨k, hk, h1, h2, h3, h4⟩ := core
  have hps : ∀ s ∈ rest.take k, s.p ≠ [] := fun s hs =>
    hp s (List.mem_cons_of_mem _ (List.mem_of_mem_take hs))
  have hj := join_chain_tot_len (rest.take k) seg.p (hp seg (List.mem_cons_self _ _)) htot hps
  have hsplit := queue_bytes_take_drop rest k
  have hq : queue_bytes ((tcp_tso_segment pcb seg rest wnd).1 :: (tcp_tso_segment pcb seg rest wnd).2) =
      (seg.len + queue_bytes (rest.take k)) % 4294967296 + queue_bytes (rest.drop k) := by
    rw [h1]
    show ((tcp_tso_segment pcb seg rest wnd).1.len :: _).sum = _
    rw [List.sum_cons, h3]
    rfl
  have hq0 : queue_bytes (seg :: rest) = seg.len + queue_bytes rest := by
    unfold queue_bytes
    simp
  refine ⟨k, hk, h1, h2, h3, ?_, h4, ?_, ?_, ?_, ?_⟩
  · rw [hq, hq0]
    omega
  · rw [h4]
    exact hj.2.1
  · rw [h4]
    exact hj.2.2
  · intro hb
    rw [hq, hq0, h3]
    rw [hq0] at hb
    have : (seg.len + queue_bytes (rest.take k)) % 4294967296 =
        seg.len + queue_bytes (rest.take k) := Nat.mod_eq_of_lt (by omega)
    rw [this]
    exact ⟨rfl, by omega⟩
  · intro hc nxt hn
    rw [h1] at hn
    rw [h2, h3, ← contiguous_after_take k seg rest hc nxt hn]
    unfold add32
    omega

/-- Witness for C12: on the connection with unsent segments of 1000, 1000 and
500 bytes the first two are joined into one of 2000 bytes at 5000, followed
by the one at 7000. -/
theorem tcp_tso_segment_conserves_witness :
    (data_seg 100 10000 5000 1000).len < 4294967296 ∧
    chain_tot_len (data_seg 100 10000 5000 1000).p < 4294967296 ∧
    (∀ s ∈ [data_seg 100 10000 5000 1000, data_seg 200 20000 6000 1000,
        data_seg 300 30000 7000 500], s.p ≠ []) ∧
    seg_view (tcp_tso_segment pcb_three (data_seg 100 10000 5000 1000)
      [data_seg 200 20000 6000 1000, data_seg 300 30000 7000 500] 10000).1 = (5000, 2000) ∧
    (tcp_tso_segment pcb_three (data_seg 100 10000 5000 1000)
      [data_seg 200 20000 6000 1000, data_seg 300 30000 7000 500] 10000).2.map seg_view =
      [(7000, 500)] ∧
    (tcp_tso_segment pcb_three (data_seg 100 10000 5000 1000)
      [data_seg 200 20000 6000 1000, data_seg 300 30000 7000 500] 10000).1.seqno = 5000 :=
  ⟨by decide, by decide, by decide, by decide, by decide,
   (tcp_tso_segment_conserves pcb_three (data_seg 100 10000 5000 1000)
      [data_seg 200 20000 6000 1000, data_seg 300 30000 7000 500] 10000
      (by decide) (by decide) (by decide)).elim (fun _ h => h.2.2.1)⟩


/-! ## What one pass of `tcp_output` leaves alone -/

/-- The PCB without the fields that the splitting of the head segment may
write: the prefetch slots, `unsent`, `last_unsent`, `unsent_oversize` and
`snd_queuelen`. -/
def frame_split (pcb : tcp_pcb) : tcp_pcb :=
  { frame_alloc pcb with unsent := [], last_unsent := none, unsent_oversize := 0,
                         snd_queuelen := 0 }

theorem frame_split_of_frame_alloc (a b : tcp_pcb) (h : frame_alloc a = frame_alloc b) :
    frame_split a = frame_split b := by
  have h1 := congrArg (fun p : tcp_pcb =>
    ({ p with unsent := [], last_unsent := none, unsent_oversize := 0,
              snd_queuelen := 0 } : tcp_pcb)) h
  exact h1

/-- A step that writes only fields outside `frame_split` and does not call
the IP output hook. -/
def silent (pcb : tcp_pcb) (w : World) (pcb1 : tcp_pcb) (w1 : World) : Prop :=
  frame_split pcb1 = frame_split pcb ∧ w1.calls = w.calls

theorem silent_refl (pcb : tcp_pcb) (w : World) : silent pcb w pcb w := ⟨rfl, rfl⟩

theorem silent_trans {pcb pcb1 pcb2 : tcp_pcb} {w w1 w2 : World} (h1 : silent pcb w pcb1 w1)
    (h2 : silent pcb1 w1 pcb2 w2) : silent pcb w pcb2 w2 :=
  ⟨h2.1.trans h1.1, h2.2.trans h1.2⟩

theorem silent_of_prealloc {cfg : Config} {pcb pcb1 : tcp_pcb} {w w1 : World} {l m more : Nat}
    {t : pbuf_type} {f : Bool} {o : Option (pbuf × Nat)}
    (h : tcp_pbuf_prealloc cfg pcb w l m t more f = (o, pcb1, w1)) : silent pcb w pcb1 w1 := by
  have h1 := frame_split_of_frame_alloc _ _ (tcp_pbuf_prealloc_frame cfg pcb w l m t more f)
  have h2 := tcp_pbuf_prealloc_calls cfg pcb w l m t more f
  rw [h] at h1 h2
  exact ⟨h1, h2⟩

theorem silent_of_create {pcb pcb1 : tcp_pcb} {w w1 : World} {p : List pbuf} {f s o : Nat}
    {x : Option tcp_seg}
    (h : tcp_create_segment pcb w p f s o = (x, pcb1, w1)) : silent pcb w pcb1 w1 := by
  have h1 := frame_split_of_frame_alloc _ _ (tcp_create_segment_frame pcb w p f s o)
  have h2 := tcp_create_segment_calls pcb w p f s o
  rw [h] at h1 h2
  exact ⟨h1, h2⟩

theorem split_rexmit_loop_silent (optflags optlen hlen : Nat) :
    ∀ (n : Nat) (pcb : tcp_pcb) (w : World) (cur_seg : tcp_seg), cur_seg.p.length ≤ n →
      silent pcb w (split_rexmit_loop pcb w optflags optlen hlen cur_seg).2.2.1
        (split_rexmit_loop pcb w optflags optlen hlen cur_seg).2.2.2 := by
  intro n
  induction n with
  | zero =>
    intro pcb w cur_seg hn
    rw [split_rexmit_loop]
    split
    · rename_i b cur_p r hp
      rw [hp] at hn
      simp at hn
    · exact silent_refl _ _
  | succ n ih =>
    intro pcb w cur_seg hn
    rw [split_rexmit_loop]
    split
    · rename_i b cur_p r hp
      dsimp only
      split
      · rename_i pcb1 w1 hc
        exact silent_of_create hc
      · rename_i new_seg pcb1 w1 hc
        have hl := tcp_create_segment_clen _ _ _ _ _ _ _ _ _ (by simp) hc
        refine silent_trans (silent_trans (silent_of_create hc) (?_ : silent pcb1 w1 _ w1))
          (ih _ _ _ ?_)
        · split
          · exact ⟨rfl, rfl⟩
          · exact silent_refl _ _
        · rw [tcp_seg_move_flags_snd_p]
          rw [hp] at hn
          simp only [List.length_cons] at hl hn ⊢
          omega
    · exact silent_refl _ _

theorem tcp_split_rexmit_silent (pcb : tcp_pcb) (w : World) (seg : tcp_seg) :
    silent pcb w (tcp_split_rexmit pcb w seg).2.2.1 (tcp_split_rexmit pcb w seg).2.2.2 := by
  unfold tcp_split_rexmit
  split
  exact split_rexmit_loop_silent _ _ _ _ _ _ _ (le_refl _)

theorem tcp_split_segment_silent (cfg : Config) (pcb : tcp_pcb) (w : World) (seg : tcp_seg)
    (wnd : Nat) :
    silent pcb w (tcp_split_segment cfg pcb w seg wnd).2.2.1
      (tcp_split_segment cfg pcb w seg wnd).2.2.2 := by
  unfold tcp_split_segment
  split
  · exact silent_refl _ _
  · split
    · exact silent_refl _ _
    · dsimp only
      split
      · split
        · rename_i h1
          exact silent_of_prealloc h1
        · rename_i h1
          split
          · rename_i h2
            exact silent_trans (silent_of_prealloc h1) (silent_of_create h2)
          · rename_i h2
            refine silent_trans (silent_of_prealloc h1) (silent_trans (silent_of_create h2) ?_)
            dsimp only
            split
            · exact ⟨rfl, rfl⟩
            · exact ⟨rfl, rfl⟩
      · split
        · split
          · exact silent_refl _ _
          · split
            · rename_i h2
              exact silent_of_create h2
            · rename_i h2
              refine silent_trans (silent_of_create h2) ?_
              dsimp only
              split
              · exact ⟨rfl, rfl⟩
              · exact silent_refl _ _
        · exact silent_refl _ _

theorem output_prepare_silent (cfg : Config) (wnd : Nat) (pcb : tcp_pcb) (w : World)
    (seg0 : tcp_seg) (rest0 : List tcp_seg) :
    silent pcb w (output_prepare cfg wnd pcb w seg0 rest0).2.2.1
      (output_prepare cfg wnd pcb w seg0 rest0).2.2.2 := by
  have h1 : ∀ seg1, silent pcb w (prepare_rexmit pcb w seg1).2.2.1
      (prepare_rexmit pcb w seg1).2.2.2 := by
    intro seg1
    unfold prepare_rexmit
    dsimp only
    split
    · exact tcp_split_rexmit_silent _ _ _
    · exact silent_refl _ _
  have h2 : ∀ pcb2 w2 seg2, silent pcb2 w2 (prepare_window cfg wnd pcb2 w2 seg2).2.2.1
      (prepare_window cfg wnd pcb2 w2 seg2).2.2.2 := by
    intro pcb2 w2 seg2
    unfold prepare_window
    split
    · exact tcp_split_segment_silent _ _ _ _ _
    · exact silent_refl _ _
  unfold output_prepare
  dsimp only
  exact silent_trans (h1 _) (silent_trans (h2 _ _ _) ⟨rfl, rfl⟩)

/-- The PCB without the fields that `tcp_output` may write between the window
test and the call of `tcp_output_segment`: the prefetch slots, `snd_sml_snt`,
`unsent`, `flags`, `rcv_ann_right_edge` and `ts_lastacksent`. -/
def frame_ready (pcb : tcp_pcb) : tcp_pcb :=
  { frame_alloc pcb with snd_sml_snt := 0, unsent := [], flags := 0, rcv_ann_right_edge := 0,
                         ts_lastacksent := 0 }

theorem frame_ready_of_frame_alloc (a b : tcp_pcb) (h : frame_alloc a = frame_alloc b) :
    frame_ready a = frame_ready b := by
  have h1 := congrArg (fun p : tcp_pcb =>
    ({ p with snd_sml_snt := 0, unsent := [], flags := 0, rcv_ann_right_edge := 0,
              ts_lastacksent := 0 } : tcp_pcb)) h
  exact h1

theorem tcp_send_empty_ack_none (pcb : tcp_pcb) (w : World) (pcb1 : tcp_pcb) (w1 : World)
    (h : tcp_tx_pbuf_alloc pcb w (ack_optlen pcb + 0) pbuf_type.PBUF_RAM = (none, pcb1, w1)) :
    tcp_send_empty_ack pcb w = (err_t.ERR_BUF, pcb1, w1) := by
  unfold tcp_send_empty_ack tcp_output_alloc_header
  dsimp only
  unfold ack_optlen at h
  rw [h]

/-- The calls that `tcp_send_empty_ack` adds come after those already made
and carry no segment; the PCB changes within `frame_ready` only, and `unsent`
is not touched. -/
theorem tcp_send_empty_ack_appends (pcb : tcp_pcb) (w : World) :
    frame_ready (tcp_send_empty_ack pcb w).2.1 = frame_ready pcb ∧
    (tcp_send_empty_ack pcb w).2.1.unsent = pcb.unsent ∧
    ∃ acks, (tcp_send_empty_ack pcb w).2.2.calls = w.calls ++ acks ∧ ∀ a ∈ acks, a.seg = none := by
  cases ha : tcp_tx_pbuf_alloc pcb w (ack_optlen pcb + 0) pbuf_type.PBUF_RAM with
  | mk o rest =>
    obtain ⟨pcb1, w1⟩ := rest
    have hfa : frame_alloc pcb1 = frame_alloc pcb :=
      (congrArg (fun r => frame_alloc r.2.1) ha).symm.trans (tcp_tx_pbuf_alloc_frame _ _ _ _)
    have hf := frame_ready_of_frame_alloc _ _ hfa
    have hu : pcb1.unsent = pcb.unsent := by
      have h := congrArg tcp_pcb.unsent hfa
      exact h
    have hc : w1.calls = w.calls :=
      (congrArg (fun r => r.2.2.calls) ha).symm.trans (tcp_tx_pbuf_alloc_calls _ _ _ _)
    cases o with
    | none =>
      rw [tcp_send_empty_ack_none pcb w pcb1 w1 ha]
      exact ⟨hf, hu, [], by simpa using hc, by simp⟩
    | some b =>
      obtain ⟨c, hres, hs, -⟩ := tcp_send_empty_ack_some pcb w b pcb1 w1 ha
      rw [hres]
      refine ⟨hf, hu, [c], ?_, ?_⟩
      · show w1.calls ++ [c] = w.calls ++ [c]
        rw [hc]
      · intro a hmem
        rw [List.mem_singleton.1 hmem]
        exact hs

theorem dummy_ack_appends (pcb2 : tcp_pcb) (w : World) (seg1 : tcp_seg) :
    frame_ready (dummy_ack pcb2 w seg1).1 = frame_ready pcb2 ∧
    (dummy_ack pcb2 w seg1).1.unsent = pcb2.unsent ∧
    ∃ acks, (dummy_ack pcb2 w seg1).2.calls = w.calls ++ acks ∧ ∀ a ∈ acks, a.seg = none := by
  unfold dummy_ack
  split
  · exact tcp_send_empty_ack_appends pcb2 w
  · exact ⟨rfl, rfl, [], by simp, by simp⟩

theorem minshall_mark_frame (pcb : tcp_pcb) (seg : tcp_seg) (rest : List tcp_seg) :
    frame_ready (minshall_mark pcb seg rest) = frame_ready pcb := by
  unfold minshall_mark
  split <;> rfl

/-- Up to the call of `tcp_output_segment` a pass changes the PCB within
`frame_ready` only, its `unsent` is the segment to send and the queue after
it, and the calls it adds carry no segment. -/
theorem send_ready_appends (wnd : Nat) (pcb : tcp_pcb) (w : World) (seg : tcp_seg)
    (rest : List tcp_seg) :
    frame_ready (send_ready wnd pcb w seg rest).2.2.1 = frame_ready pcb ∧
    (send_ready wnd pcb w seg rest).2.2.1.unsent =
      (send_ready wnd pcb w seg rest).1 :: (send_ready wnd pcb w seg rest).2.1 ∧
    ∃ acks, (send_ready wnd pcb w seg rest).2.2.2.calls = w.calls ++ acks ∧
      ∀ a ∈ acks, a.seg = none := by
  have hm := minshall_mark_frame pcb seg rest
  have hd := dummy_ack_appends
    { minshall_mark pcb seg rest with
      unsent := (tso_joined (minshall_mark pcb seg rest) seg rest wnd).1 ::
        (tso_joined (minshall_mark pcb seg rest) seg rest wnd).2 } w
    (tso_joined (minshall_mark pcb seg rest) seg rest wnd).1
  have hk : frame_ready (dummy_ack
      { minshall_mark pcb seg rest with
        unsent := (tso_joined (minshall_mark pcb seg rest) seg rest wnd).1 ::
          (tso_joined (minshall_mark pcb seg rest) seg rest wnd).2 } w
      (tso_joined (minshall_mark pcb seg rest) seg rest wnd).1).1 = frame_ready pcb :=
    hd.1.trans hm
  unfold send_ready
  dsimp only
  split
  · exact ⟨hk, rfl, hd.2.2⟩
  · exact ⟨hk, hd.2.1, hd.2.2⟩


/-- The fields that only the last part of a pass of `tcp_output` writes:
`is_last_seg_dropped`, `snd_nxt`, `unacked` and `last_unacked`. -/
def ack_key (pcb : tcp_pcb) : Bool × Nat × List tcp_seg × Option Nat :=
  (pcb.is_last_seg_dropped, pcb.snd_nxt, pcb.unacked, pcb.last_unacked)

theorem ack_key_of_frame_split (a b : tcp_pcb) (h : frame_split a = frame_split b) :
    ack_key a = ack_key b := by
  have h1 : ack_key (frame_split a) = ack_key (frame_split b) := congrArg ack_key h
  exact h1

theorem ack_key_of_frame_ready (a b : tcp_pcb) (h : frame_ready a = frame_ready b) :
    ack_key a = ack_key b := by
  have h1 : ack_key (frame_ready a) = ack_key (frame_ready b) := congrArg ack_key h
  exact h1

theorem output_segment_pcb_ack_key (cfg : Config) (seg : tcp_seg) (pcb : tcp_pcb) :
    ack_key (output_segment_pcb cfg seg pcb) = ack_key pcb := by
  unfold output_segment_pcb
  split <;> rfl

/-- The shape of a call of `tcp_output_segment`: one call of the IP output
hook is added; it carries the segment (with its address, sequence number,
length, option flags and header flags) and the PCB as updated, and its answer
is the result. -/
theorem tcp_output_segment_shape (cfg : Config) (seg : tcp_seg) (pcb : tcp_pcb) (w : World) :
    ∃ c s, tcp_output_segment cfg seg pcb w =
        ((w.ip_results.head?).getD err_t.ERR_OK, s, output_segment_pcb cfg seg pcb,
          { w with ip_results := w.ip_results.tail, calls := w.calls ++ [c] }) ∧
      c.seg = some s ∧ c.pcb = output_segment_pcb cfg seg pcb ∧
      s.id = seg.id ∧ s.seqno = seg.seqno ∧ s.len = seg.len ∧ s.flags = seg.flags ∧
      TCPH_FLAGS s.hdr = TCPH_FLAGS seg.hdr := by
  unfold tcp_output_segment
  dsimp only [ip_output]
  split
  · exact ⟨_, _, rfl, rfl, rfl, rfl, rfl, rfl, rfl, rfl⟩
  · exact ⟨_, _, rfl, rfl, rfl, rfl, rfl, rfl, rfl, rfl⟩

/-- The two ways a pass of the loop of `tcp_output` can go: either it stops
before sending (the window or Nagle holds the head segment back) and
returns what the preparation left, or it hands one segment `s` to the IP
output hook, after empty ACKs at most, and finishes with `send_done` on the
hook's answer `rc` and the PCB that the hook saw. -/
theorem output_pass_shape (cfg : Config) (wnd : Nat) (pcb : tcp_pcb) (w : World) (seg0 : tcp_seg)
    (rest0 : List tcp_seg) :
    (output_pass cfg wnd pcb w seg0 rest0 =
        (false, err_t.ERR_OK, (output_prepare cfg wnd pcb w seg0 rest0).2.2.1,
          (output_prepare cfg wnd pcb w seg0 rest0).2.2.2)) ∨
    ∃ rc acks c s rest1 w4,
      output_pass cfg wnd pcb w seg0 rest0 = send_done rc s c.pcb w4 rest1 ∧
      w4.calls = w.calls ++ acks ++ [c] ∧ (∀ a ∈ acks, a.seg = none) ∧ c.seg = some s ∧
      ack_key c.pcb = ack_key pcb := by
  have hprep := output_prepare_silent cfg wnd pcb w seg0 rest0
  unfold output_pass
  split
  rename_i seg rest pcb1 w1 heq
  rw [heq] at hprep ⊢
  dsimp only at hprep ⊢
  split
  · unfold output_send
    split
    · exact Or.inl rfl
    · right
      obtain ⟨hfr, -, acks, hacks, hnone⟩ := send_ready_appends wnd pcb1 w1 seg rest
      split
      rename_i seg2 rest1 pcb4 w3 heq2
      rw [heq2] at hfr hacks
      dsimp only at hfr hacks ⊢
      obtain ⟨c, s, hres, hs, hcp, -⟩ := tcp_output_segment_shape cfg seg2 pcb4 w3
      rw [hres, ← hcp]
      dsimp only
      refine ⟨_, acks, c, s, rest1, _, rfl, ?_, hnone, hs, ?_⟩
      · show w3.calls ++ [c] = w.calls ++ acks ++ [c]
        rw [hacks, hprep.2]
      · rw [hcp, output_segment_pcb_ack_key]
        exact (ack_key_of_frame_ready _ _ hfr).trans (ack_key_of_frame_split _ _ hprep.1)
  · exact Or.inl rfl


/-! ## A segment that the IP output hook could not take -/

theorem ack_key_of_frame_alloc (a b : tcp_pcb) (h : frame_alloc a = frame_alloc b) :
    ack_key a = ack_key b := by
  have h1 : ack_key (frame_alloc a) = ack_key (frame_alloc b) := congrArg ack_key h
  exact h1

theorem prefetch_seg_ack_key (pcb : tcp_pcb) (w : World) :
    ack_key (prefetch_seg pcb w).1 = ack_key pcb := by
  unfold prefetch_seg
  split
  · exact ack_key_of_frame_alloc _ _ (tcp_create_segment_frame pcb w [] 0 0 0)
  · rfl

theorem prefetch_pbuf_ack_key (pcb : tcp_pcb) (w : World) :
    ack_key (prefetch_pbuf pcb w).1 = ack_key pcb := by
  unfold prefetch_pbuf
  split
  · exact ack_key_of_frame_alloc _ _ (tcp_tx_pbuf_alloc_frame pcb w 0 pbuf_type.PBUF_RAM)
  · rfl

/-- The last statements of `tcp_output` leave `is_last_seg_dropped`,
`snd_nxt`, `unacked` and `last_unacked` alone. -/
theorem output_finish_ack_key (rc : err_t) (pcb : tcp_pcb) (w : World) :
    ack_key (output_finish rc pcb w).2.1 = ack_key pcb := by
  unfold output_finish
  dsimp only
  refine (prefetch_pbuf_ack_key _ _).trans ((prefetch_seg_ack_key _ _).trans ?_)
  split <;> rfl

theorem enqueue_unacked_dropped (pcb : tcp_pcb) (seg : tcp_seg) :
    (enqueue_unacked pcb seg).is_last_seg_dropped = pcb.is_last_seg_dropped ∧
    (enqueue_unacked pcb seg).snd_nxt = pcb.snd_nxt := by
  unfold enqueue_unacked
  repeat' split
  all_goals exact ⟨rfl, rfl⟩

/-- What `send_done` returns: the hook's answer and the hooks as they are;
after the answer `ERR_WOULDBLOCK`, `is_last_seg_dropped` is set when `unacked`
is empty and kept when it is not. -/
theorem send_done_wouldblock (rc : err_t) (s : tcp_seg) (pcb5 : tcp_pcb) (w4 : World)
    (rest1 : List tcp_seg) :
    (send_done rc s pcb5 w4 rest1).2.1 = rc ∧ (send_done rc s pcb5 w4 rest1).2.2.2 = w4 ∧
    (rc = err_t.ERR_WOULDBLOCK →
      (pcb5.unacked = [] → (send_done rc s pcb5 w4 rest1).2.2.1.is_last_seg_dropped = true) ∧
      (pcb5.unacked ≠ [] →
        (send_done rc s pcb5 w4 rest1).1 = false ∧
        (send_done rc s pcb5 w4 rest1).2.2.1.is_last_seg_dropped = pcb5.is_last_seg_dropped ∧
        (send_done rc s pcb5 w4 rest1).2.2.1.unsent = s :: rest1)) := by
  unfold send_done
  dsimp only
  split
  · rename_i h
    exact ⟨rfl, rfl, fun _ => ⟨fun hu => absurd hu h.2, fun _ => ⟨rfl, rfl, rfl⟩⟩⟩
  · rename_i h
    have hmoved : rc = err_t.ERR_WOULDBLOCK → pcb5.unacked = [] := by
      intro hrc
      by_contra hne
      exact h ⟨by rw [hrc]; decide, hne⟩
    split
    · split
      · refine ⟨rfl, rfl, fun hrc => ⟨fun _ => ?_, fun hne => absurd (hmoved hrc) hne⟩⟩
        rw [if_pos hrc]
        split <;> rfl
      · refine ⟨rfl, rfl, fun hrc => ⟨fun _ => ?_, fun hne => absurd (hmoved hrc) hne⟩⟩
        rw [(enqueue_unacked_dropped _ _).1, if_pos hrc]
        split <;> rfl
    · refine ⟨rfl, rfl, fun hrc => ⟨fun _ => ?_, fun hne => absurd (hmoved hrc) hne⟩⟩
      rw [if_pos hrc]
      split <;> rfl

theorem tcp_output_loop_stop (cfg : Config) (wnd fuel : Nat) (rc : err_t) (pcb : tcp_pcb)
    (w : World) (r : err_t × tcp_pcb × World) (hrc : rc ≠ err_t.ERR_OK)
    (h : tcp_output_loop cfg wnd fuel rc pcb w = some r) : r = (rc, pcb, w) := by
  cases fuel with
  | zero => simp [tcp_output_loop] at h
  | succ n =>
    unfold tcp_output_loop at h
    rw [if_pos hrc] at h
    cases h
    rfl

/-- What is known after the hook has answered `ERR_WOULDBLOCK` for a
segment: the last call of the hook carried that segment `s`; when `unacked`
was empty at that call `is_last_seg_dropped` is set, and when it was not,
`is_last_seg_dropped` is as it was at that call and `s` is still the head of
`unsent`. -/
def dropped_marked (pcb : tcp_pcb) (w : World) : Prop :=
  ∃ c s, w.calls.getLast? = some c ∧ c.seg = some s ∧
    (c.pcb.unacked = [] → pcb.is_last_seg_dropped = true) ∧
    (c.pcb.unacked ≠ [] →
      pcb.is_last_seg_dropped = c.pcb.is_last_seg_dropped ∧ pcb.unsent.head? = some s)

theorem output_pass_wouldblock (cfg : Config) (wnd : Nat) (pcb : tcp_pcb) (w : World)
    (seg0 : tcp_seg) (rest0 : List tcp_seg)
    (h : (output_pass cfg wnd pcb w seg0 rest0).2.1 = err_t.ERR_WOULDBLOCK) :
    dropped_marked (output_pass cfg wnd pcb w seg0 rest0).2.2.1
      (output_pass cfg wnd pcb w seg0 rest0).2.2.2 := by
  rcases output_pass_shape cfg wnd pcb w seg0 rest0 with hs | ⟨rc, acks, c, s, rest1, w4, hs, hcalls, -, hseg, -⟩
  · rw [hs] at h
    cases h
  · rw [hs] at h ⊢
    obtain ⟨h1, h2, h3⟩ := send_done_wouldblock rc s c.pcb w4 rest1
    rw [h1] at h
    obtain ⟨ha, hb⟩ := h3 h
    refine ⟨c, s, ?_, hseg, ha, fun hne => ?_⟩
    · rw [h2, hcalls]
      simp
    · obtain ⟨-, hb2, hb3⟩ := hb hne
      exact ⟨hb2, by rw [hb3]; rfl⟩

theorem tcp_output_loop_wouldblock (cfg : Config) (wnd : Nat) :
    ∀ (fuel : Nat) (pcb : tcp_pcb) (w : World) (r : err_t × tcp_pcb × World),
      tcp_output_loop cfg wnd fuel err_t.ERR_OK pcb w = some r →
      r.1 = err_t.ERR_WOULDBLOCK → dropped_marked r.2.1 r.2.2 := by
  intro fuel
  induction fuel with
  | zero =>
    intro pcb w r h
    simp [tcp_output_loop] at h
  | succ n ih =>
    intro pcb w r h hr
    unfold tcp_output_loop at h
    rw [if_neg (by simp)] at h
    split at h
    · cases h
      cases hr
    · rename_i seg0 rest0 hu
      have hp := output_pass_wouldblock cfg wnd pcb w seg0 rest0
      split at h
      · rename_i rc1 pcb1 w1 heq
        rw [heq] at hp
        cases h
        exact hp hr
      · rename_i rc1 pcb1 w1 heq
        rw [heq] at hp
        by_cases hrc : rc1 = err_t.ERR_OK
        · rw [hrc] at h
          exact ih pcb1 w1 r h hr
        · have hstop := tcp_output_loop_stop cfg wnd n rc1 pcb1 w1 r hrc h
          rw [hstop] at hr ⊢
          exact hp hr

theorem output_finish_unsent (rc : err_t) (pcb : tcp_pcb) (w : World) :
    (output_finish rc pcb w).2.1.unsent = pcb.unsent := by
  have h1 : ∀ p w, (prefetch_seg p w).1.unsent = p.unsent := by
    intro p w
    unfold prefetch_seg
    split
    · have h := congrArg tcp_pcb.unsent (tcp_create_segment_frame p w [] 0 0 0)
      exact h
    · rfl
  have h2 : ∀ p w, (prefetch_pbuf p w).1.unsent = p.unsent := by
    intro p w
    unfold prefetch_pbuf
    split
    · have h := congrArg tcp_pcb.unsent (tcp_tx_pbuf_alloc_frame p w 0 pbuf_type.PBUF_RAM)
      exact h
    · rfl
  unfold output_finish
  dsimp only
  rw [h2, h1]
  split <;> rfl

/-- The value of `rc` with which `tcp_output` leaves its loop, before
`ERR_WOULDBLOCK` is turned into `ERR_OK`; `none` when the loop is not reached
or the passes allowed do not suffice. -/
def tcp_output_loop_rc (cfg : Config) (fuel : Nat) (pcb : tcp_pcb) (w : World) : Option err_t :=
  if pcb.is_in_input then none
  else
    let wnd := min pcb.snd_wnd pcb.cwnd
    let pcb1 := output_requeue pcb
    let blocked : Bool :=
      match pcb1.unsent with
      | [] => true
      | seg :: _ => decide (add32 (sub32 seg.seqno pcb1.lastack) seg.len > wnd)
    if has pcb1.flags TF_ACK_NOW ∧ blocked then none
    else (tcp_output_loop cfg wnd fuel err_t.ERR_OK pcb1 w).map (fun x => x.1)

/-- Claim C15 as amended: when the IP output hook answers `ERR_WOULDBLOCK`
for a segment during `tcp_output` (the loop is left with that value),
`tcp_output` returns `ERR_OK`; the last call of the hook carried that segment,
and `is_last_seg_dropped` is true on return when `unacked` was empty at that
call; when `unacked` was not empty, `is_last_seg_dropped` has the value it had
at that call and the segment is still the head of `unsent`. -/
theorem tcp_output_wouldblock (cfg : Config) (fuel : Nat) (pcb : tcp_pcb) (w : World)
    (hrc : tcp_output_loop_rc cfg fuel pcb w = some err_t.ERR_WOULDBLOCK) :
    ∃ pcb2 w2, tcp_output cfg fuel pcb w = some (err_t.ERR_OK, pcb2, w2) ∧
      ∃ c s, w2.calls.getLast? = some c ∧ c.seg = some s ∧
        (c.pcb.unacked = [] → pcb2.is_last_seg_dropped = true) ∧
        (c.pcb.unacked ≠ [] →
          pcb2.is_last_seg_dropped = c.pcb.is_last_seg_dropped ∧ pcb2.unsent.head? = some s) := by
  unfold tcp_output_loop_rc at hrc
  unfold tcp_output
  split at hrc
  · cases hrc
  · rename_i hin
    rw [if_neg hin]
    dsimp only at hrc ⊢
    split at hrc
    · cases hrc
    · rename_i hack
      rw [if_neg hack]
      cases hl : tcp_output_loop cfg (min pcb.snd_wnd pcb.cwnd) fuel err_t.ERR_OK
          (output_requeue pcb) w with
      | none =>
        rw [hl] at hrc
        cases hrc
      | some x =>
        rw [hl] at hrc
        obtain ⟨rc, pcb1, w1⟩ := x
        simp only [Option.map_some', Option.some.injEq] at hrc
        subst hrc
        obtain ⟨c, s, h1, h2, h3, h4⟩ := tcp_output_loop_wouldblock cfg _ fuel _ w _ hl rfl
        have hk := output_finish_ack_key err_t.ERR_WOULDBLOCK pcb1 w1
        have hd : (output_finish err_t.ERR_WOULDBLOCK pcb1 w1).2.1.is_last_seg_dropped =
            pcb1.is_last_seg_dropped := congrArg (fun k => k.1) hk
        refine ⟨(output_finish err_t.ERR_WOULDBLOCK pcb1 w1).2.1,
          (output_finish err_t.ERR_WOULDBLOCK pcb1 w1).2.2, rfl, c, s, ?_, h2, ?_, ?_⟩
        · rw [output_finish_calls]
          exact h1
        · intro hu
          rw [hd]
          exact h3 hu
        · intro hu
          rw [hd]
          refine ⟨(h4 hu).1, ?_⟩
          have hne : pcb1.unsent ≠ [] := by
            intro he
            have := (h4 hu).2
            rw [he] at this
            cases this
          have hun : (output_finish err_t.ERR_WOULDBLOCK pcb1 w1).2.1.unsent = pcb1.unsent :=
            output_finish_unsent _ _ _
          rw [hun]
          exact (h4 hu).2

/-- Hooks as in `world_ok`, but the IP output hook answers `ERR_WOULDBLOCK`
to its first call. -/
def world_block : World := { world_ok with ip_results := [err_t.ERR_WOULDBLOCK] }

/-- What a run of `tcp_output` shows about a dropped segment: the result,
`is_last_seg_dropped`, and for every call of the hook the segment carried and
the number of unacknowledged segments at that call. -/
structure drop_view where
  err : err_t
  dropped : Bool
  calls : List (Option (Nat × Nat) × Nat)
  deriving DecidableEq, Repr

/-- The view `drop_view` of the result of a run of `tcp_output`. -/
def dropped_view (r : err_t × tcp_pcb × World) : drop_view :=
  { err := r.1, dropped := r.2.1.is_last_seg_dropped,
    calls := r.2.2.calls.map (fun c => (c.seg.map seg_view, c.pcb.unacked.length)) }

/-- Claim C15 fails as stated: with two segments unacknowledged the hook
answers `ERR_WOULDBLOCK` for the segment at 7000; `tcp_output` leaves its loop
at once, before the statement that sets the mark, and returns with
`is_last_seg_dropped` false. -/
theorem tcp_output_wouldblock_unmarked :
    pcb_flight.is_last_seg_dropped = false ∧
    tcp_output_loop_rc cfg_push 5 pcb_flight world_block = some err_t.ERR_WOULDBLOCK ∧
    (tcp_output cfg_push 5 pcb_flight world_block).map dropped_view =
      some { err := err_t.ERR_OK, dropped := false, calls := [(some (7000, 500), 2)] } := by
  decide

/-- Witness for the amended C15: with nothing unacknowledged the hook answers
`ERR_WOULDBLOCK` for the joined segment at 5000, and the mark is set. -/
theorem tcp_output_wouldblock_witness :
    tcp_output_loop_rc cfg_push 5 pcb_three world_block = some err_t.ERR_WOULDBLOCK ∧
    (tcp_output cfg_push 5 pcb_three world_block).map dropped_view =
      some { err := err_t.ERR_OK, dropped := true, calls := [(some (5000, 2000), 0)] } ∧
    ∃ pcb2 w2, tcp_output cfg_push 5 pcb_three world_block = some (err_t.ERR_OK, pcb2, w2) ∧
      ∃ c s, w2.calls.getLast? = some c ∧ c.seg = some s ∧
        (c.pcb.unacked = [] → pcb2.is_last_seg_dropped = true) ∧
        (c.pcb.unacked ≠ [] →
          pcb2.is_last_seg_dropped = c.pcb.is_last_seg_dropped ∧ pcb2.unsent.head? = some s) :=
  ⟨by decide, by decide, tcp_output_wouldblock cfg_push 5 pcb_three world_block (by decide)⟩


/-! ## `snd_nxt` after `tcp_output` -/

/-- The statement `if (TCP_SEQ_LT(pcb->snd_nxt, snd_nxt) && !LWIP_IS_DUMMY_SEGMENT(seg))
pcb->snd_nxt = snd_nxt` for a segment `s` moved out of `unsent`, where
`snd_nxt = s.seqno + TCP_TCPLEN(s)`: the later of the two in sequence
space. -/
def seq_max_step (x : Nat) (s : tcp_seg) : Nat :=
  if TCP_SEQ_LT x (add32 s.seqno (TCP_TCPLEN s)) ∧ ¬ LWIP_IS_DUMMY_SEGMENT s then
    add32 s.seqno (TCP_TCPLEN s)
  else x

/-- The segments carried by a list of calls of the IP output hook. -/
def segs_of (calls : List HookCall) : List tcp_seg := calls.filterMap (fun c => c.seg)

theorem segs_of_acks (acks : List HookCall) (h : ∀ a ∈ acks, a.seg = none) : segs_of acks = [] := by
  unfold segs_of
  rw [List.filterMap_eq_nil_iff]
  exact h

theorem segs_of_pass (acks : List HookCall) (c : HookCall) (s : tcp_seg) (more : List HookCall)
    (h : ∀ a ∈ acks, a.seg = none) (hc : c.seg = some s) :
    segs_of (acks ++ [c] ++ more) = s :: segs_of more := by
  have h1 := segs_of_acks acks h
  unfold segs_of at h1 ⊢
  rw [List.filterMap_append, List.filterMap_append, h1]
  simp [List.filterMap_cons, hc]

/-- The effect of `send_done` on `snd_nxt`: a segment that stays in `unsent`
(the hook failed while segments are unacknowledged) leaves it alone, a
segment that is moved advances it by `seq_max_step`. -/
theorem send_done_snd_nxt (rc : err_t) (s : tcp_seg) (pcb5 : tcp_pcb) (w4 : World)
    (rest1 : List tcp_seg) :
    ((send_done rc s pcb5 w4 rest1).1 = false ∧
      (send_done rc s pcb5 w4 rest1).2.2.1.snd_nxt = pcb5.snd_nxt ∧
      (send_done rc s pcb5 w4 rest1).2.2.1.unsent = s :: rest1) ∨
    ((send_done rc s pcb5 w4 rest1).1 = true ∧
      (send_done rc s pcb5 w4 rest1).2.2.1.snd_nxt = seq_max_step pcb5.snd_nxt s) := by
  unfold send_done seq_max_step
  dsimp only
  split
  · exact Or.inl ⟨rfl, rfl, rfl⟩
  · right
    split
    · split
      · refine ⟨rfl, ?_⟩
        split <;> split <;> rfl
      · refine ⟨rfl, ?_⟩
        rw [(enqueue_unacked_dropped _ _).2]
        split <;> split <;> rfl
    · refine ⟨rfl, ?_⟩
      split <;> split <;> rfl

/-- The invariant of the loop of `tcp_output` for `snd_nxt`: the calls made
are appended to the log, and `snd_nxt` is what `seq_max_step` makes of its
old value and the segments handed to the hook, the last one left out when it
stayed at the head of `unsent`. -/
def snd_nxt_folded (pcb0 : tcp_pcb) (w0 : World) (pcb : tcp_pcb) (w : World) : Prop :=
  ∃ made moved, w.calls = w0.calls ++ made ∧
    (moved = segs_of made ∨
      (moved = (segs_of made).dropLast ∧
        ∃ s, (segs_of made).getLast? = some s ∧ pcb.unsent.head? = some s)) ∧
    pcb.snd_nxt = moved.foldl seq_max_step pcb0.snd_nxt

theorem tcp_output_loop_snd_nxt (cfg : Config) (wnd : Nat) :
    ∀ (fuel : Nat) (pcb : tcp_pcb) (w : World) (r : err_t × tcp_pcb × World),
      tcp_output_loop cfg wnd fuel err_t.ERR_OK pcb w = some r →
      snd_nxt_folded pcb w r.2.1 r.2.2 := by
  intro fuel
  induction fuel with
  | zero =>
    intro pcb w r h
    simp [tcp_output_loop] at h
  | succ n ih =>
    intro pcb w r h
    unfold tcp_output_loop at h
    rw [if_neg (by simp)] at h
    split at h
    · cases h
      exact ⟨[], [], by simp, Or.inl rfl, rfl⟩
    · rename_i seg0 rest0 hu
      rcases output_pass_shape cfg wnd pcb w seg0 rest0 with hs |
        ⟨rc, acks, c, s, rest1, w4, hs, hcalls, hnone, hseg, hkey⟩
      · rw [hs] at h
        dsimp only at h
        cases h
        have hp := output_prepare_silent cfg wnd pcb w seg0 rest0
        have hk := ack_key_of_frame_split _ _ hp.1
        have hn : (output_prepare cfg wnd pcb w seg0 rest0).2.2.1.snd_nxt = pcb.snd_nxt :=
          congrArg (fun k => k.2.1) hk
        exact ⟨[], [], by simpa using hp.2, Or.inl rfl, hn⟩
      · have hw := (send_done_wouldblock rc s c.pcb w4 rest1).2.1
        have hrc := (send_done_wouldblock rc s c.pcb w4 rest1).1
        have hcn : c.pcb.snd_nxt = pcb.snd_nxt := congrArg (fun k => k.2.1) hkey
        have hone : segs_of (acks ++ [c]) = [s] := by
          have := segs_of_pass acks c s [] hnone hseg
          simpa [segs_of] using this
        rw [hs] at h
        rcases send_done_snd_nxt rc s c.pcb w4 rest1 with ⟨hb, hn, hun⟩ | ⟨hb, hn⟩
        · cases hsd : send_done rc s c.pcb w4 rest1 with
          | mk b rest =>
            obtain ⟨rc1, pcb1, w1⟩ := rest
            rw [hsd] at h hb hn hw hrc hun
            dsimp only at hb hn hw hrc hun
            subst hb
            dsimp only at h
            cases h
            refine ⟨acks ++ [c], [], ?_, Or.inr ⟨?_, s, ?_, ?_⟩, ?_⟩
            · show w1.calls = _
              rw [hw, hcalls, List.append_assoc]
            · rw [hone]
              rfl
            · rw [hone]
              rfl
            · show pcb1.unsent.head? = some s
              rw [hun]
              rfl
            · show pcb1.snd_nxt = pcb.snd_nxt
              rw [hn, hcn]
        · cases hsd : send_done rc s c.pcb w4 rest1 with
          | mk b rest =>
            obtain ⟨rc1, pcb1, w1⟩ := rest
            rw [hsd] at h hb hn hw hrc
            dsimp only at hb hn hw hrc
            subst hb
            dsimp only at h
            have hw1 : w1.calls = w.calls ++ (acks ++ [c]) := by
              rw [hw, hcalls, List.append_assoc]
            have hn1 : pcb1.snd_nxt = seq_max_step pcb.snd_nxt s := by
              rw [hn, hcn]
            by_cases hok : rc1 = err_t.ERR_OK
            · rw [hok] at h
              obtain ⟨made, moved, h1, h2, h3⟩ := ih pcb1 w1 r h
              refine ⟨acks ++ [c] ++ made, s :: moved, ?_, ?_, ?_⟩
              · rw [h1, hw1, List.append_assoc]
              · rw [segs_of_pass acks c s made hnone hseg]
                rcases h2 with h2 | ⟨h2, s1, hl, hh⟩
                · exact Or.inl (by rw [h2])
                · cases hm : segs_of made with
                  | nil =>
                    rw [hm] at hl
                    cases hl
                  | cons x xs =>
                    rw [hm] at h2 hl
                    right
                    refine ⟨by rw [h2]; rfl, s1, ?_, hh⟩
                    rw [List.getLast?_cons_cons]
                    exact hl
              · rw [h3, hn1]
                rfl
            · have hstop := tcp_output_loop_stop cfg wnd n rc1 pcb1 w1 r hok h
              rw [hstop]
              refine ⟨acks ++ [c], [s], hw1, Or.inl hone.symm, ?_⟩
              show pcb1.snd_nxt = seq_max_step pcb.snd_nxt s
              exact hn1

/-- Claim C18: after `tcp_output`, `snd_nxt` is the sequence-space maximum of
its old value and `seqno + len + (1 for SYN or FIN)` over the segments moved
out of `unsent`, taken in the order in which they were handed to the IP
output hook: these are all the segments the hook received, except the last
one when it stayed at the head of `unsent`.  Each step either keeps `snd_nxt`
or moves it forward in sequence space (`TCP_SEQ_LT` old new), to the end of
the segment, and a dummy segment keeps it. -/
theorem tcp_output_snd_nxt (cfg : Config) (fuel : Nat) (pcb : tcp_pcb) (w : World)
    (r : err_t × tcp_pcb × World) (hrun : tcp_output cfg fuel pcb w = some r) :
    (∃ made moved, r.2.2.calls = w.calls ++ made ∧
      (moved = segs_of made ∨
        (moved = (segs_of made).dropLast ∧
          ∃ s, (segs_of made).getLast? = some s ∧ r.2.1.unsent.head? = some s)) ∧
      r.2.1.snd_nxt = moved.foldl seq_max_step pcb.snd_nxt) ∧
    (∀ x s, seq_max_step x s = x ∨
      (TCP_SEQ_LT x (seq_max_step x s) = true ∧
        seq_max_step x s = add32 s.seqno (TCP_TCPLEN s))) ∧
    (∀ x s, LWIP_IS_DUMMY_SEGMENT s = true → seq_max_step x s = x) := by
  refine ⟨?_, ?_, ?_⟩
  · unfold tcp_output at hrun
    split at hrun
    · cases hrun
      exact ⟨[], [], by simp, Or.inl rfl, rfl⟩
    · dsimp only at hrun
      obtain ⟨-, hnxt, -, -, -⟩ := output_requeue_keeps pcb
      split at hrun
      · cases hrun
        obtain ⟨hf, -, acks, hacks, hnone⟩ := tcp_send_empty_ack_appends (output_requeue pcb) w
        have hk := ack_key_of_frame_ready _ _ hf
        have hn : (tcp_send_empty_ack (output_requeue pcb) w).2.1.snd_nxt =
            (output_requeue pcb).snd_nxt := congrArg (fun k => k.2.1) hk
        refine ⟨acks, [], hacks, Or.inl (segs_of_acks acks hnone).symm, ?_⟩
        show (tcp_send_empty_ack (output_requeue pcb) w).2.1.snd_nxt = pcb.snd_nxt
        rw [hn, hnxt]
      · split at hrun
        · cases hrun
        · rename_i rc pcb2 w2 heq
          cases hrun
          obtain ⟨made, moved, h1, h2, h3⟩ := tcp_output_loop_snd_nxt cfg _ fuel _ w _ heq
          have hk := output_finish_ack_key rc pcb2 w2
          have hn : (output_finish rc pcb2 w2).2.1.snd_nxt = pcb2.snd_nxt :=
            congrArg (fun k => k.2.1) hk
          refine ⟨made, moved, ?_, ?_, ?_⟩
          · rw [output_finish_calls]
            exact h1
          · rw [output_finish_unsent]
            exact h2
          · rw [hn, h3, hnxt]
  · intro x s
    unfold seq_max_step
    split
    · rename_i h
      exact Or.inr ⟨h.1, rfl⟩
    · exact Or.inl rfl
  · intro x s hd
    unfold seq_max_step
    rw [if_neg]
    rintro ⟨-, h⟩
    exact h hd

/-- Witness for C18: the joined segment of 2000 bytes at 5000 and the one of
500 bytes at 7000 leave; `snd_nxt` goes from 5000 to 7500. -/
theorem tcp_output_snd_nxt_witness :
    tcp_output cfg_push 5 pcb_three world_ok = some run_three ∧
    run_three.2.1.snd_nxt = 7500 ∧
    (segs_of run_three.2.2.calls).map seg_view = [(5000, 2000), (7000, 500)] ∧
    (segs_of run_three.2.2.calls).foldl seq_max_step pcb_three.snd_nxt = 7500 ∧
    ∃ made moved, run_three.2.2.calls = world_ok.calls ++ made ∧
      (moved = segs_of made ∨
        (moved = (segs_of made).dropLast ∧
          ∃ s, (segs_of made).getLast? = some s ∧ run_three.2.1.unsent.head? = some s)) ∧
      run_three.2.1.snd_nxt = moved.foldl seq_max_step pcb_three.snd_nxt :=
  ⟨by decide, by decide, by decide, by decide,
   (tcp_output_snd_nxt cfg_push 5 pcb_three world_ok run_three (by decide)).1⟩


/-! ## The order of the unacknowledged list -/

/-- A queue in ascending order: every segment is at or before its successor
in sequence space (`TCP_SEQ_LEQ`). -/
def seq_sorted (q : List tcp_seg) : Prop :=
  List.Chain' (fun a b : tcp_seg => TCP_SEQ_LEQ a.seqno b.seqno = true) q

/-- The records of a queue are distinct: no address occurs twice. -/
def distinct_ids (q : List tcp_seg) : Prop := (q.map (fun s => s.id)).Nodup

/-- The cached tail pointer of a non-empty queue designates its last
element. -/
def tail_ok (q : List tcp_seg) (ptr : Option Nat) : Prop :=
  q ≠ [] → ptr = (q.getLast?).map (fun s => s.id)

/-- The test whether a queue is ascending, computed along the list. -/
def seq_sorted_test : List tcp_seg → Bool
  | a :: b :: r => TCP_SEQ_LEQ a.seqno b.seqno && seq_sorted_test (b :: r)
  | _ => true

theorem seq_sorted_test_iff : ∀ q : List tcp_seg, seq_sorted_test q = true ↔ seq_sorted q := by
  intro q
  induction q with
  | nil => simp [seq_sorted_test, seq_sorted]
  | cons a t ih =>
    cases t with
    | nil => simp [seq_sorted_test, seq_sorted]
    | cons b r =>
      unfold seq_sorted at ih ⊢
      rw [List.chain'_cons, ← ih]
      simp [seq_sorted_test]

instance (q : List tcp_seg) : Decidable (seq_sorted q) :=
  decidable_of_iff (seq_sorted_test q = true) (seq_sorted_test_iff q)

instance (q : List tcp_seg) : Decidable (distinct_ids q) :=
  inferInstanceAs (Decidable ((q.map (fun s : tcp_seg => s.id)).Nodup))

instance (q : List tcp_seg) (ptr : Option Nat) : Decidable (tail_ok q ptr) :=
  inferInstanceAs (Decidable (q ≠ [] → ptr = (q.getLast?).map (fun s : tcp_seg => s.id)))

theorem seq_leq_of_lt (a b : Nat) (h : TCP_SEQ_LT a b = true) : TCP_SEQ_LEQ a b = true := by
  unfold TCP_SEQ_LT at h
  unfold TCP_SEQ_LEQ
  have h1 := of_decide_eq_true h
  exact decide_eq_true (Or.inr h1)

theorem seq_leq_of_not_lt (a b : Nat) (h : TCP_SEQ_LT b a = false) : TCP_SEQ_LEQ a b = true := by
  unfold TCP_SEQ_LT at h
  unfold TCP_SEQ_LEQ
  have h1 := of_decide_eq_false h
  apply decide_eq_true
  unfold sub32 at h1 ⊢
  omega

theorem insert_sorted_head (seg : tcp_seg) (q : List tcp_seg) :
    (insert_sorted seg q).head? = some seg ∨
    (∃ x r, q = x :: r ∧ TCP_SEQ_LT x.seqno seg.seqno = true ∧
      (insert_sorted seg q).head? = some x) := by
  cases q with
  | nil => exact Or.inl rfl
  | cons x r =>
    unfold insert_sorted
    split
    · rename_i h
      exact Or.inr ⟨x, r, rfl, h, rfl⟩
    · exact Or.inl rfl

/-- Inserting at the sorted place keeps an ascending queue ascending. -/
theorem insert_sorted_sorted (seg : tcp_seg) :
    ∀ q : List tcp_seg, seq_sorted q → seq_sorted (insert_sorted seg q) := by
  intro q
  induction q with
  | nil =>
    intro _
    exact List.chain'_singleton _
  | cons x r ih =>
    intro hq
    unfold insert_sorted
    split
    · rename_i hlt
      have hr : seq_sorted r := (List.chain'_cons'.1 hq).2
      have hir := ih hr
      refine List.chain'_cons'.2 ⟨?_, hir⟩
      intro y hy
      rcases insert_sorted_head seg r with h | ⟨z, t, hz, -, h⟩
      · rw [h] at hy
        cases hy
        exact seq_leq_of_lt _ _ hlt
      · rw [h] at hy
        cases hy
        exact (List.chain'_cons'.1 hq).1 y (by rw [hz]; rfl)
    · rename_i hlt
      refine List.chain'_cons'.2 ⟨?_, hq⟩
      intro y hy
      cases hy
      exact seq_leq_of_not_lt _ _ (by simpa using hlt)

theorem getLast?_cons_ne {α : Type} (x : α) (l : List α) (h : l ≠ []) :
    (x :: l).getLast? = l.getLast? := by
  cases l with
  | nil => exact absurd rfl h
  | cons y t => exact List.getLast?_cons_cons

/-- When some element is not before the new segment, the walk stops in
front of it and the last element stays last. -/
theorem insert_sorted_getLast (seg : tcp_seg) :
    ∀ q : List tcp_seg, (∃ x ∈ q, TCP_SEQ_LT x.seqno seg.seqno = false) →
      (insert_sorted seg q).getLast? = q.getLast? := by
  intro q
  induction q with
  | nil =>
    rintro ⟨x, hx, -⟩
    cases hx
  | cons x r ih =>
    rintro ⟨y, hy, hlt⟩
    unfold insert_sorted
    split
    · rename_i hx
      have hyr : y ∈ r := by
        rcases List.mem_cons.1 hy with h | h
        · rw [h, hx] at hlt
          cases hlt
        · exact h
      have hi := ih ⟨y, hyr, hlt⟩
      have hne : insert_sorted seg r ≠ [] := by
        intro he
        have := insert_sorted_length seg r
        rw [he] at this
        simp at this
      have hrne : r ≠ [] := List.ne_nil_of_mem hyr
      rw [getLast?_cons_ne _ _ hne, getLast?_cons_ne _ _ hrne]
      exact hi
    · simp [List.getLast?_cons_cons]

theorem find_last_of_distinct :
    ∀ (q : List tcp_seg) (l : tcp_seg), q.getLast? = some l → distinct_ids q →
      q.find? (fun s => decide (s.id = l.id)) = some l := by
  intro q
  induction q with
  | nil =>
    intro l h
    cases h
  | cons x r ih =>
    intro l hl hd
    by_cases hr : r = []
    · subst hr
      simp only [List.getLast?_singleton, Option.some.injEq] at hl
      subst hl
      simp
    · rw [getLast?_cons_ne _ _ hr] at hl
      have hmem : l ∈ r := List.mem_of_getLast?_eq_some hl
      unfold distinct_ids at hd
      rw [List.map_cons, List.nodup_cons] at hd
      have hne : x.id ≠ l.id := by
        intro he
        exact hd.1 (by rw [he]; exact List.mem_map_of_mem _ hmem)
      rw [List.find?_cons_of_neg _ (by simpa using hne)]
      exact ih l hl hd.2

theorem link_after_last :
    ∀ (q : List tcp_seg) (l seg : tcp_seg), q.getLast? = some l → distinct_ids q →
      link_after q l.id seg = q ++ [seg] := by
  intro q
  induction q with
  | nil =>
    intro l seg h
    cases h
  | cons x r ih =>
    intro l seg hl hd
    by_cases hr : r = []
    · subst hr
      simp [link_after]
    · rw [getLast?_cons_ne _ _ hr] at hl
      have hmem : l ∈ r := List.mem_of_getLast?_eq_some hl
      unfold distinct_ids at hd
      rw [List.map_cons, List.nodup_cons] at hd
      have hne : x.id ≠ l.id := by
        intro he
        exact hd.1 (by rw [he]; exact List.mem_map_of_mem _ hmem)
      unfold link_after
      rw [if_neg (by simp [hne, hr])]
      rw [ih l seg hl hd.2]
      rfl

theorem seq_sorted_append (q : List tcp_seg) (l seg : tcp_seg) (hq : seq_sorted q)
    (hl : q.getLast? = some l) (h : TCP_SEQ_LEQ l.seqno seg.seqno = true) :
    seq_sorted (q ++ [seg]) := by
  unfold seq_sorted at hq ⊢
  rw [List.chain'_append]
  refine ⟨hq, List.chain'_singleton _, ?_⟩
  intro x hx y hy
  rw [hl] at hx
  cases hx
  simp only [List.head?_cons, Option.mem_def, Option.some.injEq] at hy
  rw [← hy]
  exact h

/-- Putting a sent segment on the unacknowledged list keeps the list
ascending, its records distinct and its tail pointer right, provided the
segment is not already on the list and the walk of the sorted insertion
stops on the list (the assertion "Value of last_unacked is invalid"). -/
theorem enqueue_unacked_ok (pcb : tcp_pcb) (seg : tcp_seg)
    (hs : seq_sorted pcb.unacked) (hd : distinct_ids pcb.unacked)
    (ht : tail_ok pcb.unacked pcb.last_unacked)
    (hid : seg.id ∉ pcb.unacked.map (fun s => s.id))
    (hassert : ∀ u, pcb.unacked.getLast? = some u → TCP_SEQ_LT seg.seqno u.seqno = true →
      ∃ x ∈ pcb.unacked, TCP_SEQ_LT x.seqno seg.seqno = false) :
    seq_sorted (enqueue_unacked pcb seg).unacked ∧
    distinct_ids (enqueue_unacked pcb seg).unacked ∧
    tail_ok (enqueue_unacked pcb seg).unacked (enqueue_unacked pcb seg).last_unacked := by
  have single : seq_sorted [seg] ∧ distinct_ids [seg] ∧ tail_ok [seg] (some seg.id) :=
    ⟨List.chain'_singleton _, by simp [distinct_ids], fun _ => rfl⟩
  unfold enqueue_unacked
  split
  · exact single
  · rename_i hne
    obtain ⟨l, hl⟩ : ∃ l, pcb.unacked.getLast? = some l := by
      cases hq : pcb.unacked.getLast? with
      | none => exact absurd (List.getLast?_eq_none_iff.1 hq) hne
      | some l => exact ⟨l, rfl⟩
    have hptr : pcb.last_unacked = some l.id := by
      rw [ht hne, hl]
      rfl
    have hderef : deref pcb.unacked pcb.last_unacked = some l := by
      unfold deref
      rw [hptr]
      show (match pcb.unacked.find? (fun s => decide (s.id = l.id)) with
        | some s => some s
        | none => queue_tail pcb.unacked) = some l
      rw [find_last_of_distinct _ _ hl hd]
    rw [hderef]
    dsimp only
    split
    · rename_i hlt
      obtain ⟨x, hx, hxl⟩ := hassert l hl hlt
      refine ⟨insert_sorted_sorted seg _ hs, ?_, ?_⟩
      · unfold distinct_ids
        have hp := (insert_sorted_perm seg pcb.unacked).map (fun s : tcp_seg => s.id)
        rw [hp.nodup_iff, List.map_cons, List.nodup_cons]
        exact ⟨hid, hd⟩
      · intro _
        show pcb.last_unacked = _
        rw [insert_sorted_getLast seg _ ⟨x, hx, hxl⟩, hl, hptr]
        rfl
    · rename_i hlt
      rw [link_after_last _ _ _ hl hd]
      refine ⟨seq_sorted_append _ l seg hs hl (seq_leq_of_not_lt _ _ (by simpa using hlt)), ?_, ?_⟩
      · unfold distinct_ids
        rw [List.map_append, List.nodup_append]
        refine ⟨hd, by simp, ?_⟩
        intro a ha hb
        simp only [List.map_cons, List.map_nil, List.mem_singleton] at hb
        rw [hb] at ha
        exact hid ha
      · intro _
        simp

/-- The unacknowledged list is in order: ascending, of distinct records, and
with its tail pointer on its last element. -/
def unacked_ok (q : List tcp_seg) (ptr : Option Nat) : Prop :=
  seq_sorted q ∧ distinct_ids q ∧ tail_ok q ptr

/-- The conditions under which the segment of a call of the IP output hook
can be put on the unacknowledged list of the PCB handed over: its record is
not already on that list, and when it is before the tail of the list some
element of the list is not before it (the assertion "Value of last_unacked
is invalid" of `tcp_output`).  A call without segment meets them. -/
def hook_sane (c : HookCall) : Bool :=
  match c.seg with
  | none => true
  | some s =>
    decide (s.id ∉ c.pcb.unacked.map (fun x => x.id)) &&
    (match c.pcb.unacked.getLast? with
     | none => true
     | some u =>
       !(TCP_SEQ_LT s.seqno u.seqno) ||
         c.pcb.unacked.any (fun x => !(TCP_SEQ_LT x.seqno s.seqno)))

theorem hook_sane_spec (c : HookCall) (s : tcp_seg) (h : hook_sane c = true) (hs : c.seg = some s) :
    s.id ∉ c.pcb.unacked.map (fun x => x.id) ∧
    ∀ u, c.pcb.unacked.getLast? = some u → TCP_SEQ_LT s.seqno u.seqno = true →
      ∃ x ∈ c.pcb.unacked, TCP_SEQ_LT x.seqno s.seqno = false := by
  unfold hook_sane at h
  rw [hs] at h
  simp only [Bool.and_eq_true, decide_eq_true_eq] at h
  refine ⟨h.1, fun u hu hlt => ?_⟩
  have h2 := h.2
  rw [hu] at h2
  simp only [hlt, Bool.not_true, Bool.false_or, List.any_eq_true, Bool.not_eq_true'] at h2
  exact h2

theorem send_done_unacked_ok (rc : err_t) (s : tcp_seg) (pcb5 : tcp_pcb) (w4 : World)
    (rest1 : List tcp_seg) (hok : unacked_ok pcb5.unacked pcb5.last_unacked)
    (hid : s.id ∉ pcb5.unacked.map (fun x => x.id))
    (hassert : ∀ u, pcb5.unacked.getLast? = some u → TCP_SEQ_LT s.seqno u.seqno = true →
      ∃ x ∈ pcb5.unacked, TCP_SEQ_LT x.seqno s.seqno = false) :
    unacked_ok (send_done rc s pcb5 w4 rest1).2.2.1.unacked
      (send_done rc s pcb5 w4 rest1).2.2.1.last_unacked := by
  have h8 : ∀ p : tcp_pcb, p.unacked = pcb5.unacked → p.last_unacked = pcb5.last_unacked →
      unacked_ok (enqueue_unacked p s).unacked (enqueue_unacked p s).last_unacked := by
    intro p h1 h2
    apply enqueue_unacked_ok
    · rw [h1]; exact hok.1
    · rw [h1]; exact hok.2.1
    · rw [h1, h2]; exact hok.2.2
    · rw [h1]; exact hid
    · rw [h1]; exact hassert
  unfold send_done
  dsimp only
  split
  · exact hok
  · split
    · split
      · show unacked_ok _ _
        split <;> split <;> exact hok
      · apply h8
        · split <;> split <;> rfl
        · split <;> split <;> rfl
    · split <;> split <;> exact hok

/-- The invariant of the loop of `tcp_output` for the unacknowledged list:
the calls made are appended to the log, and when all of them are
`hook_sane`, a list that was in order is in order. -/
theorem tcp_output_loop_unacked (cfg : Config) (wnd : Nat) :
    ∀ (fuel : Nat) (rc : err_t) (pcb : tcp_pcb) (w : World) (r : err_t × tcp_pcb × World),
      tcp_output_loop cfg wnd fuel rc pcb w = some r →
      ∃ made, r.2.2.calls = w.calls ++ made ∧
        ((∀ c ∈ made, hook_sane c = true) → unacked_ok pcb.unacked pcb.last_unacked →
          unacked_ok r.2.1.unacked r.2.1.last_unacked) := by
  intro fuel
  induction fuel with
  | zero =>
    intro rc pcb w r h
    simp [tcp_output_loop] at h
  | succ n ih =>
    intro rc pcb w r h
    unfold tcp_output_loop at h
    split at h
    · cases h
      exact ⟨[], by simp, fun _ hok => hok⟩
    · split at h
      · cases h
        exact ⟨[], by simp, fun _ hok => hok⟩
      · rename_i seg0 rest0 hu
        have hpass : ∃ made, (output_pass cfg wnd pcb w seg0 rest0).2.2.2.calls = w.calls ++ made ∧
            ((∀ c ∈ made, hook_sane c = true) → unacked_ok pcb.unacked pcb.last_unacked →
              unacked_ok (output_pass cfg wnd pcb w seg0 rest0).2.2.1.unacked
                (output_pass cfg wnd pcb w seg0 rest0).2.2.1.last_unacked) := by
          rcases output_pass_shape cfg wnd pcb w seg0 rest0 with hs |
            ⟨rc1, acks, c, s, rest1, w4, hs, hcalls, hnone, hseg, hkey⟩
          · rw [hs]
            have hp := output_prepare_silent cfg wnd pcb w seg0 rest0
            have hk := ack_key_of_frame_split _ _ hp.1
            have h1 : (output_prepare cfg wnd pcb w seg0 rest0).2.2.1.unacked = pcb.unacked :=
              congrArg (fun k => k.2.2.1) hk
            have h2 : (output_prepare cfg wnd pcb w seg0 rest0).2.2.1.last_unacked =
                pcb.last_unacked := congrArg (fun k => k.2.2.2) hk
            refine ⟨[], by simpa using hp.2, fun _ hok => ?_⟩
            show unacked_ok (output_prepare cfg wnd pcb w seg0 rest0).2.2.1.unacked
              (output_prepare cfg wnd pcb w seg0 rest0).2.2.1.last_unacked
            rw [h1, h2]
            exact hok
          · rw [hs]
            have h1 : c.pcb.unacked = pcb.unacked := congrArg (fun k => k.2.2.1) hkey
            have h2 : c.pcb.last_unacked = pcb.last_unacked := congrArg (fun k => k.2.2.2) hkey
            refine ⟨acks ++ [c], ?_, fun hsane hok => ?_⟩
            · rw [(send_done_wouldblock rc1 s c.pcb w4 rest1).2.1, hcalls, List.append_assoc]
            · have hc := hook_sane_spec c s (hsane c (by simp)) hseg
              exact send_done_unacked_ok rc1 s c.pcb w4 rest1 (by rw [h1, h2]; exact hok)
                hc.1 hc.2
        obtain ⟨made1, hm1, hi1⟩ := hpass
        split at h
        · rename_i rc1 pcb1 w1 heq
          rw [heq] at hm1 hi1
          cases h
          exact ⟨made1, hm1, hi1⟩
        · rename_i rc1 pcb1 w1 heq
          rw [heq] at hm1 hi1
          obtain ⟨made2, hm2, hi2⟩ := ih rc1 pcb1 w1 r h
          refine ⟨made1 ++ made2, ?_, fun hsane hok => ?_⟩
          · rw [hm2, hm1, List.append_assoc]
          · exact hi2 (fun c hc => hsane c (List.mem_append_right _ hc))
              (hi1 (fun c hc => hsane c (List.mem_append_left _ hc)) hok)

theorem output_requeue_unacked_ok (pcb : tcp_pcb)
    (hok : unacked_ok pcb.unacked pcb.last_unacked) :
    unacked_ok (output_requeue pcb).unacked (output_requeue pcb).last_unacked := by
  have hnil : unacked_ok [] none :=
    ⟨List.chain'_nil, by simp [distinct_ids], fun h => absurd rfl h⟩
  unfold output_requeue
  split
  · split
    · exact hnil
    · exact hok
  · exact hok

/-- Claim C19: `tcp_output` keeps the unacknowledged list in order.  When
before the call `unacked` is ascending by `seqno` in sequence space, its
records are distinct and `last_unacked` designates its last element whenever
it is not empty, the same holds after the call, both for a segment appended
at the tail and for a retransmitted segment inserted at its sorted place;
this is for runs in which every segment handed to the IP output hook is not
already on the unacknowledged list and, when it is before the tail of that
list, is not behind all of its elements (what the assertion "Value of
last_unacked is invalid" requires). -/
theorem tcp_output_keeps_unacked_order (cfg : Config) (fuel : Nat) (pcb : tcp_pcb) (w : World)
    (r : err_t × tcp_pcb × World) (hrun : tcp_output cfg fuel pcb w = some r)
    (hs : seq_sorted pcb.unacked) (hd : distinct_ids pcb.unacked)
    (ht : tail_ok pcb.unacked pcb.last_unacked)
    (hsane : ∀ c ∈ r.2.2.calls.drop w.calls.length, hook_sane c = true) :
    seq_sorted r.2.1.unacked ∧ distinct_ids r.2.1.unacked ∧
    tail_ok r.2.1.unacked r.2.1.last_unacked := by
  have hok : unacked_ok pcb.unacked pcb.last_unacked := ⟨hs, hd, ht⟩
  have hreq := output_requeue_unacked_ok pcb hok
  unfold tcp_output at hrun
  split at hrun
  · cases hrun
    exact hok
  · dsimp only at hrun
    split at hrun
    · cases hrun
      obtain ⟨hf, -, -⟩ := tcp_send_empty_ack_appends (output_requeue pcb) w
      have hk := ack_key_of_frame_ready _ _ hf
      have h1 : (tcp_send_empty_ack (output_requeue pcb) w).2.1.unacked =
          (output_requeue pcb).unacked := congrArg (fun k => k.2.2.1) hk
      have h2 : (tcp_send_empty_ack (output_requeue pcb) w).2.1.last_unacked =
          (output_requeue pcb).last_unacked := congrArg (fun k => k.2.2.2) hk
      show unacked_ok (tcp_send_empty_ack (output_requeue pcb) w).2.1.unacked
        (tcp_send_empty_ack (output_requeue pcb) w).2.1.last_unacked
      rw [h1, h2]
      exact hreq
    · split at hrun
      · cases hrun
      · rename_i rc pcb2 w2 heq
        cases hrun
        obtain ⟨made, hm, hi⟩ := tcp_output_loop_unacked cfg _ fuel _ _ w _ heq
        have hk := output_finish_ack_key rc pcb2 w2
        have h1 : (output_finish rc pcb2 w2).2.1.unacked = pcb2.unacked :=
          congrArg (fun k => k.2.2.1) hk
        have h2 : (output_finish rc pcb2 w2).2.1.last_unacked = pcb2.last_unacked :=
          congrArg (fun k => k.2.2.2) hk
        have hmade : (output_finish rc pcb2 w2).2.2.calls.drop w.calls.length = made := by
          rw [output_finish_calls]
          show w2.calls.drop w.calls.length = made
          rw [hm, List.drop_left]
        rw [hmade] at hsane
        show unacked_ok (output_finish rc pcb2 w2).2.1.unacked
          (output_finish rc pcb2 w2).2.1.last_unacked
        rw [h1, h2]
        exact hi hsane hreq

/-- The run of `tcp_output` after a fast retransmit on the connection with
two segments in flight: the segment at 5000 is sent again, then the one at
7000 for the first time. -/
def run_rexmit : err_t × tcp_pcb × World :=
  (tcp_output cfg_push 5 (tcp_rexmit_fast pcb_flight) world_ok).getD
    (err_t.ERR_OK, pcb_flight, world_ok)

/-- Witness for C19: the retransmitted segment at 5000 is inserted in front
of the one at 6000 and the new segment at 7000 is appended; `last_unacked`
ends on the latter. -/
theorem tcp_output_keeps_unacked_order_witness :
    tcp_output cfg_push 5 (tcp_rexmit_fast pcb_flight) world_ok = some run_rexmit ∧
    seq_sorted (tcp_rexmit_fast pcb_flight).unacked ∧
    distinct_ids (tcp_rexmit_fast pcb_flight).unacked ∧
    tail_ok (tcp_rexmit_fast pcb_flight).unacked (tcp_rexmit_fast pcb_flight).last_unacked ∧
    (∀ c ∈ run_rexmit.2.2.calls.drop world_ok.calls.length, hook_sane c = true) ∧
    (tcp_rexmit_fast pcb_flight).unacked.map seg_view = [(6000, 1000)] ∧
    run_rexmit.2.1.unacked.map seg_view = [(5000, 1000), (6000, 1000), (7000, 500)] ∧
    run_rexmit.2.1.last_unacked = some 300 ∧
    seq_sorted run_rexmit.2.1.unacked ∧ distinct_ids run_rexmit.2.1.unacked ∧
    tail_ok run_rexmit.2.1.unacked run_rexmit.2.1.last_unacked :=
  ⟨by decide, by decide, by decide, by decide, by decide, by decide, by decide, by decide,
   tcp_output_keeps_unacked_order cfg_push 5 (tcp_rexmit_fast pcb_flight) world_ok run_rexmit
     (by decide) (by decide) (by decide) (by decide) (by decide)⟩


/-! ## Nagle and Minshall in `tcp_output` -/

/-- The head segment with its TSO mark cleared, as the loop of `tcp_output`
starts on it. -/
def unmarked (seg : tcp_seg) : tcp_seg := { seg with flags := clr8 seg.flags TF_SEG_OPTS_TSO }

theorem unmarked_dummy (seg : tcp_seg) :
    LWIP_IS_DUMMY_SEGMENT (unmarked seg) = LWIP_IS_DUMMY_SEGMENT seg := by
  unfold LWIP_IS_DUMMY_SEGMENT unmarked has clr8
  dsimp only
  have h : (255 ^^^ TF_SEG_OPTS_TSO) &&& TF_SEG_OPTS_DUMMY_MSG = TF_SEG_OPTS_DUMMY_MSG := by decide
  rw [Nat.land_assoc, h]

/-- The preparation of a pass when nothing is split: the head segment is
neither a retransmission nor, with nothing unacknowledged, beyond the
window. -/
theorem output_prepare_plain (cfg : Config) (wnd : Nat) (pcb : tcp_pcb) (w : World)
    (seg0 : tcp_seg) (rest0 : List tcp_seg)
    (hnew : TCP_SEQ_LT seg0.seqno pcb.snd_nxt = false)
    (hnosplit : pcb.unacked ≠ [] ∨
      add32 (sub32 seg0.seqno pcb.lastack) seg0.len ≤ wnd) :
    output_prepare cfg wnd pcb w seg0 rest0 =
      (unmarked seg0, rest0, { pcb with unsent := unmarked seg0 :: rest0 }, w) := by
  have h1 : prepare_rexmit pcb w (unmarked seg0) = (unmarked seg0, [], pcb, w) := by
    unfold prepare_rexmit
    dsimp only
    rw [if_neg]
    rintro ⟨h, -⟩
    have : (unmarked seg0).seqno = seg0.seqno := rfl
    rw [this, hnew] at h
    cases h
  have h2 : prepare_window cfg wnd pcb w (unmarked seg0) = (unmarked seg0, [], pcb, w) := by
    unfold prepare_window
    rw [if_neg]
    rintro ⟨hu, -, hgt⟩
    rcases hnosplit with h | h
    · exact h hu
    · have e1 : (unmarked seg0).len = seg0.len := rfl
      have e2 : (unmarked seg0).seqno = seg0.seqno := rfl
      rw [e1, e2] at hgt
      unfold add32 sub32 at h hgt
      omega
  have e : ({ seg0 with flags := clr8 seg0.flags TF_SEG_OPTS_TSO } : tcp_seg) = unmarked seg0 := rfl
  unfold output_prepare
  simp only [e, h1, h2, List.nil_append]

theorem output_requeue_id (pcb : tcp_pcb)
    (h : pcb.is_last_seg_dropped = false ∨ pcb.unacked = []) : output_requeue pcb = pcb := by
  unfold output_requeue
  split
  · rename_i u hu
    rcases h with h | h
    · rw [if_neg (by simp [h])]
    · rw [h] at hu
      cases hu
  · rfl

theorem tso_joined_nil (pcb : tcp_pcb) (seg : tcp_seg) (wnd : Nat) :
    (tso_joined pcb seg [] wnd).2 = [] ∧ (tso_joined pcb seg [] wnd).1.id = seg.id ∧
    (tso_joined pcb seg [] wnd).1.seqno = seg.seqno ∧
    (tso_joined pcb seg [] wnd).1.len = seg.len := by
  have hm : (mark_tso pcb seg).id = seg.id ∧ (mark_tso pcb seg).seqno = seg.seqno ∧
      (mark_tso pcb seg).len = seg.len := by
    unfold mark_tso
    split <;> exact ⟨rfl, rfl, rfl⟩
  unfold tso_joined
  split
  · unfold tcp_tso_segment
    dsimp only
    split
    · exact ⟨rfl, hm⟩
    · rw [if_pos rfl]
      exact ⟨rfl, hm⟩
  · exact ⟨rfl, rfl, rfl, rfl⟩

/-- With nothing queued after it, the segment that a pass is about to send
is the head segment itself: same record, sequence number and length. -/
theorem send_ready_single (wnd : Nat) (pcb : tcp_pcb) (w : World) (seg : tcp_seg) :
    (send_ready wnd pcb w seg []).2.1 = [] ∧ (send_ready wnd pcb w seg []).1.id = seg.id ∧
    (send_ready wnd pcb w seg []).1.seqno = seg.seqno ∧
    (send_ready wnd pcb w seg []).1.len = seg.len := by
  have hj := tso_joined_nil (minshall_mark pcb seg []) seg wnd
  unfold send_ready
  dsimp only
  split
  · exact hj
  · exact hj

theorem enqueue_unacked_unsent (pcb : tcp_pcb) (seg : tcp_seg) :
    (enqueue_unacked pcb seg).unsent = pcb.unsent := by
  unfold enqueue_unacked
  repeat' split
  all_goals rfl

/-- With nothing unacknowledged the segment sent is taken off `unsent`
whatever the hook answered, and the loop goes on. -/
theorem send_done_moved (rc : err_t) (s : tcp_seg) (pcb5 : tcp_pcb) (w4 : World)
    (rest1 : List tcp_seg) (hun : pcb5.unacked = []) :
    (send_done rc s pcb5 w4 rest1).1 = true ∧
    (send_done rc s pcb5 w4 rest1).2.2.1.unsent = rest1 := by
  unfold send_done
  dsimp only
  rw [if_neg (by simp [hun])]
  split
  · split
    · refine ⟨rfl, ?_⟩
      dsimp only
      split_ifs <;> rfl
    · refine ⟨rfl, ?_⟩
      rw [enqueue_unacked_unsent]
      split_ifs <;> rfl
  · refine ⟨rfl, ?_⟩
    split_ifs <;> rfl

/-- A pass for the only segment of `unsent` while nothing is unacknowledged:
the segment is handed to the IP output hook, after empty ACKs at most, and
`unsent` is left empty. -/
theorem output_send_single (cfg : Config) (wnd : Nat) (pcb : tcp_pcb) (w : World) (seg : tcp_seg)
    (hun : pcb.unacked = []) :
    ∃ rc acks c s pcb1 w1,
      output_send cfg wnd pcb w seg [] = (true, rc, pcb1, w1) ∧
      w1.calls = w.calls ++ acks ++ [c] ∧ (∀ a ∈ acks, a.seg = none) ∧ c.seg = some s ∧
      s.id = seg.id ∧ s.seqno = seg.seqno ∧ s.len = seg.len ∧ pcb1.unsent = [] := by
  have hn : nagle_holds pcb seg = false := by
    unfold nagle_holds tcp_do_output_nagle
    dsimp only
    rw [if_pos (Or.inl hun)]
    simp
  obtain ⟨hfr, -, acks, hacks, hnone⟩ := send_ready_appends wnd pcb w seg []
  obtain ⟨hnil, hid, hseq, hlen⟩ := send_ready_single wnd pcb w seg
  unfold output_send
  rw [if_neg (by simp [hn])]
  split
  rename_i seg2 rest1 pcb4 w3 heq2
  rw [heq2] at hfr hacks hnil hid hseq hlen
  dsimp only at hfr hacks hnil hid hseq hlen ⊢
  obtain ⟨c, s, hres, hs, hcp, hsid, hsseq, hslen, -, -⟩ :=
    tcp_output_segment_shape cfg seg2 pcb4 w3
  rw [hres]
  dsimp only
  have hk : ack_key (output_segment_pcb cfg seg2 pcb4) = ack_key pcb :=
    (output_segment_pcb_ack_key cfg seg2 pcb4).trans (ack_key_of_frame_ready _ _ hfr)
  have hun5 : (output_segment_pcb cfg seg2 pcb4).unacked = [] := by
    have h := congrArg (fun k => k.2.2.1) hk
    exact h.trans hun
  obtain ⟨hm1, hm2⟩ := send_done_moved ((w3.ip_results.head?).getD err_t.ERR_OK) s
    (output_segment_pcb cfg seg2 pcb4)
    { w3 with ip_results := w3.ip_results.tail, calls := w3.calls ++ [c] } rest1 hun5
  obtain ⟨hw1, hw2, -⟩ := send_done_wouldblock ((w3.ip_results.head?).getD err_t.ERR_OK) s
    (output_segment_pcb cfg seg2 pcb4)
    { w3 with ip_results := w3.ip_results.tail, calls := w3.calls ++ [c] } rest1
  refine ⟨_, acks, c, s, _, _, Prod.ext hm1 (Prod.ext hw1 (Prod.ext rfl rfl)), ?_, hnone, hs,
    hsid.trans hid, hsseq.trans hseq, hslen.trans hlen, hm2.trans hnil⟩
  rw [hw2]
  show w3.calls ++ [c] = w.calls ++ acks ++ [c]
  rw [hacks]

theorem tcp_output_loop_done (cfg : Config) (wnd n : Nat) (rc : err_t) (pcb : tcp_pcb) (w : World)
    (h : pcb.unsent = []) : tcp_output_loop cfg wnd (n + 1) rc pcb w = some (rc, pcb, w) := by
  unfold tcp_output_loop
  split
  · rfl
  · rw [h]

/-- A pass in which Nagle with the Minshall test holds the only segment of
`unsent` back: nothing is sent and the loop is left. -/
theorem output_pass_held (cfg : Config) (wnd : Nat) (pcb : tcp_pcb) (w : World) (seg : tcp_seg)
    (hflags : has pcb.flags (TF_NODELAY ||| TF_INFR) = false)
    (hmem : has pcb.flags (TF_NAGLEMEMERR ||| TF_FIN) = false)
    (hun : pcb.unacked ≠ [])
    (hdummy : LWIP_IS_DUMMY_SEGMENT seg = false) (hsmall : seg.len < pcb.mss)
    (hfit : add32 (sub32 seg.seqno pcb.lastack) seg.len ≤ wnd)
    (hnew : TCP_SEQ_LT seg.seqno pcb.snd_nxt = false)
    (hsml : pcb.snd_sml_snt > (pcb.unacked.head?.map (fun s => s.len)).getD 0) :
    output_pass cfg wnd pcb w seg [] =
      (false, err_t.ERR_OK, { pcb with unsent := [unmarked seg] }, w) := by
  have hn : nagle_holds { pcb with unsent := [unmarked seg] } (unmarked seg) = true := by
    have h0 : tcp_do_output_nagle { pcb with unsent := [unmarked seg] } = 0 := by
      unfold tcp_do_output_nagle
      dsimp only
      rw [if_neg]
      rintro (h | h | h)
      · exact hun h
      · rw [hflags] at h
        cases h
      · have h1 := of_decide_eq_true h
        rcases h1 with h1 | h1
        · exact h1 rfl
        · have : (unmarked seg).len = seg.len := rfl
          omega
    unfold nagle_holds
    rw [h0, unmarked_dummy, hdummy]
    dsimp only
    rw [hmem]
    decide
  unfold output_pass
  rw [output_prepare_plain cfg wnd pcb w seg [] hnew (Or.inl hun)]
  dsimp only
  rw [if_pos (by unfold fits_window; exact decide_eq_true hfit)]
  unfold output_send
  rw [if_pos ⟨hn, hsml⟩]

theorem output_finish_ok (pcb : tcp_pcb) (w : World) :
    (output_finish err_t.ERR_OK pcb w).1 = err_t.ERR_OK := by
  unfold output_finish
  rfl

/-- Claim C14 as amended: with `TF_NODELAY`, `TF_INFR`, `TF_FIN` and
`TF_NAGLEMEMERR` clear, `is_last_seg_dropped` clear, a non-empty `unacked`,
`snd_sml_snt` greater than the length of the first unacknowledged segment (a
small segment is in flight behind it), and `unsent` holding one segment that
is not a dummy, is shorter than `mss`, is not a retransmission and fits the
window, `tcp_output` returns `ERR_OK`, makes no call of the IP output hook and
leaves that segment on `unsent` and `unacked` as it is.  Once `unacked` is
empty (and the segment still fits the window), `tcp_output` hands that
segment to the IP output hook, after empty ACKs at most, and `unsent` is
empty on return. -/
theorem tcp_output_nagle_minshall (cfg : Config) (fuel : Nat) (pcb : tcp_pcb) (w : World)
    (seg : tcp_seg)
    (hin : pcb.is_in_input = false) (hdrop : pcb.is_last_seg_dropped = false)
    (hflags : has pcb.flags (TF_NODELAY ||| TF_INFR) = false)
    (hmem : has pcb.flags (TF_NAGLEMEMERR ||| TF_FIN) = false)
    (hun : pcb.unacked ≠ []) (hus : pcb.unsent = [seg])
    (hdummy : LWIP_IS_DUMMY_SEGMENT seg = false) (hsmall : seg.len < pcb.mss)
    (hfit : add32 (sub32 seg.seqno pcb.lastack) seg.len ≤ min pcb.snd_wnd pcb.cwnd)
    (hnew : TCP_SEQ_LT seg.seqno pcb.snd_nxt = false)
    (hsml : pcb.snd_sml_snt > (pcb.unacked.head?.map (fun s => s.len)).getD 0) :
    (∃ pcb2 w2, tcp_output cfg (fuel + 1) pcb w = some (err_t.ERR_OK, pcb2, w2) ∧
      w2.calls = w.calls ∧ pcb2.unsent = [unmarked seg] ∧ pcb2.unacked = pcb.unacked) ∧
    ∀ (pcb3 : tcp_pcb) (w3 : World), pcb3.is_in_input = false → pcb3.unacked = [] →
      pcb3.unsent = [unmarked seg] →
      add32 (sub32 seg.seqno pcb3.lastack) seg.len ≤ min pcb3.snd_wnd pcb3.cwnd →
      TCP_SEQ_LT seg.seqno pcb3.snd_nxt = false →
      ∃ rc pcb4 w4 acks c s,
        tcp_output cfg (fuel + 2) pcb3 w3 = some (rc, pcb4, w4) ∧
        w4.calls = w3.calls ++ acks ++ [c] ∧ (∀ a ∈ acks, a.seg = none) ∧ c.seg = some s ∧
        s.id = seg.id ∧ s.seqno = seg.seqno ∧ s.len = seg.len ∧ pcb4.unsent = [] := by
  constructor
  · have hp := output_pass_held cfg (min pcb.snd_wnd pcb.cwnd) pcb w seg hflags hmem hun hdummy
      hsmall hfit hnew hsml
    have hl : tcp_output_loop cfg (min pcb.snd_wnd pcb.cwnd) (fuel + 1) err_t.ERR_OK pcb w =
        some (err_t.ERR_OK, { pcb with unsent := [unmarked seg] }, w) := by
      unfold tcp_output_loop
      rw [if_neg (by simp), hus]
      dsimp only
      rw [hp]
    unfold tcp_output
    rw [if_neg (by simp [hin])]
    dsimp only
    rw [output_requeue_id pcb (Or.inl hdrop), hus]
    dsimp only
    rw [if_neg, hl]
    · dsimp only
      refine ⟨(output_finish err_t.ERR_OK { pcb with unsent := [unmarked seg] } w).2.1,
        (output_finish err_t.ERR_OK { pcb with unsent := [unmarked seg] } w).2.2,
        congrArg some (Prod.ext (output_finish_ok _ _) rfl), output_finish_calls _ _ _,
        output_finish_unsent _ _ _, ?_⟩
      have hk := output_finish_ack_key err_t.ERR_OK { pcb with unsent := [unmarked seg] } w
      exact congrArg (fun k => k.2.2.1) hk
    · rintro ⟨-, h⟩
      have h1 := of_decide_eq_true h
      omega
  · intro pcb3 w3 hin3 hun3 hus3 hfit3 hnew3
    have hprep := output_prepare_plain cfg (min pcb3.snd_wnd pcb3.cwnd) pcb3 w3 (unmarked seg) []
      hnew3 (Or.inr hfit3)
    obtain ⟨rc, acks, c, s, pcb5, w5, hsend, hcalls, hnone, hcs, hid, hseq, hlen, hempty⟩ :=
      output_send_single cfg (min pcb3.snd_wnd pcb3.cwnd)
        { pcb3 with unsent := [unmarked (unmarked seg)] } w3 (unmarked (unmarked seg)) hun3
    have hp : output_pass cfg (min pcb3.snd_wnd pcb3.cwnd) pcb3 w3 (unmarked seg) [] =
        (true, rc, pcb5, w5) := by
      unfold output_pass
      rw [hprep]
      dsimp only
      rw [if_pos (by unfold fits_window; exact decide_eq_true hfit3)]
      exact hsend
    have hl : tcp_output_loop cfg (min pcb3.snd_wnd pcb3.cwnd) (fuel + 2) err_t.ERR_OK pcb3 w3 =
        some (rc, pcb5, w5) := by
      unfold tcp_output_loop
      rw [if_neg (by simp), hus3]
      dsimp only
      rw [hp]
      dsimp only
      exact tcp_output_loop_done cfg _ fuel rc pcb5 w5 hempty
    unfold tcp_output
    rw [if_neg (by simp [hin3])]
    dsimp only
    rw [output_requeue_id pcb3 (Or.inr hun3), hus3]
    dsimp only
    rw [if_neg, hl]
    · dsimp only
      refine ⟨_, (output_finish rc pcb5 w5).2.1, (output_finish rc pcb5 w5).2.2, acks, c, s, rfl,
        (output_finish_calls _ _ _).trans hcalls, hnone, hcs, hid, hseq, hlen,
        (output_finish_unsent _ _ _).trans hempty⟩
    · rintro ⟨-, h⟩
      have h1 := of_decide_eq_true h
      have e1 : (unmarked seg).len = seg.len := rfl
      have e2 : (unmarked seg).seqno = seg.seqno := rfl
      rw [e1, e2] at h1
      omega

/-- A connection with Nagle on (`TF_NODELAY` clear) and one full segment in
flight: 1000 bytes at 5000, nothing unsent, `snd_sml_snt = 0`. -/
def pcb_nagle : tcp_pcb :=
  { pcb_idle with
    flags := 0, snd_nxt := 6000, snd_lbb := 6000, snd_buf := 99000, snd_queuelen := 1,
    unacked := [data_seg 900 90000 5000 1000], last_unacked := some 900 }

/-- What a write followed by `tcp_output` shows of Nagle: the flags of the
PCB after the write, the unacknowledged segments, the unsent segments with
their dummy mark, `mss`, `snd_sml_snt`, `lastack` and the window; then the
segments that `tcp_output` handed to the IP output hook and the unsent
segments it left. -/
structure nagle_view where
  flags : Nat
  unacked : List (Nat × Nat)
  unsent : List (Nat × Nat)
  dummies : List Bool
  mss : Nat
  snd_sml_snt : Nat
  lastack : Nat
  wnd : Nat
  sent : Option (List (Option (Nat × Nat)))
  left : Option (List (Nat × Nat))
  deriving DecidableEq, Repr

/-- The view `nagle_view` of the result of a write. -/
def nagle_after_write (cfg : Config) (r : err_t × tcp_pcb × World) : nagle_view :=
  { flags := r.2.1.flags, unacked := r.2.1.unacked.map seg_view,
    unsent := r.2.1.unsent.map seg_view,
    dummies := r.2.1.unsent.map LWIP_IS_DUMMY_SEGMENT,
    mss := r.2.1.mss, snd_sml_snt := r.2.1.snd_sml_snt, lastack := r.2.1.lastack,
    wnd := min r.2.1.snd_wnd r.2.1.cwnd,
    sent := (tcp_output cfg 5 r.2.1 r.2.2).map
      (fun o => (o.2.2.calls.drop r.2.2.calls.length).map (fun c => c.seg.map seg_view)),
    left := (tcp_output cfg 5 r.2.1 r.2.2).map (fun o => o.2.1.unsent.map seg_view) }

/-- Claim C14 fails as stated: with Nagle on, no flag set, one segment of
1000 bytes unacknowledged and `mss = 1000`, a write of 800 bytes leaves one
unsent segment that is not a dummy, is shorter than `mss` and fits the window
of 5000 bytes (`1000 + 800`); `snd_sml_snt` is 0, which is not greater than
the length of the first unacknowledged segment, so `tcp_output` hands the
segment to the IP output hook and `unsent` is empty on return. -/
theorem tcp_output_nagle_sends_small :
    nagle_after_write cfg_push (tcp_write cfg_push pcb_nagle world_ok 1 800 1) =
      { flags := 0, unacked := [(5000, 1000)], unsent := [(6000, 800)], dummies := [false],
        mss := 1000, snd_sml_snt := 0, lastack := 5000, wnd := 5000,
        sent := some [some (6000, 800)], left := some [] } :=
  tcp_write_observe (nagle_after_write cfg_push) 4 cfg_push pcb_nagle world_ok 1 800 1
    { flags := 0, unacked := [(5000, 1000)], unsent := [(6000, 800)], dummies := [false],
      mss := 1000, snd_sml_snt := 0, lastack := 5000, wnd := 5000,
      sent := some [some (6000, 800)], left := some [] } (by decide)

/-- A connection with Nagle on, a full segment and a small one in flight
(1000 bytes at 5000, 300 bytes at 6000, so `snd_sml_snt = 1300`), and one
small segment of 800 bytes unsent. -/
def pcb_held : tcp_pcb :=
  { pcb_idle with
    flags := 0, snd_nxt := 6300, snd_lbb := 7100, snd_buf := 97900, snd_queuelen := 3,
    snd_sml_snt := 1300, snd_sml_add := 1800,
    unacked := [data_seg 900 90000 5000 1000, data_seg 800 80000 6000 300],
    last_unacked := some 800,
    unsent := [data_seg 100 10000 6300 800], last_unsent := some 100 }

/-- The connection `pcb_held` after an ACK for everything in flight. -/
def pcb_acked : tcp_pcb :=
  { pcb_held with
    lastack := 6300, snd_queuelen := 1, unacked := [], last_unacked := none,
    unsent := [unmarked (data_seg 100 10000 6300 800)] }

/-- Witness for C14: the segment of 800 bytes at 6300 is held back while
1300 bytes are in flight, and is sent once they are acknowledged. -/
theorem tcp_output_nagle_minshall_witness :
    (pcb_held.is_in_input = false ∧ pcb_held.is_last_seg_dropped = false ∧
      has pcb_held.flags (TF_NODELAY ||| TF_INFR) = false ∧
      has pcb_held.flags (TF_NAGLEMEMERR ||| TF_FIN) = false ∧
      pcb_held.unacked ≠ [] ∧ pcb_held.unsent = [data_seg 100 10000 6300 800] ∧
      LWIP_IS_DUMMY_SEGMENT (data_seg 100 10000 6300 800) = false ∧
      (data_seg 100 10000 6300 800).len < pcb_held.mss ∧
      add32 (sub32 (data_seg 100 10000 6300 800).seqno pcb_held.lastack)
        (data_seg 100 10000 6300 800).len ≤ min pcb_held.snd_wnd pcb_held.cwnd ∧
      TCP_SEQ_LT (data_seg 100 10000 6300 800).seqno pcb_held.snd_nxt = false ∧
      pcb_held.snd_sml_snt > (pcb_held.unacked.head?.map (fun s => s.len)).getD 0) ∧
    (∃ pcb2 w2, tcp_output cfg_push 1 pcb_held world_ok = some (err_t.ERR_OK, pcb2, w2) ∧
      w2.calls = world_ok.calls ∧ pcb2.unsent = [unmarked (data_seg 100 10000 6300 800)] ∧
      pcb2.unacked = pcb_held.unacked) ∧
    (∃ rc pcb4 w4 acks c s,
      tcp_output cfg_push 2 pcb_acked world_ok = some (rc, pcb4, w4) ∧
      w4.calls = world_ok.calls ++ acks ++ [c] ∧ (∀ a ∈ acks, a.seg = none) ∧ c.seg = some s ∧
      s.id = (data_seg 100 10000 6300 800).id ∧ s.seqno = (data_seg 100 10000 6300 800).seqno ∧
      s.len = (data_seg 100 10000 6300 800).len ∧ pcb4.unsent = []) ∧
    (tcp_output cfg_push 1 pcb_held world_ok).map
        (fun o => (o.1, o.2.2.calls.map (fun c => c.seg.map seg_view), o.2.1.unsent.map seg_view)) =
      some (err_t.ERR_OK, [], [(6300, 800)]) ∧
    (tcp_output cfg_push 2 pcb_acked world_ok).map
        (fun o => (o.1, o.2.2.calls.map (fun c => c.seg.map seg_view), o.2.1.unsent.map seg_view)) =
      some (err_t.ERR_OK, [some (6300, 800)], []) :=
  ⟨by decide,
   (tcp_output_nagle_minshall cfg_push 0 pcb_held world_ok (data_seg 100 10000 6300 800)
      (by decide) (by decide) (by decide) (by decide) (by decide) (by decide) (by decide)
      (by decide) (by decide) (by decide) (by decide)).1,
   (tcp_output_nagle_minshall cfg_push 0 pcb_held world_ok (data_seg 100 10000 6300 800)
      (by decide) (by decide) (by decide) (by decide) (by decide) (by decide) (by decide)
      (by decide) (by decide) (by decide) (by decide)).2 pcb_acked world_ok
      (by decide) (by decide) (by decide) (by decide) (by decide),
   by decide, by decide⟩


/-! ## Retransmission: `tcp_rexmit` and `tcp_rexmit_rto` -/

/-- A queue in strictly ascending order: every segment is before its
successor in sequence space (`TCP_SEQ_LT`). -/
def seq_ascending (q : List tcp_seg) : Prop :=
  List.Chain' (fun a b : tcp_seg => TCP_SEQ_LT a.seqno b.seqno = true) q

/-- The place where `insert_sorted` puts a segment: after the longest prefix
of segments before it in sequence space. -/
theorem insert_sorted_split (seg : tcp_seg) :
    ∀ q : List tcp_seg, ∃ pre post, q = pre ++ post ∧ insert_sorted seg q = pre ++ seg :: post ∧
      (∀ x ∈ pre, TCP_SEQ_LT x.seqno seg.seqno = true) ∧
      (∀ y, post.head? = some y → TCP_SEQ_LT y.seqno seg.seqno = false) := by
  intro q
  induction q with
  | nil => exact ⟨[], [], rfl, rfl, by simp, by simp⟩
  | cons x r ih =>
    obtain ⟨pre, post, hq, hi, hpre, hpost⟩ := ih
    unfold insert_sorted
    split
    · rename_i hx
      refine ⟨x :: pre, post, by rw [hq]; rfl, by rw [hi]; rfl, ?_, hpost⟩
      intro y hy
      rcases List.mem_cons.1 hy with h | h
      · rw [h]
        exact hx
      · exact hpre y h
    · rename_i hx
      refine ⟨[], x :: r, rfl, rfl, by simp, ?_⟩
      intro y hy
      simp only [List.head?_cons, Option.some.injEq] at hy
      rw [← hy]
      simpa using hx

theorem seq_lt_of_not_lt (a b : Nat) (h : TCP_SEQ_LT b a = false) (hne : u32 a ≠ u32 b) :
    TCP_SEQ_LT a b = true := by
  unfold TCP_SEQ_LT at h ⊢
  have h1 := of_decide_eq_false h
  apply decide_eq_true
  unfold u32 at hne
  unfold sub32 at h1 ⊢
  omega

/-- Inserting at the sorted place keeps a strictly ascending queue strictly
ascending when no segment of the queue has the sequence number of the new
one. -/
theorem insert_sorted_ascending (seg : tcp_seg) :
    ∀ q : List tcp_seg, seq_ascending q → (∀ x ∈ q, u32 seg.seqno ≠ u32 x.seqno) →
      seq_ascending (insert_sorted seg q) := by
  intro q
  induction q with
  | nil =>
    intro _ _
    exact List.chain'_singleton _
  | cons x r ih =>
    intro hq hne
    unfold insert_sorted
    split
    · rename_i hlt
      have hr : seq_ascending r := (List.chain'_cons'.1 hq).2
      have hir := ih hr (fun y hy => hne y (List.mem_cons_of_mem _ hy))
      refine List.chain'_cons'.2 ⟨?_, hir⟩
      intro y hy
      rcases insert_sorted_head seg r with h | ⟨z, t, hz, -, h⟩
      · rw [h] at hy
        cases hy
        exact hlt
      · rw [h] at hy
        cases hy
        exact (List.chain'_cons'.1 hq).1 y (by rw [hz]; rfl)
    · rename_i hlt
      refine List.chain'_cons'.2 ⟨?_, hq⟩
      intro y hy
      cases hy
      exact seq_lt_of_not_lt _ _ (by simpa using hlt) (hne x (List.mem_cons_self _ _))

/-- Claim C23: `tcp_rexmit` with an empty `unacked` changes nothing.  With a
non-empty one it takes the head segment off `unacked` and puts it into
`unsent` right after the longest prefix of segments that are before it in
sequence space, that is, before the first segment whose `seqno` is not less
than its own; the other segments of `unsent` keep their places, so a queue in
ascending order stays in ascending order (also strictly, when no unsent
segment has the same `seqno`); `nrtx` is incremented (an 8-bit counter) and
`rttest` is set to 0.  The function has no access to the hooks. -/
theorem tcp_rexmit_moves_head (pcb : tcp_pcb) :
    (pcb.unacked = [] → tcp_rexmit pcb = pcb) ∧
    ∀ seg rest, pcb.unacked = seg :: rest →
      (tcp_rexmit pcb).unacked = rest ∧
      (∃ pre post, pcb.unsent = pre ++ post ∧ (tcp_rexmit pcb).unsent = pre ++ seg :: post ∧
        (∀ x ∈ pre, TCP_SEQ_LT x.seqno seg.seqno = true) ∧
        (∀ y, post.head? = some y → TCP_SEQ_LT y.seqno seg.seqno = false)) ∧
      (seq_sorted pcb.unsent → seq_sorted (tcp_rexmit pcb).unsent) ∧
      (seq_ascending pcb.unsent → (∀ x ∈ pcb.unsent, u32 seg.seqno ≠ u32 x.seqno) →
        seq_ascending (tcp_rexmit pcb).unsent) ∧
      (tcp_rexmit pcb).nrtx = (pcb.nrtx + 1) % 256 ∧ (tcp_rexmit pcb).rttest = 0 := by
  constructor
  · intro h
    unfold tcp_rexmit
    rw [h]
  · intro seg rest h
    obtain ⟨h1, h2, -⟩ := tcp_rexmit_cons pcb seg rest h
    refine ⟨h1, ?_, ?_, ?_, ?_, ?_⟩
    · rw [h2]
      exact insert_sorted_split seg pcb.unsent
    · intro hs
      rw [h2]
      exact insert_sorted_sorted seg _ hs
    · intro hs hne
      rw [h2]
      exact insert_sorted_ascending seg _ hs hne
    · unfold tcp_rexmit
      rw [h]
      dsimp only
      split <;> rfl
    · unfold tcp_rexmit
      rw [h]

/-- Witness for C23: on the connection with segments at 5000 and 6000 in
flight and one at 7000 unsent, the segment at 5000 goes in front of the one at
7000. -/
theorem tcp_rexmit_moves_head_witness :
    pcb_flight.unacked = data_seg 100 10000 5000 1000 :: [data_seg 200 20000 6000 1000] ∧
    seq_sorted pcb_flight.unsent ∧ seq_ascending pcb_flight.unsent ∧
    (∀ x ∈ pcb_flight.unsent, u32 (data_seg 100 10000 5000 1000).seqno ≠ u32 x.seqno) ∧
    (tcp_rexmit pcb_flight).unacked = [data_seg 200 20000 6000 1000] ∧
    seq_sorted (tcp_rexmit pcb_flight).unsent ∧ seq_ascending (tcp_rexmit pcb_flight).unsent ∧
    (tcp_rexmit pcb_flight).nrtx = (pcb_flight.nrtx + 1) % 256 ∧
    (tcp_rexmit pcb_flight).rttest = 0 ∧
    (tcp_rexmit pcb_flight).unsent.map seg_view = [(5000, 1000), (7000, 500)] :=
  ⟨rfl, by decide, List.chain'_singleton _, by decide,
   ((tcp_rexmit_moves_head pcb_flight).2 _ _ rfl).1,
   ((tcp_rexmit_moves_head pcb_flight).2 _ _ rfl).2.2.1 (by decide),
   ((tcp_rexmit_moves_head pcb_flight).2 _ _ rfl).2.2.2.1 (List.chain'_singleton _) (by decide),
   ((tcp_rexmit_moves_head pcb_flight).2 _ _ rfl).2.2.2.2.1,
   ((tcp_rexmit_moves_head pcb_flight).2 _ _ rfl).2.2.2.2.2, by decide⟩


/-- The cached tail pointer of an empty queue is null. -/
def tail_null (q : List tcp_seg) (ptr : Option Nat) : Prop := q = [] → ptr = none

instance (q : List tcp_seg) (ptr : Option Nat) : Decidable (tail_null q ptr) :=
  inferInstanceAs (Decidable (q = [] → ptr = none))

theorem insert_sorted_all (seg : tcp_seg) :
    ∀ q : List tcp_seg, q.all (fun c => TCP_SEQ_LT c.seqno seg.seqno) = true →
      insert_sorted seg q = q ++ [seg] := by
  intro q
  induction q with
  | nil => intro _; rfl
  | cons x r ih =>
    intro h
    simp only [List.all_cons, Bool.and_eq_true] at h
    unfold insert_sorted
    rw [if_pos h.1, ih h.2]
    rfl

theorem insert_sorted_ne_nil (seg : tcp_seg) (q : List tcp_seg) : insert_sorted seg q ≠ [] := by
  intro h
  have := insert_sorted_length seg q
  rw [h] at this
  simp at this

/-- What `tcp_rexmit` leaves of the tail pointers when it moves a segment:
`last_unsent` designates the last unsent segment, `last_unacked` is as it
was. -/
theorem tcp_rexmit_tails (pcb : tcp_pcb) (seg : tcp_seg) (rest : List tcp_seg)
    (h : pcb.unacked = seg :: rest) (hs : tail_ok pcb.unsent pcb.last_unsent) :
    (tcp_rexmit pcb).unsent ≠ [] ∧ tail_ok (tcp_rexmit pcb).unsent (tcp_rexmit pcb).last_unsent ∧
    (tcp_rexmit pcb).last_unacked = pcb.last_unacked := by
  unfold tcp_rexmit
  rw [h]
  dsimp only
  split
  · rename_i hall
    refine ⟨insert_sorted_ne_nil _ _, ?_, rfl⟩
    intro _
    show some seg.id = (insert_sorted seg pcb.unsent).getLast?.map (fun s => s.id)
    rw [insert_sorted_all seg _ hall]
    simp
  · rename_i hall
    refine ⟨insert_sorted_ne_nil _ _, ?_, rfl⟩
    intro _
    show pcb.last_unsent = (insert_sorted seg pcb.unsent).getLast?.map (fun s => s.id)
    have hex : ∃ x ∈ pcb.unsent, TCP_SEQ_LT x.seqno seg.seqno = false := by
      simpa using hall
    rw [insert_sorted_getLast seg _ hex]
    apply hs
    obtain ⟨x, hx, -⟩ := hex
    intro hnil
    rw [hnil] at hx
    cases hx

/-- A connection with one segment in flight and nothing unsent. -/
def pcb_single : tcp_pcb :=
  { pcb_idle with
    snd_nxt := 6000, snd_lbb := 6000, snd_buf := 99000, snd_queuelen := 1,
    unacked := [data_seg 100 10000 5000 1000], last_unacked := some 100 }

/-- Claim C22: `tcp_rexmit` and `tcp_rexmit_rto` leave `last_unacked` on a
record that is no longer unacknowledged.  On a connection whose only
unacknowledged segment is the record 100 (both tail pointers right before
the call), `tcp_rexmit` moves that segment to `unsent` and leaves
`last_unacked` on it: `unacked` is empty and `last_unacked` is not null.  On
the connection with two segments in flight and a closed window,
`tcp_rexmit_rto` empties `unacked`, its `tcp_output` sends nothing, and after
the return `last_unacked` still designates the record 200, now the second of
the three unsent segments.  The requeue at the start of `tcp_output`, which
moves the only unacknowledged segment to `unsent` in the same way, sets
`last_unacked` to null. -/
theorem tcp_rexmit_leaves_last_unacked :
    (tail_ok pcb_single.unsent pcb_single.last_unsent ∧
      tail_null pcb_single.unsent pcb_single.last_unsent ∧
      tail_ok pcb_single.unacked pcb_single.last_unacked ∧
      tail_null pcb_single.unacked pcb_single.last_unacked) ∧
    ((tcp_rexmit pcb_single).unacked = [] ∧ (tcp_rexmit pcb_single).last_unacked = some 100 ∧
      (tcp_rexmit pcb_single).unsent.map (fun s => s.id) = [100] ∧
      ¬ tail_null (tcp_rexmit pcb_single).unacked (tcp_rexmit pcb_single).last_unacked) ∧
    (tail_ok pcb_flight.unsent pcb_flight.last_unsent ∧
      tail_null pcb_flight.unsent pcb_flight.last_unsent ∧
      tail_ok pcb_flight.unacked pcb_flight.last_unacked ∧
      tail_null pcb_flight.unacked pcb_flight.last_unacked) ∧
    (tcp_rexmit_rto cfg_push 5 { pcb_flight with snd_wnd := 0 } world_ok).map
        (fun r => (r.1.unacked.length, r.1.last_unacked, r.2.calls.length,
          r.1.unsent.map (fun s => s.id), r.1.last_unsent)) =
      some (0, some 200, 0, [100, 200, 300], some 300) ∧
    (tcp_rexmit_rto cfg_push 5 { pcb_flight with snd_wnd := 0 } world_ok).map
        (fun r => decide (tail_null r.1.unacked r.1.last_unacked)) = some false ∧
    ((output_requeue { pcb_single with is_last_seg_dropped := true }).unacked = [] ∧
      (output_requeue { pcb_single with is_last_seg_dropped := true }).unsent.map
        (fun s => s.id) = [100] ∧
      (output_requeue { pcb_single with is_last_seg_dropped := true }).last_unacked = none) := by
  decide

/-- What the two requeues do keep of the tail pointers.  When the pointers
are right before the call (`last_unsent` designates the last unsent segment
and is null for an empty `unsent`, `last_unacked` designates the last
unacknowledged segment of a non-empty `unacked`), then after `tcp_rexmit`, and
after the requeueing statements of `tcp_rexmit_rto`, `last_unsent` designates
the last unsent segment and is null for an empty `unsent`, and `last_unacked`
designates the last element of `unacked` whenever `unacked` is not empty;
neither function writes `last_unacked`. -/
theorem rexmit_tail_pointers (cfg : Config) (fuel : Nat) (pcb : tcp_pcb) (w : World)
    (hs : tail_ok pcb.unsent pcb.last_unsent) (hsn : tail_null pcb.unsent pcb.last_unsent)
    (ha : tail_ok pcb.unacked pcb.last_unacked) :
    (tail_ok (tcp_rexmit pcb).unsent (tcp_rexmit pcb).last_unsent ∧
      tail_null (tcp_rexmit pcb).unsent (tcp_rexmit pcb).last_unsent ∧
      tail_ok (tcp_rexmit pcb).unacked (tcp_rexmit pcb).last_unacked ∧
      (tcp_rexmit pcb).last_unacked = pcb.last_unacked) ∧
    (pcb.unacked = [] → tcp_rexmit_rto cfg fuel pcb w = some (pcb, w)) ∧
    (pcb.unacked ≠ [] →
      tcp_rexmit_rto cfg fuel pcb w =
        (tcp_output cfg fuel (rto_requeue pcb) w).map (fun r => (r.2.1, r.2.2)) ∧
      (rto_requeue pcb).unsent = pcb.unacked ++ pcb.unsent ∧
      tail_ok (rto_requeue pcb).unsent (rto_requeue pcb).last_unsent ∧
      tail_null (rto_requeue pcb).unsent (rto_requeue pcb).last_unsent ∧
      (rto_requeue pcb).unacked = [] ∧
      (rto_requeue pcb).last_unacked = pcb.last_unacked) := by
  refine ⟨?_, ?_, ?_⟩
  · cases hu : pcb.unacked with
    | nil =>
      have he : tcp_rexmit pcb = pcb := by
        unfold tcp_rexmit
        rw [hu]
      rw [he]
      exact ⟨hs, hsn, ha, rfl⟩
    | cons seg rest =>
      obtain ⟨hne, ht, hl⟩ := tcp_rexmit_tails pcb seg rest hu hs
      obtain ⟨hr, -⟩ := tcp_rexmit_cons pcb seg rest hu
      refine ⟨ht, fun h => absurd h hne, ?_, hl⟩
      rw [hr, hl]
      intro hrest
      have h1 := ha (by rw [hu]; simp)
      rw [h1, hu, getLast?_cons_ne seg rest hrest]
  · intro hu
    unfold tcp_rexmit_rto
    rw [if_pos hu]
  · intro hu
    refine ⟨?_, rfl, ?_, ?_, rfl, ?_⟩
    · unfold tcp_rexmit_rto
      rw [if_neg hu]
    · intro _
      unfold rto_requeue
      dsimp only
      split
      · rename_i he
        show pcb.unacked.getLast?.map (fun s => s.id) =
          (pcb.unacked ++ pcb.unsent).getLast?.map (fun s => s.id)
        rw [he, List.append_nil]
      · rename_i he
        show pcb.last_unsent = (pcb.unacked ++ pcb.unsent).getLast?.map (fun s => s.id)
        rw [List.getLast?_append_of_ne_nil _ he]
        exact hs he
    · intro he
      have h1 : pcb.unacked ++ pcb.unsent = [] := he
      exact absurd (List.append_eq_nil.1 h1).1 hu
    · unfold rto_requeue
      dsimp only
      split <;> rfl

/-- An instance of `rexmit_tail_pointers`: on the connection with segments
at 5000 and 6000 in flight and one at 7000 unsent, `last_unsent` is right
after `tcp_rexmit` and after the requeueing statements of `tcp_rexmit_rto`,
and `unacked` keeps the segment at 6000 under `last_unacked`. -/
theorem rexmit_tail_pointers_witness :
    (tail_ok pcb_flight.unsent pcb_flight.last_unsent ∧
      tail_null pcb_flight.unsent pcb_flight.last_unsent ∧
      tail_ok pcb_flight.unacked pcb_flight.last_unacked) ∧
    (tail_ok (tcp_rexmit pcb_flight).unsent (tcp_rexmit pcb_flight).last_unsent ∧
      tail_null (tcp_rexmit pcb_flight).unsent (tcp_rexmit pcb_flight).last_unsent ∧
      tail_ok (tcp_rexmit pcb_flight).unacked (tcp_rexmit pcb_flight).last_unacked ∧
      (tcp_rexmit pcb_flight).last_unacked = pcb_flight.last_unacked) ∧
    (rto_requeue pcb_flight).unsent.map (fun s => s.id) = [100, 200, 300] ∧
    (rto_requeue pcb_flight).last_unsent = some 300 :=
  ⟨by decide,
   (rexmit_tail_pointers cfg_push 5 pcb_flight world_ok (by decide) (by decide) (by decide)).1,
   by decide, by decide⟩


/-! ## The limits of the TSO join -/

theorem s32_le (x : Nat) : s32 x ≤ (x : Int) := by
  unfold s32
  have h := Nat.mod_le x 4294967296
  split <;> omega

/-- What the joining loop does to the queue after `seg`: it consumes the
first `k` segments, never the last one; the consumed segments have the option
flags `flags`, no header flag besides `ACK`/`PSH` and the zero-copy bit of
`seg`; the record, sequence number, option flags and header of `seg` stay;
when something was consumed the joined length is within `mp` and the joined
chain within `max_send_sge`. -/
theorem tso_join_spec (pcb : tcp_pcb) (flags mp : Nat) :
    ∀ (l : List tcp_seg) (tot_len : Nat) (tot_p : Int) (seg : tcp_seg),
      tot_len = u32 seg.len → tot_p = (seg.p.length : Int) →
      ∃ k, k ≤ l.length ∧ (l ≠ [] → k < l.length) ∧
        (tso_join pcb flags mp tot_len tot_p seg l).2 = l.drop k ∧
        (tso_join pcb flags mp tot_len tot_p seg l).1.id = seg.id ∧
        (tso_join pcb flags mp tot_len tot_p seg l).1.seqno = seg.seqno ∧
        (tso_join pcb flags mp tot_len tot_p seg l).1.flags = seg.flags ∧
        (tso_join pcb flags mp tot_len tot_p seg l).1.hdr = seg.hdr ∧
        (∀ c ∈ l.take k, c.flags = flags ∧ other_than_ack_psh c = false ∧
          seg.flags &&& TF_SEG_OPTS_ZEROCOPY = c.flags &&& TF_SEG_OPTS_ZEROCOPY) ∧
        (0 < k → (tso_join pcb flags mp tot_len tot_p seg l).1.len ≤ mp ∧
          (tso_join pcb flags mp tot_len tot_p seg l).1.p.length ≤ pcb.max_send_sge) ∧
        (k = 0 → tso_join pcb flags mp tot_len tot_p seg l = (seg, l)) := by
  have stop : ∀ (l : List tcp_seg) (seg : tcp_seg) (r : tcp_seg × List tcp_seg), r = (seg, l) →
      (l ≠ [] → 0 < l.length) →
      ∃ k, k ≤ l.length ∧ (l ≠ [] → k < l.length) ∧ r.2 = l.drop k ∧ r.1.id = seg.id ∧ r.1.seqno = seg.seqno ∧
        r.1.flags = seg.flags ∧ r.1.hdr = seg.hdr ∧
        (∀ c ∈ l.take k, c.flags = flags ∧ other_than_ack_psh c = false ∧
          seg.flags &&& TF_SEG_OPTS_ZEROCOPY = c.flags &&& TF_SEG_OPTS_ZEROCOPY) ∧
        (0 < k → r.1.len ≤ mp ∧ r.1.p.length ≤ pcb.max_send_sge) ∧
        (k = 0 → r = (seg, l)) := by
    intro l seg r hr hl
    subst hr
    exact ⟨0, Nat.zero_le _, hl, rfl, rfl, rfl, rfl, rfl, by simp, fun h => absurd h (lt_irrefl 0),
      fun _ => rfl⟩
  have pos : ∀ l : List tcp_seg, l ≠ [] → 0 < l.length := fun l h => List.length_pos.2 h
  intro l
  induction l with
  | nil =>
    intro tot_len tot_p seg _ _
    unfold tso_join
    exact stop [] seg _ rfl (pos _)
  | cons cur t ih =>
    cases t with
    | nil =>
      intro tot_len tot_p seg _ _
      unfold tso_join
      exact stop [cur] seg _ rfl (pos _)
    | cons nxt r =>
      intro tot_len tot_p seg hlen hp
      unfold tso_join
      dsimp only
      split
      · rename_i hflags
        split
        · exact stop _ seg _ rfl (pos _)
        · rename_i htot
          split
          · exact stop _ seg _ rfl (pos _)
          · rename_i hsge
            split
            · exact stop _ seg _ rfl (pos _)
            · rename_i hzc
              have hlen1 : add32 tot_len cur.len = u32 (add32 seg.len cur.len) := by
                rw [hlen]
                unfold add32 u32
                omega
              have hp1 : tot_p + (pbuf_clen cur.p : Int) =
                  ((pbuf_cat seg.p (strip_header cur)).length : Int) := by
                rw [pbuf_cat_length, strip_header_length, hp]
                unfold pbuf_clen
                push_cast
                rfl
              obtain ⟨k, -, hk, h2, hid, hseq, hfl, hhdr, hall, hlim, hzero⟩ :=
                ih (add32 tot_len cur.len) (tot_p + pbuf_clen cur.p)
                  { seg with len := add32 seg.len cur.len, p := pbuf_cat seg.p (strip_header cur) }
                  hlen1 hp1
              refine ⟨k + 1, ?_, ?_, h2, hid, hseq, hfl, hhdr, ?_, ?_, ?_⟩
              · have := hk (by simp)
                simp only [List.length_cons] at this ⊢
                omega
              · intro _
                have := hk (by simp)
                simp only [List.length_cons] at this ⊢
                omega
              · intro c hc
                simp only [List.take_succ_cons, List.mem_cons] at hc
                rcases hc with hc | hc
                · rw [hc]
                  refine ⟨hflags.1, by simpa using hflags.2, ?_⟩
                  exact not_not.1 hzc
                · exact hall c hc
              · intro _
                rcases Nat.eq_zero_or_pos k with hk0 | hk0
                · rw [hzero hk0]
                  have hle : add32 seg.len cur.len ≤ mp := by
                    have e : add32 seg.len cur.len = add32 tot_len cur.len := by
                      rw [hlen]
                      unfold add32 u32
                      omega
                    rw [e]
                    exact Nat.le_of_not_lt htot
                  refine ⟨hle, ?_⟩
                  have h1 := s32_le pcb.max_send_sge
                  have h3 := Int.not_lt.1 hsge
                  show (pbuf_cat seg.p (strip_header cur)).length ≤ pcb.max_send_sge
                  omega
                · exact hlim hk0
              · intro h
                exact absurd h (Nat.succ_ne_zero k)
      · exact stop _ seg _ rfl (pos _)

/-- The segments that `tcp_tso_segment` never joins anything to: a
retransmission, a segment marked `TSO`, `DUMMY_MSG` or `NOMERGE`, and a
segment whose header has a flag besides `ACK`/`PSH`. -/
def tso_skips (pcb : tcp_pcb) (seg : tcp_seg) : Prop :=
  TCP_SEQ_LT seg.seqno pcb.snd_nxt = true ∨
  has seg.flags (TF_SEG_OPTS_TSO ||| TF_SEG_OPTS_DUMMY_MSG ||| TF_SEG_OPTS_NOMERGE) = true ∨
  other_than_ack_psh seg = true

theorem mark_tso_id (pcb : tcp_pcb) (seg : tcp_seg) :
    (mark_tso pcb seg).id = seg.id ∧ (mark_tso pcb seg).hdr = seg.hdr := by
  unfold mark_tso
  split <;> exact ⟨rfl, rfl⟩

theorem tcp_tso_segment_nil (pcb : tcp_pcb) (seg : tcp_seg) (wnd : Nat) :
    tcp_tso_segment pcb seg [] wnd = (mark_tso pcb seg, []) := by
  unfold tcp_tso_segment
  dsimp only
  split
  · rfl
  · rw [if_pos rfl]

/-- What `tcp_tso_segment` does to the queue after `seg`: it consumes the
first `k` segments, never the last one, and none for a segment that
`tso_skips` describes; the result is the joined segment `j` with the `TSO`
mark of the label `err`. -/
theorem tcp_tso_segment_shape (pcb : tcp_pcb) (seg : tcp_seg) (rest : List tcp_seg) (wnd : Nat) :
    ∃ k j, k ≤ rest.length ∧ (rest ≠ [] → k < rest.length) ∧ (tso_skips pcb seg → k = 0) ∧
      (tcp_tso_segment pcb seg rest wnd).2 = rest.drop k ∧
      (tcp_tso_segment pcb seg rest wnd).1 = mark_tso pcb j ∧
      j.id = seg.id ∧ j.seqno = seg.seqno ∧ j.flags = seg.flags ∧ j.hdr = seg.hdr ∧
      (∀ c ∈ rest.take k, c.flags = seg.flags ∧ other_than_ack_psh c = false ∧
        seg.flags &&& TF_SEG_OPTS_ZEROCOPY = c.flags &&& TF_SEG_OPTS_ZEROCOPY) ∧
      (0 < k →
        j.len ≤ min pcb.tso.max_payload_sz (sub32 wnd (sub32 seg.seqno pcb.lastack)) ∧
        j.p.length ≤ pcb.max_send_sge) ∧
      (k = 0 → j = seg) := by
  have stop : ∀ r : tcp_seg × List tcp_seg, r = (mark_tso pcb seg, rest) →
      ∃ k j, k ≤ rest.length ∧ (rest ≠ [] → k < rest.length) ∧ (tso_skips pcb seg → k = 0) ∧
        r.2 = rest.drop k ∧ r.1 = mark_tso pcb j ∧
        j.id = seg.id ∧ j.seqno = seg.seqno ∧ j.flags = seg.flags ∧ j.hdr = seg.hdr ∧
        (∀ c ∈ rest.take k, c.flags = seg.flags ∧ other_than_ack_psh c = false ∧
          seg.flags &&& TF_SEG_OPTS_ZEROCOPY = c.flags &&& TF_SEG_OPTS_ZEROCOPY) ∧
        (0 < k →
          j.len ≤ min pcb.tso.max_payload_sz (sub32 wnd (sub32 seg.seqno pcb.lastack)) ∧
          j.p.length ≤ pcb.max_send_sge) ∧
        (k = 0 → j = seg) := by
    intro r hr
    subst hr
    exact ⟨0, seg, Nat.zero_le _, fun h => List.length_pos.2 h, fun _ => rfl, rfl, rfl, rfl, rfl, rfl, rfl,
      by simp, fun h => absurd h (lt_irrefl 0), fun _ => rfl⟩
  unfold tcp_tso_segment
  dsimp only
  split
  · exact stop _ rfl
  · rename_i hskip
    split
    · exact stop _ rfl
    · split
      · exact stop _ rfl
      · split
        · exact stop _ rfl
        · obtain ⟨k, hkl, hk, h2, hid, hseq, hfl, hhdr, hall, hlim, hzero⟩ :=
            tso_join_spec pcb seg.flags
              (min pcb.tso.max_payload_sz (sub32 wnd (sub32 seg.seqno pcb.lastack))) rest
              (add32 0 seg.len) (pbuf_clen seg.p) seg
              (by unfold add32 u32; rw [Nat.zero_add]) rfl
          refine ⟨k, _, hkl, hk, ?_, h2, rfl, hid, hseq, hfl, hhdr, hall, hlim, ?_⟩
          · intro hs
            exfalso
            apply hskip
            rcases hs with h | h | h
            · exact Or.inl h
            · exact Or.inr (Or.inl h)
            · exact Or.inr (Or.inr h)
          · intro hk0
            rw [hzero hk0]

/-- Claim C24: `tcp_tso_segment` never consumes the last segment of the
queue.  When segments follow `seg`, the queue after the joined segment is not
empty and ends in the same record, unchanged; when `seg` is itself the last
segment it stays, with its record, length, sequence number and buffer chain.
So a tail pointer that designates the last segment of the queue
`pre ++ seg :: rest` before the call designates the last segment of the queue
after the call. -/
theorem tcp_tso_segment_keeps_last (pcb : tcp_pcb) (seg : tcp_seg) (rest : List tcp_seg)
    (wnd : Nat) (pre : List tcp_seg) (ptr : Option Nat) :
    (rest ≠ [] → (tcp_tso_segment pcb seg rest wnd).2 ≠ [] ∧
      (tcp_tso_segment pcb seg rest wnd).2.getLast? = rest.getLast?) ∧
    (rest = [] → (tcp_tso_segment pcb seg rest wnd).2 = [] ∧
      (tcp_tso_segment pcb seg rest wnd).1.id = seg.id ∧
      (tcp_tso_segment pcb seg rest wnd).1.len = seg.len ∧
      (tcp_tso_segment pcb seg rest wnd).1.seqno = seg.seqno ∧
      (tcp_tso_segment pcb seg rest wnd).1.p = seg.p) ∧
    (tail_ok (pre ++ seg :: rest) ptr →
      tail_ok (pre ++ (tcp_tso_segment pcb seg rest wnd).1 :: (tcp_tso_segment pcb seg rest wnd).2)
        ptr) := by
  obtain ⟨k, j, -, hk, -, h2, -⟩ := tcp_tso_segment_shape pcb seg rest wnd
  have hlast : rest ≠ [] → (tcp_tso_segment pcb seg rest wnd).2 ≠ [] ∧
      (tcp_tso_segment pcb seg rest wnd).2.getLast? = rest.getLast? := by
    intro hne
    have hlt := hk hne
    rw [h2]
    have hd : rest.drop k ≠ [] := by
      intro h
      have := congrArg List.length h
      simp only [List.length_drop, List.length_nil] at this
      omega
    refine ⟨hd, ?_⟩
    have hsplit := List.take_append_drop k rest
    conv_rhs => rw [← hsplit]
    rw [List.getLast?_append_of_ne_nil _ hd]
  have hnil : rest = [] → (tcp_tso_segment pcb seg rest wnd).2 = [] ∧
      (tcp_tso_segment pcb seg rest wnd).1 = mark_tso pcb seg := by
    intro he
    rw [he, tcp_tso_segment_nil]
    exact ⟨rfl, rfl⟩
  refine ⟨hlast, ?_, ?_⟩
  · intro he
    obtain ⟨h3, h4⟩ := hnil he
    refine ⟨h3, ?_, ?_, ?_, ?_⟩
    · rw [h4]
      exact (mark_tso_id pcb seg).1
    · rw [h4]
      exact (mark_tso_seqno_len pcb seg).2
    · rw [h4]
      exact (mark_tso_seqno_len pcb seg).1
    · rw [h4]
      exact mark_tso_p pcb seg
  · intro ht _
    have h0 := ht (by simp)
    rw [h0]
    by_cases hr : rest = []
    · obtain ⟨h3, h4⟩ := hnil hr
      rw [h3, h4, hr]
      simp only [List.getLast?_append_of_ne_nil _ (List.cons_ne_nil _ _), List.getLast?_singleton,
        Option.map_some']
      rw [(mark_tso_id pcb seg).1]
    · obtain ⟨h3, h4⟩ := hlast hr
      have e1 : pre ++ seg :: rest = (pre ++ [seg]) ++ rest := by simp
      have e2 : pre ++ (tcp_tso_segment pcb seg rest wnd).1 :: (tcp_tso_segment pcb seg rest wnd).2 =
          (pre ++ [(tcp_tso_segment pcb seg rest wnd).1]) ++ (tcp_tso_segment pcb seg rest wnd).2 := by
        simp
      rw [e1, e2, List.getLast?_append_of_ne_nil _ hr, List.getLast?_append_of_ne_nil _ h3, h4]

/-- Witness for C24: on the connection with unsent segments of 1000, 1000
and 500 bytes and TSO on, the call for the first segment joins the second
and leaves the third, the record 300, at the end of the queue; a call for the
third segment leaves it as it is. -/
theorem tcp_tso_segment_keeps_last_witness :
    [data_seg 200 20000 6000 1000, data_seg 300 30000 7000 500] ≠ [] ∧
    tail_ok ([] ++ data_seg 100 10000 5000 1000 ::
      [data_seg 200 20000 6000 1000, data_seg 300 30000 7000 500]) (some 300) ∧
    ((tcp_tso_segment pcb_three (data_seg 100 10000 5000 1000)
        [data_seg 200 20000 6000 1000, data_seg 300 30000 7000 500] 10000).2 ≠ [] ∧
      (tcp_tso_segment pcb_three (data_seg 100 10000 5000 1000)
        [data_seg 200 20000 6000 1000, data_seg 300 30000 7000 500] 10000).2.getLast? =
        [data_seg 200 20000 6000 1000, data_seg 300 30000 7000 500].getLast?) ∧
    tail_ok ([] ++ (tcp_tso_segment pcb_three (data_seg 100 10000 5000 1000)
        [data_seg 200 20000 6000 1000, data_seg 300 30000 7000 500] 10000).1 ::
      (tcp_tso_segment pcb_three (data_seg 100 10000 5000 1000)
        [data_seg 200 20000 6000 1000, data_seg 300 30000 7000 500] 10000).2) (some 300) ∧
    (tcp_tso_segment pcb_three (data_seg 100 10000 5000 1000)
        [data_seg 200 20000 6000 1000, data_seg 300 30000 7000 500] 10000).1.len = 2000 ∧
    (tcp_tso_segment pcb_three (data_seg 100 10000 5000 1000)
        [data_seg 200 20000 6000 1000, data_seg 300 30000 7000 500] 10000).2 =
      [data_seg 300 30000 7000 500] :=
  ⟨by decide, by decide,
   (tcp_tso_segment_keeps_last pcb_three (data_seg 100 10000 5000 1000)
      [data_seg 200 20000 6000 1000, data_seg 300 30000 7000 500] 10000 [] (some 300)).1
      (by decide),
   (tcp_tso_segment_keeps_last pcb_three (data_seg 100 10000 5000 1000)
      [data_seg 200 20000 6000 1000, data_seg 300 30000 7000 500] 10000 [] (some 300)).2.2
      (by decide),
   by decide, by decide⟩

/-- Claim C25: `tcp_tso_segment` respects the merge limits.  The call
consumes the first `k` segments after `seg`.  When `k > 0`, the length of
`seg` afterwards is at most
`min(tso.max_payload_sz, wnd - (seg.seqno - lastack))` (32-bit subtraction),
its chain has at most `max_send_sge` buffers, and every consumed segment had
the option flags of `seg` and no header flag besides `ACK`/`PSH`.  Nothing is
consumed when `seg` is a retransmission (`seqno` before `snd_nxt`), carries
`TSO`, `DUMMY_MSG` or `NOMERGE`, or has a header flag besides `ACK`/`PSH`. -/
theorem tcp_tso_segment_limits (pcb : tcp_pcb) (seg : tcp_seg) (rest : List tcp_seg) (wnd : Nat) :
    ∃ k, k ≤ rest.length ∧ (tcp_tso_segment pcb seg rest wnd).2 = rest.drop k ∧
      (0 < k →
        (tcp_tso_segment pcb seg rest wnd).1.len ≤
          min pcb.tso.max_payload_sz (sub32 wnd (sub32 seg.seqno pcb.lastack)) ∧
        (tcp_tso_segment pcb seg rest wnd).1.p.length ≤ pcb.max_send_sge ∧
        ∀ c ∈ rest.take k, c.flags = seg.flags ∧ other_than_ack_psh c = false) ∧
      (tso_skips pcb seg → k = 0 ∧ (tcp_tso_segment pcb seg rest wnd).2 = rest) := by
  obtain ⟨k, j, hkl, -, hskip, h2, h1, -, -, -, -, hall, hlim, -⟩ :=
    tcp_tso_segment_shape pcb seg rest wnd
  refine ⟨k, hkl, h2, ?_, ?_⟩
  · intro hk
    rw [h1, (mark_tso_seqno_len pcb j).2, mark_tso_p]
    exact ⟨(hlim hk).1, (hlim hk).2, fun c hc => ⟨(hall c hc).1, (hall c hc).2.1⟩⟩
  · intro hs
    refine ⟨hskip hs, ?_⟩
    rw [h2, hskip hs]
    rfl

/-- The connection `pcb_three` when its first unsent segment has been sent
before: `snd_nxt` is past it. -/
def pcb_three_rexmit : tcp_pcb := { pcb_three with snd_nxt := 6000 }

/-- Witness for C25: on the connection with unsent segments of 1000, 1000
and 500 bytes, a window of 10000 and `max_send_sge = 8`, the call joins the
second segment into the first (2000 bytes in 2 buffers); when the first
segment is a retransmission nothing is joined. -/
theorem tcp_tso_segment_limits_witness :
    (∃ k, k ≤ [data_seg 200 20000 6000 1000, data_seg 300 30000 7000 500].length ∧
      (tcp_tso_segment pcb_three (data_seg 100 10000 5000 1000)
        [data_seg 200 20000 6000 1000, data_seg 300 30000 7000 500] 10000).2 =
        [data_seg 200 20000 6000 1000, data_seg 300 30000 7000 500].drop k ∧
      (0 < k →
        (tcp_tso_segment pcb_three (data_seg 100 10000 5000 1000)
          [data_seg 200 20000 6000 1000, data_seg 300 30000 7000 500] 10000).1.len ≤
          min pcb_three.tso.max_payload_sz
            (sub32 10000 (sub32 (data_seg 100 10000 5000 1000).seqno pcb_three.lastack)) ∧
        (tcp_tso_segment pcb_three (data_seg 100 10000 5000 1000)
          [data_seg 200 20000 6000 1000, data_seg 300 30000 7000 500] 10000).1.p.length ≤
          pcb_three.max_send_sge ∧
        ∀ c ∈ [data_seg 200 20000 6000 1000, data_seg 300 30000 7000 500].take k,
          c.flags = (data_seg 100 10000 5000 1000).flags ∧ other_than_ack_psh c = false) ∧
      (tso_skips pcb_three (data_seg 100 10000 5000 1000) →
        k = 0 ∧
        (tcp_tso_segment pcb_three (data_seg 100 10000 5000 1000)
          [data_seg 200 20000 6000 1000, data_seg 300 30000 7000 500] 10000).2 =
          [data_seg 200 20000 6000 1000, data_seg 300 30000 7000 500])) ∧
    ((tcp_tso_segment pcb_three (data_seg 100 10000 5000 1000)
        [data_seg 200 20000 6000 1000, data_seg 300 30000 7000 500] 10000).1.len = 2000 ∧
      (tcp_tso_segment pcb_three (data_seg 100 10000 5000 1000)
        [data_seg 200 20000 6000 1000, data_seg 300 30000 7000 500] 10000).1.p.length = 2 ∧
      (tcp_tso_segment pcb_three (data_seg 100 10000 5000 1000)
        [data_seg 200 20000 6000 1000, data_seg 300 30000 7000 500] 10000).2.length = 1) ∧
    TCP_SEQ_LT (data_seg 100 10000 5000 1000).seqno pcb_three_rexmit.snd_nxt = true ∧
    (tcp_tso_segment pcb_three_rexmit (data_seg 100 10000 5000 1000)
        [data_seg 200 20000 6000 1000, data_seg 300 30000 7000 500] 10000).2 =
      [data_seg 200 20000 6000 1000, data_seg 300 30000 7000 500] :=
  ⟨tcp_tso_segment_limits pcb_three (data_seg 100 10000 5000 1000)
      [data_seg 200 20000 6000 1000, data_seg 300 30000 7000 500] 10000,
   by decide, by decide, by decide⟩


/-! ## Splitting a retransmitted segment into one segment per buffer -/

/-- The second buffer of the chain as `tcp_split_rexmit` hands it to
`tcp_create_segment`: room for the options is claimed in front of the
payload. -/
def rexmit_buf (optlen : Nat) (cur_p : pbuf) : pbuf :=
  { cur_p with len := u32 (cur_p.len + optlen), tot_len := u32 (cur_p.tot_len + optlen),
               payload := cur_p.payload - optlen }

/-- The sequence number of the segment made of what follows the first buffer
`b` of `cur_seg`. -/
def rexmit_seqno (optlen hlen : Nat) (cur_seg : tcp_seg) (b : pbuf) : Nat :=
  sub32 (sub32 (add32 cur_seg.seqno b.len) hlen) optlen

/-- The segment `cur_seg` cut down to its first buffer `b`. -/
def rexmit_left (optlen hlen : Nat) (cur_seg : tcp_seg) (b : pbuf) : tcp_seg :=
  { cur_seg with len := sub32 (sub32 b.len hlen) optlen, p := [{ b with tot_len := b.len }] }

/-- The update of `last_unsent` when the last unsent segment has been
split. -/
def rexmit_tail (pcb1 : tcp_pcb) (cur_seg new_seg : tcp_seg) : tcp_pcb :=
  if pcb1.last_unsent = some cur_seg.id then
    { pcb1 with last_unsent := some new_seg.id, unsent_oversize := 0 }
  else pcb1

/-- The two segments after one iteration of the loop of `tcp_split_rexmit`:
`cur_seg` cut down to its first buffer, and the new segment with the option
flags of `cur_seg`, after `FIN`/`RST` have moved to the latter. -/
def rexmit_moved (optlen hlen : Nat) (cur_seg : tcp_seg) (b : pbuf) (new_seg : tcp_seg) :
    tcp_seg × tcp_seg :=
  tcp_seg_move_flags (rexmit_left optlen hlen cur_seg b) { new_seg with flags := cur_seg.flags }
    (TCP_FIN ||| TCP_RST)

/-- Induction along the loop of `tcp_split_rexmit`: a property of its result
holds when it holds for a segment with at most one buffer, when the creation
of a segment fails, and when it carries over one iteration. -/
theorem split_rexmit_loop_induct (optflags optlen hlen : Nat)
    (P : tcp_pcb → World → tcp_seg → tcp_seg × List tcp_seg × tcp_pcb × World → Prop)
    (stop : ∀ pcb w cur_seg, cur_seg.p.length ≤ 1 → P pcb w cur_seg (cur_seg, [], pcb, w))
    (fail : ∀ pcb w cur_seg b cur_p r pcb1 w1, cur_seg.p = b :: cur_p :: r →
      tcp_create_segment pcb w (rexmit_buf optlen cur_p :: r) 0
        (rexmit_seqno optlen hlen cur_seg b) optflags = (none, pcb1, w1) →
      P pcb w cur_seg (cur_seg, [], pcb1, w1))
    (step : ∀ pcb w cur_seg b cur_p r new_seg pcb1 w1 res, cur_seg.p = b :: cur_p :: r →
      tcp_create_segment pcb w (rexmit_buf optlen cur_p :: r) 0
        (rexmit_seqno optlen hlen cur_seg b) optflags = (some new_seg, pcb1, w1) →
      P (rexmit_tail pcb1 cur_seg new_seg) w1 (rexmit_moved optlen hlen cur_seg b new_seg).2 res →
      P pcb w cur_seg
        ((rexmit_moved optlen hlen cur_seg b new_seg).1, res.1 :: res.2.1, res.2.2.1, res.2.2.2)) :
    ∀ (pcb : tcp_pcb) (w : World) (cur_seg : tcp_seg),
      P pcb w cur_seg (split_rexmit_loop pcb w optflags optlen hlen cur_seg) := by
  have main : ∀ (n : Nat) (pcb : tcp_pcb) (w : World) (cur_seg : tcp_seg), cur_seg.p.length ≤ n →
      P pcb w cur_seg (split_rexmit_loop pcb w optflags optlen hlen cur_seg) := by
    intro n
    induction n with
    | zero =>
      intro pcb w cur_seg hn
      rw [split_rexmit_loop]
      split
      · rename_i b cur_p r hp
        rw [hp] at hn
        simp at hn
      · exact stop pcb w cur_seg (by omega)
    | succ n ih =>
      intro pcb w cur_seg hn
      rw [split_rexmit_loop]
      split
      · rename_i b cur_p r hp
        dsimp only
        split
        · rename_i pcb1 w1 hc
          exact fail pcb w cur_seg b cur_p r pcb1 w1 hp hc
        · rename_i new_seg pcb1 w1 hc
          have hl := tcp_create_segment_clen _ _ _ _ _ _ _ _ _ (by simp) hc
          have hrec := ih (rexmit_tail pcb1 cur_seg new_seg) w1
            (rexmit_moved optlen hlen cur_seg b new_seg).2 (by
              unfold rexmit_moved
              rw [tcp_seg_move_flags_snd_p]
              rw [hp] at hn
              simp only [List.length_cons] at hl hn ⊢
              omega)
          exact step pcb w cur_seg b cur_p r new_seg pcb1 w1 _ hp hc hrec
      · rename_i hne
        refine stop pcb w cur_seg ?_
        rcases hp : cur_seg.p with _ | ⟨b, _ | ⟨c, r⟩⟩
        · simp
        · simp
        · exact absurd hp (hne b c r)
  intro pcb w cur_seg
  exact main _ pcb w cur_seg (le_refl _)

/-- The first buffer of a chain after `pbuf_header(p, TCP_HLEN)`. -/
def hdr_buf (b : pbuf) : pbuf :=
  { b with payload := b.payload - TCP_HLEN, len := u32 (b.len + TCP_HLEN),
           tot_len := u32 (b.tot_len + TCP_HLEN) }

/-- What a successful `tcp_create_segment` returns for the chain `b :: r`:
sequence number, option flags and header flags as given; for zero-copy the
chain as it is and its total length, otherwise the chain with the TCP header
claimed in its first buffer, which must be a `RAM` buffer, and the total
length less the options. -/
theorem tcp_create_segment_fields (pcb : tcp_pcb) (w : World) (b : pbuf) (r : List pbuf)
    (flags seqno optflags : Nat) (seg : tcp_seg) (pcb1 : tcp_pcb) (w1 : World)
    (h : tcp_create_segment pcb w (b :: r) flags seqno optflags = (some seg, pcb1, w1)) :
    seg.seqno = seqno ∧ seg.flags = optflags ∧ TCPH_FLAGS seg.hdr = flags ∧
    (take_seg pcb w).1.map (fun s => s.id) = some seg.id ∧
    (has optflags TF_SEG_OPTS_ZEROCOPY = true → seg.p = b :: r ∧ seg.len = b.tot_len) ∧
    (has optflags TF_SEG_OPTS_ZEROCOPY = false →
      b.type = pbuf_type.PBUF_RAM ∧ seg.p = hdr_buf b :: r ∧
      seg.len = sub32 b.tot_len (u8 (LWIP_TCP_OPT_LENGTH optflags))) := by
  unfold tcp_create_segment at h
  cases hts : take_seg pcb w with
  | mk o rest =>
    cases o with
    | none => simp [hts] at h
    | some s0 =>
      simp only [hts] at h
      by_cases hz : has optflags TF_SEG_OPTS_ZEROCOPY = true
      · simp [hz, set_tcphdr] at h
        obtain ⟨rfl, -⟩ := h
        simp [hz, chain_tot_len, TCPH_FLAGS]
      · by_cases ht : b.type = pbuf_type.PBUF_RAM
        · simp [hz, ht, pbuf_header, set_tcphdr] at h
          obtain ⟨rfl, -⟩ := h
          simp [hz, ht, chain_tot_len, TCPH_FLAGS, hdr_buf]
        · simp [hz, ht, pbuf_header] at h

theorem tcp_create_segment_queuelen (pcb : tcp_pcb) (w : World) (p : List pbuf)
    (flags seqno optflags : Nat) (o : Option tcp_seg) (pcb1 : tcp_pcb) (w1 : World)
    (h : tcp_create_segment pcb w p flags seqno optflags = (o, pcb1, w1)) :
    pcb1.snd_queuelen = pcb.snd_queuelen ∧ pcb1.last_unsent = pcb.last_unsent := by
  have hf := tcp_create_segment_frame pcb w p flags seqno optflags
  rw [h] at hf
  have h1 := congrArg tcp_pcb.snd_queuelen hf
  have h2 := congrArg tcp_pcb.last_unsent hf
  exact ⟨h1, h2⟩

/-- Moving header flags changes the headers only. -/
theorem tcp_seg_move_flags_fields (a b : tcp_seg) (f : Nat) :
    ((tcp_seg_move_flags a b f).1.id = a.id ∧ (tcp_seg_move_flags a b f).1.seqno = a.seqno ∧
      (tcp_seg_move_flags a b f).1.len = a.len ∧ (tcp_seg_move_flags a b f).1.flags = a.flags ∧
      (tcp_seg_move_flags a b f).1.p = a.p) ∧
    ((tcp_seg_move_flags a b f).2.id = b.id ∧ (tcp_seg_move_flags a b f).2.seqno = b.seqno ∧
      (tcp_seg_move_flags a b f).2.len = b.len ∧ (tcp_seg_move_flags a b f).2.flags = b.flags ∧
      (tcp_seg_move_flags a b f).2.p = b.p) := by
  unfold tcp_seg_move_flags
  dsimp only
  split <;> exact ⟨⟨rfl, rfl, rfl, rfl, rfl⟩, rfl, rfl, rfl, rfl, rfl⟩

/-- Contiguity of a queue: every segment ends where its successor starts
(32-bit addition). -/
def contiguous (q : List tcp_seg) : Prop :=
  List.Chain' (fun a b : tcp_seg => add32 a.seqno a.len = b.seqno) q

/-- The result of the loop of `tcp_split_rexmit`: the first segment keeps its
record, sequence number and option flags; the new segments have the same
option flags; the pieces are contiguous; there are at most as many pieces as
buffers; `snd_queuelen` is unchanged. -/
theorem split_rexmit_loop_basic (optflags optlen hlen : Nat) (pcb : tcp_pcb) (w : World)
    (cur_seg : tcp_seg) :
    (split_rexmit_loop pcb w optflags optlen hlen cur_seg).1.id = cur_seg.id ∧
    (split_rexmit_loop pcb w optflags optlen hlen cur_seg).1.seqno = cur_seg.seqno ∧
    (split_rexmit_loop pcb w optflags optlen hlen cur_seg).1.flags = cur_seg.flags ∧
    (∀ s ∈ (split_rexmit_loop pcb w optflags optlen hlen cur_seg).2.1, s.flags = cur_seg.flags) ∧
    contiguous ((split_rexmit_loop pcb w optflags optlen hlen cur_seg).1 ::
      (split_rexmit_loop pcb w optflags optlen hlen cur_seg).2.1) ∧
    (split_rexmit_loop pcb w optflags optlen hlen cur_seg).2.1.length + 1 ≤
      max 1 cur_seg.p.length ∧
    (split_rexmit_loop pcb w optflags optlen hlen cur_seg).2.2.1.snd_queuelen =
      pcb.snd_queuelen := by
  refine split_rexmit_loop_induct optflags optlen hlen
    (fun pcb _ cur_seg res => res.1.id = cur_seg.id ∧ res.1.seqno = cur_seg.seqno ∧
      res.1.flags = cur_seg.flags ∧ (∀ s ∈ res.2.1, s.flags = cur_seg.flags) ∧
      contiguous (res.1 :: res.2.1) ∧ res.2.1.length + 1 ≤ max 1 cur_seg.p.length ∧
      res.2.2.1.snd_queuelen = pcb.snd_queuelen) ?_ ?_ ?_ pcb w cur_seg
  · intro pcb w cur_seg _
    exact ⟨rfl, rfl, rfl, by simp, List.chain'_singleton _, by simp, rfl⟩
  · intro pcb w cur_seg b cur_p r pcb1 w1 _ hc
    exact ⟨rfl, rfl, rfl, by simp, List.chain'_singleton _, by simp,
      (tcp_create_segment_queuelen _ _ _ _ _ _ _ _ _ hc).1⟩
  · intro pcb w cur_seg b cur_p r new_seg pcb1 w1 res hp hc ih
    obtain ⟨hid, hseq, hfl, hall, hcont, hcnt, hq⟩ := ih
    obtain ⟨hnseq, -⟩ := tcp_create_segment_fields _ _ _ _ _ _ _ _ _ _ hc
    obtain ⟨⟨m1, m2, m3, m4, -⟩, n1, n2, -, n4, n5⟩ :=
      tcp_seg_move_flags_fields (rexmit_left optlen hlen cur_seg b)
        { new_seg with flags := cur_seg.flags } (TCP_FIN ||| TCP_RST)
    have hmoved2 : (rexmit_moved optlen hlen cur_seg b new_seg).2.flags = cur_seg.flags := n4
    have hclen := tcp_create_segment_clen _ _ _ _ _ _ _ _ _ (by simp) hc
    refine ⟨m1, m2, m4, ?_, ?_, ?_, ?_⟩
    · intro s hs
      rcases List.mem_cons.1 hs with h | h
      · rw [h, hfl]
        exact hmoved2
      · rw [hall s h]
        exact hmoved2
    · refine List.chain'_cons.2 ⟨?_, hcont⟩
      rw [hseq]
      show add32 (rexmit_moved optlen hlen cur_seg b new_seg).1.seqno
          (rexmit_moved optlen hlen cur_seg b new_seg).1.len =
        (rexmit_moved optlen hlen cur_seg b new_seg).2.seqno
      unfold rexmit_moved
      rw [m2, m3, n2]
      show add32 cur_seg.seqno (sub32 (sub32 b.len hlen) optlen) = new_seg.seqno
      rw [hnseq]
      unfold rexmit_seqno add32 sub32
      omega
    · have e : (rexmit_moved optlen hlen cur_seg b new_seg).2.p = new_seg.p := n5
      rw [e, hclen] at hcnt
      rw [hp]
      simp only [List.length_cons] at hcnt ⊢
      omega
    · rw [hq]
      unfold rexmit_tail
      split
      · exact (tcp_create_segment_queuelen _ _ _ _ _ _ _ _ _ hc).1
      · exact (tcp_create_segment_queuelen _ _ _ _ _ _ _ _ _ hc).1


/-- What identifies a buffer and its data: payload address, length, type and
reference count. -/
def buf_core (b : pbuf) : Int × Nat × pbuf_type × Nat := (b.payload, b.len, b.type, b.ref)

/-- A payload buffer of the chain turned into the first buffer of a segment
of its own: room for the options and for the TCP header is claimed in front
of the payload. -/
def rexmit_piece (optlen hlen : Nat) (b : pbuf) : pbuf :=
  { b with payload := b.payload - optlen - hlen, len := u32 (u32 (b.len + optlen) + hlen),
           tot_len := u32 (u32 (b.tot_len + optlen) + hlen) }

/-- The option length and header length that go with the option flags of a
split: none for zero-copy, the length of the options and `TCP_HLEN`
otherwise. -/
def split_opts_ok (optflags optlen hlen : Nat) : Prop :=
  (has optflags TF_SEG_OPTS_ZEROCOPY = true ∧ hlen = 0 ∧ optlen = 0) ∨
  (has optflags TF_SEG_OPTS_ZEROCOPY = false ∧ hlen = TCP_HLEN ∧
    optlen = u8 (LWIP_TCP_OPT_LENGTH optflags))

theorem split_opts_spec (pcb : tcp_pcb) (seg : tcp_seg) :
    split_opts_ok (split_opts pcb seg).1 (split_opts pcb seg).2.1 (split_opts pcb seg).2.2 := by
  unfold split_opts
  dsimp only
  split
  · exact Or.inl ⟨has_lor_self _ _ (by decide), rfl, rfl⟩
  · right
    split
    · exact ⟨by decide, rfl, rfl⟩
    · exact ⟨by decide, rfl, rfl⟩

/-- The chain that `tcp_create_segment` gives the segment made from the
buffer `cur_p` and its successors `r`. -/
theorem rexmit_created_chain (optflags optlen hlen : Nat) (hz : split_opts_ok optflags optlen hlen)
    (pcb : tcp_pcb) (w : World) (cur_p : pbuf) (r : List pbuf) (seqno : Nat) (new_seg : tcp_seg)
    (pcb1 : tcp_pcb) (w1 : World)
    (hc : tcp_create_segment pcb w (rexmit_buf optlen cur_p :: r) 0 seqno optflags =
      (some new_seg, pcb1, w1)) :
    new_seg.p = rexmit_piece optlen hlen cur_p :: r := by
  obtain ⟨-, -, -, -, hzc, hram⟩ := tcp_create_segment_fields _ _ _ _ _ _ _ _ _ _ hc
  rcases hz with ⟨h1, h2, -⟩ | ⟨h1, h2, -⟩
  · rw [(hzc h1).1, h2]
    unfold rexmit_piece rexmit_buf u32
    simp
  · rw [(hram h1).2.1, h2]
    unfold rexmit_piece rexmit_buf hdr_buf
    simp only [pbuf.mk.injEq, List.cons.injEq, and_true, true_and]

/-- The chains of the pieces that the loop of `tcp_split_rexmit` makes of
`cur_seg`: the first piece starts with the first buffer of `cur_seg`, each
new piece starts with the next buffer of the chain, turned into a first
buffer; every piece but the last has one buffer only, whose `tot_len` is its
`len`; the last piece has the buffers that are left, untouched. -/
theorem split_rexmit_loop_chains (optflags optlen hlen : Nat) (hz : split_opts_ok optflags optlen hlen)
    (pcb : tcp_pcb) (w : World) (cur_seg : tcp_seg) :
    (split_rexmit_loop pcb w optflags optlen hlen cur_seg).1.p.head?.map buf_core =
      cur_seg.p.head?.map buf_core ∧
    List.Forall₂ (fun (s : tcp_seg) (b : pbuf) =>
        s.p.head?.map buf_core = some (buf_core (rexmit_piece optlen hlen b)))
      (split_rexmit_loop pcb w optflags optlen hlen cur_seg).2.1
      (cur_seg.p.tail.take (split_rexmit_loop pcb w optflags optlen hlen cur_seg).2.1.length) ∧
    (∀ s ∈ ((split_rexmit_loop pcb w optflags optlen hlen cur_seg).1 ::
        (split_rexmit_loop pcb w optflags optlen hlen cur_seg).2.1).dropLast,
      ∃ b, s.p = [b] ∧ b.tot_len = b.len) ∧
    (((split_rexmit_loop pcb w optflags optlen hlen cur_seg).1 ::
        (split_rexmit_loop pcb w optflags optlen hlen cur_seg).2.1).getLast?.map
          (fun s => s.p.tail)) =
      some (cur_seg.p.drop ((split_rexmit_loop pcb w optflags optlen hlen cur_seg).2.1.length + 1)) := by
  refine split_rexmit_loop_induct optflags optlen hlen
    (fun _ _ cur_seg res =>
      res.1.p.head?.map buf_core = cur_seg.p.head?.map buf_core ∧
      List.Forall₂ (fun (s : tcp_seg) (b : pbuf) =>
          s.p.head?.map buf_core = some (buf_core (rexmit_piece optlen hlen b)))
        res.2.1 (cur_seg.p.tail.take res.2.1.length) ∧
      (∀ s ∈ (res.1 :: res.2.1).dropLast, ∃ b, s.p = [b] ∧ b.tot_len = b.len) ∧
      ((res.1 :: res.2.1).getLast?.map (fun s => s.p.tail)) =
        some (cur_seg.p.drop (res.2.1.length + 1))) ?_ ?_ ?_ pcb w cur_seg
  · intro pcb w cur_seg _
    refine ⟨rfl, by simp, by simp, ?_⟩
    simp
  · intro pcb w cur_seg b cur_p r pcb1 w1 _ _
    refine ⟨rfl, by simp, by simp, ?_⟩
    simp
  · intro pcb w cur_seg b cur_p r new_seg pcb1 w1 res hp hc ih
    obtain ⟨hhead, hall, hsingle, hlast⟩ := ih
    have hchain := rexmit_created_chain optflags optlen hlen hz _ _ _ _ _ _ _ _ hc
    obtain ⟨⟨-, -, -, -, m5⟩, -, -, -, -, n5⟩ :=
      tcp_seg_move_flags_fields (rexmit_left optlen hlen cur_seg b)
        { new_seg with flags := cur_seg.flags } (TCP_FIN ||| TCP_RST)
    have e1 : (rexmit_moved optlen hlen cur_seg b new_seg).1.p = [{ b with tot_len := b.len }] := m5
    have e2 : (rexmit_moved optlen hlen cur_seg b new_seg).2.p =
        rexmit_piece optlen hlen cur_p :: r := n5.trans hchain
    rw [e2] at hhead hall hlast
    refine ⟨?_, ?_, ?_, ?_⟩
    · show (rexmit_moved optlen hlen cur_seg b new_seg).1.p.head?.map buf_core = _
      rw [e1, hp]
      rfl
    · rw [hp]
      show List.Forall₂ _ (res.1 :: res.2.1) ((cur_p :: r).take (res.2.1.length + 1))
      rw [List.take_succ_cons]
      exact List.Forall₂.cons hhead hall
    · intro s hs
      have hd : ((rexmit_moved optlen hlen cur_seg b new_seg).1 :: res.1 :: res.2.1).dropLast =
          (rexmit_moved optlen hlen cur_seg b new_seg).1 :: (res.1 :: res.2.1).dropLast := rfl
      rw [hd] at hs
      rcases List.mem_cons.1 hs with h | h
      · rw [h, e1]
        exact ⟨_, rfl, rfl⟩
      · exact hsingle s h
    · rw [List.getLast?_cons_cons, hlast, hp]
      rfl


/-- A well-formed chain: `tot_len` of every buffer is its `len` plus the
`tot_len` of its successor. -/
def chain_wf : List pbuf → Prop
  | [] => True
  | b :: r => b.tot_len = b.len + chain_tot_len r ∧ chain_wf r

/-- A segment whose length matches its chain: the first buffer holds the TCP
header and the options (`hlen + optlen` bytes, none for zero-copy), the chain
is well formed with a 32-bit total, and the payload of the chain is
`seg.len`. -/
def seg_wf (optlen hlen : Nat) (seg : tcp_seg) : Prop :=
  match seg.p with
  | [] => True
  | b :: r => seg.len + hlen + optlen = b.tot_len ∧ hlen + optlen ≤ b.len ∧
      b.tot_len < 4294967296 ∧ chain_wf (b :: r)

/-- The lengths of the pieces that the loop of `tcp_split_rexmit` makes of a
segment whose length matches its chain add up to the length of the segment,
and the last piece again matches its chain. -/
theorem split_rexmit_loop_bytes (optflags optlen hlen : Nat)
    (hz : split_opts_ok optflags optlen hlen) (pcb : tcp_pcb) (w : World) (cur_seg : tcp_seg)
    (hwf : seg_wf optlen hlen cur_seg) :
    queue_bytes ((split_rexmit_loop pcb w optflags optlen hlen cur_seg).1 ::
      (split_rexmit_loop pcb w optflags optlen hlen cur_seg).2.1) = cur_seg.len := by
  refine split_rexmit_loop_induct optflags optlen hlen
    (fun _ _ cur_seg res => seg_wf optlen hlen cur_seg →
      queue_bytes (res.1 :: res.2.1) = cur_seg.len) ?_ ?_ ?_ pcb w cur_seg hwf
  · intro pcb w cur_seg _ _
    simp [queue_bytes]
  · intro pcb w cur_seg b cur_p r pcb1 w1 _ _ _
    simp [queue_bytes]
  · intro pcb w cur_seg b cur_p r new_seg pcb1 w1 res hp hc ih hwf
    unfold seg_wf at hwf
    rw [hp] at hwf
    obtain ⟨hsl, hhdr, htot, hb, hcp, hr⟩ := hwf
    have hctl : chain_tot_len (cur_p :: r) = cur_p.tot_len := rfl
    rw [hctl] at hb
    obtain ⟨-, -, -, -, hzc, hram⟩ := tcp_create_segment_fields _ _ _ _ _ _ _ _ _ _ hc
    have hchain := rexmit_created_chain optflags optlen hlen hz _ _ _ _ _ _ _ _ hc
    obtain ⟨⟨-, -, m3, -, -⟩, -, -, n3, -, n5⟩ :=
      tcp_seg_move_flags_fields (rexmit_left optlen hlen cur_seg b)
        { new_seg with flags := cur_seg.flags } (TCP_FIN ||| TCP_RST)
    have e1 : (rexmit_moved optlen hlen cur_seg b new_seg).1.len =
        sub32 (sub32 b.len hlen) optlen := m3
    have e2 : (rexmit_moved optlen hlen cur_seg b new_seg).2.len = new_seg.len := n3
    have e3 : (rexmit_moved optlen hlen cur_seg b new_seg).2.p =
        rexmit_piece optlen hlen cur_p :: r := n5.trans hchain
    have hnew : new_seg.len = cur_p.tot_len := by
      rcases hz with ⟨h1, h2, h3⟩ | ⟨h1, h2, h3⟩
      · rw [(hzc h1).2, h3]
        unfold rexmit_buf u32
        dsimp only
        omega
      · rw [(hram h1).2.2, ← h3]
        unfold rexmit_buf u32 sub32
        dsimp only
        omega
    have hwf2 : seg_wf optlen hlen (rexmit_moved optlen hlen cur_seg b new_seg).2 := by
      unfold seg_wf
      rw [e3, e2, hnew]
      dsimp only
      unfold rexmit_piece u32
      dsimp only
      refine ⟨by omega, by omega, by omega, ?_, hr⟩
      show ((cur_p.tot_len + optlen) % 4294967296 + hlen) % 4294967296 =
        ((cur_p.len + optlen) % 4294967296 + hlen) % 4294967296 + chain_tot_len r
      omega
    have h := ih hwf2
    rw [e2, hnew] at h
    unfold queue_bytes at h ⊢
    simp only [List.map_cons, List.sum_cons] at h ⊢
    rw [h, e1]
    unfold sub32
    omega


/-! ## `FIN` and `RST` stay on the last piece of a split -/

/-- The `FIN` and `RST` bits of the header of a segment. -/
def fin_rst (s : tcp_seg) : Nat := TCPH_FLAGS s.hdr &&& (TCP_FIN ||| TCP_RST)

theorem land_clear (x m : Nat) (hm : m < 256) : (x &&& (255 ^^^ m)) &&& m = 0 := by
  apply Nat.eq_of_testBit_eq
  intro i
  simp only [Nat.testBit_and, Nat.testBit_xor, Nat.zero_testBit]
  by_cases hi : m.testBit i = true
  · have h255 : (255 : Nat).testBit i = true := by
      have hlt : i < 8 := by
        by_contra hge
        have h2 : 2 ^ 8 ≤ 2 ^ i := Nat.pow_le_pow_right (by decide) (by omega)
        have : m.testBit i = false := Nat.testBit_lt_two_pow (by omega)
        rw [this] at hi
        cases hi
      interval_cases i <;> rfl
    rw [hi, h255]
    simp
  · simp only [Bool.not_eq_true] at hi
    rw [hi]
    simp

theorem lor_land_self (y x m : Nat) : (y ||| (x &&& m)) &&& m = (y &&& m) ||| (x &&& m) := by
  apply Nat.eq_of_testBit_eq
  intro i
  simp only [Nat.testBit_and, Nat.testBit_or]
  cases y.testBit i <;> cases x.testBit i <;> cases m.testBit i <;> rfl

/-- After `tcp_seg_move_flags` between two records, onto a segment without
`FIN`/`RST`, the source has neither bit and the destination has those that
the source had. -/
theorem tcp_seg_move_flags_fin_rst (a b : tcp_seg) (hid : a.id ≠ b.id) (hb : fin_rst b = 0) :
    fin_rst (tcp_seg_move_flags a b (TCP_FIN ||| TCP_RST)).1 = 0 ∧
    fin_rst (tcp_seg_move_flags a b (TCP_FIN ||| TCP_RST)).2 = fin_rst a := by
  unfold tcp_seg_move_flags
  dsimp only
  split
  · constructor
    · unfold fin_rst TCPH_FLAGS TCPH_UNSET_FLAG clr8
      exact land_clear _ _ (by decide)
    · unfold fin_rst TCPH_FLAGS TCPH_SET_FLAG
      dsimp only
      rw [lor_land_self]
      unfold fin_rst TCPH_FLAGS at hb
      rw [hb, Nat.zero_or]
  · rename_i h
    have h0 : fin_rst a = 0 := by
      by_contra hne
      exact h ⟨hid, hne⟩
    exact ⟨h0, hb.trans h0.symm⟩


/-! ## The two branches of `tcp_split_segment` -/

/-- The number of bytes that fit the window: `lentosend`. -/
def split_lentosend (pcb : tcp_pcb) (seg : tcp_seg) (wnd : Nat) : Nat :=
  sub32 wnd (sub32 seg.seqno pcb.lastack)

/-- The bytes of the first buffer in front of the payload:
`tcp_hlen_delta + optlen`. -/
def split_hopt (pcb : tcp_pcb) (seg : tcp_seg) : Nat :=
  (split_opts pcb seg).2.2 + (split_opts pcb seg).2.1

/-- The left segment of the head-buffer branch: the first buffer `head`
alone, cut to the header and `lentosend` bytes. -/
def split_head_left (pcb : tcp_pcb) (seg : tcp_seg) (wnd : Nat) (head : pbuf) : tcp_seg :=
  { seg with
    p := [{ head with
            len := sub32 head.len
              (sub32 (sub32 head.len (split_hopt pcb seg)) (split_lentosend pcb seg wnd)),
            tot_len := sub32 head.len
              (sub32 (sub32 head.len (split_hopt pcb seg)) (split_lentosend pcb seg wnd)) }],
    len := sub32 (sub32 head.len
        (sub32 (sub32 head.len (split_hopt pcb seg)) (split_lentosend pcb seg wnd)))
      (split_hopt pcb seg) }

/-- The right segment of the head-buffer branch before `FIN`/`RST` move: the
option flags of `seg`, and `PSH` when the push policy is on. -/
def split_head_right (cfg : Config) (seg newseg : tcp_seg) : tcp_seg :=
  if cfg.enable_push_flag then
    { newseg with flags := seg.flags, hdr := TCPH_SET_FLAG newseg.hdr TCP_PSH }
  else { newseg with flags := seg.flags }

/-- The left segment of the buffer-chain branch: the buffers `left`, with
`headchainlen` bytes. -/
def split_chain_left (pcb : tcp_pcb) (seg : tcp_seg) (left : List pbuf) (headchainlen : Nat) :
    tcp_seg :=
  { seg with len := sub32 headchainlen (split_hopt pcb seg), p := retotal headchainlen left }

/-- The ways `tcp_split_segment` can go: nothing is split; the first buffer
is too big and is split (head-buffer branch); the chain is cut behind the
buffers that fit (buffer-chain branch). -/
theorem tcp_split_segment_cases (cfg : Config) (pcb : tcp_pcb) (w : World) (seg : tcp_seg)
    (wnd : Nat) :
    ((tcp_split_segment cfg pcb w seg wnd).1 = seg ∧ (tcp_split_segment cfg pcb w seg wnd).2.1 = []) ∨
    (∃ (head : pbuf) (chain : List pbuf) (b : pbuf) (oversize : Nat) (pcb1 : tcp_pcb) (w1 : World)
        (newseg : tcp_seg) (pcb2 : tcp_pcb) (w2 : World),
      seg.p = head :: chain ∧
      head.len > add32 (split_hopt pcb seg) (split_lentosend pcb seg wnd) ∧
      tcp_create_segment pcb1 w1
        ({ b with payload := if has seg.flags TF_SEG_OPTS_ZEROCOPY then
                      head.payload + split_lentosend pcb seg wnd else b.payload,
                  tot_len := sub32 (sub32 head.tot_len (split_lentosend pcb seg wnd))
                    (split_opts pcb seg).2.2 } :: chain) 0
        (add32 seg.seqno (split_lentosend pcb seg wnd)) (split_opts pcb seg).1 =
          (some newseg, pcb2, w2) ∧
      (tcp_split_segment cfg pcb w seg wnd).1 =
        (tcp_seg_move_flags (split_head_left pcb seg wnd head) (split_head_right cfg seg newseg)
          (TCP_FIN ||| TCP_RST)).1 ∧
      (tcp_split_segment cfg pcb w seg wnd).2.1 =
        [(tcp_seg_move_flags (split_head_left pcb seg wnd head) (split_head_right cfg seg newseg)
          (TCP_FIN ||| TCP_RST)).2]) ∨
    (∃ (head : pbuf) (chain left right : List pbuf) (headchainlen : Nat) (newseg : tcp_seg)
        (pcb1 : tcp_pcb) (w1 : World),
      seg.p = head :: chain ∧
      ¬ head.len > add32 (split_hopt pcb seg) (split_lentosend pcb seg wnd) ∧
      chain_walk (split_hopt pcb seg) (split_lentosend pcb seg wnd) head.len [] head chain =
        some (left, right, headchainlen) ∧
      tcp_create_segment pcb w right 0
        (sub32 (add32 seg.seqno headchainlen) (split_hopt pcb seg)) (split_opts pcb seg).1 =
          (some newseg, pcb1, w1) ∧
      (tcp_split_segment cfg pcb w seg wnd).1 =
        (tcp_seg_move_flags (split_chain_left pcb seg left headchainlen)
          { newseg with flags := seg.flags } (TCP_FIN ||| TCP_RST)).1 ∧
      (tcp_split_segment cfg pcb w seg wnd).2.1 =
        [(tcp_seg_move_flags (split_chain_left pcb seg left headchainlen)
          { newseg with flags := seg.flags } (TCP_FIN ||| TCP_RST)).2]) := by
  unfold tcp_split_segment
  split
  · exact Or.inl ⟨rfl, rfl⟩
  · rename_i head chain hp
    split
    · exact Or.inl ⟨rfl, rfl⟩
    · dsimp only
      split
      · rename_i hbig
        split
        · exact Or.inl ⟨rfl, rfl⟩
        · rename_i b oversize pcb1 w1 h1
          split
          · exact Or.inl ⟨rfl, rfl⟩
          · rename_i newseg pcb2 w2 h2
            right
            left
            refine ⟨head, chain, b, oversize, pcb1, w1, newseg, pcb2, w2, hp, hbig, h2, ?_, ?_⟩
            · unfold split_head_right
              split <;> rfl
            · unfold split_head_right
              split <;> rfl
      · rename_i hbig
        split
        · split
          · exact Or.inl ⟨rfl, rfl⟩
          · rename_i left right headchainlen hw
            split
            · exact Or.inl ⟨rfl, rfl⟩
            · rename_i newseg pcb1 w1 h2
              right
              right
              exact ⟨head, chain, left, right, headchainlen, newseg, pcb1, w1, hp, hbig, hw, h2,
                rfl, rfl⟩
        · exact Or.inl ⟨rfl, rfl⟩


theorem tcp_seg_move_flags_last (a b : tcp_seg) (hid : a.id ≠ b.id ∨ fin_rst a = 0)
    (hb : fin_rst b = 0) :
    fin_rst (tcp_seg_move_flags a b (TCP_FIN ||| TCP_RST)).1 = 0 ∧
    fin_rst (tcp_seg_move_flags a b (TCP_FIN ||| TCP_RST)).2 = fin_rst a := by
  rcases hid with h | h
  · exact tcp_seg_move_flags_fin_rst a b h hb
  · unfold tcp_seg_move_flags
    dsimp only
    rw [if_neg]
    · exact ⟨h, hb.trans h.symm⟩
    · rintro ⟨-, h2⟩
      exact h2 h

theorem distinct_ids_cons (s : tcp_seg) (q : List tcp_seg) (h : distinct_ids (s :: q)) :
    (∀ x ∈ q, s.id ≠ x.id) ∧ distinct_ids q := by
  unfold distinct_ids at h ⊢
  rw [List.map_cons, List.nodup_cons] at h
  refine ⟨fun x hx he => h.1 ?_, h.2⟩
  rw [he]
  exact List.mem_map_of_mem _ hx

/-- Along the loop of `tcp_split_rexmit` the `FIN`/`RST` bits of the segment
end up on the last piece and on no other, when the records of the pieces are
distinct or when the segment has neither bit. -/
theorem split_rexmit_loop_fin_rst (optflags optlen hlen : Nat) (pcb : tcp_pcb) (w : World)
    (cur_seg : tcp_seg)
    (hd : distinct_ids ((split_rexmit_loop pcb w optflags optlen hlen cur_seg).1 ::
        (split_rexmit_loop pcb w optflags optlen hlen cur_seg).2.1) ∨ fin_rst cur_seg = 0) :
    (∀ s ∈ ((split_rexmit_loop pcb w optflags optlen hlen cur_seg).1 ::
        (split_rexmit_loop pcb w optflags optlen hlen cur_seg).2.1).dropLast, fin_rst s = 0) ∧
    ((split_rexmit_loop pcb w optflags optlen hlen cur_seg).1 ::
        (split_rexmit_loop pcb w optflags optlen hlen cur_seg).2.1).getLast?.map fin_rst =
      some (fin_rst cur_seg) := by
  refine (split_rexmit_loop_induct optflags optlen hlen
    (fun _ _ cur_seg res => res.1.id = cur_seg.id ∧
      ((distinct_ids (res.1 :: res.2.1) ∨ fin_rst cur_seg = 0) →
        (∀ s ∈ (res.1 :: res.2.1).dropLast, fin_rst s = 0) ∧
        (res.1 :: res.2.1).getLast?.map fin_rst = some (fin_rst cur_seg))) ?_ ?_ ?_
    pcb w cur_seg).2 hd
  · intro pcb w cur_seg _
    exact ⟨rfl, fun _ => ⟨by simp, rfl⟩⟩
  · intro pcb w cur_seg b cur_p r pcb1 w1 _ _
    exact ⟨rfl, fun _ => ⟨by simp, rfl⟩⟩
  · intro pcb w cur_seg b cur_p r new_seg pcb1 w1 res hp hc ih
    obtain ⟨hid, ih2⟩ := ih
    obtain ⟨-, -, hfl0, -⟩ := tcp_create_segment_fields _ _ _ _ _ _ _ _ _ _ hc
    obtain ⟨⟨m1, -⟩, n1, -⟩ :=
      tcp_seg_move_flags_fields (rexmit_left optlen hlen cur_seg b)
        { new_seg with flags := cur_seg.flags } (TCP_FIN ||| TCP_RST)
    have e1 : (rexmit_moved optlen hlen cur_seg b new_seg).1.id = cur_seg.id := m1
    have e2 : (rexmit_moved optlen hlen cur_seg b new_seg).2.id = new_seg.id := n1
    refine ⟨e1, fun hyp => ?_⟩
    have hb : fin_rst ({ new_seg with flags := cur_seg.flags } : tcp_seg) = 0 := by
      show TCPH_FLAGS new_seg.hdr &&& (TCP_FIN ||| TCP_RST) = 0
      rw [hfl0]
      exact Nat.zero_and _
    have hmv := tcp_seg_move_flags_last (rexmit_left optlen hlen cur_seg b)
      { new_seg with flags := cur_seg.flags } (by
        rcases hyp with h | h
        · left
          have := (distinct_ids_cons _ _ h).1 res.1 (List.mem_cons_self _ _)
          rw [e1, hid, e2] at this
          exact this
        · right
          exact h) hb
    have ha : fin_rst (rexmit_left optlen hlen cur_seg b) = fin_rst cur_seg := rfl
    rw [ha] at hmv
    obtain ⟨h1, h2⟩ := ih2 (by
      rcases hyp with h | h
      · exact Or.inl (distinct_ids_cons _ _ h).2
      · right
        exact hmv.2.trans h)
    constructor
    · intro s hs
      have hdl : ((rexmit_moved optlen hlen cur_seg b new_seg).1 :: res.1 :: res.2.1).dropLast =
          (rexmit_moved optlen hlen cur_seg b new_seg).1 :: (res.1 :: res.2.1).dropLast := rfl
      rw [hdl] at hs
      rcases List.mem_cons.1 hs with h | h
      · rw [h]
        exact hmv.1
      · exact h1 s h
    · rw [List.getLast?_cons_cons, h2]
      exact congrArg some hmv.2


theorem split_head_right_fin_rst (cfg : Config) (seg newseg : tcp_seg)
    (h : TCPH_FLAGS newseg.hdr = 0) : fin_rst (split_head_right cfg seg newseg) = 0 := by
  unfold split_head_right
  split
  · show (TCPH_FLAGS newseg.hdr ||| TCP_PSH) &&& (TCP_FIN ||| TCP_RST) = 0
    rw [h]
    decide
  · show TCPH_FLAGS newseg.hdr &&& (TCP_FIN ||| TCP_RST) = 0
    rw [h]
    decide

theorem split_head_right_id (cfg : Config) (seg newseg : tcp_seg) :
    (split_head_right cfg seg newseg).id = newseg.id ∧
    (split_head_right cfg seg newseg).flags = seg.flags ∧
    (split_head_right cfg seg newseg).seqno = newseg.seqno ∧
    (split_head_right cfg seg newseg).len = newseg.len ∧
    (split_head_right cfg seg newseg).p = newseg.p := by
  unfold split_head_right
  split <;> exact ⟨rfl, rfl, rfl, rfl, rfl⟩

/-- The `FIN`/`RST` bits of two pieces `a`, `b` after the move: none on the
first, those of `a` on the second. -/
theorem pair_fin_rst (a b : tcp_seg) (orig : Nat) (ha : fin_rst a = orig) (hb : fin_rst b = 0)
    (hd : distinct_ids [(tcp_seg_move_flags a b (TCP_FIN ||| TCP_RST)).1,
        (tcp_seg_move_flags a b (TCP_FIN ||| TCP_RST)).2] ∨ orig = 0) :
    (∀ s ∈ [(tcp_seg_move_flags a b (TCP_FIN ||| TCP_RST)).1,
        (tcp_seg_move_flags a b (TCP_FIN ||| TCP_RST)).2].dropLast, fin_rst s = 0) ∧
    [(tcp_seg_move_flags a b (TCP_FIN ||| TCP_RST)).1,
        (tcp_seg_move_flags a b (TCP_FIN ||| TCP_RST)).2].getLast?.map fin_rst = some orig := by
  obtain ⟨⟨m1, -⟩, n1, -⟩ := tcp_seg_move_flags_fields a b (TCP_FIN ||| TCP_RST)
  have hmv := tcp_seg_move_flags_last a b (by
    rcases hd with h | h
    · left
      have := (distinct_ids_cons _ _ h).1 _ (List.mem_singleton_self _)
      rw [m1, n1] at this
      exact this
    · right
      exact ha.trans h) hb
  constructor
  · intro s hs
    have : s = (tcp_seg_move_flags a b (TCP_FIN ||| TCP_RST)).1 := by simpa using hs
    rw [this]
    exact hmv.1
  · show some (fin_rst (tcp_seg_move_flags a b (TCP_FIN ||| TCP_RST)).2) = some orig
    rw [hmv.2, ha]

/-- The result of the chain walk of `tcp_split_segment`: the buffers are
divided, in order, into a left part and a non-empty right part. -/
theorem chain_walk_some (hopt lentosend : Nat) :
    ∀ (chain : List pbuf) (headchainlen : Nat) (left : List pbuf) (pnewtail : pbuf)
      (l r : List pbuf) (hcl : Nat),
      chain_walk hopt lentosend headchainlen left pnewtail chain = some (l, r, hcl) →
      ∃ pnewhead t, r = pnewhead :: t ∧ l ++ r = left ++ pnewtail :: chain := by
  intro chain
  induction chain with
  | nil =>
    intro headchainlen left pnewtail l r hcl h
    simp [chain_walk] at h
  | cons c t ih =>
    intro headchainlen left pnewtail l r hcl h
    unfold chain_walk at h
    split at h
    · split at h
      · cases h
      · obtain ⟨x, y, h1, h2⟩ := ih _ _ _ _ _ _ h
        refine ⟨x, y, h1, ?_⟩
        rw [h2]
        simp
    · simp only [Option.some.injEq, Prod.mk.injEq] at h
      obtain ⟨rfl, rfl, -⟩ := h
      exact ⟨c, t, rfl, by simp⟩

/-- Claim C29: splitting never sends `FIN` or `RST` early.  After
`tcp_split_rexmit` and after `tcp_split_segment`, whose pieces are the
segment itself followed by the new segments, every piece but the last has
neither `FIN` nor `RST` in its header and the last piece has exactly the
`FIN`/`RST` bits that the segment had; so a segment without these bits yields
pieces without them.  This is for pieces that are distinct records (the
functions compare record addresses) or a segment with neither bit. -/
theorem split_fin_rst_on_last (cfg : Config) (pcb : tcp_pcb) (w : World) (seg : tcp_seg)
    (wnd : Nat) :
    ((distinct_ids ((tcp_split_rexmit pcb w seg).1 :: (tcp_split_rexmit pcb w seg).2.1) ∨
        fin_rst seg = 0) →
      (∀ s ∈ ((tcp_split_rexmit pcb w seg).1 :: (tcp_split_rexmit pcb w seg).2.1).dropLast,
        fin_rst s = 0) ∧
      ((tcp_split_rexmit pcb w seg).1 :: (tcp_split_rexmit pcb w seg).2.1).getLast?.map fin_rst =
        some (fin_rst seg)) ∧
    ((distinct_ids ((tcp_split_segment cfg pcb w seg wnd).1 ::
          (tcp_split_segment cfg pcb w seg wnd).2.1) ∨ fin_rst seg = 0) →
      (∀ s ∈ ((tcp_split_segment cfg pcb w seg wnd).1 ::
          (tcp_split_segment cfg pcb w seg wnd).2.1).dropLast, fin_rst s = 0) ∧
      ((tcp_split_segment cfg pcb w seg wnd).1 ::
          (tcp_split_segment cfg pcb w seg wnd).2.1).getLast?.map fin_rst = some (fin_rst seg)) := by
  constructor
  · intro hd
    unfold tcp_split_rexmit at hd ⊢
    exact split_rexmit_loop_fin_rst _ _ _ pcb w { seg with flags := seg.flags ||| TF_SEG_OPTS_NOMERGE } hd
  · intro hd
    rcases tcp_split_segment_cases cfg pcb w seg wnd with ⟨h1, h2⟩ |
      ⟨head, chain, b, oversize, pcb1, w1, newseg, pcb2, w2, -, -, hc, h1, h2⟩ |
      ⟨head, chain, left, right, hcl, newseg, pcb1, w1, hp, -, hw, hc, h1, h2⟩
    · rw [h1, h2]
      exact ⟨by simp, rfl⟩
    · rw [h1, h2] at hd ⊢
      obtain ⟨-, -, hfl0, -⟩ := tcp_create_segment_fields _ _ _ _ _ _ _ _ _ _ hc
      exact pair_fin_rst _ _ _ rfl (split_head_right_fin_rst cfg seg newseg hfl0) hd
    · rw [h1, h2] at hd ⊢
      obtain ⟨pnewhead, r, hr, -⟩ := chain_walk_some _ _ _ _ _ _ _ _ _ hw
      rw [hr] at hc
      obtain ⟨-, -, hfl0, -⟩ := tcp_create_segment_fields _ _ _ _ _ _ _ _ _ _ hc
      refine pair_fin_rst _ _ _ rfl ?_ hd
      show TCPH_FLAGS newseg.hdr &&& (TCP_FIN ||| TCP_RST) = 0
      rw [hfl0]
      decide


/-! ## Concrete runs of `tcp_split_rexmit` -/

/-- The loop of `tcp_split_rexmit` with a bound on the number of
iterations; `none` when the bound is reached. -/
def split_rexmit_fuel (optflags optlen hlen : Nat) :
    Nat → tcp_pcb → World → tcp_seg → Option (tcp_seg × List tcp_seg × tcp_pcb × World)
  | 0, _, _, _ => none
  | n + 1, pcb, w, cur_seg =>
    match cur_seg.p with
    | b :: cur_p :: r =>
      match tcp_create_segment pcb w (rexmit_buf optlen cur_p :: r) 0
          (rexmit_seqno optlen hlen cur_seg b) optflags with
      | (none, pcb1, w1) => some (cur_seg, [], pcb1, w1)
      | (some new_seg, pcb1, w1) =>
        (split_rexmit_fuel optflags optlen hlen n (rexmit_tail pcb1 cur_seg new_seg) w1
            (rexmit_moved optlen hlen cur_seg b new_seg).2).map
          (fun res => ((rexmit_moved optlen hlen cur_seg b new_seg).1, res.1 :: res.2.1,
            res.2.2.1, res.2.2.2))
    | _ => some (cur_seg, [], pcb, w)

theorem split_rexmit_loop_eq_fuel (optflags optlen hlen : Nat) (pcb : tcp_pcb) (w : World)
    (cur_seg : tcp_seg) :
    ∀ (n : Nat) (r : tcp_seg × List tcp_seg × tcp_pcb × World),
      split_rexmit_fuel optflags optlen hlen n pcb w cur_seg = some r →
      split_rexmit_loop pcb w optflags optlen hlen cur_seg = r := by
  refine split_rexmit_loop_induct optflags optlen hlen
    (fun pcb w cur_seg res => ∀ (n : Nat) (r : tcp_seg × List tcp_seg × tcp_pcb × World),
      split_rexmit_fuel optflags optlen hlen n pcb w cur_seg = some r → res = r) ?_ ?_ ?_
    pcb w cur_seg
  · intro pcb w cur_seg hlen1 n r h
    cases n with
    | zero => simp [split_rexmit_fuel] at h
    | succ n =>
      unfold split_rexmit_fuel at h
      split at h
      · rename_i b cur_p t hp
        rw [hp] at hlen1
        simp at hlen1
      · simpa using h
  · intro pcb w cur_seg b cur_p t pcb1 w1 hp hc n r h
    cases n with
    | zero => simp [split_rexmit_fuel] at h
    | succ n =>
      unfold split_rexmit_fuel at h
      rw [hp] at h
      simp only [hc] at h
      simpa using h
  · intro pcb w cur_seg b cur_p t new_seg pcb1 w1 res hp hc ih n r h
    cases n with
    | zero => simp [split_rexmit_fuel] at h
    | succ n =>
      unfold split_rexmit_fuel at h
      rw [hp] at h
      simp only [hc] at h
      cases hf : split_rexmit_fuel optflags optlen hlen n (rexmit_tail pcb1 cur_seg new_seg) w1
          (rexmit_moved optlen hlen cur_seg b new_seg).2 with
      | none =>
        rw [hf] at h
        simp at h
      | some res1 =>
        rw [hf] at h
        have := ih n res1 hf
        rw [this]
        simpa using h

/-- An observation `f` of the result of `tcp_split_rexmit`, computed with the
bounded loop. -/
theorem tcp_split_rexmit_observe {α : Type} (f : tcp_seg × List tcp_seg × tcp_pcb × World → α)
    (n : Nat) (pcb : tcp_pcb) (w : World) (seg : tcp_seg) (a : α)
    (h : (split_rexmit_fuel (split_opts pcb seg).1 (split_opts pcb seg).2.1 (split_opts pcb seg).2.2
      n pcb w { seg with flags := seg.flags ||| TF_SEG_OPTS_NOMERGE }).map f = some a) :
    f (tcp_split_rexmit pcb w seg) = a := by
  cases hf : split_rexmit_fuel (split_opts pcb seg).1 (split_opts pcb seg).2.1
      (split_opts pcb seg).2.2 n pcb w { seg with flags := seg.flags ||| TF_SEG_OPTS_NOMERGE } with
  | none =>
    rw [hf] at h
    simp at h
  | some r =>
    rw [hf] at h
    have he := split_rexmit_loop_eq_fuel _ _ _ _ _ _ n r hf
    unfold tcp_split_rexmit
    show f (split_rexmit_loop pcb w (split_opts pcb seg).1 (split_opts pcb seg).2.1
      (split_opts pcb seg).2.2 { seg with flags := seg.flags ||| TF_SEG_OPTS_NOMERGE }) = a
    rw [he]
    simpa using h


/-- A segment of 2500 bytes at 5000 in three `RAM` buffers (the first with
the TCP header in front of 1000 bytes, then 1000 and 500 bytes of payload),
record 900, with the header flags given. -/
def seg_multi (hdr_flags : Nat) : tcp_seg :=
  { id := 900,
    p := [{ payload := 90000, len := 1020, tot_len := 2520, type := pbuf_type.PBUF_RAM, ref := 1 },
          { payload := 91020, len := 1000, tot_len := 1500, type := pbuf_type.PBUF_RAM, ref := 1 },
          { payload := 92020, len := 500, tot_len := 500, type := pbuf_type.PBUF_RAM, ref := 1 }],
    seqno := 5000, len := 2500, flags := 0, tcphdr := some 90000,
    hdr := { src := 1024, dest := 80, seqno := 5000, ackno := 0, hdrlen := 5,
             flags := hdr_flags, wnd := 0, chksum := 0, urgp := 0 } }

/-- Witness for C29: a segment of three buffers with `FIN|ACK` is split by
`tcp_split_rexmit` into the records 900, 100, 200, and `FIN` is on the last
one only; `tcp_split_segment` with a window of 300 bytes splits it into the
records 900 and 100, and `FIN` is on the latter only. -/
theorem split_fin_rst_on_last_witness :
    distinct_ids ((tcp_split_rexmit pcb_idle world_ok (seg_multi 17)).1 ::
      (tcp_split_rexmit pcb_idle world_ok (seg_multi 17)).2.1) ∧
    ((∀ s ∈ ((tcp_split_rexmit pcb_idle world_ok (seg_multi 17)).1 ::
        (tcp_split_rexmit pcb_idle world_ok (seg_multi 17)).2.1).dropLast, fin_rst s = 0) ∧
      ((tcp_split_rexmit pcb_idle world_ok (seg_multi 17)).1 ::
        (tcp_split_rexmit pcb_idle world_ok (seg_multi 17)).2.1).getLast?.map fin_rst =
        some (fin_rst (seg_multi 17))) ∧
    distinct_ids ((tcp_split_segment cfg_push pcb_idle world_ok (seg_multi 17) 300).1 ::
      (tcp_split_segment cfg_push pcb_idle world_ok (seg_multi 17) 300).2.1) ∧
    ((∀ s ∈ ((tcp_split_segment cfg_push pcb_idle world_ok (seg_multi 17) 300).1 ::
        (tcp_split_segment cfg_push pcb_idle world_ok (seg_multi 17) 300).2.1).dropLast,
        fin_rst s = 0) ∧
      ((tcp_split_segment cfg_push pcb_idle world_ok (seg_multi 17) 300).1 ::
        (tcp_split_segment cfg_push pcb_idle world_ok (seg_multi 17) 300).2.1).getLast?.map
          fin_rst = some (fin_rst (seg_multi 17))) ∧
    (fun r : tcp_seg × List tcp_seg × tcp_pcb × World =>
        (r.1 :: r.2.1).map (fun s => (s.id, fin_rst s)))
      (tcp_split_rexmit pcb_idle world_ok (seg_multi 17)) = [(900, 0), (100, 0), (200, 1)] ∧
    ((tcp_split_segment cfg_push pcb_idle world_ok (seg_multi 17) 300).1 ::
        (tcp_split_segment cfg_push pcb_idle world_ok (seg_multi 17) 300).2.1).map
      (fun s => (s.id, fin_rst s)) = [(900, 0), (100, 1)] :=
  ⟨of_decide_eq_true (tcp_split_rexmit_observe
      (fun r => decide (distinct_ids (r.1 :: r.2.1))) 5 pcb_idle world_ok (seg_multi 17) true
      (by decide)),
   (split_fin_rst_on_last cfg_push pcb_idle world_ok (seg_multi 17) 300).1
     (Or.inl (of_decide_eq_true (tcp_split_rexmit_observe
       (fun r => decide (distinct_ids (r.1 :: r.2.1))) 5 pcb_idle world_ok (seg_multi 17) true
       (by decide)))),
   by decide,
   (split_fin_rst_on_last cfg_push pcb_idle world_ok (seg_multi 17) 300).2 (Or.inl (by decide)),
   tcp_split_rexmit_observe (fun r => (r.1 :: r.2.1).map (fun s => (s.id, fin_rst s))) 5
     pcb_idle world_ok (seg_multi 17) [(900, 0), (100, 0), (200, 1)] (by decide),
   by decide⟩


/-! ## `PSH` on the right half of a split -/

/-- What a split shows of its pieces: record, sequence number, length, and
whether `PSH` is set in the header. -/
def psh_view (r : tcp_seg × List tcp_seg × tcp_pcb × World) : List (Nat × Nat × Nat × Bool) :=
  (r.1 :: r.2.1).map (fun s => (s.id, s.seqno, s.len, has (TCPH_FLAGS s.hdr) TCP_PSH))

/-- Claim C28 fails in the buffer-chain branch.  With the push policy on, a
segment of three buffers (1000, 1000 and 500 bytes) with `PSH|ACK` is split
for a window of 300 bytes in its first buffer (head-buffer branch): the right
half, record 100, has `PSH`.  For a window of 1500 bytes the chain is cut
behind the first buffer (buffer-chain branch): the right half, record 100
with 1500 bytes at 6000, has no `PSH`, while the left half keeps the one it
had. -/
theorem tcp_split_segment_chain_lacks_psh :
    cfg_push.enable_push_flag = true ∧
    psh_view (tcp_split_segment cfg_push pcb_idle world_ok (seg_multi 24) 300) =
      [(900, 5000, 300, true), (100, 5300, 2200, true)] ∧
    psh_view (tcp_split_segment cfg_push pcb_idle world_ok (seg_multi 24) 1500) =
      [(900, 5000, 1000, true), (100, 6000, 1500, false)] := by
  decide


/-! ## The left half of `tcp_split_segment` fits the window -/

/-- The bytes of a chain: the sum of `len` over its buffers. -/
def chain_bytes (p : List pbuf) : Nat := (p.map (fun b => b.len)).sum

theorem retotal_core : ∀ (l : List pbuf) (h : Nat), (retotal h l).map buf_core = l.map buf_core := by
  intro l
  induction l with
  | nil => intro h; rfl
  | cons b r ih =>
    intro h
    unfold retotal
    rw [List.map_cons, List.map_cons, ih]
    rfl

/-- The chain walk of `tcp_split_segment` divides the chain, in order, into
the buffers kept on the left and a non-empty rest; `headchainlen` counts the
bytes on the left (in 32 bits); taking the next buffer as well would exceed
`lentosend`; and either no buffer was added to the first one, or the payload
on the left is within `lentosend`. -/
theorem chain_walk_spec (hopt lentosend : Nat) :
    ∀ (chain : List pbuf) (headchainlen : Nat) (left : List pbuf) (pnewtail : pbuf)
      (l r : List pbuf) (hcl : Nat),
      u32 headchainlen = u32 (chain_bytes (left ++ [pnewtail])) →
      chain_walk hopt lentosend headchainlen left pnewtail chain = some (l, r, hcl) →
      ∃ x t, r = x :: t ∧ l ++ r = left ++ pnewtail :: chain ∧ l ≠ [] ∧
        u32 hcl = u32 (chain_bytes l) ∧
        sub32 (add32 hcl x.len) hopt > lentosend ∧
        ((hcl = headchainlen ∧ l = left ++ [pnewtail]) ∨ sub32 hcl hopt ≤ lentosend) := by
  intro chain
  induction chain with
  | nil =>
    intro headchainlen left pnewtail l r hcl _ h
    simp [chain_walk] at h
  | cons c t ih =>
    intro headchainlen left pnewtail l r hcl hinv h
    unfold chain_walk at h
    split at h
    · rename_i hfit
      split at h
      · cases h
      · have hinv2 : u32 (add32 headchainlen c.len) =
            u32 (chain_bytes ((left ++ [pnewtail]) ++ [c])) := by
          unfold chain_bytes u32 at hinv
          unfold chain_bytes u32 add32
          simp only [List.map_append, List.sum_append, List.map_cons, List.map_nil,
            List.sum_cons, List.sum_nil] at hinv ⊢
          omega
        obtain ⟨x, y, h1, h2, hne, h3, h4, h5⟩ := ih _ _ _ _ _ _ hinv2 h
        refine ⟨x, y, h1, ?_, hne, h3, h4, ?_⟩
        · rw [h2]
          simp
        · right
          rcases h5 with ⟨h6, -⟩ | h6
          · rw [h6]
            exact hfit
          · exact h6
    · rename_i hfit
      simp only [Option.some.injEq, Prod.mk.injEq] at h
      obtain ⟨rfl, rfl, rfl⟩ := h
      exact ⟨c, t, rfl, by simp, by simp, hinv, Nat.lt_of_not_le hfit, Or.inl ⟨rfl, rfl⟩⟩

/-- Claim C27: after a call of `tcp_split_segment` that creates a right-hand
segment `right`, with `lentosend = wnd - (seg.seqno - lastack)` and
`hopt = tcp_hlen_delta + optlen`.  In the head-buffer branch (first buffer
longer than `hopt + lentosend`) the left segment has exactly `lentosend`
bytes, in one buffer.  In the buffer-chain branch the chain is divided in
order into the buffers `l` that stay on the left and the buffers `x :: t` of
the right segment (`x` with the TCP header claimed unless zero-copy); the left
length is the bytes of `l` less `hopt`, in 32 bits, and with `x` as well the
count would exceed `lentosend`.  In both branches the left length is at most
`lentosend` when the first buffer holds the header and the options
(`hopt <= len < 2^32`). -/
theorem tcp_split_segment_left_fits (cfg : Config) (pcb : tcp_pcb) (w : World) (seg : tcp_seg)
    (wnd : Nat) (right : tcp_seg)
    (hr : (tcp_split_segment cfg pcb w seg wnd).2.1 = [right]) :
    ∃ head chain, seg.p = head :: chain ∧
      (head.len > add32 (split_hopt pcb seg) (split_lentosend pcb seg wnd) →
        (tcp_split_segment cfg pcb w seg wnd).1.len = split_lentosend pcb seg wnd ∧
        (tcp_split_segment cfg pcb w seg wnd).1.p.length = 1) ∧
      (¬ head.len > add32 (split_hopt pcb seg) (split_lentosend pcb seg wnd) →
        ∃ l x t, seg.p = l ++ x :: t ∧ l ≠ [] ∧
          (tcp_split_segment cfg pcb w seg wnd).1.p.map buf_core = l.map buf_core ∧
          (right.p = x :: t ∨ right.p = hdr_buf x :: t) ∧
          (tcp_split_segment cfg pcb w seg wnd).1.len =
            sub32 (chain_bytes l) (split_hopt pcb seg) ∧
          sub32 (add32 (chain_bytes l) x.len) (split_hopt pcb seg) >
            split_lentosend pcb seg wnd) ∧
      (split_hopt pcb seg ≤ head.len → head.len < 4294967296 →
        (tcp_split_segment cfg pcb w seg wnd).1.len ≤ split_lentosend pcb seg wnd) := by
  have hL : split_lentosend pcb seg wnd < 4294967296 := by
    unfold split_lentosend sub32
    omega
  rcases tcp_split_segment_cases cfg pcb w seg wnd with ⟨-, h2⟩ |
    ⟨head, chain, b, oversize, pcb1, w1, newseg, pcb2, w2, hp, hbig, hc, h1, h2⟩ |
    ⟨head, chain, left, rchain, hcl, newseg, pcb1, w1, hp, hbig, hw, hc, h1, h2⟩
  · rw [h2] at hr
    cases hr
  · obtain ⟨⟨-, -, m3, -, m5⟩, -⟩ := tcp_seg_move_flags_fields (split_head_left pcb seg wnd head)
      (split_head_right cfg seg newseg) (TCP_FIN ||| TCP_RST)
    have hlen : (tcp_split_segment cfg pcb w seg wnd).1.len = split_lentosend pcb seg wnd := by
      rw [h1, m3]
      show sub32 (sub32 head.len (sub32 (sub32 head.len (split_hopt pcb seg))
        (split_lentosend pcb seg wnd))) (split_hopt pcb seg) = split_lentosend pcb seg wnd
      unfold sub32
      omega
    refine ⟨head, chain, hp, fun _ => ⟨hlen, ?_⟩, fun h => absurd hbig h, fun _ _ => ?_⟩
    · rw [h1, m5]
      rfl
    · rw [hlen]
  · obtain ⟨⟨-, -, m3, -, m5⟩, -, -, -, -, n5⟩ :=
      tcp_seg_move_flags_fields (split_chain_left pcb seg left hcl)
        { newseg with flags := seg.flags } (TCP_FIN ||| TCP_RST)
    obtain ⟨x, t, hx, happ, hlne, hsum, hexc, hle⟩ := chain_walk_spec _ _ _ _ _ _ _ _ _
      (by simp [chain_bytes]) hw
    have hlen : (tcp_split_segment cfg pcb w seg wnd).1.len = sub32 hcl (split_hopt pcb seg) := by
      rw [h1, m3]
      rfl
    have hright : right = (tcp_seg_move_flags (split_chain_left pcb seg left hcl)
        { newseg with flags := seg.flags } (TCP_FIN ||| TCP_RST)).2 := by
      rw [h2] at hr
      simp only [List.cons.injEq, and_true] at hr
      exact hr.symm
    refine ⟨head, chain, hp, fun h => absurd h hbig, fun _ => ?_, fun h1' h2' => ?_⟩
    · refine ⟨left, x, t, ?_, ?_, ?_, ?_, ?_, ?_⟩
      · rw [hp, ← hx, happ]
        rfl
      · exact hlne
      · rw [h1, m5]
        exact retotal_core left hcl
      · rw [hright, n5]
        rw [hx] at hc
        obtain ⟨-, -, -, -, hzc, hram⟩ := tcp_create_segment_fields _ _ _ _ _ _ _ _ _ _ hc
        by_cases hz : has (split_opts pcb seg).1 TF_SEG_OPTS_ZEROCOPY = true
        · exact Or.inl (hzc hz).1
        · exact Or.inr (hram (by simpa using hz)).2.1
      · rw [hlen]
        unfold u32 at hsum
        unfold sub32
        omega
      · unfold u32 at hsum
        unfold sub32 add32 at hexc ⊢
        omega
    · rw [hlen]
      rcases hle with ⟨h6, -⟩ | h6
      · rw [h6]
        have hb : ¬ head.len > add32 (split_hopt pcb seg) (split_lentosend pcb seg wnd) := hbig
        unfold add32 at hb
        unfold sub32
        omega
      · exact h6


/-- The right-hand segment of a split (the segment itself when nothing was
split). -/
def split_right (r : tcp_seg × List tcp_seg × tcp_pcb × World) : tcp_seg := r.2.1.headD r.1

/-- Witness for C27: the segment of three buffers (1000, 1000 and 500 bytes)
at `lastack`.  With a window of 300 bytes the first buffer is split and the
left half has 300 bytes; with a window of 1500 bytes the chain is cut behind
the first buffer and the left half has 1000 bytes. -/
theorem tcp_split_segment_left_fits_witness :
    (tcp_split_segment cfg_push pcb_idle world_ok (seg_multi 16) 300).2.1 =
      [split_right (tcp_split_segment cfg_push pcb_idle world_ok (seg_multi 16) 300)] ∧
    (∃ head chain, (seg_multi 16).p = head :: chain ∧
      (head.len > add32 (split_hopt pcb_idle (seg_multi 16))
          (split_lentosend pcb_idle (seg_multi 16) 300) →
        (tcp_split_segment cfg_push pcb_idle world_ok (seg_multi 16) 300).1.len =
          split_lentosend pcb_idle (seg_multi 16) 300 ∧
        (tcp_split_segment cfg_push pcb_idle world_ok (seg_multi 16) 300).1.p.length = 1) ∧
      (¬ head.len > add32 (split_hopt pcb_idle (seg_multi 16))
          (split_lentosend pcb_idle (seg_multi 16) 300) →
        ∃ l x t, (seg_multi 16).p = l ++ x :: t ∧ l ≠ [] ∧
          (tcp_split_segment cfg_push pcb_idle world_ok (seg_multi 16) 300).1.p.map buf_core =
            l.map buf_core ∧
          ((split_right (tcp_split_segment cfg_push pcb_idle world_ok (seg_multi 16) 300)).p =
              x :: t ∨
            (split_right (tcp_split_segment cfg_push pcb_idle world_ok (seg_multi 16) 300)).p =
              hdr_buf x :: t) ∧
          (tcp_split_segment cfg_push pcb_idle world_ok (seg_multi 16) 300).1.len =
            sub32 (chain_bytes l) (split_hopt pcb_idle (seg_multi 16)) ∧
          sub32 (add32 (chain_bytes l) x.len) (split_hopt pcb_idle (seg_multi 16)) >
            split_lentosend pcb_idle (seg_multi 16) 300) ∧
      (split_hopt pcb_idle (seg_multi 16) ≤ head.len → head.len < 4294967296 →
        (tcp_split_segment cfg_push pcb_idle world_ok (seg_multi 16) 300).1.len ≤
          split_lentosend pcb_idle (seg_multi 16) 300)) ∧
    (split_lentosend pcb_idle (seg_multi 16) 300 = 300 ∧
      (tcp_split_segment cfg_push pcb_idle world_ok (seg_multi 16) 300).1.len = 300 ∧
      (split_right (tcp_split_segment cfg_push pcb_idle world_ok (seg_multi 16) 300)).len = 2200) ∧
    (split_lentosend pcb_idle (seg_multi 16) 1500 = 1500 ∧
      (tcp_split_segment cfg_push pcb_idle world_ok (seg_multi 16) 1500).1.len = 1000 ∧
      (tcp_split_segment cfg_push pcb_idle world_ok (seg_multi 16) 1500).1.p.length = 1 ∧
      (split_right (tcp_split_segment cfg_push pcb_idle world_ok (seg_multi 16) 1500)).p.length =
        2) :=
  ⟨by decide,
   tcp_split_segment_left_fits cfg_push pcb_idle world_ok (seg_multi 16) 300
     (split_right (tcp_split_segment cfg_push pcb_idle world_ok (seg_multi 16) 300)) (by decide),
   by decide, by decide⟩


/-! ## `tcp_split_rexmit`: one segment per buffer -/

/-- The number of segment records that can be had without a failure: the
prefetched record of the PCB and the records that the allocator hook hands
out before its first `NULL`. -/
def segs_available (pcb : tcp_pcb) (w : World) : Nat :=
  (if pcb.seg_alloc.isSome then 1 else 0) + (w.seg_allocs.takeWhile (fun a => a.isSome)).length

theorem take_seg_available (pcb : tcp_pcb) (w : World) (h : 1 ≤ segs_available pcb w) :
    ∃ s, (take_seg pcb w).1 = some s ∧
      segs_available (take_seg pcb w).2.1 (take_seg pcb w).2.2 + 1 = segs_available pcb w := by
  unfold take_seg
  unfold segs_available at h ⊢
  cases hs : pcb.seg_alloc with
  | some s =>
    exact ⟨s, rfl, by simp [hs]; omega⟩
  | none =>
    rw [hs] at h
    cases hl : w.seg_allocs with
    | nil =>
      rw [hl] at h
      simp at h
    | cons a rest =>
      cases a with
      | none =>
        rw [hl] at h
        simp at h
      | some a =>
        exact ⟨blank_seg a, rfl, by simp [hs, List.takeWhile]⟩

/-- With a record available, `tcp_create_segment` for the next buffer of the
chain succeeds when that buffer can take the TCP header (zero-copy, or a
`RAM` buffer), and uses up one record. -/
theorem rexmit_create_ok (optflags optlen : Nat) (pcb : tcp_pcb) (w : World) (cur_p : pbuf)
    (r : List pbuf) (seqno : Nat) (h : 1 ≤ segs_available pcb w)
    (ht : has optflags TF_SEG_OPTS_ZEROCOPY = true ∨ cur_p.type = pbuf_type.PBUF_RAM) :
    ∃ new_seg,
      (tcp_create_segment pcb w (rexmit_buf optlen cur_p :: r) 0 seqno optflags).1 = some new_seg ∧
      segs_available (tcp_create_segment pcb w (rexmit_buf optlen cur_p :: r) 0 seqno optflags).2.1
        (tcp_create_segment pcb w (rexmit_buf optlen cur_p :: r) 0 seqno optflags).2.2 + 1 =
        segs_available pcb w := by
  obtain ⟨s, hs, hav⟩ := take_seg_available pcb w h
  unfold tcp_create_segment
  cases hts : take_seg pcb w with
  | mk o rest =>
    rw [hts] at hs hav
    dsimp only at hs hav
    subst hs
    dsimp only
    rw [if_neg (by simp)]
    by_cases hz : has optflags TF_SEG_OPTS_ZEROCOPY = true
    · rw [if_pos hz]
      exact ⟨_, rfl, hav⟩
    · rw [if_neg hz]
      have hram : cur_p.type = pbuf_type.PBUF_RAM := by
        rcases ht with h1 | h1
        · exact absurd h1 hz
        · exact h1
      have hh : pbuf_header (rexmit_buf optlen cur_p :: r) TCP_HLEN =
          some (hdr_buf (rexmit_buf optlen cur_p) :: r) := by
        have hr2 : (rexmit_buf optlen cur_p).type = pbuf_type.PBUF_RAM := hram
        simp only [pbuf_header, hdr_buf, hr2, if_true]
      rw [hh]
      exact ⟨_, rfl, hav⟩

/-- When enough records are available and every buffer after the first can
take the TCP header, the loop of `tcp_split_rexmit` makes one piece per
buffer. -/
theorem split_rexmit_loop_complete (optflags optlen hlen : Nat) (pcb : tcp_pcb) (w : World)
    (cur_seg : tcp_seg)
    (ht : ∀ b ∈ cur_seg.p.tail,
      has optflags TF_SEG_OPTS_ZEROCOPY = true ∨ b.type = pbuf_type.PBUF_RAM)
    (hav : cur_seg.p.length ≤ segs_available pcb w + 1) :
    (split_rexmit_loop pcb w optflags optlen hlen cur_seg).2.1.length + 1 =
      max 1 cur_seg.p.length := by
  refine split_rexmit_loop_induct optflags optlen hlen
    (fun pcb w cur_seg res =>
      (∀ b ∈ cur_seg.p.tail,
        has optflags TF_SEG_OPTS_ZEROCOPY = true ∨ b.type = pbuf_type.PBUF_RAM) →
      cur_seg.p.length ≤ segs_available pcb w + 1 →
      res.2.1.length + 1 = max 1 cur_seg.p.length) ?_ ?_ ?_ pcb w cur_seg ht hav
  · intro pcb w cur_seg hl _ _
    simp only [List.length_nil, Nat.zero_add]
    omega
  · intro pcb w cur_seg b cur_p r pcb1 w1 hp hc ht hav
    exfalso
    rw [hp] at ht hav
    simp only [List.length_cons] at hav
    obtain ⟨new_seg, h1, -⟩ := rexmit_create_ok optflags optlen pcb w cur_p r
      (rexmit_seqno optlen hlen cur_seg b) (by omega) (ht cur_p (by simp))
    rw [hc] at h1
    cases h1
  · intro pcb w cur_seg b cur_p r new_seg pcb1 w1 res hp hc ih ht hav
    rw [hp] at ht hav ⊢
    simp only [List.length_cons] at hav ⊢
    obtain ⟨new_seg', -, h2⟩ := rexmit_create_ok optflags optlen pcb w cur_p r
      (rexmit_seqno optlen hlen cur_seg b) (by omega) (ht cur_p (by simp))
    rw [hc] at h2
    dsimp only at h2
    have hclen := tcp_create_segment_clen _ _ _ _ _ _ _ _ _ (by simp) hc
    obtain ⟨-, -, -, -, -, n5⟩ :=
      tcp_seg_move_flags_fields (rexmit_left optlen hlen cur_seg b)
        { new_seg with flags := cur_seg.flags } (TCP_FIN ||| TCP_RST)
    have e2 : (rexmit_moved optlen hlen cur_seg b new_seg).2.p = new_seg.p := n5
    have hchain : ∃ x, new_seg.p = x :: r := by
      obtain ⟨-, -, -, -, hzc, hram⟩ := tcp_create_segment_fields _ _ _ _ _ _ _ _ _ _ hc
      by_cases hz : has optflags TF_SEG_OPTS_ZEROCOPY = true
      · exact ⟨_, (hzc hz).1⟩
      · exact ⟨_, (hram (by simpa using hz)).2.1⟩
    obtain ⟨x, hx⟩ := hchain
    have hav2 : segs_available (rexmit_tail pcb1 cur_seg new_seg) w1 = segs_available pcb1 w1 := by
      unfold rexmit_tail
      split <;> rfl
    have := ih (by
        rw [e2, hx]
        intro y hy
        exact ht y (List.mem_cons_of_mem _ hy)) (by
        rw [e2, hx, hav2]
        simp only [List.length_cons]
        omega)
    rw [e2, hx] at this
    simp only [List.length_cons] at this ⊢
    omega


theorem split_opts_zc (pcb : tcp_pcb) (seg : tcp_seg) :
    has (split_opts pcb seg).1 TF_SEG_OPTS_ZEROCOPY = has seg.flags TF_SEG_OPTS_ZEROCOPY := by
  unfold split_opts
  dsimp only
  split
  · rename_i h
    rw [h]
    exact has_lor_self _ _ (by decide)
  · rename_i h
    have h1 : has seg.flags TF_SEG_OPTS_ZEROCOPY = false := by simpa using h
    rw [h1]
    split <;> decide

theorem forall2_left {α β : Type} {R : α → β → Prop} {l1 : List α} {l2 : List β}
    (h : List.Forall₂ R l1 l2) : ∀ s ∈ l1, ∃ b, R s b := by
  induction h with
  | nil =>
    intro s hs
    cases hs
  | cons hab _ ih =>
    intro s hs
    rcases List.mem_cons.1 hs with h1 | h1
    · rw [h1]
      exact ⟨_, hab⟩
    · exact ih s h1

/-- Claim C30: `tcp_split_rexmit` turns a segment into one segment per
buffer.  The pieces are the segment itself followed by the new segments.
Always: the first piece keeps the record and the sequence number; every piece
has the option flags of the segment plus `NOMERGE`; each piece ends where the
next one starts; `snd_queuelen` is unchanged; the first piece starts with the
first buffer of the chain and each new piece with the next buffer, turned
into a first buffer (room for the options and the TCP header claimed in front
of the payload); every piece but the last has one buffer; the last piece has
the buffers that are left, as they were (so after a failed allocation the
buffer that was being converted is as before); and for a segment whose length
matches its well-formed chain the lengths of the pieces add up to its length.
When enough segment records are available and every buffer after the first
can take the TCP header, a chain of `k >= 2` buffers gives `k` pieces of one
buffer each. -/
theorem tcp_split_rexmit_pieces (pcb : tcp_pcb) (w : World) (seg : tcp_seg) :
    (tcp_split_rexmit pcb w seg).1.id = seg.id ∧
    (tcp_split_rexmit pcb w seg).1.seqno = seg.seqno ∧
    (∀ s ∈ (tcp_split_rexmit pcb w seg).1 :: (tcp_split_rexmit pcb w seg).2.1,
      s.flags = seg.flags ||| TF_SEG_OPTS_NOMERGE) ∧
    contiguous ((tcp_split_rexmit pcb w seg).1 :: (tcp_split_rexmit pcb w seg).2.1) ∧
    (tcp_split_rexmit pcb w seg).2.2.1.snd_queuelen = pcb.snd_queuelen ∧
    ((tcp_split_rexmit pcb w seg).1 :: (tcp_split_rexmit pcb w seg).2.1).length ≤
      max 1 seg.p.length ∧
    (tcp_split_rexmit pcb w seg).1.p.head?.map buf_core = seg.p.head?.map buf_core ∧
    List.Forall₂ (fun (s : tcp_seg) (b : pbuf) =>
        s.p.head?.map buf_core =
          some (buf_core (rexmit_piece (split_opts pcb seg).2.1 (split_opts pcb seg).2.2 b)))
      (tcp_split_rexmit pcb w seg).2.1
      (seg.p.tail.take (tcp_split_rexmit pcb w seg).2.1.length) ∧
    (∀ s ∈ ((tcp_split_rexmit pcb w seg).1 :: (tcp_split_rexmit pcb w seg).2.1).dropLast,
      ∃ b, s.p = [b] ∧ b.tot_len = b.len) ∧
    ((tcp_split_rexmit pcb w seg).1 :: (tcp_split_rexmit pcb w seg).2.1).getLast?.map
        (fun s => s.p.tail) =
      some (seg.p.drop ((tcp_split_rexmit pcb w seg).2.1.length + 1)) ∧
    (seg_wf (split_opts pcb seg).2.1 (split_opts pcb seg).2.2 seg →
      queue_bytes ((tcp_split_rexmit pcb w seg).1 :: (tcp_split_rexmit pcb w seg).2.1) =
        seg.len) ∧
    ((∀ b ∈ seg.p.tail,
        has seg.flags TF_SEG_OPTS_ZEROCOPY = true ∨ b.type = pbuf_type.PBUF_RAM) →
      seg.p.length ≤ segs_available pcb w + 1 → 2 ≤ seg.p.length →
      ((tcp_split_rexmit pcb w seg).1 :: (tcp_split_rexmit pcb w seg).2.1).length =
        seg.p.length ∧
      ∀ s ∈ (tcp_split_rexmit pcb w seg).1 :: (tcp_split_rexmit pcb w seg).2.1,
        s.p.length = 1) := by
  have hz := split_opts_spec pcb seg
  obtain ⟨b1, b2, b3, b4, b5, b6, b7⟩ := split_rexmit_loop_basic (split_opts pcb seg).1
    (split_opts pcb seg).2.1 (split_opts pcb seg).2.2 pcb w
    { seg with flags := seg.flags ||| TF_SEG_OPTS_NOMERGE }
  obtain ⟨c1, c2, c3, c4⟩ := split_rexmit_loop_chains (split_opts pcb seg).1
    (split_opts pcb seg).2.1 (split_opts pcb seg).2.2 hz pcb w
    { seg with flags := seg.flags ||| TF_SEG_OPTS_NOMERGE }
  have hbytes := split_rexmit_loop_bytes (split_opts pcb seg).1
    (split_opts pcb seg).2.1 (split_opts pcb seg).2.2 hz pcb w
    { seg with flags := seg.flags ||| TF_SEG_OPTS_NOMERGE }
  have hcomp := split_rexmit_loop_complete (split_opts pcb seg).1
    (split_opts pcb seg).2.1 (split_opts pcb seg).2.2 pcb w
    { seg with flags := seg.flags ||| TF_SEG_OPTS_NOMERGE }
  have hR : tcp_split_rexmit pcb w seg = split_rexmit_loop pcb w (split_opts pcb seg).1
      (split_opts pcb seg).2.1 (split_opts pcb seg).2.2
      { seg with flags := seg.flags ||| TF_SEG_OPTS_NOMERGE } := by
    unfold tcp_split_rexmit
    rfl
  rw [hR]
  refine ⟨b1, b2, ?_, b5, b7, ?_, c1, c2, c3, c4, ?_, ?_⟩
  · intro s hs
    rcases List.mem_cons.1 hs with h | h
    · rw [h]
      exact b3
    · exact b4 s h
  · simp only [List.length_cons]
    exact b6
  · intro hwf
    exact hbytes hwf
  · intro ht hav h2
    have hlen := hcomp (fun b hb => by
        rw [split_opts_zc]
        exact ht b hb) hav
    have hk : (split_rexmit_loop pcb w (split_opts pcb seg).1 (split_opts pcb seg).2.1
        (split_opts pcb seg).2.2
        { seg with flags := seg.flags ||| TF_SEG_OPTS_NOMERGE }).2.1.length + 1 = seg.p.length := by
      rw [hlen]
      show max 1 seg.p.length = seg.p.length
      omega
    refine ⟨by simpa using hk, ?_⟩
    intro s hs
    generalize hq : split_rexmit_loop pcb w (split_opts pcb seg).1 (split_opts pcb seg).2.1
        (split_opts pcb seg).2.2 { seg with flags := seg.flags ||| TF_SEG_OPTS_NOMERGE } = res
      at hs c2 c3 c4 hk
    have hne : res.2.1 ≠ [] := by
      intro he
      rw [he] at hk
      simp at hk
      omega
    have hd := List.dropLast_append_getLast? (l := res.1 :: res.2.1)
    cases hlast : (res.1 :: res.2.1).getLast? with
    | none => simp at hlast
    | some z =>
      have hsplit := hd z hlast
      rw [← hsplit] at hs
      rcases List.mem_append.1 hs with h | h
      · obtain ⟨b, hb, -⟩ := c3 s h
        rw [hb]
        rfl
      · have hsz : s = z := by simpa using h
        rw [hsz]
        rw [hlast] at c4
        simp only [Option.map_some', Option.some.injEq] at c4
        have hdrop : List.drop (res.2.1.length + 1) seg.p = [] := by
          apply List.drop_eq_nil_of_le
          omega
        rw [hdrop] at c4
        have hzmem : z ∈ res.2.1 := by
          have h1 : (res.1 :: res.2.1).getLast? = res.2.1.getLast? := getLast?_cons_ne _ _ hne
          rw [h1] at hlast
          have := List.dropLast_append_getLast? z hlast
          rw [← this]
          simp
        have hzne : z.p ≠ [] := by
          obtain ⟨b, hb⟩ := forall2_left c2 z hzmem
          intro he
          rw [he] at hb
          cases hb
        cases hzp : z.p with
        | nil => exact absurd hzp hzne
        | cons y t =>
          rw [hzp] at c4
          simp only [List.tail_cons] at c4
          rw [c4]
          rfl


/-- What a split shows of its pieces: record, sequence number, length,
option flags and number of buffers. -/
def piece_view (r : tcp_seg × List tcp_seg × tcp_pcb × World) :
    List (Nat × Nat × Nat × Nat × Nat) :=
  (r.1 :: r.2.1).map (fun s => (s.id, s.seqno, s.len, s.flags, s.p.length))

theorem seg_multi_wf (f : Nat) : seg_wf 0 20 (seg_multi f) := by
  show (2500 + 20 + 0 = 2520 ∧ 20 + 0 ≤ 1020 ∧ 2520 < 4294967296 ∧
    (2520 = 1020 + 1500 ∧ 1500 = 1000 + 500 ∧ 500 = 500 + 0 ∧ True))
  decide

/-- Witness for C30: the segment of 2500 bytes at 5000 in three buffers
becomes the records 900, 100 and 200 with 1000, 1000 and 500 bytes at 5000,
6000 and 7000, each with `NOMERGE` and one buffer. -/
theorem tcp_split_rexmit_pieces_witness :
    seg_wf (split_opts pcb_idle (seg_multi 16)).2.1 (split_opts pcb_idle (seg_multi 16)).2.2
      (seg_multi 16) ∧
    (∀ b ∈ (seg_multi 16).p.tail,
      has (seg_multi 16).flags TF_SEG_OPTS_ZEROCOPY = true ∨ b.type = pbuf_type.PBUF_RAM) ∧
    (seg_multi 16).p.length ≤ segs_available pcb_idle world_ok + 1 ∧
    2 ≤ (seg_multi 16).p.length ∧
    queue_bytes ((tcp_split_rexmit pcb_idle world_ok (seg_multi 16)).1 ::
      (tcp_split_rexmit pcb_idle world_ok (seg_multi 16)).2.1) = (seg_multi 16).len ∧
    (((tcp_split_rexmit pcb_idle world_ok (seg_multi 16)).1 ::
        (tcp_split_rexmit pcb_idle world_ok (seg_multi 16)).2.1).length =
        (seg_multi 16).p.length ∧
      ∀ s ∈ (tcp_split_rexmit pcb_idle world_ok (seg_multi 16)).1 ::
        (tcp_split_rexmit pcb_idle world_ok (seg_multi 16)).2.1, s.p.length = 1) ∧
    piece_view (tcp_split_rexmit pcb_idle world_ok (seg_multi 16)) =
      [(900, 5000, 1000, 64, 1), (100, 6000, 1000, 64, 1), (200, 7000, 500, 64, 1)] :=
  ⟨seg_multi_wf 16, by decide, by decide, by decide,
   (tcp_split_rexmit_pieces pcb_idle world_ok (seg_multi 16)).2.2.2.2.2.2.2.2.2.2.1
     (seg_multi_wf 16),
   (tcp_split_rexmit_pieces pcb_idle world_ok (seg_multi 16)).2.2.2.2.2.2.2.2.2.2.2
     (by decide) (by decide) (by decide),
   tcp_split_rexmit_observe piece_view 5 pcb_idle world_ok (seg_multi 16)
     [(900, 5000, 1000, 64, 1), (100, 6000, 1000, 64, 1), (200, 7000, 500, 64, 1)] (by decide)⟩


/-! ## The `TSO` mark of the segments that `tcp_output` sends -/

theorem has_lor_other (f m k : Nat) (h : m &&& k = 0) : has (f ||| m) k = has f k := by
  have e : (f ||| m) &&& k = f &&& k := by
    apply Nat.eq_of_testBit_eq
    intro i
    have hi := congrArg (fun x => x.testBit i) h
    simp only [Nat.testBit_and, Nat.zero_testBit] at hi
    simp only [Nat.testBit_and, Nat.testBit_or]
    cases hf : f.testBit i <;> cases hm : m.testBit i <;> cases hk : k.testBit i <;>
      simp_all
  unfold has
  rw [e]

theorem has_clr8_self (f m : Nat) (hm : m < 256) : has (clr8 f m) m = false := by
  unfold has clr8
  rw [land_clear f m hm]
  decide

theorem opt_length_tso (f : Nat) :
    LWIP_TCP_OPT_LENGTH (f ||| TF_SEG_OPTS_TSO) = LWIP_TCP_OPT_LENGTH f := by
  unfold LWIP_TCP_OPT_LENGTH
  rw [has_lor_other f _ _ (by decide : TF_SEG_OPTS_TSO &&& TF_SEG_OPTS_MSS = 0),
    has_lor_other f _ _ (by decide : TF_SEG_OPTS_TSO &&& TF_SEG_OPTS_WNDSCALE = 0),
    has_lor_other f _ _ (by decide : TF_SEG_OPTS_TSO &&& TF_SEG_OPTS_TS = 0)]

/-- The `TSO` bit of the flags word that `tcp_output_segment` passes to the
hook is the `TSO` bit of the segment. -/
theorem output_segment_flags_tso (seg : tcp_seg) (pcb1 : tcp_pcb) :
    has (output_segment_flags seg pcb1) TF_SEG_OPTS_TSO = has seg.flags TF_SEG_OPTS_TSO := by
  have e : output_segment_flags seg pcb1 &&& TF_SEG_OPTS_TSO = seg.flags &&& TF_SEG_OPTS_TSO := by
    unfold output_segment_flags
    apply Nat.eq_of_testBit_eq
    intro i
    simp only [Nat.testBit_and, Nat.testBit_or]
    by_cases hi : i = 4
    · subst hi
      have h1 : TF_SEG_OPTS_DUMMY_MSG.testBit 4 = false := by decide
      have h2 : TF_SEG_OPTS_TSO.testBit 4 = true := by decide
      have h3 : TF_SEG_OPTS_ZEROCOPY.testBit 4 = false := by decide
      have h4 : (if TCP_SEQ_LT seg.seqno pcb1.snd_nxt = true then TCP_WRITE_REXMIT else 0).testBit 4 =
          false := by
        split <;> decide
      rw [h1, h2, h3, h4]
      simp
    · have h2 : TF_SEG_OPTS_TSO.testBit i = false := by
        show (16 : Nat).testBit i = false
        rw [show (16 : Nat) = 2 ^ 4 from rfl, Nat.testBit_two_pow]
        simpa using fun h => hi h.symm
      rw [h2]
      simp
  unfold has
  rw [e]

/-- The mark that the label `err` of `tcp_tso_segment` puts on a segment
without it: `TSO` exactly when `len + optlen`, taken in 32 bits, is above
`mss`. -/
theorem mark_tso_iff (pcb : tcp_pcb) (j : tcp_seg) (h : has j.flags TF_SEG_OPTS_TSO = false) :
    (mark_tso pcb j).len = j.len ∧
    LWIP_TCP_OPT_LENGTH (mark_tso pcb j).flags = LWIP_TCP_OPT_LENGTH j.flags ∧
    (has (mark_tso pcb j).flags TF_SEG_OPTS_TSO = true ↔
      u32 (j.len + LWIP_TCP_OPT_LENGTH j.flags) > pcb.mss) := by
  unfold mark_tso
  split
  · rename_i hgt
    refine ⟨rfl, opt_length_tso _, ?_⟩
    constructor
    · intro _
      exact hgt
    · intro _
      exact has_lor_self _ _ (by decide)
  · rename_i hgt
    refine ⟨rfl, rfl, ?_⟩
    rw [h]
    constructor
    · intro hf
      cases hf
    · intro hf
      exact absurd hf hgt


/-- The `TSO` mark of a segment sent with the PCB `pcb`: set only for a
segment whose `len + optlen`, taken in 32 bits, is above `mss`, and exactly
for those when TSO is enabled on the PCB. -/
def tso_marked (pcb : tcp_pcb) (s : tcp_seg) : Prop :=
  (has s.flags TF_SEG_OPTS_TSO = true → u32 (s.len + LWIP_TCP_OPT_LENGTH s.flags) > pcb.mss) ∧
  (tcp_tso pcb ≠ 0 →
    (has s.flags TF_SEG_OPTS_TSO = true ↔
      u32 (s.len + LWIP_TCP_OPT_LENGTH s.flags) > pcb.mss))

/-- A call of the IP output hook with the right `TSO` bit: the flags word
has the bit of the segment, and the segment is `tso_marked` for the PCB of
the call.  A call without segment meets this. -/
def tso_mark_ok (c : HookCall) : Prop :=
  ∀ s, c.seg = some s →
    has c.flags TF_SEG_OPTS_TSO = has s.flags TF_SEG_OPTS_TSO ∧ tso_marked c.pcb s

theorem tso_joined_marked (pcb1 : tcp_pcb) (seg : tcp_seg) (rest : List tcp_seg) (wnd : Nat)
    (h : has seg.flags TF_SEG_OPTS_TSO = false) :
    tso_marked pcb1 (tso_joined pcb1 seg rest wnd).1 := by
  unfold tso_joined
  split
  · obtain ⟨k, j, -, -, -, -, h1, -, -, hfl, -⟩ := tcp_tso_segment_shape pcb1 seg rest wnd
    rw [h1]
    have hj : has j.flags TF_SEG_OPTS_TSO = false := by
      rw [hfl]
      exact h
    obtain ⟨e1, e2, e3⟩ := mark_tso_iff pcb1 j hj
    unfold tso_marked
    rw [e1, e2]
    exact ⟨e3.1, fun _ => e3⟩
  · rename_i hoff
    unfold tso_marked
    refine ⟨fun hf => ?_, fun hon => absurd hon hoff⟩
    rw [h] at hf
    cases hf

theorem split_head_left_flags (pcb : tcp_pcb) (seg : tcp_seg) (wnd : Nat) (head : pbuf) :
    (split_head_left pcb seg wnd head).flags = seg.flags := rfl

/-- The head segment keeps its option flags through `tcp_split_segment`. -/
theorem tcp_split_segment_flags (cfg : Config) (pcb : tcp_pcb) (w : World) (seg : tcp_seg)
    (wnd : Nat) : (tcp_split_segment cfg pcb w seg wnd).1.flags = seg.flags := by
  rcases tcp_split_segment_cases cfg pcb w seg wnd with ⟨h1, -⟩ |
    ⟨head, chain, b, oversize, pcb1, w1, newseg, pcb2, w2, -, -, -, h1, -⟩ |
    ⟨head, chain, left, right, hcl, newseg, pcb1, w1, -, -, -, -, h1, -⟩
  · rw [h1]
  · rw [h1, (tcp_seg_move_flags_fields _ _ _).1.2.2.2.1]
    rfl
  · rw [h1, (tcp_seg_move_flags_fields _ _ _).1.2.2.2.1]
    rfl

/-- The head segment that a pass of `tcp_output` has prepared carries no
`TSO` mark. -/
theorem output_prepare_unmarked (cfg : Config) (wnd : Nat) (pcb : tcp_pcb) (w : World)
    (seg0 : tcp_seg) (rest0 : List tcp_seg) :
    has (output_prepare cfg wnd pcb w seg0 rest0).1.flags TF_SEG_OPTS_TSO = false := by
  have h0 : has (unmarked seg0).flags TF_SEG_OPTS_TSO = false :=
    has_clr8_self _ _ (by decide)
  have h1 : has (prepare_rexmit pcb w (unmarked seg0)).1.flags TF_SEG_OPTS_TSO = false := by
    unfold prepare_rexmit
    dsimp only
    split
    · unfold tcp_split_rexmit
      show has (split_rexmit_loop pcb w (split_opts pcb (unmarked seg0)).1
        (split_opts pcb (unmarked seg0)).2.1 (split_opts pcb (unmarked seg0)).2.2
        { unmarked seg0 with flags := (unmarked seg0).flags ||| TF_SEG_OPTS_NOMERGE }).1.flags
        TF_SEG_OPTS_TSO = false
      rw [(split_rexmit_loop_basic _ _ _ _ _ _).2.2.1]
      show has ((unmarked seg0).flags ||| TF_SEG_OPTS_NOMERGE) TF_SEG_OPTS_TSO = false
      rw [has_lor_other _ _ _ (by decide)]
      exact h0
    · exact h0
  have e : ({ seg0 with flags := clr8 seg0.flags TF_SEG_OPTS_TSO } : tcp_seg) = unmarked seg0 := rfl
  unfold output_prepare
  simp only [e]
  unfold prepare_window
  split
  · rw [tcp_split_segment_flags]
    exact h1
  · exact h1


theorem frame_ready_mss (a b : tcp_pcb) (h : frame_ready a = frame_ready b) :
    a.mss = b.mss ∧ a.tso = b.tso := by
  have h1 := congrArg tcp_pcb.mss h
  have h2 := congrArg tcp_pcb.tso h
  exact ⟨h1, h2⟩

theorem frame_split_mss (a b : tcp_pcb) (h : frame_split a = frame_split b) :
    a.mss = b.mss ∧ a.tso = b.tso := by
  have h1 := congrArg tcp_pcb.mss h
  have h2 := congrArg tcp_pcb.tso h
  exact ⟨h1, h2⟩

theorem output_segment_pcb_mss (cfg : Config) (seg : tcp_seg) (pcb : tcp_pcb) :
    (output_segment_pcb cfg seg pcb).mss = pcb.mss ∧
    (output_segment_pcb cfg seg pcb).tso = pcb.tso := by
  unfold output_segment_pcb
  split <;> exact ⟨rfl, rfl⟩

/-- The call of the IP output hook that `tcp_output_segment` makes: it
carries the segment with its length and option flags, the PCB as updated, and
the flags word built from them. -/
theorem tcp_output_segment_call (cfg : Config) (seg : tcp_seg) (pcb : tcp_pcb) (w : World) :
    ∃ c s, (tcp_output_segment cfg seg pcb w).2.2.2.calls = w.calls ++ [c] ∧
      c.seg = some s ∧ c.pcb = output_segment_pcb cfg seg pcb ∧
      s.len = seg.len ∧ s.flags = seg.flags ∧
      c.flags = output_segment_flags seg (output_segment_pcb cfg seg pcb) := by
  unfold tcp_output_segment
  dsimp only [ip_output]
  split
  · exact ⟨_, _, rfl, rfl, rfl, rfl, rfl, rfl⟩
  · exact ⟨_, _, rfl, rfl, rfl, rfl, rfl, rfl⟩

theorem send_ready_seg (wnd : Nat) (pcb : tcp_pcb) (w : World) (seg : tcp_seg)
    (rest : List tcp_seg) :
    (send_ready wnd pcb w seg rest).1.flags =
      (tso_joined (minshall_mark pcb seg rest) seg rest wnd).1.flags ∧
    (send_ready wnd pcb w seg rest).1.len =
      (tso_joined (minshall_mark pcb seg rest) seg rest wnd).1.len := by
  unfold send_ready
  dsimp only
  split <;> exact ⟨rfl, rfl⟩

theorem tso_marked_congr (a b : tcp_pcb) (s t : tcp_seg) (hm : a.mss = b.mss) (ht : a.tso = b.tso)
    (hf : s.flags = t.flags) (hl : s.len = t.len) (h : tso_marked b t) : tso_marked a s := by
  unfold tso_marked tcp_tso at h ⊢
  rw [hm, ht, hf, hl]
  exact h

/-- Every call that the sending part of a pass adds has the right `TSO`
bit, for a head segment that came in without the mark. -/
theorem output_send_tso (cfg : Config) (wnd : Nat) (pcb : tcp_pcb) (w : World) (seg : tcp_seg)
    (rest : List tcp_seg) (h : has seg.flags TF_SEG_OPTS_TSO = false) :
    ∀ c ∈ (output_send cfg wnd pcb w seg rest).2.2.2.calls, c ∈ w.calls ∨ tso_mark_ok c := by
  unfold output_send
  split
  · exact fun c hc => Or.inl hc
  · obtain ⟨hfr, -, acks, hacks, hnone⟩ := send_ready_appends wnd pcb w seg rest
    obtain ⟨hsf, hsl⟩ := send_ready_seg wnd pcb w seg rest
    have hmk := tso_joined_marked (minshall_mark pcb seg rest) seg rest wnd h
    have hmm := frame_ready_mss _ _ (minshall_mark_frame pcb seg rest)
    split
    rename_i seg2 rest1 pcb4 w3 heq2
    rw [heq2] at hfr hacks hsf hsl
    dsimp only at hfr hacks hsf hsl ⊢
    obtain ⟨c, s, hcalls, hcs, hcp, hlen, hfl, hcf⟩ := tcp_output_segment_call cfg seg2 pcb4 w3
    have hd := send_done_quiet (tcp_output_segment cfg seg2 pcb4 w3).1
      (tcp_output_segment cfg seg2 pcb4 w3).2.1 (tcp_output_segment cfg seg2 pcb4 w3).2.2.1
      (tcp_output_segment cfg seg2 pcb4 w3).2.2.2 rest1
    intro x hx
    rw [hd.2, hcalls, hacks] at hx
    rcases List.mem_append.1 hx with h1 | h1
    · rcases List.mem_append.1 h1 with h2 | h2
      · exact Or.inl h2
      · right
        intro t ht
        rw [hnone x h2] at ht
        cases ht
    · right
      have hxc : x = c := by simpa using h1
      rw [hxc]
      intro t ht
      rw [hcs] at ht
      cases ht
      refine ⟨?_, ?_⟩
      · rw [hcf, output_segment_flags_tso, hfl]
      · have h4 := frame_ready_mss _ _ hfr
        have h5 := output_segment_pcb_mss cfg seg2 pcb4
        refine tso_marked_congr _ _ _ _ ?_ ?_ (hfl.trans hsf) (hlen.trans hsl) hmk
        · rw [hcp, h5.1, h4.1, hmm.1]
        · rw [hcp, h5.2, h4.2, hmm.2]

theorem output_pass_tso (cfg : Config) (wnd : Nat) (pcb : tcp_pcb) (w : World) (seg0 : tcp_seg)
    (rest0 : List tcp_seg) :
    ∀ c ∈ (output_pass cfg wnd pcb w seg0 rest0).2.2.2.calls, c ∈ w.calls ∨ tso_mark_ok c := by
  have hq := output_prepare_quiet cfg wnd pcb w seg0 rest0
  have hu := output_prepare_unmarked cfg wnd pcb w seg0 rest0
  unfold output_pass
  split
  rename_i seg rest pcb1 w1 heq
  rw [heq] at hq hu
  obtain ⟨-, hc⟩ := hq
  dsimp only at hc hu ⊢
  split
  · intro c hmem
    rcases output_send_tso cfg wnd pcb1 w1 seg rest hu c hmem with h | h
    · rw [hc] at h
      exact Or.inl h
    · exact Or.inr h
  · intro c hmem
    rw [← hc]
    exact Or.inl hmem

theorem tcp_output_loop_tso (cfg : Config) (wnd : Nat) :
    ∀ (fuel : Nat) (rc : err_t) (pcb : tcp_pcb) (w : World) (r : err_t × tcp_pcb × World),
      tcp_output_loop cfg wnd fuel rc pcb w = some r →
      ∀ c ∈ r.2.2.calls, c ∈ w.calls ∨ tso_mark_ok c := by
  intro fuel
  induction fuel with
  | zero =>
    intro rc pcb w r h
    simp [tcp_output_loop] at h
  | succ n ih =>
    intro rc pcb w r h
    unfold tcp_output_loop at h
    split at h
    · cases h
      exact fun c hc => Or.inl hc
    · split at h
      · cases h
        exact fun c hc => Or.inl hc
      · rename_i seg0 rest0 hu
        have hp := output_pass_tso cfg wnd pcb w seg0 rest0
        split at h
        · rename_i rc1 pcb1 w1 heq
          rw [heq] at hp
          cases h
          exact hp
        · rename_i rc1 pcb1 w1 heq
          rw [heq] at hp
          intro c hc
          rcases ih rc1 pcb1 w1 r h c hc with h1 | h1
          · exact hp c h1
          · exact Or.inr h1


/-- Claim C26: for every call of the IP output hook that `tcp_output` adds
and that carries a segment, the `TSO` bit of the flags word is the `TSO` bit
of the segment; that bit is set only if `seg.len + optlen(seg.flags) > mss`;
and when TSO is enabled on the PCB (`tso.max_payload_sz` non-zero) it is set
exactly when `seg.len + optlen(seg.flags) > mss`, for a segment whose
`seg.len + optlen(seg.flags)` is below `2^32` (the code takes the sum in 32
bits: in general the bit is set exactly when the 32-bit sum is above `mss`);
`mss` and `tso` are read from the PCB handed to the hook. -/
theorem tcp_output_tso_bit (cfg : Config) (fuel : Nat) (pcb : tcp_pcb) (w : World)
    (r : err_t × tcp_pcb × World) (h : tcp_output cfg fuel pcb w = some r) :
    ∀ c ∈ r.2.2.calls, c ∈ w.calls ∨
      ∀ s, c.seg = some s →
        has c.flags TF_SEG_OPTS_TSO = has s.flags TF_SEG_OPTS_TSO ∧
        (has s.flags TF_SEG_OPTS_TSO = true →
          s.len + LWIP_TCP_OPT_LENGTH s.flags > c.pcb.mss) ∧
        (c.pcb.tso.max_payload_sz ≠ 0 →
          s.len + LWIP_TCP_OPT_LENGTH s.flags < 4294967296 →
          (has s.flags TF_SEG_OPTS_TSO = true ↔
            s.len + LWIP_TCP_OPT_LENGTH s.flags > c.pcb.mss)) ∧
        (c.pcb.tso.max_payload_sz ≠ 0 →
          (has s.flags TF_SEG_OPTS_TSO = true ↔
            u32 (s.len + LWIP_TCP_OPT_LENGTH s.flags) > c.pcb.mss)) := by
  have key : ∀ c ∈ r.2.2.calls, c ∈ w.calls ∨ tso_mark_ok c := by
    unfold tcp_output at h
    split at h
    · cases h
      exact fun c hc => Or.inl hc
    · dsimp only at h
      split at h
      · cases h
        intro c hc
        rcases (tcp_send_empty_ack_calls (output_requeue pcb) w).2 c hc with h1 | h1
        · exact Or.inl h1
        · right
          intro s hs
          rw [h1] at hs
          cases hs
      · split at h
        · cases h
        · rename_i rc pcb2 w2 heq
          cases h
          intro c hc
          rw [output_finish_calls] at hc
          exact tcp_output_loop_tso cfg _ fuel _ _ w _ heq c hc
  intro c hc
  rcases key c hc with h1 | h1
  · exact Or.inl h1
  · right
    intro s hs
    obtain ⟨e1, e2, e3⟩ := h1 s hs
    have hle : u32 (s.len + LWIP_TCP_OPT_LENGTH s.flags) ≤ s.len + LWIP_TCP_OPT_LENGTH s.flags :=
      Nat.mod_le _ _
    refine ⟨e1, fun hf => lt_of_lt_of_le (e2 hf) hle, fun hon hlt => ?_, e3⟩
    have he : u32 (s.len + LWIP_TCP_OPT_LENGTH s.flags) = s.len + LWIP_TCP_OPT_LENGTH s.flags :=
      Nat.mod_eq_of_lt hlt
    rw [← he]
    exact e3 hon

/-- Witness for C26: on the connection with TSO and unsent segments of
1000, 1000 and 500 bytes (`mss = 1000`), the first call carries the joined
segment of 2000 bytes with the `TSO` bit and the second the segment of 500
bytes without it. -/
theorem tcp_output_tso_bit_witness :
    tcp_output cfg_push 5 pcb_three world_ok = some run_three ∧
    (∀ c ∈ run_three.2.2.calls, c ∈ world_ok.calls ∨
      ∀ s, c.seg = some s →
        has c.flags TF_SEG_OPTS_TSO = has s.flags TF_SEG_OPTS_TSO ∧
        (has s.flags TF_SEG_OPTS_TSO = true →
          s.len + LWIP_TCP_OPT_LENGTH s.flags > c.pcb.mss) ∧
        (c.pcb.tso.max_payload_sz ≠ 0 →
          s.len + LWIP_TCP_OPT_LENGTH s.flags < 4294967296 →
          (has s.flags TF_SEG_OPTS_TSO = true ↔
            s.len + LWIP_TCP_OPT_LENGTH s.flags > c.pcb.mss)) ∧
        (c.pcb.tso.max_payload_sz ≠ 0 →
          (has s.flags TF_SEG_OPTS_TSO = true ↔
            u32 (s.len + LWIP_TCP_OPT_LENGTH s.flags) > c.pcb.mss))) ∧
    run_three.2.2.calls.map (fun c =>
        (c.seg.map (fun s => (s.len, has s.flags TF_SEG_OPTS_TSO,
            decide (s.len + LWIP_TCP_OPT_LENGTH s.flags < 4294967296))),
          has c.flags TF_SEG_OPTS_TSO, c.pcb.mss, c.pcb.tso.max_payload_sz)) =
      [(some (2000, true, true), true, 1000, 10000),
       (some (500, false, true), false, 1000, 10000)] :=
  ⟨by decide, tcp_output_tso_bit cfg_push 5 pcb_three world_ok run_three (by decide), by decide⟩


/-! ## Writes with `TCP_WRITE_DUMMY` -/

/-- The measure that falls with every pass of phase 3. -/
def write_measure (s : write_state) : Nat :=
  TCP_SNDQUEUELEN_OVERFLOW + 2 - (if s.queuelen ≤ TCP_SNDQUEUELEN_OVERFLOW then s.queuelen + 1 else 0)

/-- A connection with the timestamp option on whose size goal equals the 12
option bytes (`snd_wnd_max / 2 = 12`), so that a new segment has no room for
data; at most 3 buffers may be queued. -/
def pcb_ts_zero : tcp_pcb :=
  { pcb_idle with flags := TF_NODELAY ||| TF_TIMESTAMP, snd_wnd_max := 24, max_unsent_len := 3 }

theorem write_pass_measure (c : write_ctx) (s s1 : write_state) (h : write_pass c s = Sum.inr s1) :
    write_measure s1 < write_measure s := by
  have hq := write_pass_queuelen c s s1 h
  unfold write_measure
  simp only [u32, TCP_SNDQUEUELEN_OVERFLOW] at hq ⊢
  split <;> split <;> omega

/-- Enough passes: the bounded loop returns what `tcp_write_segments`
returns as soon as the number of passes allowed exceeds the measure. -/
theorem tcp_write_segments_fuel_enough (n : Nat) (c : write_ctx) (s : write_state)
    (h : write_measure s < n) :
    tcp_write_segments_fuel n c s = some (tcp_write_segments c s) := by
  induction n generalizing s with
  | zero => omega
  | succ n ih =>
    rw [tcp_write_segments, tcp_write_segments_fuel]
    split
    · rename_i r heq
      rw [heq]
    · rename_i s1 heq
      rw [heq]
      have hm := write_pass_measure c s s1 heq
      exact ih s1 (by omega)

/-- A pass of phase 3 that goes on has cut `seglen` bytes, has raised the
local queue length by one, and has kept it within `max_unsent_len`. -/
theorem write_pass_progress (c : write_ctx) (s s1 : write_state) (h : write_pass c s = Sum.inr s1) :
    s.pos < c.len ∧ s1.pos = u32 (s.pos + write_seglen c s) ∧
    s1.queuelen = u32 (s.queuelen + 1) ∧ s1.queuelen ≤ s.pcb.max_unsent_len ∧
    s1.queuelen ≤ TCP_SNDQUEUELEN_OVERFLOW := by
  unfold write_pass at h
  split at h
  · rename_i hpos
    split at h
    · cases h
    · rename_i b ov pcb1 w1 hpre
      have hfr := tcp_pbuf_prealloc_frame c.cfg s.pcb s.w (write_seglen c s + c.optlen)
        (write_max_len c s) c.type TCP_WRITE_FLAG_MORE (decide (s.queue = []))
      rw [hpre] at hfr
      have hmax : pcb1.max_unsent_len = s.pcb.max_unsent_len := by
        have h1 := congrArg tcp_pcb.max_unsent_len hfr
        exact h1
      split at h
      · cases h
      · split at h
        · cases h
        · rename_i hq
          split at h
          · cases h
          · cases h
            refine ⟨hpos, rfl, rfl, ?_, ?_⟩
            · simp only [pbuf_clen, List.length_singleton, not_or, not_lt, gt_iff_lt] at hq ⊢
              rw [← hmax]
              exact hq.1
            · simp only [pbuf_clen, List.length_singleton, not_or, not_lt, gt_iff_lt] at hq ⊢
              exact hq.2
  · cases h

/-- C38: `tcp_write` terminates for every PCB, length and flag combination:
the loop of phase 3 run for `TCP_SNDQUEUELEN_OVERFLOW + 3` passes at most
returns what `tcp_write` returns; every pass that goes on has raised the
local queue length by one and left it within `max_unsent_len` and the
overflow sentinel (so the passes are bounded even when they cut no byte);
and with a size goal equal to the option length, where a pass cuts no byte,
the call ends with `ERR_MEM` once the queue length passes `max_unsent_len`. -/
theorem tcp_write_terminates (cfg : Config) (pcb : tcp_pcb) (w : World) (arg : Int)
    (len apiflags : Nat) :
    tcp_write_fuel (TCP_SNDQUEUELEN_OVERFLOW + 3) cfg pcb w arg len apiflags =
      some (tcp_write cfg pcb w arg len apiflags) ∧
    (∀ (c : write_ctx) (s s1 : write_state), write_pass c s = Sum.inr s1 →
      s1.queuelen = u32 (s.queuelen + 1) ∧ s1.queuelen ≤ s.pcb.max_unsent_len ∧
      s1.queuelen ≤ TCP_SNDQUEUELEN_OVERFLOW ∧ write_measure s1 < write_measure s) ∧
    Sum.elim (fun _ => none)
      (fun ct : write_ctx × tail_state =>
        some (ct.1.mss_local_minus_opts, write_seglen ct.1 (write_init ct.2)))
      (tcp_write_begin cfg_push pcb_ts_zero world_ok 1 100 TCP_WRITE_FLAG_COPY) = some (0, 0) ∧
    (tcp_write cfg_push pcb_ts_zero world_ok 1 100 TCP_WRITE_FLAG_COPY).1 = err_t.ERR_MEM := by
  refine ⟨?_, ?_, by decide, ?_⟩
  · unfold tcp_write_fuel tcp_write
    cases hb : tcp_write_begin cfg pcb w arg len apiflags with
    | inl r => rfl
    | inr ct =>
      obtain ⟨c, t⟩ := ct
      dsimp only
      rw [tcp_write_segments_fuel_enough _ c (write_init t)
        (by unfold write_measure; simp only [TCP_SNDQUEUELEN_OVERFLOW]; split <;> omega)]
      rfl
  · intro c s s1 h
    have hp := write_pass_progress c s s1 h
    exact ⟨hp.2.2.1, hp.2.2.2.1, hp.2.2.2.2, write_pass_measure c s s1 h⟩
  · exact tcp_write_observe (fun r => r.1) 10 cfg_push pcb_ts_zero world_ok 1 100
      TCP_WRITE_FLAG_COPY err_t.ERR_MEM (by decide)

/-! ## The send-buffer bound -/

/-- The quantity `snd_buf + (snd_lbb - lastack)` that the send-buffer bound
compares with `max_snd_buff`; the difference is taken in 32 bits. -/
def snd_bound (pcb : tcp_pcb) : Nat := pcb.snd_buf + sub32 pcb.snd_lbb pcb.lastack

/-- The PCB that a successful `tcp_write` commits differs from the PCB of
the call, apart from the fields of `frame_write`, in what the commit sets. -/
theorem tcp_write_ok_frame (cfg : Config) (pcb : tcp_pcb) (w : World) (arg : Int)
    (len apiflags : Nat) (hok : (tcp_write cfg pcb w arg len apiflags).1 = err_t.ERR_OK) :
    ∃ t s, (tcp_write cfg pcb w arg len apiflags).2.1 = tcp_write_commit cfg t s len ∧
      frame_write s.pcb = frame_write pcb ∧ (len = 0 ∨ len ≤ pcb.snd_buf) := by
  obtain ⟨c, t, s, hb, hs, hw⟩ := tcp_write_ok_shape cfg pcb w arg len apiflags hok
  have hbi := tcp_write_begin_inr cfg pcb w arg len apiflags c t hb
  refine ⟨t, s, by rw [hw], ?_, hbi.2.1⟩
  have h1 := tcp_write_tail_frame cfg (write_sml_add pcb len apiflags) w arg len apiflags
    (write_mss_local cfg pcb apiflags)
    (if has apiflags TCP_WRITE_ZEROCOPY then pbuf_type.PBUF_ZEROCOPY else pbuf_type.PBUF_RAM)
  rw [hbi.2.2.1] at h1
  have h2 := (tcp_write_segments_frame c (write_init t)).1
  rw [hs] at h2
  have h3 : frame_write s.pcb = frame_write t.pcb := frame_write_of_frame_alloc _ _ h2
  exact h3.trans (h1.trans (write_sml_add_frame_write pcb len apiflags))

theorem snd_bound_write (buf lbb lastack len : Nat) (hb : buf < 4294967296)
    (hl : len = 0 ∨ len ≤ buf) :
    sub32 buf len + sub32 (add32 lbb len) lastack ≤ buf + sub32 lbb lastack := by
  unfold sub32 add32
  omega

theorem snd_bound_enqueue (lbb lastack : Nat) :
    sub32 (add32 lbb 1) lastack ≤ sub32 lbb lastack + 1 := by
  unfold sub32 add32
  omega

/-- C37, counterexample: on a connection whose send buffer is untouched
(`snd_buf = max_snd_buff = 100000`, `snd_lbb = lastack`) the bound holds with
equality; `tcp_enqueue_flags` with `FIN` succeeds, advances `snd_lbb` by one
and leaves `snd_buf`, so that `snd_buf + (snd_lbb - lastack)` is 100001 and
the bound no longer holds. -/
theorem tcp_enqueue_flags_passes_bound :
    snd_bound pcb_idle ≤ pcb_idle.max_snd_buff ∧
    (tcp_enqueue_flags cfg_push pcb_idle world_ok TCP_FIN).1 = err_t.ERR_OK ∧
    snd_bound (tcp_enqueue_flags cfg_push pcb_idle world_ok TCP_FIN).2.1 = 100001 ∧
    (tcp_enqueue_flags cfg_push pcb_idle world_ok TCP_FIN).2.1.max_snd_buff = 100000 ∧
    ¬ snd_bound (tcp_enqueue_flags cfg_push pcb_idle world_ok TCP_FIN).2.1 ≤
        (tcp_enqueue_flags cfg_push pcb_idle world_ok TCP_FIN).2.1.max_snd_buff := by
  decide

/-- C37, amended: with `snd_buf` a 32-bit value, a successful `tcp_write` of
any length does not raise `snd_buf + (snd_lbb - lastack)` and leaves
`lastack` and `max_snd_buff` alone, so it preserves the send-buffer bound; a
successful `tcp_enqueue_flags` leaves `snd_buf`, `lastack` and
`max_snd_buff` alone and raises the sum by at most one, so it preserves the
bound when the sum was below `max_snd_buff`. -/
theorem send_buffer_bound (cfg : Config) (pcb : tcp_pcb) (w : World) (arg : Int)
    (len apiflags flags : Nat) (hb : pcb.snd_buf < 4294967296) :
    ((tcp_write cfg pcb w arg len apiflags).1 = err_t.ERR_OK →
      snd_bound (tcp_write cfg pcb w arg len apiflags).2.1 ≤ snd_bound pcb ∧
      (tcp_write cfg pcb w arg len apiflags).2.1.max_snd_buff = pcb.max_snd_buff ∧
      (tcp_write cfg pcb w arg len apiflags).2.1.lastack = pcb.lastack ∧
      (snd_bound pcb ≤ pcb.max_snd_buff →
        snd_bound (tcp_write cfg pcb w arg len apiflags).2.1 ≤
          (tcp_write cfg pcb w arg len apiflags).2.1.max_snd_buff)) ∧
    ((tcp_enqueue_flags cfg pcb w flags).1 = err_t.ERR_OK →
      snd_bound (tcp_enqueue_flags cfg pcb w flags).2.1 ≤ snd_bound pcb + 1 ∧
      (tcp_enqueue_flags cfg pcb w flags).2.1.snd_buf = pcb.snd_buf ∧
      (tcp_enqueue_flags cfg pcb w flags).2.1.max_snd_buff = pcb.max_snd_buff ∧
      (tcp_enqueue_flags cfg pcb w flags).2.1.lastack = pcb.lastack ∧
      (snd_bound pcb < pcb.max_snd_buff →
        snd_bound (tcp_enqueue_flags cfg pcb w flags).2.1 ≤
          (tcp_enqueue_flags cfg pcb w flags).2.1.max_snd_buff)) := by
  constructor
  · intro hok
    obtain ⟨t, s, hw, hfr, hlen⟩ := tcp_write_ok_frame cfg pcb w arg len apiflags hok
    have hbuf : s.pcb.snd_buf = pcb.snd_buf := by
      have h := congrArg tcp_pcb.snd_buf hfr
      exact h
    have hlbb : s.pcb.snd_lbb = pcb.snd_lbb := by
      have h := congrArg tcp_pcb.snd_lbb hfr
      exact h
    have hack : s.pcb.lastack = pcb.lastack := by
      have h := congrArg tcp_pcb.lastack hfr
      exact h
    have hmax : s.pcb.max_snd_buff = pcb.max_snd_buff := by
      have h := congrArg tcp_pcb.max_snd_buff hfr
      exact h
    have hsum : snd_bound (tcp_write cfg pcb w arg len apiflags).2.1 ≤ snd_bound pcb := by
      rw [hw]
      show sub32 s.pcb.snd_buf len + sub32 (add32 s.pcb.snd_lbb len) s.pcb.lastack ≤ _
      rw [hbuf, hlbb, hack]
      exact snd_bound_write _ _ _ _ hb hlen
    have hm : (tcp_write cfg pcb w arg len apiflags).2.1.max_snd_buff = pcb.max_snd_buff := by
      rw [hw]
      exact hmax
    refine ⟨hsum, hm, ?_, ?_⟩
    · rw [hw]
      exact hack
    · intro h
      rw [hm]
      exact le_trans hsum h
  · intro hok
    obtain ⟨seg, pcb2, w2, he, hfr, -⟩ := tcp_enqueue_flags_ok cfg pcb w flags hok
    have hbuf : pcb2.snd_buf = pcb.snd_buf := by
      have h := congrArg tcp_pcb.snd_buf hfr
      exact h
    have hlbb : pcb2.snd_lbb = pcb.snd_lbb := by
      have h := congrArg tcp_pcb.snd_lbb hfr
      exact h
    have hack : pcb2.lastack = pcb.lastack := by
      have h := congrArg tcp_pcb.lastack hfr
      exact h
    have hmax : pcb2.max_snd_buff = pcb.max_snd_buff := by
      have h := congrArg tcp_pcb.max_snd_buff hfr
      exact h
    have hfields : (enqueue_commit pcb2 seg flags).snd_buf = pcb2.snd_buf ∧
        (enqueue_commit pcb2 seg flags).max_snd_buff = pcb2.max_snd_buff ∧
        (enqueue_commit pcb2 seg flags).lastack = pcb2.lastack ∧
        ((enqueue_commit pcb2 seg flags).snd_lbb = pcb2.snd_lbb ∨
         (enqueue_commit pcb2 seg flags).snd_lbb = add32 pcb2.snd_lbb 1) := by
      unfold enqueue_commit
      dsimp only
      split_ifs <;> simp
    rw [he]
    dsimp only
    have hsum : snd_bound (enqueue_commit pcb2 seg flags) ≤ snd_bound pcb + 1 := by
      unfold snd_bound
      rw [hfields.1, hfields.2.2.1, hbuf, hack]
      rcases hfields.2.2.2 with h | h
      · rw [h, hlbb]
        omega
      · rw [h, hlbb]
        have := snd_bound_enqueue pcb.snd_lbb pcb.lastack
        omega
    refine ⟨hsum, by rw [hfields.1, hbuf], by rw [hfields.2.1, hmax],
      by rw [hfields.2.2.1, hack], ?_⟩
    intro h
    rw [hfields.2.1, hmax]
    omega

/-- C37, witness: the amended statement at the idle connection, for a write of
100 bytes and for a `FIN`. -/
theorem send_buffer_bound_witness :
    pcb_idle.snd_buf < 4294967296 ∧
    (tcp_write cfg_push pcb_idle world_ok 1 100 TCP_WRITE_FLAG_COPY).1 = err_t.ERR_OK ∧
    snd_bound (tcp_write cfg_push pcb_idle world_ok 1 100 TCP_WRITE_FLAG_COPY).2.1 ≤
      snd_bound pcb_idle ∧
    (tcp_enqueue_flags cfg_push pcb_idle world_ok TCP_FIN).1 = err_t.ERR_OK ∧
    snd_bound (tcp_enqueue_flags cfg_push pcb_idle world_ok TCP_FIN).2.1 ≤ snd_bound pcb_idle + 1 := by
  have hw : (tcp_write cfg_push pcb_idle world_ok 1 100 TCP_WRITE_FLAG_COPY).1 = err_t.ERR_OK :=
    tcp_write_observe (fun r => r.1) 5 cfg_push pcb_idle world_ok 1 100 TCP_WRITE_FLAG_COPY
      err_t.ERR_OK (by decide)
  have he : (tcp_enqueue_flags cfg_push pcb_idle world_ok TCP_FIN).1 = err_t.ERR_OK := by decide
  have h := send_buffer_bound cfg_push pcb_idle world_ok 1 100 TCP_WRITE_FLAG_COPY TCP_FIN
    (by decide)
  exact ⟨by decide, hw, (h.1 hw).1, he, (h.2 he).1⟩

/-! ## The window test `tcp_is_wnd_available` -/

/-- The idle connection with the timestamp option on. -/
def pcb_ts : tcp_pcb := { pcb_idle with flags := TF_NODELAY ||| TF_TIMESTAMP }

/-- C40: `tcp_is_wnd_available` is not monotone in `data_len`.  With the
timestamp option on, a window of 5000 bytes and empty queues, 100 bytes fit
(the overhead is 12 bytes) but 0 bytes do not: `data_len - 1` wraps to
`2^32 - 1` and the overhead becomes `12 * (1 + 4294967)`.  Without
timestamps, `2^32 - 1` bytes fit the same window, since `(s32_t)data_len` is
`-1`, but 5001 bytes do not.  The divisor of the overhead is never 0. -/
theorem tcp_is_wnd_available_not_monotone :
    tcp_is_wnd_available pcb_ts 100 = 1 ∧ wnd_opts_hdrs_len pcb_ts 100 = 12 ∧
    tcp_is_wnd_available pcb_ts 0 = 0 ∧ wnd_opts_hdrs_len pcb_ts 0 = 51539616 ∧
    tcp_is_wnd_available pcb_idle 4294967295 = 1 ∧ tcp_is_wnd_available pcb_idle 5001 = 0 ∧
    (∀ pcb : tcp_pcb,
      (if u16 (min pcb.mss (pcb.snd_wnd_max / 2)) ≠ 0 then u16 (min pcb.mss (pcb.snd_wnd_max / 2))
       else if pcb.mss ≠ 0 then pcb.mss else LWIP_TCP_MSS) ≠ 0) := by
  refine ⟨by decide, by decide, by decide, by decide, by decide, by decide, ?_⟩
  intro pcb
  split
  · assumption
  · split
    · assumption
    · decide

/-! ## The per-call size goal of `tcp_write` -/

/-- The size goal as the specification words it, over the natural numbers:
`lwip_zc_tx_size` for a zero-copy write, otherwise
`min(snd_wnd_max / 2, max(mss, timestamp floor, TSO buffer size))`, where the
timestamp floor `LWIP_TCP_OPT_LEN_TS + 1` counts when `TF_TIMESTAMP` is set
and `tso.max_buf_sz` counts when TSO is on and it is not 0. -/
def mss_local_spec (cfg : Config) (pcb : tcp_pcb) (apiflags : Nat) : Nat :=
  if has apiflags TCP_WRITE_ZEROCOPY then cfg.lwip_zc_tx_size
  else
    min (pcb.snd_wnd_max / 2)
      (max pcb.mss
        (max (if has pcb.flags TF_TIMESTAMP then LWIP_TCP_OPT_LEN_TS + 1 else 0)
          (if tcp_tso pcb ≠ 0 ∧ pcb.tso.max_buf_sz ≠ 0 then pcb.tso.max_buf_sz else 0)))

/-- A TSO connection whose buffer size `tso.max_buf_sz = 70000` does not fit
16 bits; the peer has announced a window of 100000 bytes. -/
def pcb_tso_wide : tcp_pcb := { pcb_tso 70000 with snd_wnd_max := 100000 }

/-- The segments on `unsent` after a write, as `(seqno, len)` pairs, with
the value returned. -/
def unsent_view (r : err_t × tcp_pcb × World) : err_t × List (Nat × Nat) :=
  (r.1, r.2.1.unsent.map seg_view)

/-- Within 16 bits the size goal of `tcp_write` is the one of the
specification. -/
theorem write_mss_local_spec (cfg : Config) (pcb : tcp_pcb) (apiflags : Nat)
    (hmss : pcb.mss < 65536) (hbuf : pcb.tso.max_buf_sz < 65536)
    (hzc : cfg.lwip_zc_tx_size < 65536) :
    write_mss_local cfg pcb apiflags = mss_local_spec cfg pcb apiflags := by
  unfold write_mss_local mss_local_spec tcp_xmit_size_goal u16 LWIP_TCP_OPT_LEN_TS
  dsimp only
  by_cases hz : has apiflags TCP_WRITE_ZEROCOPY = true
  · rw [if_pos hz, if_pos hz]
    omega
  · rw [if_neg hz, if_neg hz]
    simp only [decide_eq_true_eq, Bool.decide_and, Bool.and_eq_true, ne_eq, decide_not,
      Bool.not_eq_true', decide_eq_false_iff_not, true_and]
    split_ifs <;> omega

/-- C35: the size goal of `tcp_write` is not the natural-number formula for
all field values.  On a TSO connection with `mss = 1000`,
`tso.max_buf_sz = 70000` and `snd_wnd_max = 100000` the formula gives
`min(50000, 70000) = 50000`, but `tcp_xmit_size_goal` stores
`max(1000, 70000)` in its 16-bit `size` (4464) before taking the minimum, and
a copying write of 5000 bytes is cut into segments of 4464 and 536 bytes.
A zero-copy write with `lwip_zc_tx_size = 70000` uses 4464 likewise.  The
two agree when `mss`, `tso.max_buf_sz` and `lwip_zc_tx_size` fit 16 bits. -/
theorem tcp_xmit_size_goal_truncates :
    mss_local_spec cfg_push pcb_tso_wide TCP_WRITE_FLAG_COPY = 50000 ∧
    write_mss_local cfg_push pcb_tso_wide TCP_WRITE_FLAG_COPY = 4464 ∧
    tcp_xmit_size_goal pcb_tso_wide true = 4464 ∧
    unsent_view (tcp_write cfg_push pcb_tso_wide world_ok 1 5000 TCP_WRITE_FLAG_COPY) =
      (err_t.ERR_OK, [(5000, 4464), (9464, 536)]) ∧
    mss_local_spec { cfg_push with lwip_zc_tx_size := 70000 } pcb_idle TCP_WRITE_ZEROCOPY = 70000 ∧
    write_mss_local { cfg_push with lwip_zc_tx_size := 70000 } pcb_idle TCP_WRITE_ZEROCOPY = 4464 ∧
    (∀ (cfg : Config) (pcb : tcp_pcb) (apiflags : Nat), pcb.mss < 65536 →
      pcb.tso.max_buf_sz < 65536 → cfg.lwip_zc_tx_size < 65536 →
      write_mss_local cfg pcb apiflags = mss_local_spec cfg pcb apiflags) := by
  refine ⟨by decide, by decide, by decide, ?_, by decide, by decide, write_mss_local_spec⟩
  exact tcp_write_observe unsent_view 5 cfg_push pcb_tso_wide world_ok 1 5000 TCP_WRITE_FLAG_COPY
    (err_t.ERR_OK, [(5000, 4464), (9464, 536)]) (by decide)

/-! ## The size that `tcp_write` asks of the allocator -/

/-- The size `alloc` that `tcp_pbuf_prealloc` asks for when its flag
`tcp_write_flag_more` is set: the needed `length` rounded up to
`min(max_length, align(length + tcp_oversize_val))` when it is below
`max_length`, `length` otherwise (all on 16 bits). -/
def oversize_request (cfg : Config) (pcb : tcp_pcb) (length max_length : Nat) : Nat :=
  if u16 length < u16 max_length then
    u16 (min (u16 max_length)
      (LWIP_MEM_ALIGN_SIZE cfg.mem_alignment (u16 length + pcb.tcp_oversize_val)))
  else u16 length

/-- The condition "Nagle would defer this segment" of `tcp_pbuf_prealloc`. -/
def nagle_defers (pcb : tcp_pcb) (first_seg : Bool) : Prop :=
  ¬ has pcb.flags TF_NODELAY ∧ (¬ first_seg ∨ pcb.unsent ≠ [] ∨ pcb.unacked ≠ [])

instance (pcb : tcp_pcb) (first_seg : Bool) : Decidable (nagle_defers pcb first_seg) :=
  inferInstanceAs
    (Decidable (¬ has pcb.flags TF_NODELAY ∧ (¬ first_seg ∨ pcb.unsent ≠ [] ∨ pcb.unacked ≠ [])))

/-- What `tcp_pbuf_prealloc` makes of the answer of the allocator: the
buffer trimmed to `length`, with the bytes beyond `length` as `oversize`. -/
def prealloc_trim (length : Nat) (r : Option pbuf × tcp_pcb × World) :
    Option (pbuf × Nat) × tcp_pcb × World :=
  match r with
  | (none, pcb1, w1) => (none, pcb1, w1)
  | (some b, pcb1, w1) =>
    (some ({ b with len := u16 length, tot_len := u16 length }, u16 (sub32 b.len (u16 length))),
      pcb1, w1)

/-- The unsent queue's spare room after a write, with the value returned. -/
def oversize_view (r : err_t × tcp_pcb × World) : err_t × Nat := (r.1, r.2.1.unsent_oversize)

/-- With a non-zero flag `tcp_write_flag_more`, `tcp_pbuf_prealloc` asks the
allocator for `oversize_request` bytes, whatever `TF_NODELAY`, the queues and
`first_seg`. -/
theorem tcp_pbuf_prealloc_more (cfg : Config) (pcb : tcp_pcb) (w : World) (length max_length : Nat)
    (t : pbuf_type) (more : Nat) (first_seg : Bool) (hmore : more ≠ 0) :
    tcp_pbuf_prealloc cfg pcb w length max_length t more first_seg =
      prealloc_trim length
        (tcp_tx_pbuf_alloc pcb w (oversize_request cfg pcb length max_length) t) := by
  unfold tcp_pbuf_prealloc oversize_request prealloc_trim
  simp only [hmore, ne_eq, not_false_eq_true, true_or, if_true]

/-- With the flag `tcp_write_flag_more` at 0, `tcp_pbuf_prealloc` asks for
the rounded-up size only when Nagle would defer the segment, and for exactly
`length` bytes otherwise. -/
theorem tcp_pbuf_prealloc_plain (cfg : Config) (pcb : tcp_pcb) (w : World) (length max_length : Nat)
    (t : pbuf_type) (first_seg : Bool) :
    tcp_pbuf_prealloc cfg pcb w length max_length t 0 first_seg =
      prealloc_trim length
        (tcp_tx_pbuf_alloc pcb w
          (if nagle_defers pcb first_seg then oversize_request cfg pcb length max_length
           else u16 length) t) := by
  unfold tcp_pbuf_prealloc oversize_request prealloc_trim
  simp only [ne_eq, not_true_eq_false, false_or]
  by_cases hd : nagle_defers pcb first_seg
  · have hd1 : ¬ has pcb.flags TF_NODELAY = true ∧
        (¬ first_seg = true ∨ ¬ pcb.unsent = [] ∨ ¬ pcb.unacked = []) := hd
    rw [if_pos hd, if_pos hd1]
  · have hd1 : ¬ (¬ has pcb.flags TF_NODELAY = true ∧
        (¬ first_seg = true ∨ ¬ pcb.unsent = [] ∨ ¬ pcb.unacked = [])) := hd
    rw [if_neg hd, if_neg hd1]
    simp only [ite_self]

/-- C36, counterexample: on a `TF_NODELAY` connection with empty queues a
copying write of 100 bytes without `TCP_WRITE_FLAG_MORE` asks the allocator
for `min(1000, align(100 + 1000)) = 1000` bytes and leaves
`unsent_oversize = 900`. -/
theorem tcp_write_nodelay_leaves_oversize :
    has pcb_idle.flags TF_NODELAY = true ∧ has TCP_WRITE_FLAG_COPY TCP_WRITE_FLAG_MORE = false ∧
    pcb_idle.unsent = [] ∧ pcb_idle.unacked = [] ∧
    oversize_request cfg_push pcb_idle 100 1000 = 1000 ∧
    oversize_view (tcp_write cfg_push pcb_idle world_ok 1 100 TCP_WRITE_FLAG_COPY) =
      (err_t.ERR_OK, 900) := by
  refine ⟨by decide, by decide, rfl, rfl, by decide, ?_⟩
  exact tcp_write_observe oversize_view 5 cfg_push pcb_idle world_ok 1 100 TCP_WRITE_FLAG_COPY
    (err_t.ERR_OK, 900) (by decide)

/-- C36, amended: `tcp_write` passes the constant `TCP_WRITE_FLAG_MORE` to
`tcp_pbuf_prealloc`, so every buffer it allocates is asked of the allocator
with `oversize_request` bytes — `min(max_length, align(length +
tcp_oversize_val))` when `length < max_length`, `length` otherwise —
whatever the caller's flags, `TF_NODELAY` and the queues: in a pass of
phase 3 that adds a segment, and in phase 2 when a buffer is chained to the
tail, the allocator was asked for that size and the local `oversize` is what
the buffer holds beyond `length`; a successful write stores the last such
`oversize` in `unsent_oversize`.  The Nagle condition decides only for a
caller that passes 0 (`tcp_split_segment`). -/
theorem tcp_write_oversize_request :
    (∀ (c : write_ctx) (s s1 : write_state), write_pass c s = Sum.inr s1 →
      ∃ b pcb1 w1,
        tcp_tx_pbuf_alloc s.pcb s.w
          (oversize_request c.cfg s.pcb (write_seglen c s + c.optlen) (write_max_len c s))
          c.type = (some b, pcb1, w1) ∧
        s1.oversize = u16 (sub32 b.len (u16 (write_seglen c s + c.optlen)))) ∧
    (∀ (cfg : Config) (pcb : tcp_pcb) (w : World) (arg : Int) (len apiflags mss_local : Nat)
        (type : pbuf_type) (t : tail_state) (last : tcp_seg) (p : pbuf),
      tcp_write_tail cfg pcb w arg len apiflags mss_local type = (true, t) →
      queue_tail pcb.unsent = some last → t.concat_p = some p →
      ∃ b pcb1 w1,
        tcp_tx_pbuf_alloc (tail_fix pcb last type) w
          (oversize_request cfg (tail_fix pcb last type)
            (tail_seglen (tail_fix pcb last type) len apiflags (tail_space mss_local last type))
            (tail_space_left (tail_fix pcb last type) len apiflags
              (tail_space mss_local last type))) type = (some b, pcb1, w1) ∧
        t.oversize = u16 (sub32 b.len (u16 (tail_seglen (tail_fix pcb last type) len apiflags
          (tail_space mss_local last type))))) ∧
    (∀ (cfg : Config) (t : tail_state) (s : write_state) (len : Nat),
      (tcp_write_commit cfg t s len).unsent_oversize = s.oversize) ∧
    (∀ (cfg : Config) (pcb : tcp_pcb) (w : World) (length max_length : Nat) (t : pbuf_type)
        (first_seg : Bool),
      tcp_pbuf_prealloc cfg pcb w length max_length t 0 first_seg =
        prealloc_trim length
          (tcp_tx_pbuf_alloc pcb w
            (if nagle_defers pcb first_seg then oversize_request cfg pcb length max_length
             else u16 length) t)) := by
  refine ⟨?_, ?_, fun _ _ _ _ => rfl, tcp_pbuf_prealloc_plain⟩
  · intro c s s1 h
    unfold write_pass at h
    split at h
    · rw [tcp_pbuf_prealloc_more _ _ _ _ _ _ _ _ (by decide)] at h
      cases ha : tcp_tx_pbuf_alloc s.pcb s.w
          (oversize_request c.cfg s.pcb (write_seglen c s + c.optlen) (write_max_len c s))
          c.type with
      | mk o rest =>
        obtain ⟨pcb1, w1⟩ := rest
        cases o with
        | none =>
          rw [ha] at h
          simp [prealloc_trim] at h
        | some b =>
          refine ⟨b, pcb1, w1, rfl, ?_⟩
          rw [ha] at h
          simp only [prealloc_trim] at h
          split at h
          · cases h
          · split at h
            · cases h
            · split at h
              · cases h
              · cases h
                rfl
    · cases h
  · intro cfg pcb w arg len apiflags mss_local type t last p h hq hp
    unfold tcp_write_tail at h
    rw [hq] at h
    dsimp only at h
    split at h
    · rw [tcp_pbuf_prealloc_more _ _ _ _ _ _ _ _ (by decide)] at h
      cases ha : tcp_tx_pbuf_alloc (tail_fix pcb last type) w
          (oversize_request cfg (tail_fix pcb last type)
            (tail_seglen (tail_fix pcb last type) len apiflags (tail_space mss_local last type))
            (tail_space_left (tail_fix pcb last type) len apiflags
              (tail_space mss_local last type))) type with
      | mk o rest =>
        obtain ⟨pcb1, w1⟩ := rest
        cases o with
        | none =>
          rw [ha] at h
          simp [prealloc_trim] at h
        | some b =>
          refine ⟨b, pcb1, w1, rfl, ?_⟩
          rw [ha] at h
          simp only [prealloc_trim, Prod.mk.injEq, true_and] at h
          rw [← h]
    · simp only [Prod.mk.injEq, true_and] at h
      rw [← h] at hp
      cases hp

/-! ## A split that cannot allocate -/

/-- Hooks whose record allocator is exhausted. -/
def world_noseg : World := { world_ok with seg_allocs := [] }

/-- Hooks whose buffer allocator is exhausted. -/
def world_nobuf : World := { world_ok with pbuf_allocs := [] }

/-- A call of `tcp_split_segment` that makes no new segment returns the
segment it was given and a PCB that differs from the one of the call in the
prefetch slots at most. -/
theorem tcp_split_segment_none (cfg : Config) (pcb : tcp_pcb) (w : World) (seg : tcp_seg)
    (wnd : Nat) (h : (tcp_split_segment cfg pcb w seg wnd).2.1 = []) :
    (tcp_split_segment cfg pcb w seg wnd).1 = seg ∧
    frame_alloc (tcp_split_segment cfg pcb w seg wnd).2.2.1 = frame_alloc pcb := by
  unfold tcp_split_segment at h ⊢
  split
  · exact ⟨rfl, rfl⟩
  · rename_i head chain hp
    rw [hp] at h
    dsimp only at h
    split
    · exact ⟨rfl, rfl⟩
    · rename_i hgo
      rw [if_neg hgo] at h
      dsimp only at h ⊢
      split
      · rename_i hbig
        rw [if_pos hbig] at h
        split
        · rename_i pcb1 w1 h1
          exact ⟨rfl, (congrArg (fun r => frame_alloc r.2.1) h1).symm.trans
            (tcp_pbuf_prealloc_frame _ _ _ _ _ _ _ _)⟩
        · rename_i b oversize pcb1 w1 h1
          have hf1 : frame_alloc pcb1 = frame_alloc pcb :=
            (congrArg (fun r => frame_alloc r.2.1) h1).symm.trans
              (tcp_pbuf_prealloc_frame _ _ _ _ _ _ _ _)
          rw [h1] at h
          dsimp only at h
          split
          · rename_i pcb2 w2 h2
            exact ⟨rfl, ((congrArg (fun r => frame_alloc r.2.1) h2).symm.trans
              (tcp_create_segment_frame _ _ _ _ _ _)).trans hf1⟩
          · rename_i newseg pcb2 w2 h2
            rw [h2] at h
            simp at h
      · rename_i hbig
        rw [if_neg hbig] at h
        split
        · rename_i hch
          rw [if_pos hch] at h
          split
          · exact ⟨rfl, rfl⟩
          · rename_i left right headchainlen hw
            rw [hw] at h
            dsimp only at h
            split
            · rename_i pcb1 w1 h2
              exact ⟨rfl, (congrArg (fun r => frame_alloc r.2.1) h2).symm.trans
                (tcp_create_segment_frame _ _ _ _ _ _)⟩
            · rename_i newseg pcb1 w1 h2
              rw [h2] at h
              simp at h
        · exact ⟨rfl, rfl⟩

/-- A split that has made a new segment tells so: the allocations it needed
have succeeded. -/
theorem tcp_split_segment_made (cfg : Config) (pcb : tcp_pcb) (w : World) (seg : tcp_seg)
    (wnd : Nat) (h : (tcp_split_segment cfg pcb w seg wnd).2.1 ≠ []) :
    ∃ (p : List pbuf) (seqno : Nat) (pcb1 : tcp_pcb) (w1 : World) (newseg : tcp_seg)
      (pcb2 : tcp_pcb) (w2 : World),
      tcp_create_segment pcb1 w1 p 0 seqno (split_opts pcb seg).1 = (some newseg, pcb2, w2) := by
  rcases tcp_split_segment_cases cfg pcb w seg wnd with h1 | h1 | h1
  · exact absurd h1.2 h
  · obtain ⟨head, chain, b, oversize, pcb1, w1, newseg, pcb2, w2, -, -, hc, -⟩ := h1
    exact ⟨_, _, pcb1, w1, newseg, pcb2, w2, hc⟩
  · obtain ⟨head, chain, left, right, headchainlen, newseg, pcb1, w1, -, -, -, hc, -⟩ := h1
    exact ⟨_, _, pcb, w, newseg, pcb1, w1, hc⟩

/-- C32: a call of `tcp_split_segment` that ends without a new segment — in
particular one in which the buffer allocation or the segment allocation
fails — returns the segment unchanged (its `len`, `seqno`, flags, header and
buffer chain, and no segment is linked behind it), and the PCB keeps its
`unsent`, `last_unsent`, `snd_queuelen` and `unsent_oversize`. -/
theorem tcp_split_segment_failure_keeps (cfg : Config) (pcb : tcp_pcb) (w : World) (seg : tcp_seg)
    (wnd : Nat) (h : (tcp_split_segment cfg pcb w seg wnd).2.1 = []) :
    (tcp_split_segment cfg pcb w seg wnd).1 = seg ∧
    (tcp_split_segment cfg pcb w seg wnd).2.2.1.unsent = pcb.unsent ∧
    (tcp_split_segment cfg pcb w seg wnd).2.2.1.last_unsent = pcb.last_unsent ∧
    (tcp_split_segment cfg pcb w seg wnd).2.2.1.snd_queuelen = pcb.snd_queuelen ∧
    (tcp_split_segment cfg pcb w seg wnd).2.2.1.unsent_oversize = pcb.unsent_oversize ∧
    (tcp_split_segment cfg pcb w seg wnd).2.2.1.unacked = pcb.unacked := by
  obtain ⟨h1, hfr⟩ := tcp_split_segment_none cfg pcb w seg wnd h
  refine ⟨h1, ?_, ?_, ?_, ?_, ?_⟩
  · have h2 := congrArg tcp_pcb.unsent hfr
    exact h2
  · have h2 := congrArg tcp_pcb.last_unsent hfr
    exact h2
  · have h2 := congrArg tcp_pcb.snd_queuelen hfr
    exact h2
  · have h2 := congrArg tcp_pcb.unsent_oversize hfr
    exact h2
  · have h2 := congrArg tcp_pcb.unacked hfr
    exact h2

/-- The connection `pcb_idle` with the three-buffer segment `seg_multi` as
its only unsent segment. -/
def pcb_multi : tcp_pcb :=
  { pcb_idle with unsent := [seg_multi 24], last_unsent := some 900, snd_queuelen := 3,
                  snd_lbb := 7500, snd_buf := 97500 }

/-- C32, witness: the segment allocation fails in the head-buffer branch
(window of 300 bytes, the buffer was obtained) — the segment and the queue
fields of the PCB are those of the call.  A failing buffer allocation in that
branch, and a failing segment allocation in the buffer-chain branch (window
of 1500 bytes), end without a new segment likewise. -/
theorem tcp_split_segment_failure_keeps_witness :
    ((tcp_split_segment cfg_push pcb_multi world_noseg (seg_multi 24) 300).2.1 = [] ∧
    (tcp_split_segment cfg_push pcb_multi world_noseg (seg_multi 24) 300).1 = seg_multi 24 ∧
    (tcp_split_segment cfg_push pcb_multi world_noseg (seg_multi 24) 300).2.2.1.unsent =
      pcb_multi.unsent ∧
    (tcp_split_segment cfg_push pcb_multi world_noseg (seg_multi 24) 300).2.2.1.last_unsent =
      pcb_multi.last_unsent ∧
    (tcp_split_segment cfg_push pcb_multi world_noseg (seg_multi 24) 300).2.2.1.snd_queuelen =
      pcb_multi.snd_queuelen ∧
    (tcp_split_segment cfg_push pcb_multi world_noseg (seg_multi 24) 300).2.2.1.unsent_oversize =
      pcb_multi.unsent_oversize ∧
    (tcp_split_segment cfg_push pcb_multi world_noseg (seg_multi 24) 300).2.2.1.unacked =
      pcb_multi.unacked) ∧
    (tcp_split_segment cfg_push pcb_multi world_nobuf (seg_multi 24) 300).2.1 = [] ∧
    (tcp_split_segment cfg_push pcb_multi world_noseg (seg_multi 24) 1500).2.1 = [] :=
  ⟨⟨by decide,
    tcp_split_segment_failure_keeps cfg_push pcb_multi world_noseg (seg_multi 24) 300 (by decide)⟩,
    by decide, by decide⟩

/-! ## Buffers that are still in flight -/

/-- The three-buffer segment `seg_multi` with `PSH|ACK` whose second and
third buffers hold two references. -/
def seg_flight : tcp_seg :=
  { seg_multi 24 with
    p := [{ payload := 90000, len := 1020, tot_len := 2520, type := pbuf_type.PBUF_RAM, ref := 1 },
          { payload := 91020, len := 1000, tot_len := 1500, type := pbuf_type.PBUF_RAM, ref := 2 },
          { payload := 92020, len := 500, tot_len := 500, type := pbuf_type.PBUF_RAM, ref := 2 }] }

/-- A segment of 3000 bytes in four buffers (1020 with the TCP header,
1000, 500 and 500 bytes) whose second buffer holds two references. -/
def seg_flight4 : tcp_seg :=
  { seg_multi 24 with
    len := 3000,
    p := [{ payload := 90000, len := 1020, tot_len := 3020, type := pbuf_type.PBUF_RAM, ref := 1 },
          { payload := 91020, len := 1000, tot_len := 2000, type := pbuf_type.PBUF_RAM, ref := 2 },
          { payload := 92020, len := 500, tot_len := 1000, type := pbuf_type.PBUF_RAM, ref := 1 },
          { payload := 92520, len := 500, tot_len := 500, type := pbuf_type.PBUF_RAM, ref := 1 }] }

/-- A segment whose buffers all hold two references. -/
def in_flight (s : tcp_seg) : tcp_seg := { s with p := s.p.map (fun b => { b with ref := 2 }) }

/-- The buffer chains of the pieces of a split, in queue order. -/
def chains_view (r : tcp_seg × List tcp_seg × tcp_pcb × World) : List (List pbuf) :=
  (r.1 :: r.2.1).map (fun s => s.p)

/-- The chain walk checks the reference count of every buffer it passes:
the buffers kept on the left, except the last one, hold one reference at
most. -/
theorem chain_walk_refs (hopt lentosend : Nat) :
    ∀ (chain : List pbuf) (headchainlen : Nat) (left : List pbuf) (pnewtail : pbuf)
      (l r : List pbuf) (hcl : Nat),
      (∀ b ∈ left, b.ref ≤ 1) →
      chain_walk hopt lentosend headchainlen left pnewtail chain = some (l, r, hcl) →
      ∀ b ∈ l.dropLast, b.ref ≤ 1 := by
  intro chain
  induction chain with
  | nil =>
    intro headchainlen left pnewtail l r hcl _ h
    simp [chain_walk] at h
  | cons c t ih =>
    intro headchainlen left pnewtail l r hcl hleft h
    unfold chain_walk at h
    split at h
    · split at h
      · cases h
      · rename_i href
        refine ih _ _ _ _ _ _ ?_ h
        intro b hb
        rcases List.mem_append.mp hb with hb | hb
        · exact hleft b hb
        · simp only [List.mem_singleton] at hb
          subst hb
          omega
    · simp only [Option.some.injEq, Prod.mk.injEq] at h
      obtain ⟨rfl, -, -⟩ := h
      simpa using hleft

theorem retotal_refs : ∀ (l : List pbuf) (h : Nat),
    (retotal h l).map (fun b => b.ref) = l.map (fun b => b.ref) := by
  intro l
  induction l with
  | nil => intro h; rfl
  | cons b r ih =>
    intro h
    unfold retotal
    rw [List.map_cons, List.map_cons, ih]

theorem dropLast_refs (l m : List pbuf)
    (h : l.map (fun b => b.ref) = m.map (fun b => b.ref)) (hm : ∀ b ∈ m.dropLast, b.ref ≤ 1) :
    ∀ b ∈ l.dropLast, b.ref ≤ 1 := by
  have h1 : l.dropLast.map (fun b => b.ref) = m.dropLast.map (fun b => b.ref) := by
    rw [List.map_dropLast, List.map_dropLast, h]
  intro b hb
  have h2 : b.ref ∈ l.dropLast.map (fun b => b.ref) := List.mem_map_of_mem _ hb
  rw [h1] at h2
  obtain ⟨c, hc, hcb⟩ := List.mem_map.mp h2
  rw [← hcb]
  exact hm c hc

/-- Claim C31: the splits and the TSO join change buffers that hold more
than one reference.  With a window of 2200 bytes `tcp_split_segment` cuts the
chain of `seg_flight` behind its second buffer: that buffer, with two
references, gets `tot_len` 1000 for 1500 (and loses its successor), and the
third buffer, with two references, gets the TCP header of the new segment in
front (`payload` 92000 for 92020, `len` and `tot_len` 520 for 500).  The
test `pnewtail->ref > 1` of the chain walk looks at a buffer only when the
walk goes past it: on the four-buffer segment `seg_flight4`, whose second
buffer holds two references, a window of 2700 bytes makes the walk pass that
buffer and the call returns without a split, while a window of 2200 bytes
makes the walk stop at it and the call cuts behind it and writes its
`tot_len` (1000 for 2000).  `tcp_split_rexmit` puts a header in front of the
second and of the third buffer of `seg_flight`.  `tcp_tso_segment` joins two
segments whose buffers hold two references: the first buffer gets `tot_len`
2020 for 1020, the second loses its header (`payload` 20020 for 20000, `len`
1000 for 1020).  And `tcp_split_segment` has no test for a dummy segment: it
splits one. -/
theorem split_changes_shared_buffers :
    chains_view (tcp_split_segment cfg_push pcb_idle world_ok seg_flight 2200) =
      [[{ payload := 90000, len := 1020, tot_len := 2020, type := pbuf_type.PBUF_RAM, ref := 1 },
        { payload := 91020, len := 1000, tot_len := 1000, type := pbuf_type.PBUF_RAM, ref := 2 }],
       [{ payload := 92000, len := 520, tot_len := 520, type := pbuf_type.PBUF_RAM, ref := 2 }]] ∧
    chains_view (tcp_split_segment cfg_push pcb_idle world_ok seg_flight4 2700) =
      [seg_flight4.p] ∧
    chains_view (tcp_split_segment cfg_push pcb_idle world_ok seg_flight4 2200) =
      [[{ payload := 90000, len := 1020, tot_len := 2020, type := pbuf_type.PBUF_RAM, ref := 1 },
        { payload := 91020, len := 1000, tot_len := 1000, type := pbuf_type.PBUF_RAM, ref := 2 }],
       [{ payload := 92000, len := 520, tot_len := 1020, type := pbuf_type.PBUF_RAM, ref := 1 },
        { payload := 92520, len := 500, tot_len := 500, type := pbuf_type.PBUF_RAM, ref := 1 }]] ∧
    chains_view (tcp_split_rexmit pcb_idle world_ok seg_flight) =
      [[{ payload := 90000, len := 1020, tot_len := 1020, type := pbuf_type.PBUF_RAM, ref := 1 }],
       [{ payload := 91000, len := 1020, tot_len := 1020, type := pbuf_type.PBUF_RAM, ref := 2 }],
       [{ payload := 92000, len := 520, tot_len := 520, type := pbuf_type.PBUF_RAM, ref := 2 }]] ∧
    (tcp_tso_segment pcb_three (in_flight (data_seg 100 10000 5000 1000))
        [in_flight (data_seg 200 20000 6000 1000), data_seg 300 30000 7000 500] 10000).1.p =
      [{ payload := 10000, len := 1020, tot_len := 2020, type := pbuf_type.PBUF_RAM, ref := 2 },
       { payload := 20020, len := 1000, tot_len := 1000, type := pbuf_type.PBUF_RAM, ref := 2 }] ∧
    LWIP_IS_DUMMY_SEGMENT { seg_multi 24 with flags := TF_SEG_OPTS_DUMMY_MSG } = true ∧
    (chains_view (tcp_split_segment cfg_push pcb_idle world_ok
      { seg_multi 24 with flags := TF_SEG_OPTS_DUMMY_MSG } 300)).length = 2 := by
  refine ⟨by decide, by decide, by decide, ?_, by decide, by decide, by decide⟩
  exact tcp_split_rexmit_observe chains_view 5 pcb_idle world_ok seg_flight _ (by decide)

/-- What the two reference tests of `tcp_split_segment` ensure: the call
returns the segment, the PCB and the hooks as they were when the first
buffer of the segment holds more than one reference; and when it splits,
every buffer of the left part except the last one holds one reference at
most (the first buffer in particular, when the left part has more than one
buffer, and always in the branch that cuts the first buffer). -/
theorem tcp_split_segment_in_flight (cfg : Config) (pcb : tcp_pcb) (w : World) (seg : tcp_seg)
    (wnd : Nat) :
    (∀ (head : pbuf) (chain : List pbuf), seg.p = head :: chain → head.ref > 1 →
      tcp_split_segment cfg pcb w seg wnd = (seg, [], pcb, w)) ∧
    ((tcp_split_segment cfg pcb w seg wnd).2.1 ≠ [] →
      (∀ b ∈ (tcp_split_segment cfg pcb w seg wnd).1.p.dropLast, b.ref ≤ 1) ∧
      (∀ head ∈ seg.p.head?, head.ref ≤ 1)) := by
  constructor
  · intro head chain hp href
    unfold tcp_split_segment
    rw [hp]
    dsimp only
    rw [if_pos (Or.inr href)]
  · intro hne
    have hhead : ∀ head ∈ seg.p.head?, head.ref ≤ 1 := by
      intro head hh
      by_contra hgt
      cases hp : seg.p with
      | nil => rw [hp] at hh; simp at hh
      | cons h0 chain =>
        rw [hp] at hh
        simp only [List.head?_cons, Option.mem_def, Option.some.injEq] at hh
        subst hh
        apply hne
        unfold tcp_split_segment
        rw [hp]
        dsimp only
        rw [if_pos (Or.inr (by omega))]
    refine ⟨?_, hhead⟩
    rcases tcp_split_segment_cases cfg pcb w seg wnd with h1 | h1 | h1
    · exact absurd h1.2 hne
    · obtain ⟨head, chain, b, oversize, pcb1, w1, newseg, pcb2, w2, -, -, -, hl, -⟩ := h1
      rw [hl, (tcp_seg_move_flags_fields _ _ _).1.2.2.2.2]
      intro b hb
      simp [split_head_left] at hb
    · obtain ⟨head, chain, left, right, headchainlen, newseg, pcb1, w1, hp, -, hw, -, hl, -⟩ := h1
      rw [hl, (tcp_seg_move_flags_fields _ _ _).1.2.2.2.2]
      have hw1 := chain_walk_refs _ _ _ _ _ _ _ _ _ (by simp) hw
      exact dropLast_refs _ _ (retotal_refs left headchainlen) hw1

/-! ## The spare room recorded by a split -/

/-- An observation `k` of the result of `tcp_write` that may fail, computed
with the bounded loop. -/
theorem tcp_write_then {α : Type} (k : err_t × tcp_pcb × World → Option α) (n : Nat)
    (cfg : Config) (pcb : tcp_pcb) (w : World) (arg : Int) (len apiflags : Nat) (a : α)
    (h : (tcp_write_fuel n cfg pcb w arg len apiflags).bind k = some a) :
    k (tcp_write cfg pcb w arg len apiflags) = some a := by
  cases hf : tcp_write_fuel n cfg pcb w arg len apiflags with
  | none => rw [hf] at h; simp at h
  | some r =>
    rw [hf] at h
    rw [tcp_write_eq_fuel n cfg pcb w arg len apiflags r hf]
    simpa using h

/-- The same for a call of `tcp_write` on the connection that an earlier
step `o` has left, when that step may fail. -/
theorem tcp_write_after {α β : Type} (o : Option β) (g : β → tcp_pcb × World)
    (k : β → err_t × tcp_pcb × World → Option α) (n : Nat) (cfg : Config) (arg : Int)
    (len apiflags : Nat) (a : α)
    (h : o.bind (fun b => (tcp_write_fuel n cfg (g b).1 (g b).2 arg len apiflags).bind (k b)) =
      some a) :
    o.bind (fun b => k b (tcp_write cfg (g b).1 (g b).2 arg len apiflags)) = some a := by
  cases o with
  | none => simp at h
  | some b =>
    simp only [Option.some_bind] at h ⊢
    exact tcp_write_then (k b) n cfg _ _ arg len apiflags a h

/-- A connection with Nagle on, 100 spare bytes asked for with every buffer
(`tcp_oversize_val = 100`) and a send window of 150 bytes. -/
def pcb_room : tcp_pcb := { pcb_idle with flags := 0, tcp_oversize_val := 100, snd_wnd := 150 }

/-- The connection `pcb_room` after a copying write of 100 bytes. -/
def room_first : err_t × tcp_pcb × World :=
  tcp_write cfg_push pcb_room world_ok 1 100 TCP_WRITE_FLAG_COPY

/-- The connection after a second copying write, of 900 bytes. -/
def room_second : err_t × tcp_pcb × World :=
  tcp_write cfg_push room_first.2.1 room_first.2.2 1 900 TCP_WRITE_FLAG_COPY

/-- The split of the head of `unsent` for the window of 150 bytes. -/
def room_split : Option (tcp_seg × List tcp_seg × tcp_pcb × World) :=
  room_second.2.1.unsent.head?.map
    (fun seg => tcp_split_segment cfg_push room_second.2.1 room_second.2.2 seg 150)

/-- The connection after `tcp_output`, which does that split. -/
def room_output : Option (err_t × tcp_pcb × World) :=
  tcp_output cfg_push 5 room_second.2.1 room_second.2.2

/-- The connection after a third copying write, of 50 bytes. -/
def room_third : Option (err_t × tcp_pcb × World) :=
  room_output.map (fun r => tcp_write cfg_push r.2.1 r.2.2 1 50 TCP_WRITE_FLAG_COPY)

/-- What a segment shows of its buffers: its record, its length and the
address and length of each buffer. -/
structure room_seg where
  id : Nat
  len : Nat
  bufs : List (Int × Nat)
  deriving DecidableEq, Repr

/-- What a connection shows of its spare room: the value returned,
`unsent_oversize`, `last_unsent`, and the unsent segments. -/
structure room_state where
  err : err_t
  oversize : Nat
  last : Option Nat
  segs : List room_seg
  deriving DecidableEq, Repr

def room_seg_view (s : tcp_seg) : room_seg :=
  { id := s.id, len := s.len, bufs := s.p.map (fun b => (b.payload, b.len)) }

def room_view (r : err_t × tcp_pcb × World) : room_state :=
  { err := r.1, oversize := r.2.1.unsent_oversize, last := r.2.1.last_unsent,
    segs := r.2.1.unsent.map room_seg_view }

/-- What a split shows of the spare room: its value `ERR_OK` stands for the
`void` return; `unsent_oversize`, `last_unsent`, and the segments created. -/
def split_room_view (r : tcp_seg × List tcp_seg × tcp_pcb × World) : room_state :=
  { err := err_t.ERR_OK, oversize := r.2.2.1.unsent_oversize, last := r.2.2.1.last_unsent,
    segs := r.2.1.map room_seg_view }

/-- C34: in the head-buffer branch `unsent_oversize` is the spare room of
the newly allocated buffer, not of the final buffer of the new segment.  On a
connection with Nagle on, copying writes of 100 and of 900 bytes leave one
segment of 1000 bytes in two buffers; the second buffer, at 20000, was asked
for with exactly the 800 bytes it holds, and `unsent_oversize` is 0.  For a
window of 150 bytes `tcp_split_segment` cuts the first buffer: the new
segment, record 200, is `last_unsent`; its chain is the new buffer (70 bytes,
of which 50 are payload, asked for with 152) followed by the buffer at 20000,
and `unsent_oversize` is set to 102.  `tcp_output` leaves that state, and a
further write of 50 bytes then goes into the spare room: the buffer at 20000
holds 850 bytes. -/
theorem tcp_split_segment_oversize_of_new_buffer :
    room_view room_second =
      { err := err_t.ERR_OK, oversize := 0, last := some 100, segs := [{ id := 100, len := 1000, bufs := [(9980, 220), (20000, 800)] }] } ∧
    oversize_request cfg_push room_first.2.1 800 800 = 800 ∧
    room_split.map split_room_view =
      some { err := err_t.ERR_OK, oversize := 102, last := some 200, segs := [{ id := 200, len := 850, bufs := [(29980, 70), (20000, 800)] }] } ∧
    room_output.map room_view =
      some { err := err_t.ERR_OK, oversize := 102, last := some 200, segs := [{ id := 200, len := 850, bufs := [(29980, 70), (20000, 800)] }] } ∧
    room_third.map room_view =
      some { err := err_t.ERR_OK, oversize := 52, last := some 200, segs := [{ id := 200, len := 900, bufs := [(29980, 70), (20000, 850)] }] } := by
  refine ⟨?_, by unfold oversize_request; decide, ?_, ?_, ?_⟩
  · have h1 := tcp_write_then
      (fun r1 => (tcp_write_fuel 5 cfg_push r1.2.1 r1.2.2 1 900 TCP_WRITE_FLAG_COPY).bind
        (fun r2 => some (room_view r2)))
      5 cfg_push pcb_room world_ok 1 100 TCP_WRITE_FLAG_COPY
      { err := err_t.ERR_OK, oversize := 0, last := some 100, segs := [{ id := 100, len := 1000, bufs := [(9980, 220), (20000, 800)] }] } (by decide)
    have h2 := tcp_write_then (fun r2 => some (room_view r2)) 5 cfg_push _ _ 1 900
      TCP_WRITE_FLAG_COPY _ h1
    exact Option.some.inj h2
  · have h1 := tcp_write_then
      (fun r1 => (tcp_write_fuel 5 cfg_push r1.2.1 r1.2.2 1 900 TCP_WRITE_FLAG_COPY).bind
        (fun r2 => r2.2.1.unsent.head?.map
          (fun seg => split_room_view (tcp_split_segment cfg_push r2.2.1 r2.2.2 seg 150))))
      5 cfg_push pcb_room world_ok 1 100 TCP_WRITE_FLAG_COPY
      { err := err_t.ERR_OK, oversize := 102, last := some 200, segs := [{ id := 200, len := 850, bufs := [(29980, 70), (20000, 800)] }] } (by decide)
    have h2 := tcp_write_then
      (fun r2 => r2.2.1.unsent.head?.map
        (fun seg => split_room_view (tcp_split_segment cfg_push r2.2.1 r2.2.2 seg 150)))
      5 cfg_push _ _ 1 900 TCP_WRITE_FLAG_COPY _ h1
    unfold room_split
    rw [Option.map_map]
    exact h2
  · have h1 := tcp_write_then
      (fun r1 => (tcp_write_fuel 5 cfg_push r1.2.1 r1.2.2 1 900 TCP_WRITE_FLAG_COPY).bind
        (fun r2 => (tcp_output cfg_push 5 r2.2.1 r2.2.2).map room_view))
      5 cfg_push pcb_room world_ok 1 100 TCP_WRITE_FLAG_COPY
      { err := err_t.ERR_OK, oversize := 102, last := some 200, segs := [{ id := 200, len := 850, bufs := [(29980, 70), (20000, 800)] }] } (by decide)
    exact tcp_write_then (fun r2 => (tcp_output cfg_push 5 r2.2.1 r2.2.2).map room_view)
      5 cfg_push _ _ 1 900 TCP_WRITE_FLAG_COPY _ h1
  · have h1 := tcp_write_then
      (fun r1 => (tcp_write_fuel 5 cfg_push r1.2.1 r1.2.2 1 900 TCP_WRITE_FLAG_COPY).bind
        (fun r2 => (tcp_output cfg_push 5 r2.2.1 r2.2.2).bind
          (fun r3 => (tcp_write_fuel 5 cfg_push (r3.2.1, r3.2.2).1 (r3.2.1, r3.2.2).2 1 50
            TCP_WRITE_FLAG_COPY).bind (fun r4 => some (room_view r4)))))
      5 cfg_push pcb_room world_ok 1 100 TCP_WRITE_FLAG_COPY
      { err := err_t.ERR_OK, oversize := 52, last := some 200, segs := [{ id := 200, len := 900, bufs := [(29980, 70), (20000, 850)] }] } (by decide)
    have h2 := tcp_write_then
      (fun r2 => (tcp_output cfg_push 5 r2.2.1 r2.2.2).bind
        (fun r3 => (tcp_write_fuel 5 cfg_push (r3.2.1, r3.2.2).1 (r3.2.1, r3.2.2).2 1 50
          TCP_WRITE_FLAG_COPY).bind (fun r4 => some (room_view r4))))
      5 cfg_push _ _ 1 900 TCP_WRITE_FLAG_COPY _ h1
    have h3 := tcp_write_after (tcp_output cfg_push 5 room_second.2.1 room_second.2.2)
      (fun r3 => (r3.2.1, r3.2.2)) (fun _ r4 => some (room_view r4)) 5 cfg_push 1 50
      TCP_WRITE_FLAG_COPY _ h2
    unfold room_third room_output
    rw [Option.map_map, Option.map_eq_bind]
    exact h3

/-! ## The assertion `mss_local is too small` of `tcp_write` -/

/-- What a queue shows of a segment: record, sequence number, length and
number of buffers. -/
structure queue_seg where
  id : Nat
  seqno : Nat
  len : Nat
  bufs : Nat
  deriving DecidableEq, Repr

def queue_seg_view (s : tcp_seg) : queue_seg :=
  { id := s.id, seqno := s.seqno, len := s.len, bufs := s.p.length }

/-- What `tcp_write` finds when it looks for room at the tail of `unsent`
for a copying write: the queues, `last_unsent`, the size goal `mss_local`,
and for the last unsent segment whether its buffers are of the requested
type, its length with its options, and the 16-bit `space`. -/
structure goal_state where
  unsent : List queue_seg
  unacked : List queue_seg
  last_unsent : Option Nat
  mss_local : Nat
  same_type : Option Bool
  tail_len : Option Nat
  space : Option Nat
  deriving DecidableEq, Repr

def goal_view (cfg : Config) (pcb : tcp_pcb) : goal_state :=
  { unsent := pcb.unsent.map queue_seg_view, unacked := pcb.unacked.map queue_seg_view,
    last_unsent := pcb.last_unsent,
    mss_local := write_mss_local cfg pcb TCP_WRITE_FLAG_COPY,
    same_type := (queue_tail pcb.unsent).map (fun l => tail_same_type l pbuf_type.PBUF_RAM),
    tail_len := (queue_tail pcb.unsent).map (fun l => l.len + LWIP_TCP_OPT_LENGTH l.flags),
    space := (queue_tail pcb.unsent).map
      (fun l => tail_space (write_mss_local cfg pcb TCP_WRITE_FLAG_COPY) l pbuf_type.PBUF_RAM) }

/-- The TSO connection `pcb_tso 0` (empty queues, `mss = 1000`, TSO payload
cap 10000) after a copying write of 3000 bytes. -/
def wide_first : err_t × tcp_pcb × World :=
  tcp_write cfg_push (pcb_tso 0) world_ok 1 3000 TCP_WRITE_FLAG_COPY

/-- The connection after `tcp_output`. -/
def wide_output : Option (err_t × tcp_pcb × World) :=
  tcp_output cfg_push 5 wide_first.2.1 wide_first.2.2

/-- The connection after `tcp_rexmit` has put the first unacknowledged
segment back. -/
def wide_rexmit : Option (tcp_pcb × World) :=
  wide_output.map (fun r => (tcp_rexmit r.2.1, r.2.2))

/-- The connection after a further copying write, of 10 bytes. -/
def wide_second : Option (err_t × tcp_pcb × World) :=
  wide_rexmit.map (fun r => tcp_write cfg_push r.1 r.2 1 10 TCP_WRITE_FLAG_COPY)

/-- The value returned by a write and the unsent queue it leaves. -/
structure wide_state where
  err : err_t
  unsent : List queue_seg
  deriving DecidableEq, Repr

def wide_view (r : err_t × tcp_pcb × World) : wide_state :=
  { err := r.1, unsent := r.2.1.unsent.map queue_seg_view }

/-- C39: the assertion `mss_local is too small` does not hold in every state
reached from empty queues.  On a TSO connection with `mss = 1000` a copying
write of 3000 bytes queues three segments of 1000 bytes; `tcp_output` joins
the first two into one segment of 2000 bytes (record 100, two buffers) and
sends both; `tcp_rexmit` puts the joined segment back as the only unsent
segment, and `last_unsent` designates it.  The next copying write finds it,
of the requested buffer type, with `mss_local = 1000` below its 2000 bytes:
the 16-bit `space = mss_local - (len + optlen)` wraps to 64536, and the write
of 10 bytes chains a third buffer to the retransmitted segment, which then
has 2010 bytes. -/
theorem tcp_write_mss_local_too_small :
    wide_rexmit.map (fun r => goal_view cfg_push r.1) =
      some { unsent := [{ id := 100, seqno := 5000, len := 2000, bufs := 2 }],
             unacked := [{ id := 300, seqno := 7000, len := 1000, bufs := 1 }],
             last_unsent := some 100, mss_local := 1000, same_type := some true,
             tail_len := some 2000, space := some 64536 } ∧
    wide_second.map wide_view =
      some { err := err_t.ERR_OK,
             unsent := [{ id := 100, seqno := 5000, len := 2010, bufs := 3 }] } := by
  constructor
  · have h1 := tcp_write_then
      (fun r1 => (tcp_output cfg_push 5 r1.2.1 r1.2.2).map
        (fun r => goal_view cfg_push (tcp_rexmit r.2.1)))
      5 cfg_push (pcb_tso 0) world_ok 1 3000 TCP_WRITE_FLAG_COPY
      { unsent := [{ id := 100, seqno := 5000, len := 2000, bufs := 2 }],
        unacked := [{ id := 300, seqno := 7000, len := 1000, bufs := 1 }],
        last_unsent := some 100, mss_local := 1000, same_type := some true,
        tail_len := some 2000, space := some 64536 } (by decide)
    unfold wide_rexmit wide_output
    rw [Option.map_map]
    exact h1
  · have h1 := tcp_write_then
      (fun r1 => (tcp_output cfg_push 5 r1.2.1 r1.2.2).bind
        (fun r => (tcp_write_fuel 5 cfg_push (tcp_rexmit r.2.1, r.2.2).1
          (tcp_rexmit r.2.1, r.2.2).2 1 10 TCP_WRITE_FLAG_COPY).bind
            (fun r4 => some (wide_view r4))))
      5 cfg_push (pcb_tso 0) world_ok 1 3000 TCP_WRITE_FLAG_COPY
      { err := err_t.ERR_OK, unsent := [{ id := 100, seqno := 5000, len := 2010, bufs := 3 }] }
      (by decide)
    have h2 := tcp_write_after (tcp_output cfg_push 5 wide_first.2.1 wide_first.2.2)
      (fun r => (tcp_rexmit r.2.1, r.2.2)) (fun _ r4 => some (wide_view r4)) 5 cfg_push 1 10
      TCP_WRITE_FLAG_COPY _ h1
    unfold wide_second wide_rexmit wide_output
    rw [Option.map_map, Option.map_map, Option.map_eq_bind]
    exact h2

/-! ## The queue length `snd_queuelen` -/

/-- The number of buffers held by the segments of a queue. -/
def queue_bufs (q : List tcp_seg) : Nat := (q.map (fun s => pbuf_clen s.p)).sum

/-- The invariant of `snd_queuelen`: it counts the buffers of the segments
of `unsent` and `unacked` (a 32-bit value). -/
def queuelen_ok (pcb : tcp_pcb) : Prop :=
  pcb.snd_queuelen = u32 (queue_bufs pcb.unsent + queue_bufs pcb.unacked)

instance (pcb : tcp_pcb) : Decidable (queuelen_ok pcb) :=
  inferInstanceAs (Decidable (pcb.snd_queuelen = u32 (queue_bufs pcb.unsent + queue_bufs pcb.unacked)))

/-- A connection whose only unsent segment has no payload and neither `SYN`
nor `FIN`: one header-only buffer, counted in `snd_queuelen`. -/
def pcb_empty_seg : tcp_pcb :=
  { pcb_idle with unsent := [data_seg 100 10000 5000 0], last_unsent := some 100,
                  snd_queuelen := 1 }

/-- What `tcp_output` leaves of the queues: the value returned, the number
of calls of the IP output hook, `snd_queuelen`, the buffers held by `unsent`
and by `unacked`, and whether `snd_queuelen` counts them. -/
structure queuelen_view where
  err : err_t
  calls : Nat
  snd_queuelen : Nat
  unsent_bufs : Nat
  unacked_bufs : Nat
  ok : Bool
  deriving DecidableEq, Repr

def queuelen_after (r : err_t × tcp_pcb × World) : queuelen_view :=
  { err := r.1, calls := r.2.2.calls.length, snd_queuelen := r.2.1.snd_queuelen,
    unsent_bufs := queue_bufs r.2.1.unsent, unacked_bufs := queue_bufs r.2.1.unacked,
    ok := decide (queuelen_ok r.2.1) }

/-- C33: `tcp_output` does not keep `snd_queuelen` equal to the number of
queued buffers when it frees a zero-length segment without `SYN` or `FIN`.
The connection `pcb_empty_seg` satisfies the invariant with one buffer;
`tcp_output` hands its segment to the IP output hook, and since
`TCP_TCPLEN(seg)` is 0 the segment is freed instead of being put on
`unacked`; `snd_queuelen` is still 1 while both queues are empty.  The
sibling path for a dummy segment subtracts `pbuf_clen(seg->p)` before it
frees the segment: with the same segment marked as a dummy segment
`snd_queuelen` is 0 afterwards. -/
theorem tcp_output_zero_length_keeps_queuelen :
    queuelen_ok pcb_empty_seg ∧ TCP_TCPLEN (data_seg 100 10000 5000 0) = 0 ∧
    (tcp_output cfg_push 5 pcb_empty_seg world_ok).map queuelen_after =
      some { err := err_t.ERR_OK, calls := 1, snd_queuelen := 1, unsent_bufs := 0,
             unacked_bufs := 0, ok := false } ∧
    (tcp_output cfg_push 5
        { pcb_idle with
          unsent := [{ data_seg 100 10000 5000 1 with flags := TF_SEG_OPTS_DUMMY_MSG }],
          last_unsent := some 100, snd_queuelen := 1, snd_lbb := 5001 }
        world_ok).map queuelen_after =
      some { err := err_t.ERR_OK, calls := 1, snd_queuelen := 0, unsent_bufs := 0,
             unacked_bufs := 0, ok := true } := by
  decide

/-! ## Operations that keep `snd_queuelen` -/

theorem queue_bufs_cons (s : tcp_seg) (q : List tcp_seg) :
    queue_bufs (s :: q) = pbuf_clen s.p + queue_bufs q := by
  simp [queue_bufs]

theorem queue_bufs_append (a b : List tcp_seg) :
    queue_bufs (a ++ b) = queue_bufs a + queue_bufs b := by
  simp [queue_bufs]

theorem queue_bufs_perm (a b : List tcp_seg) (h : a.Perm b) : queue_bufs a = queue_bufs b := by
  unfold queue_bufs
  exact (h.map _).sum_eq

theorem queue_bufs_insert_sorted (seg : tcp_seg) (q : List tcp_seg) :
    queue_bufs (insert_sorted seg q) = pbuf_clen seg.p + queue_bufs q := by
  rw [queue_bufs_perm _ _ (insert_sorted_perm seg q), queue_bufs_cons]

/-- Replacing the last segment of a queue by one with `d` more buffers adds
`d` to the number of buffers. -/
theorem queue_bufs_set_tail (q : List tcp_seg) (l s : tcp_seg) (d : Nat)
    (hl : q.getLast? = some l) (hp : pbuf_clen s.p = pbuf_clen l.p + d) :
    queue_bufs (set_tail q s) = queue_bufs q + d := by
  have hq : q.dropLast ++ [l] = q := List.dropLast_append_getLast? l (by simp [hl])
  unfold set_tail
  conv_rhs => rw [← hq]
  rw [queue_bufs_append, queue_bufs_append, queue_bufs_cons, queue_bufs_cons, hp]
  simp only [queue_bufs, List.map_nil, List.sum_nil]
  omega

theorem u32_add_u32 (a b : Nat) : u32 (u32 a + b) = u32 (a + b) := by
  unfold u32
  omega

theorem sub32_u32_add (a b : Nat) : sub32 (u32 (b + a)) b = u32 a := by
  unfold sub32 u32
  omega

/-- The fast retransmit requeue `tcp_rexmit` keeps the invariant of
`snd_queuelen`. -/
theorem tcp_rexmit_queuelen (pcb : tcp_pcb) (h : queuelen_ok pcb) : queuelen_ok (tcp_rexmit pcb) := by
  unfold queuelen_ok at h ⊢
  cases hu : pcb.unacked with
  | nil =>
    have e : tcp_rexmit pcb = pcb := by
      unfold tcp_rexmit
      rw [hu]
    rw [e]
    exact h
  | cons seg rest =>
    obtain ⟨h1, h2, -⟩ := tcp_rexmit_cons pcb seg rest hu
    have hq : (tcp_rexmit pcb).snd_queuelen = pcb.snd_queuelen := by
      unfold tcp_rexmit
      rw [hu]
      dsimp only
      split <;> rfl
    rw [hq, h1, h2, h, hu, queue_bufs_insert_sorted, queue_bufs_cons]
    congr 1
    omega

/-- The requeue step of `tcp_rexmit_rto` keeps the invariant. -/
theorem rto_requeue_queuelen (pcb : tcp_pcb) (h : queuelen_ok pcb) :
    queuelen_ok (rto_requeue pcb) := by
  unfold queuelen_ok at h ⊢
  have h1 : (rto_requeue pcb).unsent = pcb.unacked ++ pcb.unsent := by
    unfold rto_requeue
    dsimp only
  have h2 : (rto_requeue pcb).unacked = [] := by
    unfold rto_requeue
    dsimp only
  have h3 : (rto_requeue pcb).snd_queuelen = pcb.snd_queuelen := by
    unfold rto_requeue
    dsimp only
    split <;> rfl
  rw [h1, h2, h3, h, queue_bufs_append]
  congr 1
  simp only [queue_bufs, List.map_nil, List.sum_nil]
  omega

/-- The requeue of a dropped segment at the start of `tcp_output` keeps the
invariant. -/
theorem output_requeue_queuelen (pcb : tcp_pcb) (h : queuelen_ok pcb) :
    queuelen_ok (output_requeue pcb) := by
  unfold queuelen_ok at h ⊢
  unfold output_requeue
  split
  · rename_i u hu
    split
    · show pcb.snd_queuelen = u32 (queue_bufs (u :: pcb.unsent) + queue_bufs [])
      rw [h, hu, queue_bufs_cons]
      congr 1
      simp only [queue_bufs, List.map_nil, List.sum_nil, List.map_cons, List.sum_cons]
      omega
    · exact h
  · exact h

/-- A successful `tcp_enqueue_flags` keeps the invariant. -/
theorem tcp_enqueue_flags_queuelen (cfg : Config) (pcb : tcp_pcb) (w : World) (flags : Nat)
    (h : queuelen_ok pcb) (hok : (tcp_enqueue_flags cfg pcb w flags).1 = err_t.ERR_OK) :
    queuelen_ok (tcp_enqueue_flags cfg pcb w flags).2.1 := by
  unfold queuelen_ok at h ⊢
  obtain ⟨seg, pcb2, w2, he, hfr, -⟩ := tcp_enqueue_flags_ok cfg pcb w flags hok
  have hq : pcb2.snd_queuelen = pcb.snd_queuelen := by
    have h1 := congrArg tcp_pcb.snd_queuelen hfr
    exact h1
  have hu : pcb2.unsent = pcb.unsent := by
    have h1 := congrArg tcp_pcb.unsent hfr
    exact h1
  have ha : pcb2.unacked = pcb.unacked := by
    have h1 := congrArg tcp_pcb.unacked hfr
    exact h1
  have ha2 : (enqueue_commit pcb2 seg flags).unacked = pcb2.unacked := by
    unfold enqueue_commit
    dsimp only
    split_ifs <;> rfl
  rw [he]
  dsimp only
  rw [enqueue_commit_snd_queuelen, enqueue_commit_unsent, ha2, hq, hu, ha, h, u32_add_u32,
    queue_bufs_append, queue_bufs_cons]
  congr 1
  simp only [queue_bufs, List.map_nil, List.sum_nil]
  omega

/-- The call `tcp_send_fin` keeps the invariant when it succeeds. -/
theorem tcp_send_fin_queuelen (cfg : Config) (pcb : tcp_pcb) (w : World)
    (h : queuelen_ok pcb) (hok : (tcp_send_fin cfg pcb w).1 = err_t.ERR_OK) :
    queuelen_ok (tcp_send_fin cfg pcb w).2.1 := by
  have hp := tcp_send_fin_paths cfg pcb w
  cases hl : pcb.unsent.getLast? with
  | none =>
    have hnil : pcb.unsent = [] := List.getLast?_eq_none_iff.1 hl
    have e := hp.2 (Or.inl hnil)
    rw [e] at hok ⊢
    exact tcp_enqueue_flags_queuelen cfg pcb w TCP_FIN h hok
  | some last =>
    by_cases hf : has (TCPH_FLAGS last.hdr) (TCP_SYN ||| TCP_FIN ||| TCP_RST) = true
    · have e := hp.2 (Or.inr ⟨last, hl, hf⟩)
      rw [e] at hok ⊢
      exact tcp_enqueue_flags_queuelen cfg pcb w TCP_FIN h hok
    · have hf2 : has (TCPH_FLAGS last.hdr) (TCP_SYN ||| TCP_FIN ||| TCP_RST) = false := by
        simpa using hf
      have hres : tcp_send_fin cfg pcb w = (err_t.ERR_OK,
          { pcb with unsent := set_tail pcb.unsent
                       { last with hdr := TCPH_SET_FLAG last.hdr TCP_FIN },
                     flags := pcb.flags ||| TF_FIN }, w) := by
        unfold tcp_send_fin queue_tail
        rw [hl]
        dsimp only
        rw [if_pos (by simp [hf2])]
      rw [hres]
      unfold queuelen_ok at h ⊢
      dsimp only
      rw [queue_bufs_set_tail pcb.unsent last
        { last with hdr := TCPH_SET_FLAG last.hdr TCP_FIN } 0 hl rfl, h]
      rfl
theorem oversize_bump_length : ∀ (p : List pbuf) (n : Nat), (oversize_bump p n).length = p.length := by
  intro p
  induction p with
  | nil => intro n; rfl
  | cons b r ih =>
    intro n
    cases r with
    | nil => rfl
    | cons c t =>
      unfold oversize_bump
      simp only [List.length_cons]
      have h1 := ih n
      simp only [List.length_cons] at h1
      omega

/-- The tail segment after the commit of phases 1 and 2 has one buffer more
when a buffer was chained to it, and the same buffers otherwise. -/
theorem commit_tail_clen (last : tcp_seg) (ou : Nat) (cp : Option pbuf) :
    pbuf_clen (commit_tail last ou cp).p = pbuf_clen last.p + (if cp = none then 0 else 1) := by
  unfold commit_tail pbuf_clen
  cases cp with
  | none =>
    dsimp only
    split
    · simp [oversize_bump_length]
    · simp
  | some b =>
    dsimp only
    split
    · simp [pbuf_cat_length, oversize_bump_length]
    · simp [pbuf_cat_length]

theorem push_last_bufs (cfg : Config) (q : List tcp_seg) :
    queue_bufs (push_last cfg q) = queue_bufs q := by
  unfold push_last queue_tail
  split
  · rfl
  · rename_i seg heq
    split
    · exact queue_bufs_set_tail q seg { seg with hdr := TCPH_SET_FLAG seg.hdr TCP_PSH } 0 heq rfl
    · rfl

/-- Phases 1 and 2 of `tcp_write` count the buffer they chain to the tail,
and chain one only when `unsent` is not empty. -/
theorem tcp_write_tail_queuelen (cfg : Config) (pcb : tcp_pcb) (w : World) (arg : Int)
    (len apiflags mss_local : Nat) (type : pbuf_type) (t : tail_state)
    (h : tcp_write_tail cfg pcb w arg len apiflags mss_local type = (true, t)) :
    t.queuelen = (if t.concat_p = none then pcb.snd_queuelen else u32 (pcb.snd_queuelen + 1)) ∧
    (t.concat_p ≠ none → pcb.unsent ≠ []) := by
  unfold tcp_write_tail at h
  split at h
  · cases h
    exact ⟨rfl, fun hc => absurd rfl hc⟩
  · rename_i last hq
    have hne : pcb.unsent ≠ [] := by
      intro he
      rw [he] at hq
      cases hq
    split at h
    · split at h
      · cases h
      · cases h
        exact ⟨rfl, fun _ => hne⟩
    · cases h
      exact ⟨rfl, fun _ => hne⟩

/-- The loop of phase 3 counts the segments it creates, each of which has one
buffer. -/
theorem tcp_write_segments_queuelen (c : write_ctx) (s0 : write_state) (hq0 : s0.queue = [])
    (hb0 : s0.queuelen < 4294967296) :
    (tcp_write_segments c s0).1 = true →
    (tcp_write_segments c s0).2.queuelen =
      u32 (s0.queuelen + queue_bufs (tcp_write_segments c s0).2.queue) := by
  refine tcp_write_segments_rule c
    (fun s => s.queuelen = u32 (s0.queuelen + queue_bufs s.queue))
    (fun r => r.1 = true → r.2.queuelen = u32 (s0.queuelen + queue_bufs r.2.queue))
    ?_ ?_ s0 ?_
  · intro s s1 hi hp
    obtain ⟨-, -, -, hql, seg, hqueue, -, -, -, -, hlen, -⟩ := write_pass_inr c s s1 hp
    show s1.queuelen = u32 (s0.queuelen + queue_bufs s1.queue)
    rw [hql, hqueue, queue_bufs_append, queue_bufs_cons]
    have hi1 : s.queuelen = u32 (s0.queuelen + queue_bufs s.queue) := hi
    simp only [queue_bufs, List.map_nil, List.sum_nil, pbuf_clen, hlen] at hi1 ⊢
    rw [hi1]
    unfold u32
    omega
  · intro s r hi hp hr
    obtain ⟨-, -, hsame⟩ := write_pass_inl c s r hp
    rw [(hsame hr).1]
    exact hi
  · show s0.queuelen = u32 (s0.queuelen + queue_bufs s0.queue)
    rw [hq0]
    simp only [queue_bufs, List.map_nil, List.sum_nil, Nat.add_zero]
    unfold u32
    omega

/-- A successful `tcp_write` keeps the invariant of `snd_queuelen`. -/
theorem tcp_write_queuelen (cfg : Config) (pcb : tcp_pcb) (w : World) (arg : Int)
    (len apiflags : Nat) (h : queuelen_ok pcb)
    (hok : (tcp_write cfg pcb w arg len apiflags).1 = err_t.ERR_OK) :
    queuelen_ok (tcp_write cfg pcb w arg len apiflags).2.1 := by
  unfold queuelen_ok at h ⊢
  obtain ⟨c, t, s, hb, hs, hw⟩ := tcp_write_ok_shape cfg pcb w arg len apiflags hok
  have hbi := tcp_write_begin_inr cfg pcb w arg len apiflags c t hb
  have htail := tcp_write_tail_queuelen _ _ _ _ _ _ _ _ _ hbi.2.2.1
  have hfr1 := tcp_write_tail_frame cfg (write_sml_add pcb len apiflags) w arg len apiflags
    (write_mss_local cfg pcb apiflags)
    (if has apiflags TCP_WRITE_ZEROCOPY then pbuf_type.PBUF_ZEROCOPY else pbuf_type.PBUF_RAM)
  rw [hbi.2.2.1] at hfr1
  have hfr2 := (tcp_write_segments_frame c (write_init t)).1
  rw [hs] at hfr2
  have hfr : frame_write s.pcb = frame_write pcb :=
    (frame_write_of_frame_alloc _ _ hfr2).trans
      (hfr1.trans (write_sml_add_frame_write pcb len apiflags))
  have hunsent : s.pcb.unsent = pcb.unsent := by
    have h1 := congrArg tcp_pcb.unsent hfr
    exact h1
  have hunacked : s.pcb.unacked = pcb.unacked := by
    have h1 := congrArg tcp_pcb.unacked hfr
    exact h1
  have hq0 : (write_sml_add pcb len apiflags).snd_queuelen = pcb.snd_queuelen :=
    (write_sml_add_state pcb len apiflags).2.2.1
  have hu0 : (write_sml_add pcb len apiflags).unsent = pcb.unsent := by
    have h1 := congrArg tcp_pcb.unsent (write_sml_add_frame_write pcb len apiflags)
    exact h1
  have hbound : t.queuelen < 4294967296 := by
    rw [htail.1, hq0, h]
    unfold u32
    split <;> omega
  have hloop := tcp_write_segments_queuelen c (write_init t) rfl hbound
  rw [hs] at hloop
  have hloop1 : s.queuelen = u32 (t.queuelen + queue_bufs s.queue) := hloop rfl
  rw [hw]
  show s.queuelen = u32 (queue_bufs (push_last cfg _) + queue_bufs s.pcb.unacked)
  rw [push_last_bufs, hunacked, hloop1, htail.1, hq0, hunsent]
  cases hl : queue_tail pcb.unsent with
  | none =>
    have hnil : pcb.unsent = [] := List.getLast?_eq_none_iff.1 hl
    have hcp : t.concat_p = none := by
      by_contra hc
      exact htail.2 hc (by rw [hu0]; exact hnil)
    rw [if_pos hcp, h, hnil]
    dsimp only
    unfold u32
    simp only [queue_bufs, List.map_nil, List.sum_nil]
    omega
  | some last =>
    dsimp only
    rw [queue_bufs_append,
      queue_bufs_set_tail pcb.unsent last (commit_tail last t.oversize_used t.concat_p)
        (if t.concat_p = none then 0 else 1) hl (commit_tail_clen _ _ _), h]
    split <;> (unfold u32; omega)
/-- The loop of `tcp_split_rexmit` neither adds nor drops a buffer. -/
theorem split_rexmit_loop_bufs (optflags optlen hlen : Nat) (pcb : tcp_pcb) (w : World)
    (cur_seg : tcp_seg) :
    pbuf_clen (split_rexmit_loop pcb w optflags optlen hlen cur_seg).1.p +
      queue_bufs (split_rexmit_loop pcb w optflags optlen hlen cur_seg).2.1 =
    pbuf_clen cur_seg.p := by
  refine split_rexmit_loop_induct optflags optlen hlen
    (fun _ _ cur_seg res => pbuf_clen res.1.p + queue_bufs res.2.1 = pbuf_clen cur_seg.p)
    ?_ ?_ ?_ pcb w cur_seg
  · intro pcb w cur_seg _
    simp [queue_bufs]
  · intro pcb w cur_seg b cur_p r pcb1 w1 _ _
    simp [queue_bufs]
  · intro pcb w cur_seg b cur_p r new_seg pcb1 w1 res hp hc ih
    have hclen := tcp_create_segment_clen _ _ _ _ _ _ _ _ _ (by simp) hc
    obtain ⟨⟨-, -, -, -, m5⟩, -, -, -, -, n5⟩ :=
      tcp_seg_move_flags_fields (rexmit_left optlen hlen cur_seg b)
        { new_seg with flags := cur_seg.flags } (TCP_FIN ||| TCP_RST)
    have e1 : (rexmit_moved optlen hlen cur_seg b new_seg).1.p = [{ b with tot_len := b.len }] := m5
    have e2 : (rexmit_moved optlen hlen cur_seg b new_seg).2.p = new_seg.p := n5
    show pbuf_clen (rexmit_moved optlen hlen cur_seg b new_seg).1.p +
      queue_bufs (res.1 :: res.2.1) = pbuf_clen cur_seg.p
    rw [queue_bufs_cons, ih, e1, e2, hp]
    unfold pbuf_clen
    rw [hclen]
    simp only [List.length_cons, List.length_nil]
    omega

/-- The retransmit split of `tcp_output` neither adds nor drops a buffer and
leaves `snd_queuelen` alone. -/
theorem prepare_rexmit_bufs (pcb : tcp_pcb) (w : World) (seg1 : tcp_seg) :
    pbuf_clen (prepare_rexmit pcb w seg1).1.p + queue_bufs (prepare_rexmit pcb w seg1).2.1 =
      pbuf_clen seg1.p ∧
    (prepare_rexmit pcb w seg1).2.2.1.snd_queuelen = pcb.snd_queuelen := by
  unfold prepare_rexmit
  dsimp only
  split
  · unfold tcp_split_rexmit
    split
    rename_i optflags optlen hlen _
    exact ⟨split_rexmit_loop_bufs _ _ _ _ _ _,
      (split_rexmit_loop_basic _ _ _ _ _ _).2.2.2.2.2.2⟩
  · exact ⟨by simp [queue_bufs], rfl⟩

theorem retotal_length : ∀ (l : List pbuf) (h : Nat), (retotal h l).length = l.length := by
  intro l
  induction l with
  | nil => intro h; rfl
  | cons b r ih =>
    intro h
    unfold retotal
    simp [ih]

/-- What `tcp_split_segment` leaves when it has split: in the head-buffer
branch the left part is one buffer, the right part has the new buffer and
the buffers that followed the first one, `snd_queuelen` is incremented, and
when the segment was `last_unsent` the new segment is, with `unsent_oversize`
the spare room `oversize` of the new buffer; in the buffer-chain branch the
buffers are divided between the two parts, `snd_queuelen` is unchanged, and
when the segment was `last_unsent` the new segment is, with
`unsent_oversize = 0`. -/
theorem tcp_split_segment_state (cfg : Config) (pcb : tcp_pcb) (w : World) (seg : tcp_seg)
    (wnd : Nat) :
    (tcp_split_segment cfg pcb w seg wnd).2.1 = [] ∨
    (∃ (newseg right : tcp_seg) (oversize : Nat),
      (tcp_split_segment cfg pcb w seg wnd).2.1 = [right] ∧
      right.id = newseg.id ∧ right.p = newseg.p ∧
      (tcp_split_segment cfg pcb w seg wnd).1.p.length = 1 ∧
      right.p.length = seg.p.length ∧
      (tcp_split_segment cfg pcb w seg wnd).2.2.1.snd_queuelen = u32 (pcb.snd_queuelen + 1) ∧
      (pcb.last_unsent = some seg.id →
        (tcp_split_segment cfg pcb w seg wnd).2.2.1.last_unsent = some newseg.id ∧
        (tcp_split_segment cfg pcb w seg wnd).2.2.1.unsent_oversize = oversize) ∧
      (pcb.last_unsent ≠ some seg.id →
        (tcp_split_segment cfg pcb w seg wnd).2.2.1.last_unsent = pcb.last_unsent ∧
        (tcp_split_segment cfg pcb w seg wnd).2.2.1.unsent_oversize = pcb.unsent_oversize)) ∨
    (∃ (newseg right : tcp_seg),
      (tcp_split_segment cfg pcb w seg wnd).2.1 = [right] ∧
      right.id = newseg.id ∧ right.p = newseg.p ∧
      (tcp_split_segment cfg pcb w seg wnd).1.p.length + right.p.length = seg.p.length ∧
      (tcp_split_segment cfg pcb w seg wnd).2.2.1.snd_queuelen = pcb.snd_queuelen ∧
      (pcb.last_unsent = some seg.id →
        (tcp_split_segment cfg pcb w seg wnd).2.2.1.last_unsent = some newseg.id ∧
        (tcp_split_segment cfg pcb w seg wnd).2.2.1.unsent_oversize = 0) ∧
      (pcb.last_unsent ≠ some seg.id →
        (tcp_split_segment cfg pcb w seg wnd).2.2.1.last_unsent = pcb.last_unsent ∧
        (tcp_split_segment cfg pcb w seg wnd).2.2.1.unsent_oversize = pcb.unsent_oversize)) := by
  unfold tcp_split_segment
  split
  · exact Or.inl rfl
  · rename_i head chain hp
    split
    · exact Or.inl rfl
    · dsimp only
      split
      · rename_i hbig
        split
        · exact Or.inl rfl
        · rename_i b oversize pcb1 w1 h1
          have hf1 : frame_alloc pcb1 = frame_alloc pcb :=
            (congrArg (fun r => frame_alloc r.2.1) h1).symm.trans
              (tcp_pbuf_prealloc_frame _ _ _ _ _ _ _ _)
          split
          · exact Or.inl rfl
          · rename_i newseg pcb2 w2 h2
            have hf2 : frame_alloc pcb2 = frame_alloc pcb :=
              ((congrArg (fun r => frame_alloc r.2.1) h2).symm.trans
                (tcp_create_segment_frame _ _ _ _ _ _)).trans hf1
            have hq : pcb2.snd_queuelen = pcb.snd_queuelen := by
              have h3 := congrArg tcp_pcb.snd_queuelen hf2
              exact h3
            have hlu : pcb2.last_unsent = pcb.last_unsent := by
              have h3 := congrArg tcp_pcb.last_unsent hf2
              exact h3
            have hov : pcb2.unsent_oversize = pcb.unsent_oversize := by
              have h3 := congrArg tcp_pcb.unsent_oversize hf2
              exact h3
            have hclen := tcp_create_segment_clen _ _ _ _ _ _ _ _ _ (by simp) h2
            right
            left
            refine ⟨newseg, _, oversize, rfl, ?_, ?_, ?_, ?_, ?_, ?_, ?_⟩
            · rw [(tcp_seg_move_flags_fields _ _ _).2.1]
              split <;> rfl
            · rw [(tcp_seg_move_flags_fields _ _ _).2.2.2.2.2]
              split <;> rfl
            · rw [(tcp_seg_move_flags_fields _ _ _).1.2.2.2.2]
              rfl
            · rw [(tcp_seg_move_flags_fields _ _ _).2.2.2.2.2]
              have e : (if cfg.enable_push_flag = true then
                  ({ ({ newseg with flags := seg.flags } : tcp_seg) with
                     hdr := TCPH_SET_FLAG ({ newseg with flags := seg.flags } : tcp_seg).hdr
                       TCP_PSH } : tcp_seg)
                  else ({ newseg with flags := seg.flags } : tcp_seg)).p = newseg.p := by
                split <;> rfl
              rw [e, hclen, hp]
              simp
            · dsimp only
              split
              · show u32 (pcb2.snd_queuelen + 1) = _
                rw [hq]
              · show u32 (pcb2.snd_queuelen + 1) = _
                rw [hq]
            · intro hl
              dsimp only
              rw [if_pos (by rw [hlu]; exact hl)]
              exact ⟨rfl, rfl⟩
            · intro hl
              dsimp only
              rw [if_neg (by rw [hlu]; exact hl)]
              exact ⟨hlu, hov⟩
      · rename_i hbig
        split
        · split
          · exact Or.inl rfl
          · rename_i left right headchainlen hw
            split
            · exact Or.inl rfl
            · rename_i newseg pcb1 w1 h2
              have hf1 : frame_alloc pcb1 = frame_alloc pcb :=
                (congrArg (fun r => frame_alloc r.2.1) h2).symm.trans
                  (tcp_create_segment_frame _ _ _ _ _ _)
              have hq : pcb1.snd_queuelen = pcb.snd_queuelen := by
                have h3 := congrArg tcp_pcb.snd_queuelen hf1
                exact h3
              have hlu : pcb1.last_unsent = pcb.last_unsent := by
                have h3 := congrArg tcp_pcb.last_unsent hf1
                exact h3
              have hov : pcb1.unsent_oversize = pcb.unsent_oversize := by
                have h3 := congrArg tcp_pcb.unsent_oversize hf1
                exact h3
              obtain ⟨x, t, hr, happ⟩ := chain_walk_some _ _ _ _ _ _ _ _ _ hw
              have hclen : newseg.p.length = right.length := by
                rw [hr] at h2
                have h4 := tcp_create_segment_clen _ _ _ _ _ _ _ _ _ (by simp) h2
                rw [hr]
                exact h4
              right
              right
              refine ⟨newseg, _, rfl, ?_, ?_, ?_, ?_, ?_, ?_⟩
              · rw [(tcp_seg_move_flags_fields _ _ _).2.1]
              · rw [(tcp_seg_move_flags_fields _ _ _).2.2.2.2.2]
              · rw [(tcp_seg_move_flags_fields _ _ _).1.2.2.2.2,
                  (tcp_seg_move_flags_fields _ _ _).2.2.2.2.2]
                show (retotal headchainlen left).length + newseg.p.length = seg.p.length
                rw [retotal_length, hclen, hp]
                have h5 := congrArg List.length happ
                simp only [List.length_append, List.nil_append] at h5
                exact h5
              · dsimp only
                split
                · exact hq
                · exact hq
              · intro hl
                dsimp only
                rw [if_pos (by rw [hlu]; exact hl)]
                exact ⟨rfl, rfl⟩
              · intro hl
                dsimp only
                rw [if_neg (by rw [hlu]; exact hl)]
                exact ⟨hlu, hov⟩
        · exact Or.inl rfl

/-- The window split adds one buffer in its head-buffer branch, where it
also increments `snd_queuelen`, and none otherwise. -/
theorem tcp_split_segment_bufs (cfg : Config) (pcb : tcp_pcb) (w : World) (seg : tcp_seg)
    (wnd : Nat) :
    ∃ d, d ≤ 1 ∧
      pbuf_clen (tcp_split_segment cfg pcb w seg wnd).1.p +
        queue_bufs (tcp_split_segment cfg pcb w seg wnd).2.1 = pbuf_clen seg.p + d ∧
      (tcp_split_segment cfg pcb w seg wnd).2.2.1.snd_queuelen =
        (if d = 0 then pcb.snd_queuelen else u32 (pcb.snd_queuelen + 1)) := by
  rcases tcp_split_segment_state cfg pcb w seg wnd with h | h | h
  · obtain ⟨h1, hfr⟩ := tcp_split_segment_none cfg pcb w seg wnd h
    refine ⟨0, by omega, ?_, ?_⟩
    · rw [h, h1]
      simp [queue_bufs]
    · have h2 := congrArg tcp_pcb.snd_queuelen hfr
      exact h2
  · obtain ⟨newseg, right, oversize, hr, -, -, hl, hrl, hq, -⟩ := h
    refine ⟨1, le_refl _, ?_, ?_⟩
    · rw [hr, queue_bufs_cons]
      unfold pbuf_clen
      rw [hl, hrl]
      simp only [queue_bufs, List.map_nil, List.sum_nil]
      omega
    · rw [if_neg (by omega)]
      exact hq
  · obtain ⟨newseg, right, hr, -, -, hl, hq, -⟩ := h
    refine ⟨0, by omega, ?_, ?_⟩
    · rw [hr, queue_bufs_cons]
      unfold pbuf_clen
      simp only [queue_bufs, List.map_nil, List.sum_nil]
      omega
    · exact hq
/-- The joining loop of `tcp_tso_segment` neither adds nor drops a buffer. -/
theorem tso_join_bufs (pcb : tcp_pcb) (flags mp : Nat) :
    ∀ (l : List tcp_seg) (tot_len : Nat) (tot_p : Int) (seg : tcp_seg),
      pbuf_clen (tso_join pcb flags mp tot_len tot_p seg l).1.p +
        queue_bufs (tso_join pcb flags mp tot_len tot_p seg l).2 =
      pbuf_clen seg.p + queue_bufs l := by
  intro l
  induction l with
  | nil =>
    intro tot_len tot_p seg
    simp [tso_join]
  | cons cur t ih =>
    intro tot_len tot_p seg
    cases t with
    | nil => simp [tso_join]
    | cons nxt rest =>
      unfold tso_join
      split
      · dsimp only
        split
        · rfl
        · split
          · rfl
          · split
            · rfl
            · rw [ih]
              rw [queue_bufs_cons cur]
              unfold pbuf_clen
              rw [pbuf_cat_length, strip_header_length]
              omega
      · rfl

/-- The TSO join of `tcp_output` neither adds nor drops a buffer. -/
theorem tso_joined_bufs (pcb : tcp_pcb) (seg : tcp_seg) (rest : List tcp_seg) (wnd : Nat) :
    pbuf_clen (tso_joined pcb seg rest wnd).1.p + queue_bufs (tso_joined pcb seg rest wnd).2 =
      pbuf_clen seg.p + queue_bufs rest := by
  unfold tso_joined
  split
  · unfold tcp_tso_segment
    dsimp only
    split
    · rw [mark_tso_p]
    · split
      · rw [mark_tso_p]
      · split
        · rw [mark_tso_p]
        · split
          · rw [mark_tso_p]
          · have h := tso_join_bufs pcb seg.flags
              (min pcb.tso.max_payload_sz (sub32 wnd (sub32 seg.seqno pcb.lastack)))
              rest (add32 0 seg.len) (pbuf_clen seg.p) seg
            revert h
            generalize tso_join pcb seg.flags _ (add32 0 seg.len) _ seg rest = r
            intro h
            obtain ⟨seg1, rest1⟩ := r
            dsimp only at h ⊢
            rw [mark_tso_p]
            exact h
  · rfl

/-- Up to the call of `tcp_output_segment` a pass neither adds nor drops a
buffer and leaves `snd_queuelen` and the unacknowledged list alone. -/
theorem send_ready_bufs (wnd : Nat) (pcb : tcp_pcb) (w : World) (seg : tcp_seg)
    (rest : List tcp_seg) :
    pbuf_clen (send_ready wnd pcb w seg rest).1.p + queue_bufs (send_ready wnd pcb w seg rest).2.1 =
      pbuf_clen seg.p + queue_bufs rest ∧
    (send_ready wnd pcb w seg rest).2.2.1.snd_queuelen = pcb.snd_queuelen := by
  have hfr := (send_ready_appends wnd pcb w seg rest).1
  have hq : (send_ready wnd pcb w seg rest).2.2.1.snd_queuelen = pcb.snd_queuelen := by
    have h1 := congrArg tcp_pcb.snd_queuelen hfr
    exact h1
  refine ⟨?_, hq⟩
  have hj := tso_joined_bufs (minshall_mark pcb seg rest) seg rest wnd
  unfold send_ready
  dsimp only
  split
  · exact hj
  · exact hj

/-- The segment that `tcp_output_segment` returns has as many buffers as the
one it was given, and the PCB keeps `snd_queuelen`. -/
theorem tcp_output_segment_bufs (cfg : Config) (seg : tcp_seg) (pcb : tcp_pcb) (w : World) :
    pbuf_clen (tcp_output_segment cfg seg pcb w).2.1.p = pbuf_clen seg.p ∧
    (tcp_output_segment cfg seg pcb w).2.2.1.snd_queuelen = pcb.snd_queuelen := by
  have hq : (output_segment_pcb cfg seg pcb).snd_queuelen = pcb.snd_queuelen := by
    unfold output_segment_pcb
    split <;> rfl
  unfold tcp_output_segment
  dsimp only
  split
  · exact ⟨rfl, hq⟩
  · refine ⟨?_, hq⟩
    unfold output_segment_chain pbuf_clen
    split
    · rename_i h
      rw [h]
    · rename_i b r h
      rw [h]
      rfl

/-- Putting a sent segment on an unacknowledged list of distinct records
whose tail pointer is right adds its buffers to those of the list. -/
theorem enqueue_unacked_bufs (pcb : tcp_pcb) (seg : tcp_seg) (hd : distinct_ids pcb.unacked)
    (ht : tail_ok pcb.unacked pcb.last_unacked) :
    queue_bufs (enqueue_unacked pcb seg).unacked = queue_bufs pcb.unacked + pbuf_clen seg.p ∧
    (enqueue_unacked pcb seg).snd_queuelen = pcb.snd_queuelen := by
  unfold enqueue_unacked
  split
  · rename_i hnil
    rw [hnil]
    exact ⟨by simp [queue_bufs], rfl⟩
  · rename_i hne
    obtain ⟨l, hl⟩ : ∃ l, pcb.unacked.getLast? = some l := by
      cases hq : pcb.unacked.getLast? with
      | none => exact absurd (List.getLast?_eq_none_iff.1 hq) hne
      | some l => exact ⟨l, rfl⟩
    have hptr : pcb.last_unacked = some l.id := by
      rw [ht hne, hl]
      rfl
    have hderef : deref pcb.unacked pcb.last_unacked = some l := by
      unfold deref
      rw [hptr]
      show (match pcb.unacked.find? (fun s => decide (s.id = l.id)) with
        | some s => some s
        | none => queue_tail pcb.unacked) = some l
      rw [find_last_of_distinct _ _ hl hd]
    rw [hderef]
    dsimp only
    split
    · refine ⟨?_, rfl⟩
      show queue_bufs (insert_sorted seg pcb.unacked) = _
      rw [queue_bufs_insert_sorted]
      omega
    · refine ⟨?_, rfl⟩
      show queue_bufs (link_after pcb.unacked l.id seg) = _
      rw [link_after_last _ _ _ hl hd, queue_bufs_append, queue_bufs_cons]
      simp [queue_bufs]

/-- The PCB of `send_done` at the test `TCP_TCPLEN(seg) > 0`: the segment is
off `unsent`, the drop mark and `snd_nxt` are set. -/
def send_moved (rc : err_t) (seg3 : tcp_seg) (pcb5 : tcp_pcb) (rest1 : List tcp_seg) : tcp_pcb :=
  let pcb6 := if rc = err_t.ERR_WOULDBLOCK then { pcb5 with is_last_seg_dropped := true }
              else pcb5
  let pcb7 := { pcb6 with unsent := rest1 }
  let snd_nxt := add32 seg3.seqno (TCP_TCPLEN seg3)
  if TCP_SEQ_LT pcb7.snd_nxt snd_nxt ∧ ¬ LWIP_IS_DUMMY_SEGMENT seg3 then
    { pcb7 with snd_nxt := snd_nxt } else pcb7

theorem send_moved_fields (rc : err_t) (seg3 : tcp_seg) (pcb5 : tcp_pcb) (rest1 : List tcp_seg) :
    (send_moved rc seg3 pcb5 rest1).unsent = rest1 ∧
    (send_moved rc seg3 pcb5 rest1).unacked = pcb5.unacked ∧
    (send_moved rc seg3 pcb5 rest1).last_unacked = pcb5.last_unacked ∧
    (send_moved rc seg3 pcb5 rest1).snd_queuelen = pcb5.snd_queuelen := by
  unfold send_moved
  dsimp only
  split <;> split <;> exact ⟨rfl, rfl, rfl, rfl⟩

theorem send_done_eq (rc : err_t) (seg3 : tcp_seg) (pcb5 : tcp_pcb) (w4 : World)
    (rest1 : List tcp_seg) :
    send_done rc seg3 pcb5 w4 rest1 =
      if rc ≠ err_t.ERR_OK ∧ pcb5.unacked ≠ [] then
        (false, rc, { pcb5 with unsent := seg3 :: rest1 }, w4)
      else if TCP_TCPLEN seg3 > 0 then
        if LWIP_IS_DUMMY_SEGMENT seg3 then
          (true, rc,
            { send_moved rc seg3 pcb5 rest1 with
              snd_lbb := sub32 (send_moved rc seg3 pcb5 rest1).snd_lbb seg3.len,
              snd_buf := add32 (send_moved rc seg3 pcb5 rest1).snd_buf seg3.len,
              snd_queuelen :=
                sub32 (send_moved rc seg3 pcb5 rest1).snd_queuelen (pbuf_clen seg3.p) }, w4)
        else (true, rc, enqueue_unacked (send_moved rc seg3 pcb5 rest1) seg3, w4)
      else (true, rc, send_moved rc seg3 pcb5 rest1, w4) := by
  rfl

/-- The end of a pass of `tcp_output` keeps the invariant of `snd_queuelen`
when the segment sent counts in sequence space: `snd_queuelen` counted the
segment, the queue after it and the unacknowledged list; afterwards it
counts `unsent` and `unacked`. -/
theorem send_done_queuelen (rc : err_t) (s : tcp_seg) (pcb5 : tcp_pcb) (w4 : World)
    (rest1 : List tcp_seg)
    (hq : pcb5.snd_queuelen = u32 (pbuf_clen s.p + queue_bufs rest1 + queue_bufs pcb5.unacked))
    (hd : distinct_ids pcb5.unacked) (ht : tail_ok pcb5.unacked pcb5.last_unacked)
    (hlen : TCP_TCPLEN s > 0) :
    queuelen_ok (send_done rc s pcb5 w4 rest1).2.2.1 := by
  obtain ⟨m1, m2, m3, m4⟩ := send_moved_fields rc s pcb5 rest1
  rw [send_done_eq]
  unfold queuelen_ok
  split
  · show pcb5.snd_queuelen = u32 (queue_bufs (s :: rest1) + queue_bufs pcb5.unacked)
    rw [hq, queue_bufs_cons]
  · try rw [if_pos hlen]
    split
    · show sub32 (send_moved rc s pcb5 rest1).snd_queuelen (pbuf_clen s.p) =
        u32 (queue_bufs (send_moved rc s pcb5 rest1).unsent +
          queue_bufs (send_moved rc s pcb5 rest1).unacked)
      rw [m1, m2, m4, hq]
      have e : pbuf_clen s.p + queue_bufs rest1 + queue_bufs pcb5.unacked =
          pbuf_clen s.p + (queue_bufs rest1 + queue_bufs pcb5.unacked) := by omega
      rw [e, sub32_u32_add]
    · show (enqueue_unacked (send_moved rc s pcb5 rest1) s).snd_queuelen =
        u32 (queue_bufs (enqueue_unacked (send_moved rc s pcb5 rest1) s).unsent +
          queue_bufs (enqueue_unacked (send_moved rc s pcb5 rest1) s).unacked)
      have hb := enqueue_unacked_bufs (send_moved rc s pcb5 rest1) s (by rw [m2]; exact hd)
        (by rw [m2, m3]; exact ht)
      rw [hb.1, hb.2, enqueue_unacked_unsent, m1, m2, m4, hq]
      congr 1
      omega

/-- The window split of `tcp_output` adds one buffer when it cuts the first
buffer, where it also increments `snd_queuelen`, and none otherwise. -/
theorem prepare_window_bufs (cfg : Config) (wnd : Nat) (pcb : tcp_pcb) (w : World) (seg : tcp_seg) :
    ∃ d, d ≤ 1 ∧
      pbuf_clen (prepare_window cfg wnd pcb w seg).1.p +
        queue_bufs (prepare_window cfg wnd pcb w seg).2.1 = pbuf_clen seg.p + d ∧
      (prepare_window cfg wnd pcb w seg).2.2.1.snd_queuelen =
        (if d = 0 then pcb.snd_queuelen else u32 (pcb.snd_queuelen + 1)) := by
  unfold prepare_window
  split
  · exact tcp_split_segment_bufs cfg pcb w seg wnd
  · exact ⟨0, by omega, by simp [queue_bufs], rfl⟩

/-- The first part of a pass of `tcp_output` leaves the head segment and the
queue after it in `unsent`; it has added one buffer at most, and then has
incremented `snd_queuelen`. -/
theorem output_prepare_queue (cfg : Config) (wnd : Nat) (pcb : tcp_pcb) (w : World)
    (seg0 : tcp_seg) (rest0 : List tcp_seg) :
    (output_prepare cfg wnd pcb w seg0 rest0).2.2.1.unsent =
      (output_prepare cfg wnd pcb w seg0 rest0).1 ::
        (output_prepare cfg wnd pcb w seg0 rest0).2.1 ∧
    ∃ d, d ≤ 1 ∧
      queue_bufs ((output_prepare cfg wnd pcb w seg0 rest0).1 ::
        (output_prepare cfg wnd pcb w seg0 rest0).2.1) = queue_bufs (seg0 :: rest0) + d ∧
      (output_prepare cfg wnd pcb w seg0 rest0).2.2.1.snd_queuelen =
        (if d = 0 then pcb.snd_queuelen else u32 (pcb.snd_queuelen + 1)) := by
  have h1 := prepare_rexmit_bufs pcb w { seg0 with flags := clr8 seg0.flags TF_SEG_OPTS_TSO }
  obtain ⟨d, hd, h2, h3⟩ := prepare_window_bufs cfg wnd
    (prepare_rexmit pcb w { seg0 with flags := clr8 seg0.flags TF_SEG_OPTS_TSO }).2.2.1
    (prepare_rexmit pcb w { seg0 with flags := clr8 seg0.flags TF_SEG_OPTS_TSO }).2.2.2
    (prepare_rexmit pcb w { seg0 with flags := clr8 seg0.flags TF_SEG_OPTS_TSO }).1
  unfold output_prepare
  dsimp only
  refine ⟨rfl, d, hd, ?_, ?_⟩
  · rw [queue_bufs_cons, queue_bufs_append, queue_bufs_append, queue_bufs_cons]
    have h1a := h1.1
    have e : pbuf_clen ({ seg0 with flags := clr8 seg0.flags TF_SEG_OPTS_TSO } : tcp_seg).p =
        pbuf_clen seg0.p := rfl
    rw [e] at h1a
    omega
  · rw [h3, h1.2]

/-- Whether the segment of a call of the IP output hook counts in sequence
space (`TCP_TCPLEN(seg) > 0`); a call without segment passes. -/
def call_counts (c : HookCall) : Bool :=
  match c.seg with
  | none => true
  | some s => decide (TCP_TCPLEN s > 0)

/-- The two ways a pass of the loop of `tcp_output` can go, with the count of
buffers: either it stops before sending, or it hands one segment `s` to the
IP output hook and finishes with `send_done`; the PCB the hook saw has the
`snd_queuelen` that the preparation left, and `s` with the queue after it
holds the buffers that the preparation left in `unsent`. -/
theorem output_pass_counts (cfg : Config) (wnd : Nat) (pcb : tcp_pcb) (w : World) (seg0 : tcp_seg)
    (rest0 : List tcp_seg) :
    (output_pass cfg wnd pcb w seg0 rest0 =
        (false, err_t.ERR_OK, (output_prepare cfg wnd pcb w seg0 rest0).2.2.1,
          (output_prepare cfg wnd pcb w seg0 rest0).2.2.2) ∧
      (output_prepare cfg wnd pcb w seg0 rest0).2.2.2.calls = w.calls) ∨
    ∃ rc acks c s rest1 w4,
      output_pass cfg wnd pcb w seg0 rest0 = send_done rc s c.pcb w4 rest1 ∧
      w4.calls = w.calls ++ acks ++ [c] ∧ (∀ a ∈ acks, a.seg = none) ∧ c.seg = some s ∧
      ack_key c.pcb = ack_key pcb ∧
      c.pcb.snd_queuelen = (output_prepare cfg wnd pcb w seg0 rest0).2.2.1.snd_queuelen ∧
      pbuf_clen s.p + queue_bufs rest1 =
        queue_bufs ((output_prepare cfg wnd pcb w seg0 rest0).1 ::
          (output_prepare cfg wnd pcb w seg0 rest0).2.1) := by
  have hprep := output_prepare_silent cfg wnd pcb w seg0 rest0
  unfold output_pass
  split
  rename_i seg rest pcb1 w1 heq
  rw [heq] at hprep ⊢
  dsimp only at hprep ⊢
  split
  · unfold output_send
    split
    · exact Or.inl ⟨rfl, hprep.2⟩
    · right
      obtain ⟨hfr, -, acks, hacks, hnone⟩ := send_ready_appends wnd pcb1 w1 seg rest
      obtain ⟨hb1, hb2⟩ := send_ready_bufs wnd pcb1 w1 seg rest
      split
      rename_i seg2 rest1 pcb4 w3 heq2
      rw [heq2] at hfr hacks hb1 hb2
      dsimp only at hfr hacks hb1 hb2 ⊢
      obtain ⟨c, s, hres, hs, hcp, -⟩ := tcp_output_segment_shape cfg seg2 pcb4 w3
      obtain ⟨hc1, hc2⟩ := tcp_output_segment_bufs cfg seg2 pcb4 w3
      rw [hres] at hc1 hc2
      dsimp only at hc1 hc2
      rw [hres, ← hcp]
      dsimp only
      refine ⟨_, acks, c, s, rest1, _, rfl, ?_, hnone, hs, ?_, ?_, ?_⟩
      · show w3.calls ++ [c] = w.calls ++ acks ++ [c]
        rw [hacks, hprep.2]
      · rw [hcp, output_segment_pcb_ack_key]
        exact (ack_key_of_frame_ready _ _ hfr).trans (ack_key_of_frame_split _ _ hprep.1)
      · rw [hcp, hc2, hb2]
      · rw [hc1, hb1, queue_bufs_cons]
  · exact Or.inl ⟨rfl, hprep.2⟩

/-- The fields that the invariant of `snd_queuelen` reads, apart from
`unsent`, are among those that `frame_ready` keeps. -/
theorem queuelen_of_frame_ready (a b : tcp_pcb) (h : frame_ready a = frame_ready b) :
    a.snd_queuelen = b.snd_queuelen := by
  have h1 := congrArg tcp_pcb.snd_queuelen h
  exact h1

/-- The statements after the loop of `tcp_output` do not write `snd_queuelen`. -/
theorem output_finish_queuelen (rc : err_t) (pcb : tcp_pcb) (w : World) :
    (output_finish rc pcb w).2.1.snd_queuelen = pcb.snd_queuelen := by
  have h1 : ∀ p w, (prefetch_seg p w).1.snd_queuelen = p.snd_queuelen := by
    intro p w
    unfold prefetch_seg
    split
    · have h := congrArg tcp_pcb.snd_queuelen (tcp_create_segment_frame p w [] 0 0 0)
      exact h
    · rfl
  have h2 : ∀ p w, (prefetch_pbuf p w).1.snd_queuelen = p.snd_queuelen := by
    intro p w
    unfold prefetch_pbuf
    split
    · have h := congrArg tcp_pcb.snd_queuelen (tcp_tx_pbuf_alloc_frame p w 0 pbuf_type.PBUF_RAM)
      exact h
    · rfl
  unfold output_finish
  dsimp only
  rw [h2, h1]
  split <;> rfl

/-- One pass of the loop of `tcp_output` keeps the invariant of
`snd_queuelen` together with the order of the unacknowledged list: the
calls of the hook that it makes are appended to the log, and when each of
them is `hook_sane` and hands over a segment that counts in sequence space,
both hold after the pass when they held before it. -/
theorem output_pass_queuelen (cfg : Config) (wnd : Nat) (pcb : tcp_pcb) (w : World)
    (seg0 : tcp_seg) (rest0 : List tcp_seg) (hu : pcb.unsent = seg0 :: rest0) :
    ∃ made, (output_pass cfg wnd pcb w seg0 rest0).2.2.2.calls = w.calls ++ made ∧
      ((∀ c ∈ made, hook_sane c = true ∧ call_counts c = true) →
        queuelen_ok pcb ∧ unacked_ok pcb.unacked pcb.last_unacked →
        queuelen_ok (output_pass cfg wnd pcb w seg0 rest0).2.2.1 ∧
        unacked_ok (output_pass cfg wnd pcb w seg0 rest0).2.2.1.unacked
          (output_pass cfg wnd pcb w seg0 rest0).2.2.1.last_unacked) := by
  obtain ⟨hpu, d, hd, hb, hq⟩ := output_prepare_queue cfg wnd pcb w seg0 rest0
  have hp := output_prepare_silent cfg wnd pcb w seg0 rest0
  have hk := ack_key_of_frame_split _ _ hp.1
  have k1 : (output_prepare cfg wnd pcb w seg0 rest0).2.2.1.unacked = pcb.unacked :=
    congrArg (fun k => k.2.2.1) hk
  have k2 : (output_prepare cfg wnd pcb w seg0 rest0).2.2.1.last_unacked =
      pcb.last_unacked := congrArg (fun k => k.2.2.2) hk
  have hcount : queuelen_ok pcb → (output_prepare cfg wnd pcb w seg0 rest0).2.2.1.snd_queuelen =
      u32 (queue_bufs ((output_prepare cfg wnd pcb w seg0 rest0).1 ::
        (output_prepare cfg wnd pcb w seg0 rest0).2.1) + queue_bufs pcb.unacked) := by
    intro hok
    unfold queuelen_ok at hok
    rw [hq, hb, hok, hu]
    split
    · rename_i h0
      rw [h0]
      rfl
    · have h1 : d = 1 := by omega
      rw [h1, u32_add_u32]
      congr 1
      omega
  rcases output_pass_counts cfg wnd pcb w seg0 rest0 with ⟨hs, hcalls⟩ |
    ⟨rc1, acks, c, s, rest1, w4, hs, hcalls, hnone, hseg, hkey, hsq, hbufs⟩
  · rw [hs]
    refine ⟨[], by simpa using hcalls, fun _ hok => ⟨?_, ?_⟩⟩
    · show queuelen_ok (output_prepare cfg wnd pcb w seg0 rest0).2.2.1
      unfold queuelen_ok
      rw [hpu, k1]
      exact hcount hok.1
    · show unacked_ok (output_prepare cfg wnd pcb w seg0 rest0).2.2.1.unacked
        (output_prepare cfg wnd pcb w seg0 rest0).2.2.1.last_unacked
      rw [k1, k2]
      exact hok.2
  · rw [hs]
    have h1 : c.pcb.unacked = pcb.unacked := congrArg (fun k => k.2.2.1) hkey
    have h2 : c.pcb.last_unacked = pcb.last_unacked := congrArg (fun k => k.2.2.2) hkey
    refine ⟨acks ++ [c], ?_, fun hsane hok => ⟨?_, ?_⟩⟩
    · rw [(send_done_wouldblock rc1 s c.pcb w4 rest1).2.1, hcalls, List.append_assoc]
    · have hcc := (hsane c (by simp)).2
      unfold call_counts at hcc
      rw [hseg] at hcc
      apply send_done_queuelen
      · rw [hsq, hcount hok.1, hbufs, h1]
      · rw [h1]; exact hok.2.2.1
      · rw [h1, h2]; exact hok.2.2.2
      · exact of_decide_eq_true hcc
    · have hc := hook_sane_spec c s (hsane c (by simp)).1 hseg
      exact send_done_unacked_ok rc1 s c.pcb w4 rest1 (by rw [h1, h2]; exact hok.2)
        hc.1 hc.2

/-- The invariant of the loop of `tcp_output` for `snd_queuelen`: the calls
made are appended to the log, and when all of them are `hook_sane` and hand
over segments that count in sequence space, `snd_queuelen` counts the
buffers of `unsent` and `unacked` after the loop when it did before. -/
theorem tcp_output_loop_queuelen (cfg : Config) (wnd : Nat) :
    ∀ (fuel : Nat) (rc : err_t) (pcb : tcp_pcb) (w : World) (r : err_t × tcp_pcb × World),
      tcp_output_loop cfg wnd fuel rc pcb w = some r →
      ∃ made, r.2.2.calls = w.calls ++ made ∧
        ((∀ c ∈ made, hook_sane c = true ∧ call_counts c = true) →
          queuelen_ok pcb ∧ unacked_ok pcb.unacked pcb.last_unacked →
          queuelen_ok r.2.1 ∧ unacked_ok r.2.1.unacked r.2.1.last_unacked) := by
  intro fuel
  induction fuel with
  | zero =>
    intro rc pcb w r h
    simp [tcp_output_loop] at h
  | succ n ih =>
    intro rc pcb w r h
    unfold tcp_output_loop at h
    split at h
    · cases h
      exact ⟨[], by simp, fun _ hok => hok⟩
    · split at h
      · cases h
        exact ⟨[], by simp, fun _ hok => hok⟩
      · rename_i seg0 rest0 hu
        obtain ⟨made1, hm1, hi1⟩ := output_pass_queuelen cfg wnd pcb w seg0 rest0 hu
        split at h
        · rename_i rc1 pcb1 w1 heq
          rw [heq] at hm1 hi1
          cases h
          exact ⟨made1, hm1, hi1⟩
        · rename_i rc1 pcb1 w1 heq
          rw [heq] at hm1 hi1
          obtain ⟨made2, hm2, hi2⟩ := ih rc1 pcb1 w1 r h
          refine ⟨made1 ++ made2, ?_, fun hsane hok => ?_⟩
          · rw [hm2, hm1, List.append_assoc]
          · exact hi2 (fun c hc => hsane c (List.mem_append_right _ hc))
              (hi1 (fun c hc => hsane c (List.mem_append_left _ hc)) hok)

/-- A run of `tcp_output` keeps the invariant of `snd_queuelen` when every
segment handed to the IP output hook counts in sequence space (and can be
put on the unacknowledged list): `snd_queuelen` counts the buffers of
`unsent` and `unacked` after the call when it did before.  The runs left out
are those that send a segment without payload, `SYN` or `FIN`. -/
theorem tcp_output_queuelen (cfg : Config) (fuel : Nat) (pcb : tcp_pcb) (w : World)
    (r : err_t × tcp_pcb × World) (hrun : tcp_output cfg fuel pcb w = some r)
    (hq : queuelen_ok pcb) (hok : unacked_ok pcb.unacked pcb.last_unacked)
    (hsane : ∀ c ∈ r.2.2.calls.drop w.calls.length, hook_sane c = true ∧ call_counts c = true) :
    queuelen_ok r.2.1 ∧ unacked_ok r.2.1.unacked r.2.1.last_unacked := by
  have hreq := output_requeue_unacked_ok pcb hok
  have hrq := output_requeue_queuelen pcb hq
  unfold tcp_output at hrun
  split at hrun
  · cases hrun
    exact ⟨hq, hok⟩
  · dsimp only at hrun
    split at hrun
    · cases hrun
      obtain ⟨hf, hun, -⟩ := tcp_send_empty_ack_appends (output_requeue pcb) w
      have hk := ack_key_of_frame_ready _ _ hf
      have h1 : (tcp_send_empty_ack (output_requeue pcb) w).2.1.unacked =
          (output_requeue pcb).unacked := congrArg (fun k => k.2.2.1) hk
      have h2 : (tcp_send_empty_ack (output_requeue pcb) w).2.1.last_unacked =
          (output_requeue pcb).last_unacked := congrArg (fun k => k.2.2.2) hk
      have h3 := queuelen_of_frame_ready _ _ hf
      refine ⟨?_, ?_⟩
      · show queuelen_ok (tcp_send_empty_ack (output_requeue pcb) w).2.1
        unfold queuelen_ok at hrq ⊢
        rw [h3, hun, h1]
        exact hrq
      · show unacked_ok (tcp_send_empty_ack (output_requeue pcb) w).2.1.unacked
          (tcp_send_empty_ack (output_requeue pcb) w).2.1.last_unacked
        rw [h1, h2]
        exact hreq
    · split at hrun
      · cases hrun
      · rename_i rc pcb2 w2 heq
        cases hrun
        obtain ⟨made, hm, hi⟩ := tcp_output_loop_queuelen cfg _ fuel _ _ w _ heq
        have hk := output_finish_ack_key rc pcb2 w2
        have h1 : (output_finish rc pcb2 w2).2.1.unacked = pcb2.unacked :=
          congrArg (fun k => k.2.2.1) hk
        have h2 : (output_finish rc pcb2 w2).2.1.last_unacked = pcb2.last_unacked :=
          congrArg (fun k => k.2.2.2) hk
        have hmade : (output_finish rc pcb2 w2).2.2.calls.drop w.calls.length = made := by
          rw [output_finish_calls]
          show w2.calls.drop w.calls.length = made
          rw [hm, List.drop_left]
        rw [hmade] at hsane
        obtain ⟨g1, g2⟩ := hi hsane ⟨hrq, hreq⟩
        refine ⟨?_, ?_⟩
        · show queuelen_ok (output_finish rc pcb2 w2).2.1
          unfold queuelen_ok at g1 ⊢
          rw [output_finish_queuelen, output_finish_unsent, h1]
          exact g1
        · show unacked_ok (output_finish rc pcb2 w2).2.1.unacked
            (output_finish rc pcb2 w2).2.1.last_unacked
          rw [h1, h2]
          exact g2
/-- A run of `tcp_rexmit_rto` keeps the invariant of `snd_queuelen` under the
same condition on the segments that its call of `tcp_output` hands to the
IP output hook. -/
theorem tcp_rexmit_rto_queuelen (cfg : Config) (fuel : Nat) (pcb : tcp_pcb) (w : World)
    (r : tcp_pcb × World) (hrun : tcp_rexmit_rto cfg fuel pcb w = some r)
    (hq : queuelen_ok pcb)
    (hsane : ∀ c ∈ r.2.calls.drop w.calls.length, hook_sane c = true ∧ call_counts c = true) :
    queuelen_ok r.1 := by
  unfold tcp_rexmit_rto at hrun
  split at hrun
  · cases hrun
    exact hq
  · cases hout : tcp_output cfg fuel (rto_requeue pcb) w with
    | none =>
      rw [hout] at hrun
      cases hrun
    | some r1 =>
      rw [hout] at hrun
      cases hrun
      have hnil : unacked_ok (rto_requeue pcb).unacked (rto_requeue pcb).last_unacked :=
        ⟨List.chain'_nil, by simp [distinct_ids, rto_requeue], fun h => absurd rfl h⟩
      exact (tcp_output_queuelen cfg fuel (rto_requeue pcb) w r1 hout
        (rto_requeue_queuelen pcb hq) hnil hsane).1
/-- An instance of `tcp_output_queuelen`: on the connection with two segments
in flight, after a fast retransmit, `tcp_output` sends the segment at 5000
again and the one at 7000 for the first time; `snd_queuelen` counts the
three buffers before and after. -/
theorem tcp_output_queuelen_flight :
    queuelen_ok (tcp_rexmit_fast pcb_flight) ∧
    (∀ c ∈ run_rexmit.2.2.calls.drop world_ok.calls.length,
      hook_sane c = true ∧ call_counts c = true) ∧
    run_rexmit.2.1.snd_queuelen = 3 ∧
    queuelen_ok run_rexmit.2.1 ∧
    unacked_ok run_rexmit.2.1.unacked run_rexmit.2.1.last_unacked :=
  ⟨by decide, by decide, by decide,
   tcp_output_queuelen cfg_push 5 (tcp_rexmit_fast pcb_flight) world_ok run_rexmit
     (by decide) (by decide) ⟨by decide, by decide, by decide⟩ (by decide)⟩

/-! ## The `TSO` mark and the 32-bit sum -/

/-- A TSO connection (`tso.max_payload_sz = 10000`, `mss = 1000`) with the
timestamp option, whose peer has never announced more than 10 bytes of
window (`snd_wnd_max = 10`); the queues are empty. -/
def pcb_ts_tso : tcp_pcb :=
  { pcb_tso 0 with flags := TF_NODELAY ||| TF_TIMESTAMP, snd_wnd_max := 10 }

/-- The connection `pcb_ts_tso` after a copying write of 7 bytes. -/
def wrap_first : err_t × tcp_pcb × World :=
  tcp_write cfg_push pcb_ts_tso world_ok 1 7 TCP_WRITE_FLAG_COPY

/-- The connection after `tcp_output` has sent the 7 bytes. -/
def wrap_sent : Option (err_t × tcp_pcb × World) :=
  tcp_output cfg_push 5 wrap_first.2.1 wrap_first.2.2

/-- The connection after a further copying write, of 65529 bytes. -/
def wrap_second : Option (err_t × tcp_pcb × World) :=
  wrap_sent.map (fun r => tcp_write cfg_push r.2.1 r.2.2 1 65529 TCP_WRITE_FLAG_COPY)

/-- The connection after a second `tcp_output`. -/
def wrap_output : Option (err_t × tcp_pcb × World) :=
  wrap_second.bind (fun r => tcp_output cfg_push 5 r.2.1 r.2.2)

/-- What a call of the IP output hook shows of the `TSO` mark: the segment
handed over, its option length, its `TSO` bit and the one of the flags word,
`mss` and `tso.max_payload_sz` of the PCB handed over, and whether
`seg.len + optlen` is above `mss` over the naturals and in 32 bits. -/
structure tso_call where
  seqno : Nat
  len : Nat
  optlen : Nat
  seg_tso : Bool
  word_tso : Bool
  mss : Nat
  max_payload_sz : Nat
  above_mss : Bool
  above_mss_u32 : Bool
  deriving DecidableEq, Repr

def tso_call_view (c : HookCall) : Option tso_call :=
  c.seg.map (fun s =>
    { seqno := s.seqno, len := s.len, optlen := LWIP_TCP_OPT_LENGTH s.flags,
      seg_tso := has s.flags TF_SEG_OPTS_TSO, word_tso := has c.flags TF_SEG_OPTS_TSO,
      mss := c.pcb.mss, max_payload_sz := c.pcb.tso.max_payload_sz,
      above_mss := decide (s.len + LWIP_TCP_OPT_LENGTH s.flags > c.pcb.mss),
      above_mss_u32 := decide (u32 (s.len + LWIP_TCP_OPT_LENGTH s.flags) > c.pcb.mss) })

/-- The calls of the IP output hook made so far. -/
def tso_calls_view (r : err_t × tcp_pcb × World) : List (Option tso_call) :=
  r.2.2.calls.map tso_call_view

/-- The two calls of the IP output hook in the run of `wrap_output`. -/
def wrap_calls : List (Option tso_call) :=
  [some { seqno := 5000, len := 7, optlen := 12, seg_tso := false, word_tso := false,
          mss := 1000, max_payload_sz := 10000, above_mss := false, above_mss_u32 := false },
   some { seqno := 5007, len := 4294967289, optlen := 12, seg_tso := false, word_tso := false,
          mss := 1000, max_payload_sz := 10000, above_mss := true, above_mss_u32 := false }]

/-- Claim C26 fails as stated.  On a TSO connection with timestamps,
`mss = 1000` and `snd_wnd_max = 10`, a copying write of 7 bytes is sent by
`tcp_output`; a copying write of 65529 bytes then queues one segment whose
`len` is 4294967289 (the 16-bit length of its buffer wraps), and the next
`tcp_output` hands it to the IP output hook: TSO is enabled and
`seg.len + optlen = 4294967301` is above `mss`, but the sum taken in 32 bits
is 5, so neither the segment nor the flags word has the `TSO` bit. -/
theorem tcp_output_tso_bit_wraps :
    wrap_output.map tso_calls_view =
      some [some { seqno := 5000, len := 7, optlen := 12, seg_tso := false, word_tso := false,
                   mss := 1000, max_payload_sz := 10000, above_mss := false,
                   above_mss_u32 := false },
            some { seqno := 5007, len := 4294967289, optlen := 12, seg_tso := false,
                   word_tso := false, mss := 1000, max_payload_sz := 10000, above_mss := true,
                   above_mss_u32 := false }] := by
  have h1 := tcp_write_then
    (fun r1 => (tcp_output cfg_push 5 r1.2.1 r1.2.2).bind
      (fun r => (tcp_write_fuel 5 cfg_push (r.2.1, r.2.2).1 (r.2.1, r.2.2).2 1 65529
        TCP_WRITE_FLAG_COPY).bind
          (fun r4 => (tcp_output cfg_push 5 r4.2.1 r4.2.2).map tso_calls_view)))
    5 cfg_push pcb_ts_tso world_ok 1 7 TCP_WRITE_FLAG_COPY wrap_calls (by decide)
  have h2 := tcp_write_after (tcp_output cfg_push 5 wrap_first.2.1 wrap_first.2.2)
    (fun r => (r.2.1, r.2.2))
    (fun _ r4 => (tcp_output cfg_push 5 r4.2.1 r4.2.2).map tso_calls_view) 5 cfg_push 1 65529
    TCP_WRITE_FLAG_COPY wrap_calls h1
  show wrap_output.map tso_calls_view = some wrap_calls
  unfold wrap_output wrap_second wrap_sent
  cases ho : tcp_output cfg_push 5 wrap_first.2.1 wrap_first.2.2 with
  | none =>
    rw [ho] at h2
    simp at h2
  | some b =>
    rw [ho] at h2
    simpa using h2

end TcpOut
